import Mathlib

/-!
Disk manager and buffer pool manager (src/storage/db_storage.c), B+ tree
(src/bptree/bptree.c)

The B+ tree is embedded in the namespace `Bptree`; its modelling conventions are
stated where its definitions start.  The namespace `DbStorage` holds
a shallow embedding of the storage core of the repository: the disk manager
(`read_page_from_disk`, `write_page_to_disk`, `allocate_page_on_disk`) and the
buffer pool manager (`fetch_page`, `unpin_page`, `new_page`, `flush_page`,
`flush_all_pages`) with its ring-buffer replacer (`lru_replacer_pin`,
`lru_replacer_unpin`, `lru_replacer_evict`).

Modelling conventions

* C arrays are lists; every array access is checked, and an access outside the
  array makes the operation end in `Fault.out_of_bounds` (undefined behaviour
  in C).  Indices are C `int`s, modelled as `Int`.
* The backing file is a sequence of bytes.  `lseek` fails on a negative
  offset; `write` succeeds exactly when the `write_ok` field of the disk
  manager says so (a failed write leaves the file as it was).
* The `while` loop of `lru_replacer_evict` is run with fuel
  `BUFFER_POOL_SIZE`; `evict_scan_spec` shows this is enough whenever head
  and tail are ring positions.
* `int` counters are mathematical integers in `fetch_page`, `new_page` and
  `allocate_page_on_disk`: `pin_count` needs `2^31` outstanding pins of one
  page to overflow, and every page identifier that reaches the disk manager
  has passed a page-table access first, so `page_id * PAGE_SIZE` stays below
  `TABLE_MAX_PAGES * PAGE_SIZE`.  Where the width of the `int` matters, the
  functions `fetch_page_int32`, `new_page_int32` and
  `allocate_page_on_disk_int32` compute `page->pin_count++` and the returned
  `page_id_t` in 32 bits (`to_int32`); they agree with the former as long as
  every pin count is below `INT_MAX` (`fetch_page_int32_eq`) and the file is
  shorter than `2^31` pages.
* Memory obtained from `malloc` and not initialised by
  `create_buffer_pool_manager` (the frames' bytes, the ring buffer) is a
  parameter of the constructor.
* The program of src/storage/main.c is transcribed phase by phase
  (`main_phase1` to `main_phase4`): a `Page*` is the index of its frame, `NULL`
  is `none`, and the strings written by `strcpy` and `sprintf` are their UTF-8
  bytes with the terminating zero.
-/

namespace DbStorage

/-! ## Constants (db_storage.h) -/

/-- Size of a page in bytes. -/
def PAGE_SIZE : Nat := 4096

/-- Number of frames of the buffer pool. -/
def BUFFER_POOL_SIZE : Nat := 10

/-- Marker of an invalid page identifier (also used for "no frame" in the page table). -/
def INVALID_PAGE_ID : Int := -1

/-- Number of entries of the page table. -/
def TABLE_MAX_PAGES : Nat := 100

/-! ## Data structures (db_storage.h) -/

/-- The struct `Page`: one frame of the buffer pool. -/
structure Page where
  data : List UInt8
  page_id : Int
  pin_count : Int
  is_dirty : Bool
deriving DecidableEq

/-- The struct `DiskManager`, together with the file its descriptor refers to.
`file` is the content of the backing file; `write_ok` tells whether a `write`
system call on the descriptor succeeds. -/
structure DiskManager where
  file : List UInt8
  write_ok : Bool
deriving DecidableEq

/-- The struct `BufferPoolManager`. -/
structure BufferPoolManager where
  pages : List Page
  disk_manager : DiskManager
  page_table : List Int
  free_list : List Int
  free_list_size : Int
  lru_replacer : List Int
  lru_head : Int
  lru_tail : Int
  lru_in_replacer : List Bool
deriving DecidableEq

/-- Ways in which a call has no defined result. -/
inductive Fault where
  | out_of_bounds
  | no_termination
deriving DecidableEq

/-- Read of `xs[i]` for a C `int` index. -/
def load {α : Type} (xs : List α) (i : Int) : Except Fault α :=
  if 0 ≤ i then
    match xs[i.toNat]? with
    | some v => .ok v
    | none => .error Fault.out_of_bounds
  else .error Fault.out_of_bounds

/-- Write `xs[i] = v` for a C `int` index. -/
def store {α : Type} (xs : List α) (i : Int) (v : α) : Except Fault (List α) :=
  if 0 ≤ i ∧ i.toNat < xs.length then .ok (xs.set i.toNat v)
  else .error Fault.out_of_bounds

/-! ## Disk manager -/

/-- The function `read_page_from_disk`: the new content of the buffer `page_data`.
A failed `lseek` leaves the buffer untouched; otherwise the bytes read are
followed by zeros up to `PAGE_SIZE`. -/
def read_page_from_disk (disk_manager : DiskManager) (page_id : Int)
    (page_data : List UInt8) : List UInt8 :=
  let offset : Int := page_id * (PAGE_SIZE : Int)
  if offset < 0 then page_data
  else
    let bytes := (disk_manager.file.drop offset.toNat).take PAGE_SIZE
    bytes ++ List.replicate (PAGE_SIZE - bytes.length) 0

/-- The function `write_page_to_disk`: the disk after the call.  Writing beyond
the end of the file leaves a hole that reads as zeros. -/
def write_page_to_disk (disk_manager : DiskManager) (page_id : Int)
    (page_data : List UInt8) : DiskManager :=
  let offset : Int := page_id * (PAGE_SIZE : Int)
  if offset < 0 then disk_manager
  else if disk_manager.write_ok = false then disk_manager
  else
    let file := disk_manager.file
    { disk_manager with
      file := file.take offset.toNat
        ++ List.replicate (offset.toNat - file.length) 0
        ++ page_data.take PAGE_SIZE
        ++ file.drop (offset.toNat + PAGE_SIZE) }

/-- The function `allocate_page_on_disk`: the size of the file divided by `PAGE_SIZE`
(the quotient fits the 32-bit `page_id_t` for every file shorter than 8 TiB). -/
def allocate_page_on_disk (disk_manager : DiskManager) : Int :=
  (disk_manager.file.length : Int) / (PAGE_SIZE : Int)

/-! ## Buffer pool manager -/

/-- The function `create_buffer_pool_manager`.  `raw_data i j` is the byte found at
`pages[i].data[j]` and `raw_queue i` the value found at `lru_replacer[i]` in the
memory returned by `malloc`. -/
def create_buffer_pool_manager (disk_manager : DiskManager)
    (raw_data : Nat → Nat → UInt8) (raw_queue : Nat → Int) : BufferPoolManager :=
  { pages := (List.range BUFFER_POOL_SIZE).map fun i =>
      { data := (List.range PAGE_SIZE).map (raw_data i)
        page_id := INVALID_PAGE_ID
        pin_count := 0
        is_dirty := false }
    disk_manager := disk_manager
    page_table := List.replicate TABLE_MAX_PAGES INVALID_PAGE_ID
    free_list := (List.range BUFFER_POOL_SIZE).map Int.ofNat
    free_list_size := (BUFFER_POOL_SIZE : Int)
    lru_replacer := (List.range BUFFER_POOL_SIZE).map raw_queue
    lru_head := 0
    lru_tail := 0
    lru_in_replacer := List.replicate BUFFER_POOL_SIZE false }

/-- The function `lru_replacer_pin`. -/
def lru_replacer_pin (bpm : BufferPoolManager) (frame_id : Int) :
    Except Fault BufferPoolManager :=
  match store bpm.lru_in_replacer frame_id false with
  | .error e => .error e
  | .ok flags => .ok { bpm with lru_in_replacer := flags }

/-- The function `lru_replacer_unpin`. -/
def lru_replacer_unpin (bpm : BufferPoolManager) (frame_id : Int) :
    Except Fault BufferPoolManager :=
  match load bpm.lru_in_replacer frame_id with
  | .error e => .error e
  | .ok flagged =>
    if flagged = false then
      match store bpm.lru_replacer bpm.lru_tail frame_id with
      | .error e => .error e
      | .ok queue =>
        match store bpm.lru_in_replacer frame_id true with
        | .error e => .error e
        | .ok flags =>
          .ok { bpm with
            lru_replacer := queue
            lru_tail := (bpm.lru_tail + 1) % (BUFFER_POOL_SIZE : Int)
            lru_in_replacer := flags }
    else .ok bpm

/-- The `while` loop of `lru_replacer_evict`, started at `current_head`; `fuel`
bounds the number of times the loop condition is evaluated. -/
def evict_scan : Nat → BufferPoolManager → Int → Except Fault (Option Int × BufferPoolManager)
  | 0, _, _ => .error Fault.no_termination
  | fuel + 1, bpm, current_head =>
    if current_head ≠ bpm.lru_tail then
      match load bpm.lru_replacer current_head with
      | .error e => .error e
      | .ok candidate_frame =>
        match load bpm.lru_in_replacer candidate_frame with
        | .error e => .error e
        | .ok flagged =>
          if flagged = true then
            match store bpm.lru_in_replacer candidate_frame false with
            | .error e => .error e
            | .ok flags =>
              .ok (some candidate_frame,
                { bpm with
                  lru_head := (current_head + 1) % (BUFFER_POOL_SIZE : Int)
                  lru_in_replacer := flags })
          else evict_scan fuel bpm ((current_head + 1) % (BUFFER_POOL_SIZE : Int))
    else .ok (none, bpm)

/-- The function `lru_replacer_evict`: `some frame_id` for `true` with `*frame_id`
set, `none` for `false`. -/
def lru_replacer_evict (bpm : BufferPoolManager) :
    Except Fault (Option Int × BufferPoolManager) :=
  evict_scan BUFFER_POOL_SIZE bpm bpm.lru_head

/-- Step 3 of `fetch_page`: load `page_id` into the frame obtained. -/
def fetch_page_load (bpm : BufferPoolManager) (frame_id page_id : Int) :
    Except Fault (Option Int × BufferPoolManager) :=
  match load bpm.pages frame_id with
  | .error e => .error e
  | .ok page =>
    match store bpm.pages frame_id
        { data := read_page_from_disk bpm.disk_manager page_id page.data
          page_id := page_id
          pin_count := 1
          is_dirty := false } with
    | .error e => .error e
    | .ok pages =>
      match store bpm.page_table page_id frame_id with
      | .error e => .error e
      | .ok table =>
        match lru_replacer_pin { bpm with pages := pages, page_table := table } frame_id with
        | .error e => .error e
        | .ok bpm1 => .ok (some frame_id, bpm1)

/-- The function `fetch_page`.  The result is the index of the frame whose address
is returned, `none` for `NULL`. -/
def fetch_page (bpm : BufferPoolManager) (page_id : Int) :
    Except Fault (Option Int × BufferPoolManager) :=
  match load bpm.page_table page_id with
  | .error e => .error e
  | .ok entry =>
    if entry ≠ INVALID_PAGE_ID then
      match load bpm.pages entry with
      | .error e => .error e
      | .ok page =>
        match store bpm.pages entry { page with pin_count := page.pin_count + 1 } with
        | .error e => .error e
        | .ok pages =>
          match lru_replacer_pin { bpm with pages := pages } entry with
          | .error e => .error e
          | .ok bpm1 => .ok (some entry, bpm1)
    else if bpm.free_list_size > 0 then
      match load bpm.free_list (bpm.free_list_size - 1) with
      | .error e => .error e
      | .ok frame_id =>
        fetch_page_load { bpm with free_list_size := bpm.free_list_size - 1 } frame_id page_id
    else
      match lru_replacer_evict bpm with
      | .error e => .error e
      | .ok (none, bpm1) => .ok (none, bpm1)
      | .ok (some frame_id, bpm1) =>
        match load bpm1.pages frame_id with
        | .error e => .error e
        | .ok victim =>
          match store bpm1.page_table victim.page_id INVALID_PAGE_ID with
          | .error e => .error e
          | .ok table =>
            fetch_page_load
              { bpm1 with
                disk_manager :=
                  if victim.is_dirty = true then
                    write_page_to_disk bpm1.disk_manager victim.page_id victim.data
                  else bpm1.disk_manager
                page_table := table }
              frame_id page_id

/-- The function `unpin_page`. -/
def unpin_page (bpm : BufferPoolManager) (page_id : Int) (is_dirty : Bool) :
    Except Fault (Bool × BufferPoolManager) :=
  match load bpm.page_table page_id with
  | .error e => .error e
  | .ok entry =>
    if entry = INVALID_PAGE_ID then .ok (false, bpm)
    else
      match load bpm.pages entry with
      | .error e => .error e
      | .ok page =>
        if page.pin_count ≤ 0 then .ok (false, bpm)
        else
          match store bpm.pages entry
              { page with
                pin_count := page.pin_count - 1
                is_dirty := if is_dirty = true then true else page.is_dirty } with
          | .error e => .error e
          | .ok pages =>
            if page.pin_count - 1 = 0 then
              match lru_replacer_unpin { bpm with pages := pages } entry with
              | .error e => .error e
              | .ok bpm1 => .ok (true, bpm1)
            else .ok (true, { bpm with pages := pages })

/-- The function `new_page`: the identifier stored in `*new_page_id` and the frame
returned (`none` for `NULL`). -/
def new_page (bpm : BufferPoolManager) :
    Except Fault ((Int × Option Int) × BufferPoolManager) :=
  match fetch_page bpm (allocate_page_on_disk bpm.disk_manager) with
  | .error e => .error e
  | .ok (frame, bpm1) => .ok ((allocate_page_on_disk bpm.disk_manager, frame), bpm1)

/-- The function `flush_page`. -/
def flush_page (bpm : BufferPoolManager) (page_id : Int) :
    Except Fault (Bool × BufferPoolManager) :=
  match load bpm.page_table page_id with
  | .error e => .error e
  | .ok entry =>
    if entry = INVALID_PAGE_ID then .ok (false, bpm)
    else
      match load bpm.pages entry with
      | .error e => .error e
      | .ok page =>
        match store bpm.pages entry { page with is_dirty := false } with
        | .error e => .error e
        | .ok pages =>
          .ok (true,
            { bpm with
              disk_manager := write_page_to_disk bpm.disk_manager page_id page.data
              pages := pages })

/-- The `for` loop of `flush_all_pages` over the frame indices still to visit. -/
def flush_all_loop : List Nat → BufferPoolManager → Except Fault BufferPoolManager
  | [], bpm => .ok bpm
  | i :: rest, bpm =>
    match load bpm.pages (i : Int) with
    | .error e => .error e
    | .ok page =>
      if page.page_id ≠ INVALID_PAGE_ID ∧ page.is_dirty = true then
        match flush_page bpm page.page_id with
        | .error e => .error e
        | .ok (_, bpm1) => flush_all_loop rest bpm1
      else flush_all_loop rest bpm

/-- The function `flush_all_pages`. -/
def flush_all_pages (bpm : BufferPoolManager) : Except Fault BufferPoolManager :=
  flush_all_loop (List.range BUFFER_POOL_SIZE) bpm

/-! ## Callers -/

/-- A caller writes `bytes` at the start of the buffer of the frame it got from
`fetch_page` or `new_page`, as `strcpy(page->data, ...)` does in main.c. -/
def write_page_data (bpm : BufferPoolManager) (frame_id : Int) (bytes : List UInt8) :
    Except Fault BufferPoolManager :=
  match load bpm.pages frame_id with
  | .error e => .error e
  | .ok page =>
    if bytes.length ≤ PAGE_SIZE then
      match store bpm.pages frame_id { page with data := bytes ++ page.data.drop bytes.length } with
      | .error e => .error e
      | .ok pages => .ok { bpm with pages := pages }
    else .error Fault.out_of_bounds

/-- One call made by a user of the buffer pool. -/
inductive Op where
  | fetch (page_id : Int)
  | new
  | unpin (page_id : Int) (is_dirty : Bool)
  | flush (page_id : Int)
  | flush_all
  | write (frame_id : Int) (bytes : List UInt8)

/-- The pool after one call. -/
def step (bpm : BufferPoolManager) : Op → Except Fault BufferPoolManager
  | .fetch page_id => (fetch_page bpm page_id).map Prod.snd
  | .new => (new_page bpm).map Prod.snd
  | .unpin page_id is_dirty => (unpin_page bpm page_id is_dirty).map Prod.snd
  | .flush page_id => (flush_page bpm page_id).map Prod.snd
  | .flush_all => flush_all_pages bpm
  | .write frame_id bytes => write_page_data bpm frame_id bytes

/-- The pool after a sequence of calls. -/
def run : BufferPoolManager → List Op → Except Fault BufferPoolManager
  | bpm, [] => .ok bpm
  | bpm, op :: ops =>
    match step bpm op with
    | .error e => .error e
    | .ok bpm1 => run bpm1 ops

/-- States reachable from a fresh pool by calls with a defined result. -/
inductive Reachable : BufferPoolManager → Prop where
  | init (disk_manager : DiskManager) (raw_data : Nat → Nat → UInt8) (raw_queue : Nat → Int) :
      Reachable (create_buffer_pool_manager disk_manager raw_data raw_queue)
  | step {bpm bpm1 : BufferPoolManager} (op : Op) :
      Reachable bpm → step bpm op = .ok bpm1 → Reachable bpm1

/-! ## States after the calls, invariant, scenarios -/

/-- The invariant of the buffer pool. -/
structure Inv (s : BufferPoolManager) : Prop where
  pages_len : s.pages.length = BUFFER_POOL_SIZE
  table_len : s.page_table.length = TABLE_MAX_PAGES
  queue_len : s.lru_replacer.length = BUFFER_POOL_SIZE
  flags_len : s.lru_in_replacer.length = BUFFER_POOL_SIZE
  free_len : s.free_list.length = BUFFER_POOL_SIZE
  free_entry : ∀ i e, load s.free_list i = .ok e → e = i
  free_size : 0 ≤ s.free_list_size ∧ s.free_list_size ≤ BUFFER_POOL_SIZE
  head_range : 0 ≤ s.lru_head ∧ s.lru_head < BUFFER_POOL_SIZE
  tail_range : 0 ≤ s.lru_tail ∧ s.lru_tail < BUFFER_POOL_SIZE
  queue_ok : ∀ i e, load s.lru_replacer i = .ok e → (s.lru_tail < s.lru_head ∨ i < s.lru_tail) →
    0 ≤ e ∧ e < BUFFER_POOL_SIZE
  frame_free : ∀ i p, load s.pages i = .ok p → i < s.free_list_size →
    p.page_id = INVALID_PAGE_ID ∧ p.pin_count = 0 ∧ load s.lru_in_replacer i = .ok false
  frame_used : ∀ i p, load s.pages i = .ok p → s.free_list_size ≤ i →
    0 ≤ p.page_id ∧ p.page_id < TABLE_MAX_PAGES ∧ load s.page_table p.page_id = .ok i
  frame_pin : ∀ i p, load s.pages i = .ok p → 0 ≤ p.pin_count
  frame_flag : ∀ i p, load s.pages i = .ok p → load s.lru_in_replacer i = .ok true →
    p.pin_count = 0
  frame_data : ∀ i p, load s.pages i = .ok p → p.data.length = PAGE_SIZE
  table_ok : ∀ q e, load s.page_table q = .ok e → e ≠ INVALID_PAGE_ID →
    ∃ p, load s.pages e = .ok p ∧ p.page_id = q

/-- The pool after a hit of `fetch_page` in frame `f` holding `p`. -/
def after_hit (s : BufferPoolManager) (f : Int) (p : Page) : BufferPoolManager :=
  { s with
    pages := s.pages.set f.toNat { p with pin_count := p.pin_count + 1 }
    lru_in_replacer := s.lru_in_replacer.set f.toNat false }

/-- The page found in a frame after `page_id` has been loaded into it. -/
def loaded (d : DiskManager) (page_id : Int) (old : Page) : Page :=
  { data := read_page_from_disk d page_id old.data
    page_id := page_id
    pin_count := 1
    is_dirty := false }

/-- The pool after a miss of `fetch_page` served from the free list. -/
def after_free (s : BufferPoolManager) (page_id : Int) (old : Page) : BufferPoolManager :=
  { s with
    free_list_size := s.free_list_size - 1
    pages := s.pages.set (s.free_list_size - 1).toNat (loaded s.disk_manager page_id old)
    page_table := s.page_table.set page_id.toNat (s.free_list_size - 1)
    lru_in_replacer := s.lru_in_replacer.set (s.free_list_size - 1).toNat false }

/-- The disk after the write-back of a victim, if it is dirty. -/
def write_back (d : DiskManager) (victim : Page) : DiskManager :=
  if victim.is_dirty = true then write_page_to_disk d victim.page_id victim.data else d

/-- The pool after a miss of `fetch_page` served by evicting frame `f`, which held
`victim`, the head of the ring buffer moving to `hd`. -/
def after_evict (s : BufferPoolManager) (page_id f hd : Int) (victim : Page) :
    BufferPoolManager :=
  { s with
    disk_manager := write_back s.disk_manager victim
    pages := s.pages.set f.toNat (loaded (write_back s.disk_manager victim) page_id victim)
    page_table := (s.page_table.set victim.page_id.toNat INVALID_PAGE_ID).set page_id.toNat f
    lru_head := hd
    lru_in_replacer := (s.lru_in_replacer.set f.toNat false).set f.toNat false }

/-- The frame content after a successful `unpin_page`. -/
def unpinned (p : Page) (is_dirty : Bool) : Page :=
  { p with
    pin_count := p.pin_count - 1
    is_dirty := if is_dirty = true then true else p.is_dirty }

/-- The pool after a successful `unpin_page` of the page `p` held in frame `f`. -/
def after_unpin (s : BufferPoolManager) (f : Int) (p : Page) (is_dirty : Bool) :
    BufferPoolManager :=
  if p.pin_count - 1 = 0 then
    { s with
      pages := s.pages.set f.toNat (unpinned p is_dirty)
      lru_replacer := s.lru_replacer.set s.lru_tail.toNat f
      lru_tail := (s.lru_tail + 1) % (BUFFER_POOL_SIZE : Int)
      lru_in_replacer := s.lru_in_replacer.set f.toNat true }
  else { s with pages := s.pages.set f.toNat (unpinned p is_dirty) }

/-- The pool after a successful `flush_page` of the page `p` held in frame `f`. -/
def after_flush (s : BufferPoolManager) (page_id f : Int) (p : Page) : BufferPoolManager :=
  { s with
    disk_manager := write_page_to_disk s.disk_manager page_id p.data
    pages := s.pages.set f.toNat { p with is_dirty := false } }

/-- A fresh pool over an empty backing file, the memory from `malloc` being all zero. -/
def fresh_pool : BufferPoolManager :=
  create_buffer_pool_manager { file := [], write_ok := true } (fun _ _ => 0) (fun _ => 0)

/-- The pool after a sequence of calls, when all of them have a result. -/
def run_or (s : BufferPoolManager) (ops : List Op) : BufferPoolManager :=
  match run s ops with
  | .ok s1 => s1
  | .error _ => s

/-- The frame at index `i`. -/
def page_at (s : BufferPoolManager) (i : Nat) : Page :=
  s.pages.getD i { data := [], page_id := INVALID_PAGE_ID, pin_count := 0, is_dirty := false }

/-- The calls `fetch_page(0)`, ..., `fetch_page(n-1)`. -/
def fetches (n : Nat) : List Op := (List.range n).map fun i => Op.fetch (Int.ofNat i)

/-- The calls `unpin_page(0, false)`, ..., `unpin_page(n-1, false)`. -/
def unpins (n : Nat) : List Op := (List.range n).map fun i => Op.unpin (Int.ofNat i) false

/-- The pool after fetching the pages `0..9`, all still pinned. -/
def pinned_pool : BufferPoolManager := run_or fresh_pool (fetches BUFFER_POOL_SIZE)

/-- The pool of the eviction-order scenario: pages `0..9` fetched, then unpinned in
that order. -/
def unpinned_pool : BufferPoolManager :=
  run_or fresh_pool (fetches BUFFER_POOL_SIZE ++ unpins BUFFER_POOL_SIZE)

/-- The pool after fetching the pages `0..9`, unpinning page 0, then page 1, and
pinning and unpinning page 0 once more. -/
def repinned_pool : BufferPoolManager :=
  run_or fresh_pool
    (fetches BUFFER_POOL_SIZE ++ [Op.unpin 0 false, Op.unpin 1 false, Op.fetch 0, Op.unpin 0 false])

/-- The pool after fetching the pages `0..9` and then unpinning and fetching page 0
nine times. -/
def churned_pool : BufferPoolManager :=
  run_or fresh_pool
    (fetches BUFFER_POOL_SIZE ++ (List.replicate 9 [Op.unpin 0 false, Op.fetch 0]).flatten)

/-- The byte of a file at position `k`, zero beyond the end of the file. -/
def byte_at (file : List UInt8) (k : Nat) : UInt8 := (file[k]?).getD 0

/-- The content of page `page_id` of the backing file, as `read_page_from_disk` loads it. -/
def disk_page (d : DiskManager) (page_id : Int) : List UInt8 :=
  read_page_from_disk d page_id []

/-- The bytes `B` are the current content of page `page_id`: either the page is resident
in a frame holding `B`, and that frame is dirty or the file holds `B` as well, or the page
is not resident and the file holds `B`. -/
def Holds (s : BufferPoolManager) (page_id : Int) (B : List UInt8) : Prop :=
  (∃ f p, load s.page_table page_id = .ok f ∧ f ≠ INVALID_PAGE_ID ∧ load s.pages f = .ok p ∧
    p.data = B ∧ (p.is_dirty = true ∨ disk_page s.disk_manager page_id = B)) ∨
  (load s.page_table page_id = .ok INVALID_PAGE_ID ∧ disk_page s.disk_manager page_id = B)

/-- The call `op`, made in state `s`, is not a write of a caller into the frame that
holds `page_id`. -/
def spares (page_id : Int) (s : BufferPoolManager) : Op → Bool
  | .write frame_id _ =>
    match load s.page_table page_id with
    | .ok f => decide (f ≠ frame_id)
    | .error _ => true
  | _ => true

/-- No call of `ops`, made one after the other from state `s`, is a write of a caller
into the frame that holds `page_id` at that time. -/
def untouched (page_id : Int) : BufferPoolManager → List Op → Bool
  | _, [] => true
  | s, op :: ops =>
    spares page_id s op &&
      match step s op with
      | .ok s1 => untouched page_id s1 ops
      | .error _ => true

/-- The pool after fetching the pages `0..9` and writing the bytes `104, 105` at the
start of frame 9, which holds page 0. -/
def written_pool : BufferPoolManager :=
  run_or fresh_pool (fetches BUFFER_POOL_SIZE ++ [Op.write 9 [104, 105]])

/-! ## The program of src/storage/main.c, further invariant, further scenarios -/

/-- The frame a `Page*` points to; dereferencing `NULL` has no defined result. -/
def deref (page : Option Int) : Except Fault Int :=
  match page with
  | some frame_id => .ok frame_id
  | none => .error Fault.out_of_bounds

/-- The content of a buffer read as a C string: the bytes before the first zero. -/
def c_string (data : List UInt8) : List UInt8 := data.takeWhile fun b => b ≠ 0

/-- The bytes `strcpy` copies into `page1->data`: the string literal of main.c in
UTF-8, with its terminating zero. -/
def text_page1 : List UInt8 :=
  [232, 191, 153, 230, 152, 175, 233, 161, 181, 233, 157, 162, 49, 231, 154, 132, 230, 149,
   176, 230, 141, 174, 227, 128, 130, 0]

/-- The bytes `strcpy` copies into `page2->data`. -/
def text_page2 : List UInt8 :=
  [232, 191, 153, 230, 152, 175, 233, 161, 181, 233, 157, 162, 50, 231, 154, 132, 230, 149,
   176, 230, 141, 174, 239, 188, 140, 229, 174, 131, 229, 176, 134, 232, 162, 171, 228, 191,
   174, 230, 148, 185, 227, 128, 130, 0]

/-- The bytes `strcpy` copies into `page3->data`. -/
def text_page3 : List UInt8 :=
  [232, 191, 153, 230, 152, 175, 233, 161, 181, 233, 157, 162, 51, 231, 154, 132, 230, 149,
   176, 230, 141, 174, 227, 128, 130, 0]

/-- The bytes `sprintf` writes into `p->data` in the loop of phase 2 for the page
identifier `page_id_temp` (not negative there): the format string of main.c with the
identifier in decimal, and the terminating zero. -/
def text_auto (page_id_temp : Int) : List UInt8 :=
  [232, 191, 153, 230, 152, 175, 232, 135, 170, 229, 138, 168, 229, 136, 155, 229, 187, 186,
   231, 154, 132, 233, 161, 181, 233, 157, 162, 32]
    ++ (Nat.toDigits 10 page_id_temp.toNat).map (fun c => UInt8.ofNat c.toNat) ++ [0]

/-- The call `unpin_page(bpm, page->page_id, is_dirty)` for a `Page*`. -/
def unpin_handle (bpm : BufferPoolManager) (page : Option Int) (is_dirty : Bool) :
    Except Fault BufferPoolManager :=
  match deref page with
  | .error e => .error e
  | .ok frame_id =>
    match load bpm.pages frame_id with
    | .error e => .error e
    | .ok p => (unpin_page bpm p.page_id is_dirty).map Prod.snd

/-- A write of `bytes` through a `Page*`, as `strcpy(page->data, ...)`. -/
def write_handle (bpm : BufferPoolManager) (page : Option Int) (bytes : List UInt8) :
    Except Fault BufferPoolManager :=
  match deref page with
  | .error e => .error e
  | .ok frame_id => write_page_data bpm frame_id bytes

/-- Phase 1 of `main`: three calls of `new_page`, three `strcpy`, three `unpin_page`.
The result holds the identifiers `new_page` stored in `page_id_temp`, the three frames
returned, and the pool. -/
def main_phase1 (bpm : BufferPoolManager) :
    Except Fault ((List Int × List (Option Int)) × BufferPoolManager) :=
  match new_page bpm with
  | .error e => .error e
  | .ok ((id1, page1), bpm1) =>
    match new_page bpm1 with
    | .error e => .error e
    | .ok ((id2, page2), bpm2) =>
      match new_page bpm2 with
      | .error e => .error e
      | .ok ((id3, page3), bpm3) =>
        match write_handle bpm3 page1 text_page1 with
        | .error e => .error e
        | .ok bpm4 =>
          match write_handle bpm4 page2 text_page2 with
          | .error e => .error e
          | .ok bpm5 =>
            match write_handle bpm5 page3 text_page3 with
            | .error e => .error e
            | .ok bpm6 =>
              match unpin_handle bpm6 page1 false with
              | .error e => .error e
              | .ok bpm7 =>
                match unpin_handle bpm7 page2 true with
                | .error e => .error e
                | .ok bpm8 =>
                  match unpin_handle bpm8 page3 false with
                  | .error e => .error e
                  | .ok bpm9 => .ok (([id1, id2, id3], [page1, page2, page3]), bpm9)

/-- The loop of phase 2 of `main` with `n` iterations left: `new_page`, `break` on `NULL`,
`sprintf` into the page, `unpin_page`.  The result holds the identifiers obtained. -/
def main_phase2 : Nat → BufferPoolManager → Except Fault (List Int × BufferPoolManager)
  | 0, bpm => .ok ([], bpm)
  | n + 1, bpm =>
    match new_page bpm with
    | .error e => .error e
    | .ok ((_, none), bpm1) => .ok ([], bpm1)
    | .ok ((page_id_temp, some frame_id), bpm1) =>
      match write_page_data bpm1 frame_id (text_auto page_id_temp) with
      | .error e => .error e
      | .ok bpm2 =>
        match unpin_handle bpm2 (some frame_id) false with
        | .error e => .error e
        | .ok bpm3 =>
          match main_phase2 n bpm3 with
          | .error e => .error e
          | .ok (ids, bpm4) => .ok (page_id_temp :: ids, bpm4)

/-- One re-fetch of phase 3 of `main`: `fetch_page(page_id)`, and when a page is
returned, its content as printed with `%s`, then `unpin_page`.  The result is the
content printed, `none` when `fetch_page` returned `NULL`. -/
def main_refetch (bpm : BufferPoolManager) (page_id : Int) :
    Except Fault (Option (List UInt8) × BufferPoolManager) :=
  match fetch_page bpm page_id with
  | .error e => .error e
  | .ok (none, bpm1) => .ok (none, bpm1)
  | .ok (some frame_id, bpm1) =>
    match load bpm1.pages frame_id with
    | .error e => .error e
    | .ok p =>
      match unpin_handle bpm1 (some frame_id) false with
      | .error e => .error e
      | .ok bpm2 => .ok (some (c_string p.data), bpm2)

/-- Phase 3 of `main`: the contents printed for page 1 and for page 0. -/
def main_phase3 (bpm : BufferPoolManager) :
    Except Fault ((Option (List UInt8) × Option (List UInt8)) × BufferPoolManager) :=
  match main_refetch bpm 1 with
  | .error e => .error e
  | .ok (content1, bpm1) =>
    match main_refetch bpm1 0 with
    | .error e => .error e
    | .ok (content0, bpm2) => .ok ((content1, content0), bpm2)

/-- The pool of `main` after phase 1, started on a fresh pool over an empty file. -/
def main_pool1 : BufferPoolManager :=
  match main_phase1 fresh_pool with
  | .ok (_, bpm) => bpm
  | .error _ => fresh_pool

/-- The pool of `main` after phase 2. -/
def main_pool2 : BufferPoolManager :=
  match main_phase2 BUFFER_POOL_SIZE main_pool1 with
  | .ok (_, bpm) => bpm
  | .error _ => fresh_pool

/-- Further invariant of the buffer pool: a free frame is clean, and a resident frame
with pin count zero is flagged as in the queue. -/
structure Inv2 (s : BufferPoolManager) : Prop where
  free_clean : ∀ i p, load s.pages i = .ok p → i < s.free_list_size → p.is_dirty = false
  unpinned_flagged : ∀ i p, load s.pages i = .ok p → s.free_list_size ≤ i →
    p.pin_count = 0 → load s.lru_in_replacer i = .ok true

/-- The frame content after its page has been flushed. -/
def flushed (p : Page) : Page := { p with is_dirty := false }

/-- A fresh pool over an empty backing file on which every `write` fails. -/
def fresh_pool_write_fails : BufferPoolManager :=
  create_buffer_pool_manager { file := [], write_ok := false } (fun _ _ => 0) (fun _ => 0)

/-- The pool, over the file on which writes fail, after fetching the pages `0..9`,
writing the bytes `104, 105` into page 0 (frame 9) and unpinning it dirty. -/
def lossy_pool : BufferPoolManager :=
  run_or fresh_pool_write_fails
    (fetches BUFFER_POOL_SIZE ++ [Op.write 9 [104, 105], Op.unpin 0 true])

/-! ## Frame states, further scenarios -/

/-- The pool after fetching the pages 0 and 1, unpinning both and fetching page 0 again:
the ring buffer holds the stale entry of frame 9 followed by the entry of frame 8. -/
def stale_pool : BufferPoolManager :=
  run_or fresh_pool
    [Op.fetch 0, Op.fetch 1, Op.unpin 0 false, Op.unpin 1 false, Op.fetch 0]

/-- Frame `i`, holding `p` with in-queue flag `flag`, is free: it holds no page, its index
occurs exactly once among the first `free_list_size` entries of the free list, it is not
pinned and not flagged. -/
def frame_free (s : BufferPoolManager) (i : Int) (p : Page) (flag : Bool) : Prop :=
  p.page_id = INVALID_PAGE_ID ∧ (s.free_list.take s.free_list_size.toNat).count i = 1 ∧
    p.pin_count = 0 ∧ flag = false

instance (s : BufferPoolManager) (i : Int) (p : Page) (flag : Bool) :
    Decidable (frame_free s i p flag) := by
  unfold frame_free
  infer_instance

/-- The frame holding `p` with in-queue flag `flag` is resident and pinned. -/
def frame_pinned (p : Page) (flag : Bool) : Prop :=
  (0 ≤ p.page_id ∧ p.page_id < TABLE_MAX_PAGES) ∧ 0 < p.pin_count ∧ flag = false

instance (p : Page) (flag : Bool) : Decidable (frame_pinned p flag) := by
  unfold frame_pinned
  infer_instance

/-- The frame holding `p` with in-queue flag `flag` is resident and not pinned. -/
def frame_unpinned (p : Page) (flag : Bool) : Prop :=
  (0 ≤ p.page_id ∧ p.page_id < TABLE_MAX_PAGES) ∧ p.pin_count = 0 ∧ flag = true

instance (p : Page) (flag : Bool) : Decidable (frame_unpinned p flag) := by
  unfold frame_unpinned
  infer_instance

/-- The pool after `fetch_page(99)` and `flush_page(99)` on a fresh pool over an empty
backing file: the flush has extended the file to 100 pages. -/
def full_file_pool : BufferPoolManager := run_or fresh_pool [Op.fetch 99, Op.flush 99]

/-! ## Pin counts and page identifiers as 32-bit `int`s

`fetch_page` and `allocate_page_on_disk` above compute in the integers.  The field
`pin_count` of the struct `Page` and the type `page_id_t` are `int`s:
`fetch_page_int32` is `fetch_page` with `page->pin_count++` computed in 32 bits, and
`allocate_page_on_disk_int32` is `allocate_page_on_disk` with the quotient converted to
the 32-bit `page_id_t` that the function returns.  `fetch_page_int32` agrees with
`fetch_page` on every pool whose pin counts are below `INT_MAX`, and
`allocate_page_on_disk_int32` with `allocate_page_on_disk` on every file shorter than
`2^31` pages. -/

/-- The largest value of a C `int`. -/
def INT_MAX : Int := 2147483647

/-- The value of a C `int` (32 bits, two's complement) that holds the integer `x`
modulo `2^32`. -/
def to_int32 (x : Int) : Int :=
  if 2147483648 ≤ x % 4294967296 then x % 4294967296 - 4294967296 else x % 4294967296

/-- The function `allocate_page_on_disk`: the size of the file, an `off_t`, divided by
`PAGE_SIZE`, and the quotient converted to the 32-bit `page_id_t` that the function
returns. -/
def allocate_page_on_disk_int32 (disk_manager : DiskManager) : Int :=
  to_int32 ((disk_manager.file.length : Int) / (PAGE_SIZE : Int))

/-- The function `fetch_page`, the increment `page->pin_count++` of a hit computed in
the 32-bit `int` of the field.  The result is the index of the frame whose address is
returned, `none` for `NULL`. -/
def fetch_page_int32 (bpm : BufferPoolManager) (page_id : Int) :
    Except Fault (Option Int × BufferPoolManager) :=
  match load bpm.page_table page_id with
  | .error e => .error e
  | .ok entry =>
    if entry ≠ INVALID_PAGE_ID then
      match load bpm.pages entry with
      | .error e => .error e
      | .ok page =>
        match store bpm.pages entry
            { page with pin_count := to_int32 (page.pin_count + 1) } with
        | .error e => .error e
        | .ok pages =>
          match lru_replacer_pin { bpm with pages := pages } entry with
          | .error e => .error e
          | .ok bpm1 => .ok (some entry, bpm1)
    else if bpm.free_list_size > 0 then
      match load bpm.free_list (bpm.free_list_size - 1) with
      | .error e => .error e
      | .ok frame_id =>
        fetch_page_load { bpm with free_list_size := bpm.free_list_size - 1 } frame_id page_id
    else
      match lru_replacer_evict bpm with
      | .error e => .error e
      | .ok (none, bpm1) => .ok (none, bpm1)
      | .ok (some frame_id, bpm1) =>
        match load bpm1.pages frame_id with
        | .error e => .error e
        | .ok victim =>
          match store bpm1.page_table victim.page_id INVALID_PAGE_ID with
          | .error e => .error e
          | .ok table =>
            fetch_page_load
              { bpm1 with
                disk_manager :=
                  if victim.is_dirty = true then
                    write_page_to_disk bpm1.disk_manager victim.page_id victim.data
                  else bpm1.disk_manager
                page_table := table }
              frame_id page_id

/-- The function `new_page` over `allocate_page_on_disk_int32` and `fetch_page_int32`:
the identifier stored in `*new_page_id` and the frame returned (`none` for `NULL`). -/
def new_page_int32 (bpm : BufferPoolManager) :
    Except Fault ((Int × Option Int) × BufferPoolManager) :=
  match fetch_page_int32 bpm (allocate_page_on_disk_int32 bpm.disk_manager) with
  | .error e => .error e
  | .ok (frame, bpm1) => .ok ((allocate_page_on_disk_int32 bpm.disk_manager, frame), bpm1)

/-- The pool after one call, pin counts and page identifiers being 32-bit `int`s. -/
def step_int32 (bpm : BufferPoolManager) : Op → Except Fault BufferPoolManager
  | .fetch page_id => (fetch_page_int32 bpm page_id).map Prod.snd
  | .new => (new_page_int32 bpm).map Prod.snd
  | .unpin page_id is_dirty => (unpin_page bpm page_id is_dirty).map Prod.snd
  | .flush page_id => (flush_page bpm page_id).map Prod.snd
  | .flush_all => flush_all_pages bpm
  | .write frame_id bytes => write_page_data bpm frame_id bytes

/-- States reachable from a fresh pool by calls with a defined result, pin counts and
page identifiers being 32-bit `int`s. -/
inductive Reachable_int32 : BufferPoolManager → Prop where
  | init (disk_manager : DiskManager) (raw_data : Nat → Nat → UInt8) (raw_queue : Nat → Int) :
      Reachable_int32 (create_buffer_pool_manager disk_manager raw_data raw_queue)
  | step {bpm bpm1 : BufferPoolManager} (op : Op) :
      Reachable_int32 bpm → step_int32 bpm op = .ok bpm1 → Reachable_int32 bpm1

/-- Every pin count of the pool is below `INT_MAX`: one more `pin_count++` does not
overflow. -/
def pins_below_max (s : BufferPoolManager) : Prop := ∀ p ∈ s.pages, p.pin_count < INT_MAX

instance (s : BufferPoolManager) : Decidable (pins_below_max s) :=
  inferInstanceAs (Decidable (∀ p ∈ s.pages, p.pin_count < INT_MAX))

/-- The calls that pin a page: `fetch_page` and `new_page`. -/
def Op.pins : Op → Bool
  | .fetch _ => true
  | .new => true
  | _ => false

/-- States reachable from a fresh pool by calls with a defined result, pin counts and
page identifiers being 32-bit `int`s, each call of `fetch_page` or `new_page` made while
every pin count is below `INT_MAX`. -/
inductive ReachableWithin : BufferPoolManager → Prop where
  | init (disk_manager : DiskManager) (raw_data : Nat → Nat → UInt8) (raw_queue : Nat → Int) :
      ReachableWithin (create_buffer_pool_manager disk_manager raw_data raw_queue)
  | step {bpm bpm1 : BufferPoolManager} (op : Op) :
      ReachableWithin bpm → (op.pins = true → pins_below_max bpm) →
      step_int32 bpm op = .ok bpm1 → ReachableWithin bpm1

/-- The pool after a sequence of calls, pin counts and page identifiers being 32-bit
`int`s; `none` when a call has no defined result, or is a call of `fetch_page` or
`new_page` made while a pin count is at `INT_MAX`. -/
def run_within : BufferPoolManager → List Op → Option BufferPoolManager
  | bpm, [] => some bpm
  | bpm, op :: ops =>
    if op.pins = true → pins_below_max bpm then
      match step_int32 bpm op with
      | .error _ => none
      | .ok bpm1 => run_within bpm1 ops
    else none

/-- The pool after `fetch_page(0)` on a fresh pool over an empty backing file, page 0
sitting in frame 9, with the pin count of that frame set to `n`. -/
def hit_pool (n : Int) : BufferPoolManager :=
  { run_or fresh_pool [Op.fetch 0] with
    pages := (run_or fresh_pool [Op.fetch 0]).pages.set 9
      { page_at (run_or fresh_pool [Op.fetch 0]) 9 with pin_count := n } }

end DbStorage

/-! ## The B+ tree of src/bptree/bptree.c

Modelling conventions of this part.

* The nodes live in a heap, the list `BPTree.heap`; the node allocated as number `a` has
  the address `Ptr.node a`, and `malloc` always succeeds.  Dereferencing `NULL` or a
  pointer that is not the address of a node, and reading or writing outside an array, is
  the fault `invalid_access`.
* The arrays `keys` (`order - 1` slots) and `pointers` (`order` slots) of a node and the
  temporary arrays of the split functions are lists of that length; what uninitialised
  memory holds is given by `raw_key` and `raw_pointer`.
* Counters and indices are natural numbers: none of them is decremented below the bound
  it is compared with, and the differences `order - 1`, `order - split` and
  `order - 1 - split` are exact from order 1 on.
* A `for` or `while` loop over an index range is a recursion on the number of iterations
  left; a loop that moves keys and pointers in the same iteration is one loop for each
  array.  The loop of `find_leaf` and the recursion of `insert_into_parent` and
  `split_internal_and_insert` take a bound `fuel` on the number of levels, set to the
  number of nodes allocated; running out of it is the fault `no_termination`.
* The last statement of `split_internal_and_insert`, the call of `insert_into_parent`, is
  made by `insert_into_parent` itself. -/

namespace Bptree

/-- What a C execution can run into that has no defined result. -/
inductive Fault where
  | invalid_access
  | no_termination
deriving DecidableEq

/-- A C pointer: `NULL`, the address of the node allocated as number `a`, or a non-null
pointer `v` to data of the caller. -/
inductive Ptr where
  | null : Ptr
  | node (a : Nat) : Ptr
  | data (v : Int) : Ptr
deriving DecidableEq

/-- The struct `Node`; `keys` has `order - 1` slots and `pointers` has `order` slots. -/
structure Node where
  is_leaf : Bool
  num_keys : Nat
  keys : List Int
  pointers : List Ptr
  parent : Ptr
  next : Ptr
deriving DecidableEq

/-- The struct `BPTree` together with the memory its nodes live in: `heap[a]` is the node
at address `a`, `raw_key` and `raw_pointer` are what uninitialised memory holds. -/
structure BPTree where
  root : Ptr
  order : Nat
  heap : List Node
  raw_key : Int
  raw_pointer : Ptr
deriving DecidableEq

/-- Read `xs[i]`. -/
def read {α : Type} (xs : List α) (i : Nat) : Except Fault α :=
  match xs[i]? with
  | some v => .ok v
  | none => .error Fault.invalid_access

/-- Write `xs[i] = v`. -/
def write {α : Type} (xs : List α) (i : Nat) (v : α) : Except Fault (List α) :=
  if i < xs.length then .ok (xs.set i v) else .error Fault.invalid_access

/-- Read the node a pointer points to. -/
def deref (t : BPTree) (p : Ptr) : Except Fault Node :=
  match p with
  | .node a => read t.heap a
  | _ => .error Fault.invalid_access

/-- Overwrite the node a pointer points to. -/
def assign (t : BPTree) (p : Ptr) (n : Node) : Except Fault BPTree :=
  match p with
  | .node a =>
    match write t.heap a n with
    | .error e => .error e
    | .ok heap => .ok { t with heap := heap }
  | _ => .error Fault.invalid_access

/-- The function `create_node`: the address of the new node and the memory with it. -/
def create_node (t : BPTree) (order : Nat) (is_leaf : Bool) : Ptr × BPTree :=
  (Ptr.node t.heap.length,
    { t with
      heap := t.heap ++ [{
        is_leaf := is_leaf
        num_keys := 0
        keys := List.replicate (order - 1) t.raw_key
        pointers := List.replicate order t.raw_pointer
        parent := Ptr.null
        next := Ptr.null }] })

/-- The function `create_bptree`. -/
def create_bptree (order : Nat) (raw_key : Int) (raw_pointer : Ptr) : BPTree :=
  let tree : BPTree :=
    { root := Ptr.null, order := order, heap := [], raw_key := raw_key,
      raw_pointer := raw_pointer }
  { (create_node tree order true).2 with root := (create_node tree order true).1 }

/-- The loop `while (i < n && p(xs[i])) i++`, with `count = n - i` iterations left at
most: the index at which it stops. -/
def scan {α : Type} (p : α → Bool) (xs : List α) : Nat → Nat → Except Fault Nat
  | 0, i => .ok i
  | count + 1, i => do
    let x ← read xs i
    if p x then scan p xs count (i + 1) else .ok i

/-- The loop `for (j = hi; j > lo; j--) xs[j] = xs[j - 1]`. -/
def shift_right {α : Type} (xs : List α) (lo : Nat) : Nat → Except Fault (List α)
  | 0 => .ok xs
  | j + 1 =>
    if j + 1 > lo then do
      let v ← read xs j
      let xs1 ← write xs (j + 1) v
      shift_right xs1 lo j
    else .ok xs

/-- The loop `for (i, j; i < n; i++, j++) { if (j == gap) j++; dst[j] = src[i]; }`,
with `count = n - i` iterations left. -/
def spread {α : Type} (src : List α) (gap : Nat) : Nat → Nat → Nat → List α →
    Except Fault (List α)
  | 0, _, _, dst => .ok dst
  | count + 1, i, j, dst => do
    let j1 := if j = gap then j + 1 else j
    let v ← read src i
    let dst1 ← write dst j1 v
    spread src gap count (i + 1) (j1 + 1) dst1

/-- The loop `for (i, j; i < n; i++, j++) dst[i] = src[j]`, with `count = n - i`
iterations left. -/
def copy {α : Type} (src : List α) : Nat → Nat → Nat → List α → Except Fault (List α)
  | 0, _, _, dst => .ok dst
  | count + 1, i, j, dst => do
    let v ← read src j
    let dst1 ← write dst i v
    copy src count (i + 1) (j + 1) dst1

/-- The function `find_leaf`; `fuel` bounds the number of nodes visited. -/
def find_leaf (t : BPTree) (key : Int) : Nat → Ptr → Except Fault Ptr
  | 0, _ => .error Fault.no_termination
  | fuel + 1, current => do
    let node ← deref t current
    if node.is_leaf then .ok current
    else do
      let i ← scan (fun k => decide (key ≥ k)) node.keys node.num_keys 0
      let child ← read node.pointers i
      find_leaf t key fuel child

/-- The loop of `search` over the keys of the leaf, with `count = num_keys - i`
iterations left. -/
def search_loop (leaf : Node) (key : Int) : Nat → Nat → Except Fault Ptr
  | 0, _ => .ok Ptr.null
  | count + 1, i => do
    let k ← read leaf.keys i
    if k = key then read leaf.pointers i else search_loop leaf key count (i + 1)

/-- The function `search`. -/
def search (tree : BPTree) (key : Int) : Except Fault Ptr := do
  let leaf ← find_leaf tree key tree.heap.length tree.root
  let node ← deref tree leaf
  search_loop node key node.num_keys 0

/-- The function `insert_into_leaf`. -/
def insert_into_leaf (t : BPTree) (leaf : Ptr) (key : Int) (value : Ptr) :
    Except Fault BPTree := do
  let node ← deref t leaf
  let i ← scan (fun k => decide (k < key)) node.keys node.num_keys 0
  let keys ← shift_right node.keys i node.num_keys
  let pointers ← shift_right node.pointers i node.num_keys
  let keys ← write keys i key
  let pointers ← write pointers i value
  assign t leaf { node with keys := keys, pointers := pointers, num_keys := node.num_keys + 1 }

/-- The function `insert_into_new_root`. -/
def insert_into_new_root (t : BPTree) (left : Ptr) (key : Int) (right : Ptr) :
    Except Fault BPTree := do
  let (new_root, t) := create_node t t.order false
  let node ← deref t new_root
  let keys ← write node.keys 0 key
  let pointers ← write node.pointers 0 left
  let pointers ← write pointers 1 right
  let t ← assign t new_root
    { node with keys := keys, pointers := pointers, num_keys := node.num_keys + 1 }
  let l ← deref t left
  let t ← assign t left { l with parent := new_root }
  let r ← deref t right
  let t ← assign t right { r with parent := new_root }
  .ok { t with root := new_root }

/-- The function `insert_into_internal`. -/
def insert_into_internal (t : BPTree) (node : Ptr) (left_index : Nat) (key : Int)
    (right : Ptr) : Except Fault BPTree := do
  let n ← deref t node
  let keys ← shift_right n.keys left_index n.num_keys
  let pointers ← shift_right n.pointers (left_index + 1) (n.num_keys + 1)
  let keys ← write keys left_index key
  let pointers ← write pointers (left_index + 1) right
  assign t node { n with keys := keys, pointers := pointers, num_keys := n.num_keys + 1 }

/-- The last loop of `split_internal_and_insert`: `child->parent = new_node` for the
children `pointers[i]`, `i < n`, with `count = n - i` iterations left. -/
def adopt (new_node : Ptr) : Nat → Nat → BPTree → Except Fault BPTree
  | 0, _, t => .ok t
  | count + 1, i, t => do
    let n ← deref t new_node
    let child ← read n.pointers i
    let c ← deref t child
    let t1 ← assign t child { c with parent := new_node }
    adopt new_node count (i + 1) t1

/-- The function `split_internal_and_insert` up to its last statement: the memory after
the split, the key to promote and the new node.  The last statement, the call
`insert_into_parent(tree, old_node, key_to_promote, new_node)`, is made by
`insert_into_parent` below. -/
def split_internal_and_insert (t : BPTree) (old_node : Ptr) (left_index : Nat) (key : Int)
    (right : Ptr) : Except Fault (BPTree × Int × Ptr) := do
  let old ← deref t old_node
  let temp_keys := List.replicate t.order t.raw_key
  let temp_pointers := List.replicate (t.order + 1) t.raw_pointer
  let temp_pointers ← spread old.pointers (left_index + 1) (old.num_keys + 1) 0 0 temp_pointers
  let temp_keys ← spread old.keys left_index old.num_keys 0 0 temp_keys
  let temp_pointers ← write temp_pointers (left_index + 1) right
  let temp_keys ← write temp_keys left_index key
  let split := t.order / 2
  let key_to_promote ← read temp_keys split
  let (new_node, t) := create_node t t.order false
  let keys ← copy temp_keys split 0 0 old.keys
  let pointers ← copy temp_pointers split 0 0 old.pointers
  let last ← read temp_pointers split
  let pointers ← write pointers split last
  let t ← assign t old_node { old with num_keys := split, keys := keys, pointers := pointers }
  let new ← deref t new_node
  let num_keys := t.order - 1 - split
  let keys ← copy temp_keys num_keys 0 (split + 1) new.keys
  let pointers ← copy temp_pointers num_keys 0 (split + 1) new.pointers
  let last ← read temp_pointers t.order
  let pointers ← write pointers num_keys last
  let t ← assign t new_node
    { new with num_keys := num_keys, keys := keys, pointers := pointers, parent := old.parent }
  let t ← adopt new_node (num_keys + 1) 0 t
  .ok (t, key_to_promote, new_node)

/-- The function `insert_into_parent`; `fuel` bounds the number of levels climbed. -/
def insert_into_parent (t : BPTree) (left : Ptr) (key : Int) (right : Ptr) :
    Nat → Except Fault BPTree
  | 0 => .error Fault.no_termination
  | fuel + 1 => do
    let l ← deref t left
    let parent := l.parent
    if parent = Ptr.null then insert_into_new_root t left key right
    else do
      let p ← deref t parent
      let left_index ← scan (fun q => decide (q ≠ left)) p.pointers (p.num_keys + 1) 0
      if p.num_keys < t.order - 1 then insert_into_internal t parent left_index key right
      else do
        let (t1, key_to_promote, new_node) ←
          split_internal_and_insert t parent left_index key right
        insert_into_parent t1 parent key_to_promote new_node fuel

/-- The function `split_leaf_and_insert`. -/
def split_leaf_and_insert (t : BPTree) (leaf : Ptr) (key : Int) (value : Ptr) :
    Except Fault BPTree := do
  let (new_leaf, t) := create_node t t.order true
  let temp_keys := List.replicate t.order t.raw_key
  let temp_pointers := List.replicate t.order t.raw_pointer
  let node ← deref t leaf
  let insertion_point ← scan (fun k => decide (k < key)) node.keys (t.order - 1) 0
  let temp_keys ← spread node.keys insertion_point node.num_keys 0 0 temp_keys
  let temp_pointers ← spread node.pointers insertion_point node.num_keys 0 0 temp_pointers
  let temp_keys ← write temp_keys insertion_point key
  let temp_pointers ← write temp_pointers insertion_point value
  let split := (t.order + 1) / 2
  let keys ← copy temp_keys split 0 0 node.keys
  let pointers ← copy temp_pointers split 0 0 node.pointers
  let new ← deref t new_leaf
  let num_keys := t.order - split
  let new_keys ← copy temp_keys num_keys 0 split new.keys
  let new_pointers ← copy temp_pointers num_keys 0 split new.pointers
  let t ← assign t new_leaf
    { new with
      num_keys := num_keys, keys := new_keys, pointers := new_pointers,
      next := node.next, parent := node.parent }
  let t ← assign t leaf
    { node with num_keys := split, keys := keys, pointers := pointers, next := new_leaf }
  let first ← read new_keys 0
  insert_into_parent t leaf first new_leaf t.heap.length

/-- The function `insert`. -/
def insert (tree : BPTree) (key : Int) (value : Ptr) : Except Fault BPTree := do
  let found ← search tree key
  if found ≠ Ptr.null then .ok tree
  else do
    let leaf ← find_leaf tree key tree.heap.length tree.root
    let node ← deref tree leaf
    if node.num_keys < tree.order - 1 then insert_into_leaf tree leaf key value
    else split_leaf_and_insert tree leaf key value

/-- A sequence of calls of `insert`. -/
def inserts (tree : BPTree) : List (Int × Ptr) → Except Fault BPTree
  | [] => .ok tree
  | (key, value) :: rest => do
    let tree1 ← insert tree key value
    inserts tree1 rest

/-- The key in slot `i` of a node. -/
def key_at (n : Node) (i : Nat) : Int := n.keys.getD i 0

/-- The pointer in slot `i` of a node. -/
def ptr_at (n : Node) (i : Nat) : Ptr := n.pointers.getD i Ptr.null

/-- Among `cnt` keys `f 0, ..., f (cnt - 1)`, the search key `k` is sent to child `i`:
what the inner loop of `find_leaf` computes. -/
def Route (f : Nat → Int) (cnt : Nat) (k : Int) (i : Nat) : Prop :=
  i ≤ cnt ∧ (∀ j, j < i → f j ≤ k) ∧ (i < cnt → k < f i)

/-- The keys `f 0, ..., f (cnt - 1)` are in increasing order. -/
def Sorted (f : Nat → Int) (cnt : Nat) : Prop := ∀ i j, i < j → j < cnt → f i < f j

/-- The keys `kf 0, ..., kf (cnt - 1)` with the values `pf 0, ..., pf (cnt - 1)` are, in
increasing order, exactly the entries of the map `M` whose key lies in the set `R`. -/
structure LeafOk (R : Int → Prop) (M : Int → Ptr) (kf : Nat → Int) (pf : Nat → Ptr)
    (cnt : Nat) : Prop where
  in_range : ∀ i, i < cnt → R (kf i)
  sorted : ∀ i j, i < j → j < cnt → kf i < kf j
  value : ∀ i, i < cnt → pf i = M (kf i) ∧ pf i ≠ Ptr.null
  complete : ∀ k, R k → M k ≠ Ptr.null → ∃ i, i < cnt ∧ kf i = k

/-- The function `f` with the value `v` inserted at index `i`. -/
def ins {α : Type} (f : Nat → α) (i : Nat) (v : α) : Nat → α :=
  fun j => if j < i then f j else if j = i then v else f (j - 1)

/-- The shape of the memory of a tree with root `r`.  `R a` is the set of search keys
that reach node `a`, `ht a` the height of node `a`, `M` the map the tree stores.  `U c`
is the set of keys the parent of `c` sends to `c`, and `x` is a node not yet linked
into its parent: between a split and the insertion into the parent, `U` differs from
`R` at the node that was split and `x` is its new sibling. -/
structure Core (t : BPTree) (R U : Nat → Int → Prop) (ht : Nat → Nat) (M : Int → Ptr)
    (x : Option Nat) (r : Nat) : Prop where
  order : 3 ≤ t.order
  root : t.root = Ptr.node r
  root_live : r < t.heap.length
  root_parent : ∀ rn : Node, t.heap[r]? = some rn → rn.parent = Ptr.null
  root_all : ∀ k, U r k
  shape : ∀ (a : Nat) (n : Node), t.heap[a]? = some n →
    n.keys.length = t.order - 1 ∧ n.pointers.length = t.order ∧ n.num_keys ≤ t.order - 1 ∧
      ht a ≤ ht r
  parent : ∀ (a : Nat) (n : Node), t.heap[a]? = some n → x ≠ some a →
    (n.parent = Ptr.null → a = r) ∧ (∀ v, n.parent ≠ Ptr.data v) ∧
      (∀ p : Nat, n.parent = Ptr.node p → ∃ (pn : Node) (i : Nat), t.heap[p]? = some pn ∧ pn.is_leaf = false ∧
        i ≤ pn.num_keys ∧ ptr_at pn i = Ptr.node a)
  leaf : ∀ (a : Nat) (n : Node), t.heap[a]? = some n → n.is_leaf = true →
    LeafOk (R a) M (key_at n) (ptr_at n) n.num_keys
  disjoint : ∀ (a b : Nat) (na nb : Node) (k : Int), t.heap[a]? = some na → t.heap[b]? = some nb →
    na.is_leaf = true → nb.is_leaf = true → R a k → R b k → a = b
  sorted : ∀ (a : Nat) (n : Node), t.heap[a]? = some n → n.is_leaf = false →
    Sorted (key_at n) n.num_keys
  in_range : ∀ (a : Nat) (n : Node), t.heap[a]? = some n → n.is_leaf = false →
    ∀ i, i < n.num_keys → R a (key_at n i)
  child : ∀ (a : Nat) (n : Node), t.heap[a]? = some n → n.is_leaf = false → ∀ i, i ≤ n.num_keys →
    ∃ (c : Nat) (cn : Node), ptr_at n i = Ptr.node c ∧ t.heap[c]? = some cn ∧ cn.parent = Ptr.node a ∧
      ht c + 1 = ht a ∧ x ≠ some c ∧
      ∀ k, U c k ↔ (R a k ∧ Route (key_at n) n.num_keys k i)
  distinct : ∀ (a : Nat) (n : Node), t.heap[a]? = some n → n.is_leaf = false →
    ∀ i j, i ≤ n.num_keys → j ≤ n.num_keys → ptr_at n i = ptr_at n j → i = j

/-- The memory holds a well-formed tree storing the map `M`. -/
def Wf (t : BPTree) (M : Int → Ptr) : Prop :=
  ∃ (R : Nat → Int → Prop) (ht : Nat → Nat) (r : Nat),
    Core t R R ht M none r ∧ ht r + 1 ≤ t.heap.length

/-- The memory between a split of node `l` into `l` and `rt` with separator `key` and
the insertion of `key` and `rt` into the parent of `l`. -/
structure Pend (t : BPTree) (R : Nat → Int → Prop) (ht : Nat → Nat) (M : Int → Ptr)
    (r l : Nat) (key : Int) (rt : Nat) : Prop where
  core : Core t R (Function.update R l (fun k => R l k ∨ R rt k)) ht M (some rt) r
  fuel : ht r + 2 ≤ t.heap.length
  apart : l ≠ rt
  left_live : l < t.heap.length
  right_live : rt < t.heap.length
  not_root : rt ≠ r
  same_parent : ∀ ln rn : Node, t.heap[l]? = some ln → t.heap[rt]? = some rn →
    rn.parent = ln.parent
  same_height : ht rt = ht l
  left_below : ∀ k, R l k → k < key
  right_above : ∀ k, R rt k → key ≤ k
  right_key : R rt key
  left_nonempty : ∃ k, R l k

/-- The node `insert_into_new_root` creates. -/
def new_root_node (t : BPTree) (left : Ptr) (key : Int) (right : Ptr) : Node :=
  { is_leaf := false
    num_keys := 1
    keys := (List.replicate (t.order - 1) t.raw_key).set 0 key
    pointers := ((List.replicate t.order t.raw_pointer).set 0 left).set 1 right
    parent := Ptr.null
    next := Ptr.null }

/-- The keys and children of the parent `p` of a split node with the separator `key`
and the new sibling `rt` inserted after index `li`: what `insert_into_internal` leaves
in the node and what `split_internal_and_insert` builds in its temporary arrays. -/
structure Combined (t : BPTree) (R : Nat → Int → Prop) (ht : Nat → Nat) (p : Nat) (pn : Node)
    (li : Nat) (key : Int) (rt : Nat) : Prop where
  route : Route (key_at pn) pn.num_keys key li
  key_in : R p key
  sorted : Sorted (ins (key_at pn) li key) (pn.num_keys + 1)
  in_range : ∀ i, i < pn.num_keys + 1 → R p (ins (key_at pn) li key i)
  child : ∀ i, i ≤ pn.num_keys + 1 →
    ∃ (c : Nat) (cn : Node), ins (ptr_at pn) (li + 1) (Ptr.node rt) i = Ptr.node c ∧
      t.heap[c]? = some cn ∧ cn.parent = Ptr.node p ∧ ht c + 1 = ht p ∧
      ∀ k, R c k ↔ (R p k ∧ Route (ins (key_at pn) li key) (pn.num_keys + 1) k i)
  distinct : ∀ i j, i ≤ pn.num_keys + 1 → j ≤ pn.num_keys + 1 →
    ins (ptr_at pn) (li + 1) (Ptr.node rt) i = ins (ptr_at pn) (li + 1) (Ptr.node rt) j → i = j

/-- The inserts of `main` in src/bptree/main.c. -/
def main_ops : List (Int × Ptr) :=
  [(10, Ptr.data 100), (20, Ptr.data 200), (30, Ptr.data 300), (40, Ptr.data 400),
    (5, Ptr.data 50), (15, Ptr.data 150), (25, Ptr.data 250), (35, Ptr.data 350),
    (50, Ptr.data 500)]

/-- The value given at the first insert of key `k` in a sequence of inserts, `NULL` if
there is none. -/
def first_inserted (ops : List (Int × Ptr)) (k : Int) : Ptr :=
  match ops.find? (fun op => decide (op.1 = k)) with
  | some op => op.2
  | none => Ptr.null

end Bptree

namespace DbStorage

/-! ## Theorems -/

theorem load_eq_ok_iff {α : Type} (l : List α) (i : Int) (v : α) :
    load l i = .ok v ↔ 0 ≤ i ∧ l[i.toNat]? = some v := by
  unfold load
  by_cases h : 0 ≤ i
  · simp only [h, if_true, true_and]
    cases hx : l[i.toNat]? <;> simp
  · simp [h]

theorem load_bounds {α : Type} {l : List α} {i : Int} {v : α} (h : load l i = .ok v) :
    0 ≤ i ∧ i < l.length := by
  rw [load_eq_ok_iff] at h
  obtain ⟨h0, h1⟩ := h
  have := (List.getElem?_eq_some_iff.mp h1).1
  omega

theorem load_total {α : Type} {l : List α} {i : Int} (h0 : 0 ≤ i) (h1 : i < l.length) :
    ∃ v, load l i = .ok v := by
  have hlt : i.toNat < l.length := by omega
  exact ⟨l[i.toNat], (load_eq_ok_iff l i _).mpr ⟨h0, List.getElem?_eq_getElem hlt⟩⟩

theorem store_eq {α : Type} {l : List α} {i : Int} (v : α) (h0 : 0 ≤ i) (h1 : i < l.length) :
    store l i v = .ok (l.set i.toNat v) := by
  have hlt : i.toNat < l.length := by omega
  simp [store, h0, hlt]

theorem load_set {α : Type} {l : List α} {j : Int} (v : α) (i : Int)
    (h0 : 0 ≤ j) (h1 : j < l.length) :
    load (l.set j.toNat v) i = if i = j then .ok v else load l i := by
  have hlt : j.toNat < l.length := by omega
  by_cases hi : 0 ≤ i
  · by_cases hij : i = j
    · subst hij
      simp [load, hi, hlt]
    · have hne : j.toNat ≠ i.toNat := by omega
      simp [load, hi, hij, List.getElem?_set_ne hne]
  · have hij : i ≠ j := by omega
    simp [load, hi, hij]

/-- Changing the disk does not touch the invariant. -/
theorem Inv.set_disk {s : BufferPoolManager} (h : Inv s) (d : DiskManager) :
    Inv { s with disk_manager := d } :=
  { h with }

/-- Updating the metadata of a frame while keeping its page identifier. -/
theorem Inv.set_frame {s : BufferPoolManager} (h : Inv s) {f : Int} {p r : Page}
    (hp : load s.pages f = .ok p) (hid : r.page_id = p.page_id)
    (hdata : r.data.length = PAGE_SIZE) (hpin : 0 ≤ r.pin_count)
    (hfree : f < s.free_list_size → r.pin_count = 0)
    (hflag : load s.lru_in_replacer f = .ok true → r.pin_count = 0) :
    Inv { s with pages := s.pages.set f.toNat r } := by
  obtain ⟨hf0, hflt⟩ := load_bounds hp
  have L := fun i => load_set (l := s.pages) r i hf0 hflt
  constructor
  · simp [h.pages_len]
  · exact h.table_len
  · exact h.queue_len
  · exact h.flags_len
  · exact h.free_len
  · exact h.free_entry
  · exact h.free_size
  · exact h.head_range
  · exact h.tail_range
  · exact h.queue_ok
  · intro i q hq hi
    simp only [L] at hq
    split at hq
    · subst i
      cases hq
      have := h.frame_free f p hp hi
      exact ⟨by rw [hid]; exact this.1, hfree hi, this.2.2⟩
    · exact h.frame_free i q hq hi
  · intro i q hq hi
    simp only [L] at hq
    split at hq
    · subst i
      cases hq
      rw [hid]
      exact h.frame_used f p hp hi
    · exact h.frame_used i q hq hi
  · intro i q hq
    simp only [L] at hq
    split at hq
    · cases hq; exact hpin
    · exact h.frame_pin i q hq
  · intro i q hq hfl
    simp only [L] at hq
    split at hq
    · subst i
      cases hq
      exact hflag hfl
    · exact h.frame_flag i q hq hfl
  · intro i q hq
    simp only [L] at hq
    split at hq
    · cases hq; exact hdata
    · exact h.frame_data i q hq
  · intro q e hq he
    obtain ⟨p0, hp0, hp0id⟩ := h.table_ok q e hq he
    simp only [L]
    split
    · subst e
      rw [hp] at hp0
      cases hp0
      exact ⟨r, rfl, by rw [hid]; exact hp0id⟩
    · exact ⟨p0, hp0, hp0id⟩

/-- Clearing the in-queue flag of a frame. -/
theorem Inv.clear_flag {s : BufferPoolManager} (h : Inv s) {f : Int}
    (hf0 : 0 ≤ f) (hflt : f < BUFFER_POOL_SIZE) :
    Inv { s with lru_in_replacer := s.lru_in_replacer.set f.toNat false } := by
  have hlt : f < s.lru_in_replacer.length := by rw [h.flags_len]; exact hflt
  have L := fun i => load_set (l := s.lru_in_replacer) false i hf0 hlt
  refine { h with flags_len := by simp [h.flags_len], frame_free := ?_, frame_flag := ?_ }
  · intro i q hq hi
    have := h.frame_free i q hq hi
    refine ⟨this.1, this.2.1, ?_⟩
    simp only [L]
    split
    · rfl
    · exact this.2.2
  · intro i q hq hfl
    simp only [L] at hfl
    split at hfl
    · cases hfl
    · exact h.frame_flag i q hq hfl

/-- Moving the head of the ring buffer. -/
theorem Inv.set_head {s : BufferPoolManager} (h : Inv s) {hd : Int}
    (h0 : 0 ≤ hd) (h1 : hd < BUFFER_POOL_SIZE) (hwrap : s.lru_tail < hd → s.lru_tail < s.lru_head) :
    Inv { s with lru_head := hd } := by
  refine { h with head_range := ⟨h0, h1⟩, queue_ok := ?_ }
  intro i e hq hi
  apply h.queue_ok i e hq
  rcases hi with hi | hi
  · exact Or.inl (hwrap hi)
  · exact Or.inr hi

/-- Appending a resident frame with pin count zero to the ring buffer. -/
theorem Inv.enqueue {s : BufferPoolManager} (h : Inv s) {f : Int} {p : Page}
    (hp : load s.pages f = .ok p) (hpin : p.pin_count = 0) (hused : s.free_list_size ≤ f) :
    Inv { s with
      lru_replacer := s.lru_replacer.set s.lru_tail.toNat f
      lru_tail := (s.lru_tail + 1) % (BUFFER_POOL_SIZE : Int)
      lru_in_replacer := s.lru_in_replacer.set f.toNat true } := by
  obtain ⟨hf0, hflt⟩ := load_bounds hp
  rw [h.pages_len] at hflt
  have hlt : f < s.lru_in_replacer.length := by rw [h.flags_len]; exact hflt
  have ht := h.tail_range
  have htl : s.lru_tail < s.lru_replacer.length := by rw [h.queue_len]; exact ht.2
  have L := fun i => load_set (l := s.lru_in_replacer) true i hf0 hlt
  have Q := fun i => load_set (l := s.lru_replacer) f i ht.1 htl
  simp only [BUFFER_POOL_SIZE, Nat.cast_ofNat] at ht hflt
  refine { h with
    queue_len := by simp [h.queue_len]
    flags_len := by simp [h.flags_len]
    tail_range := ?_, queue_ok := ?_, frame_free := ?_, frame_flag := ?_ }
  · simp only [BUFFER_POOL_SIZE, Nat.cast_ofNat]; omega
  · intro i e hq hi
    simp only [Q] at hq
    split at hq
    · cases hq
      simp only [BUFFER_POOL_SIZE, Nat.cast_ofNat]
      exact ⟨hf0, hflt⟩
    · have hb := load_bounds hq
      rw [h.queue_len] at hb
      apply h.queue_ok i e hq
      simp only [BUFFER_POOL_SIZE, Nat.cast_ofNat] at hi hb
      omega
  · intro i q hq hi
    have hi1 : i < s.free_list_size := hi
    have := h.frame_free i q hq hi
    refine ⟨this.1, this.2.1, ?_⟩
    simp only [L]
    split
    · omega
    · exact this.2.2
  · intro i q hq hfl
    simp only [L] at hfl
    split at hfl
    · subst i
      rw [hp] at hq
      cases hq
      exact hpin
    · exact h.frame_flag i q hq hfl

/-- Loading a page that is not resident into the last frame of the free list. -/
theorem Inv.install_free {s : BufferPoolManager} (h : Inv s) {id : Int} {g : Page}
    (hfree : 0 < s.free_list_size) (hid : load s.page_table id = .ok INVALID_PAGE_ID)
    (hpid : g.page_id = id) (hpin : g.pin_count = 1) (hdata : g.data.length = PAGE_SIZE) :
    Inv { s with
      free_list_size := s.free_list_size - 1
      pages := s.pages.set (s.free_list_size - 1).toNat g
      page_table := s.page_table.set id.toNat (s.free_list_size - 1) } := by
  have hsz := h.free_size
  have hf0 : 0 ≤ s.free_list_size - 1 := by omega
  have hflt : s.free_list_size - 1 < s.pages.length := by rw [h.pages_len]; omega
  obtain ⟨hid0, hidlt⟩ := load_bounds hid
  have P := fun i => load_set (l := s.pages) g i hf0 hflt
  have T := fun i => load_set (l := s.page_table) (s.free_list_size - 1) i hid0 hidlt
  obtain ⟨old, hold⟩ := load_total hf0 hflt
  have holdfree := h.frame_free _ old hold (by omega)
  refine { h with
    pages_len := by simp [h.pages_len]
    table_len := by simp [h.table_len]
    free_size := ⟨hf0, show s.free_list_size - 1 ≤ _ by omega⟩
    frame_free := ?_, frame_used := ?_, frame_pin := ?_, frame_flag := ?_, frame_data := ?_
    table_ok := ?_ }
  · intro i q hq hi
    have hi1 : i < s.free_list_size - 1 := hi
    simp only [P] at hq
    split at hq
    · omega
    · exact h.frame_free i q hq (by omega)
  · intro i q hq hi
    have hi1 : s.free_list_size - 1 ≤ i := hi
    simp only [P] at hq
    simp only [T]
    split at hq
    · subst i
      cases hq
      rw [h.table_len] at hidlt
      simp only [hpid, if_true]
      exact ⟨hid0, hidlt, trivial⟩
    · have hu := h.frame_used i q hq (by omega)
      refine ⟨hu.1, hu.2.1, ?_⟩
      split
      · rename_i heq
        rw [heq, hid] at hu
        have := hu.2.2
        simp only [INVALID_PAGE_ID, Except.ok.injEq] at this
        omega
      · exact hu.2.2
  · intro i q hq
    simp only [P] at hq
    split at hq
    · cases hq; omega
    · exact h.frame_pin i q hq
  · intro i q hq hfl
    have hfl1 : load s.lru_in_replacer i = .ok true := hfl
    simp only [P] at hq
    split at hq
    · subst i
      rw [holdfree.2.2] at hfl1
      cases hfl1
    · exact h.frame_flag i q hq hfl
  · intro i q hq
    simp only [P] at hq
    split at hq
    · cases hq; exact hdata
    · exact h.frame_data i q hq
  · intro q e hq he
    simp only [T] at hq
    simp only [P]
    split at hq
    · subst q
      cases hq
      simp only [if_true]
      exact ⟨g, rfl, hpid⟩
    · obtain ⟨p0, hp0, hp0id⟩ := h.table_ok q e hq he
      split
      · subst e
        rw [hold] at hp0
        cases hp0
        have hq0 := (load_bounds hq).1
        rw [holdfree.1] at hp0id
        simp only [INVALID_PAGE_ID] at hp0id
        omega
      · exact ⟨p0, hp0, hp0id⟩

/-- Replacing the page of a resident, unflagged frame by a page that is not resident. -/
theorem Inv.install_victim {s : BufferPoolManager} (h : Inv s) {f id : Int} {victim g : Page}
    (hv : load s.pages f = .ok victim) (hused : s.free_list_size ≤ f)
    (hflag : load s.lru_in_replacer f = .ok false)
    (hid : load s.page_table id = .ok INVALID_PAGE_ID)
    (hpid : g.page_id = id) (hpin : g.pin_count = 1) (hdata : g.data.length = PAGE_SIZE) :
    Inv { s with
      page_table := (s.page_table.set victim.page_id.toNat INVALID_PAGE_ID).set id.toNat f
      pages := s.pages.set f.toNat g } := by
  obtain ⟨hf0, hflt⟩ := load_bounds hv
  obtain ⟨hid0, hidlt⟩ := load_bounds hid
  obtain ⟨hv0, hvlt, hvt⟩ := h.frame_used f victim hv hused
  rw [← h.table_len] at hvlt
  have hidlt1 : id < (s.page_table.set victim.page_id.toNat INVALID_PAGE_ID).length := by
    simpa using hidlt
  have P := fun i => load_set (l := s.pages) g i hf0 hflt
  have T1 := fun i => load_set (l := s.page_table) INVALID_PAGE_ID i hv0 hvlt
  have T2 := fun i => load_set (l := s.page_table.set victim.page_id.toNat INVALID_PAGE_ID)
    f i hid0 hidlt1
  have hne : victim.page_id ≠ id := by
    intro heq
    rw [heq, hid] at hvt
    simp only [INVALID_PAGE_ID, Except.ok.injEq] at hvt
    omega
  refine { h with
    pages_len := by simp [h.pages_len]
    table_len := by simp [h.table_len]
    frame_free := ?_, frame_used := ?_, frame_pin := ?_, frame_flag := ?_, frame_data := ?_
    table_ok := ?_ }
  · intro i q hq hi
    have hi1 : i < s.free_list_size := hi
    simp only [P] at hq
    split at hq
    · omega
    · exact h.frame_free i q hq hi
  · intro i q hq hi
    simp only [P] at hq
    simp only [T2, T1]
    split at hq
    · subst i
      cases hq
      rw [h.table_len] at hidlt
      simp only [hpid, if_true]
      exact ⟨hid0, hidlt, trivial⟩
    · have hu := h.frame_used i q hq hi
      refine ⟨hu.1, hu.2.1, ?_⟩
      split
      · rename_i heq
        rw [heq, hid] at hu
        have := hu.2.2
        simp only [INVALID_PAGE_ID, Except.ok.injEq] at this
        have := (load_bounds hq).1
        omega
      · split
        · rename_i hne1 heq
          rw [heq, hvt] at hu
          have := hu.2.2
          simp only [Except.ok.injEq] at this
          omega
        · exact hu.2.2
  · intro i q hq
    simp only [P] at hq
    split at hq
    · cases hq; omega
    · exact h.frame_pin i q hq
  · intro i q hq hfl
    have hfl1 : load s.lru_in_replacer i = .ok true := hfl
    simp only [P] at hq
    split at hq
    · subst i
      rw [hflag] at hfl1
      cases hfl1
    · exact h.frame_flag i q hq hfl
  · intro i q hq
    simp only [P] at hq
    split at hq
    · cases hq; exact hdata
    · exact h.frame_data i q hq
  · intro q e hq he
    simp only [T2, T1] at hq
    simp only [P]
    split at hq
    · subst q
      cases hq
      simp only [if_true]
      exact ⟨g, rfl, hpid⟩
    · split at hq
      · cases hq
        exact absurd rfl he
      · obtain ⟨p0, hp0, hp0id⟩ := h.table_ok q e hq he
        split
        · subst e
          rw [hv] at hp0
          cases hp0
          rename_i hq1 hq2
          exact absurd hp0id.symm hq2
        · exact ⟨p0, hp0, hp0id⟩

/-- The eviction scan ends within the fuel given, and either finds nothing and leaves the
pool alone, or returns a flagged frame, clears its flag and moves the head. -/
theorem evict_scan_spec {s : BufferPoolManager} (h : Inv s) (fuel : Nat) :
    ∀ cur : Int, 0 ≤ cur → cur < BUFFER_POOL_SIZE →
    (s.lru_tail < cur → s.lru_tail < s.lru_head) →
    (s.lru_tail - cur) % (BUFFER_POOL_SIZE : Int) < fuel →
    evict_scan fuel s cur = .ok (none, s) ∨
    ∃ f hd : Int, load s.lru_in_replacer f = .ok true ∧ 0 ≤ hd ∧ hd < (BUFFER_POOL_SIZE : Int) ∧
      (s.lru_tail < hd → s.lru_tail < s.lru_head) ∧
      evict_scan fuel s cur = .ok (some f,
        { s with lru_head := hd, lru_in_replacer := s.lru_in_replacer.set f.toNat false }) := by
  induction fuel with
  | zero =>
    intro cur _ _ _ hfuel
    have : (0 : Int) ≤ (s.lru_tail - cur) % (BUFFER_POOL_SIZE : Int) :=
      Int.emod_nonneg _ (by simp [BUFFER_POOL_SIZE])
    simp only [Nat.cast_zero] at hfuel
    omega
  | succ fuel ih =>
    intro cur h0 h1 hwrap hfuel
    have ht := h.tail_range
    simp only [BUFFER_POOL_SIZE, Nat.cast_ofNat] at h1 hfuel ht
    by_cases hcur : cur = s.lru_tail
    · left
      simp [evict_scan, hcur]
    · obtain ⟨cand, hcand⟩ := load_total (l := s.lru_replacer) h0
        (by rw [h.queue_len]; simpa [BUFFER_POOL_SIZE] using h1)
      have hvalid := h.queue_ok cur cand hcand (by omega)
      obtain ⟨flagged, hflagged⟩ := load_total (l := s.lru_in_replacer) hvalid.1
        (by rw [h.flags_len]; exact hvalid.2)
      have hnext0 : 0 ≤ (cur + 1) % (BUFFER_POOL_SIZE : Int) := by
        simp only [BUFFER_POOL_SIZE, Nat.cast_ofNat]; omega
      have hnext1 : (cur + 1) % (BUFFER_POOL_SIZE : Int) < BUFFER_POOL_SIZE := by
        simp only [BUFFER_POOL_SIZE, Nat.cast_ofNat]; omega
      have hnextw : s.lru_tail < (cur + 1) % (BUFFER_POOL_SIZE : Int) → s.lru_tail < s.lru_head := by
        simp only [BUFFER_POOL_SIZE, Nat.cast_ofNat]
        intro hlt
        apply hwrap
        omega
      cases flagged with
      | true =>
        right
        refine ⟨cand, (cur + 1) % (BUFFER_POOL_SIZE : Int), hflagged, hnext0, hnext1, hnextw, ?_⟩
        have hst := store_eq (l := s.lru_in_replacer) false hvalid.1
          (by rw [h.flags_len]; exact hvalid.2)
        simp [evict_scan, hcur, hcand, hflagged, hst]
      | false =>
        have hrec := ih ((cur + 1) % (BUFFER_POOL_SIZE : Int)) hnext0 hnext1 hnextw (by
          simp only [BUFFER_POOL_SIZE, Nat.cast_ofNat, Nat.cast_add, Nat.cast_one] at hfuel ⊢
          omega)
        have hunf : evict_scan (fuel + 1) s cur
            = evict_scan fuel s ((cur + 1) % (BUFFER_POOL_SIZE : Int)) := by
          simp [evict_scan, hcur, hcand, hflagged]
        rw [hunf]
        exact hrec

/-- The function `lru_replacer_evict` on a pool satisfying the invariant. -/
theorem lru_replacer_evict_spec {s : BufferPoolManager} (h : Inv s) :
    lru_replacer_evict s = .ok (none, s) ∨
    ∃ f hd : Int, load s.lru_in_replacer f = .ok true ∧ 0 ≤ hd ∧ hd < (BUFFER_POOL_SIZE : Int) ∧
      (s.lru_tail < hd → s.lru_tail < s.lru_head) ∧
      lru_replacer_evict s = .ok (some f,
        { s with lru_head := hd, lru_in_replacer := s.lru_in_replacer.set f.toNat false }) := by
  have hh := h.head_range
  have ht := h.tail_range
  exact evict_scan_spec h BUFFER_POOL_SIZE s.lru_head hh.1 hh.2 id (by
    simp only [BUFFER_POOL_SIZE, Nat.cast_ofNat] at hh ht ⊢
    omega)

theorem read_page_from_disk_length (d : DiskManager) (id : Int) (data : List UInt8)
    (hid : 0 ≤ id) : (read_page_from_disk d id data).length = PAGE_SIZE := by
  have hoff : ¬ id * (PAGE_SIZE : Int) < 0 := by
    have : 0 ≤ id * (PAGE_SIZE : Int) := Int.mul_nonneg hid (by simp [PAGE_SIZE])
    omega
  simp only [read_page_from_disk, hoff, if_false, List.length_append, List.length_replicate,
    List.length_take, List.length_drop]
  omega

theorem fetch_page_hit {s : BufferPoolManager} (h : Inv s) {id e : Int}
    (he : load s.page_table id = .ok e) (hne : e ≠ INVALID_PAGE_ID) :
    ∃ p, load s.pages e = .ok p ∧ p.page_id = id ∧ s.free_list_size ≤ e ∧
      fetch_page s id = .ok (some e, after_hit s e p) := by
  obtain ⟨p, hp, hpid⟩ := h.table_ok id e he hne
  obtain ⟨h0, h1⟩ := load_bounds hp
  have hst := store_eq (l := s.pages) { p with pin_count := p.pin_count + 1 } h0 h1
  have hfl := store_eq (l := s.lru_in_replacer) false h0
    (by rw [h.flags_len, ← h.pages_len]; exact h1)
  refine ⟨p, hp, hpid, ?_, ?_⟩
  · by_contra hlt
    have := (h.frame_free e p hp (by omega)).1
    have := (load_bounds he).1
    simp only [INVALID_PAGE_ID] at *
    omega
  · simp [fetch_page, he, hne, hp, hst, lru_replacer_pin, hfl, after_hit]

theorem after_hit_inv {s : BufferPoolManager} (h : Inv s) {f : Int} {p : Page}
    (hp : load s.pages f = .ok p) (hused : s.free_list_size ≤ f) : Inv (after_hit s f p) := by
  obtain ⟨h0, h1⟩ := load_bounds hp
  have h2 : f < (BUFFER_POOL_SIZE : Int) := by rw [← h.pages_len]; exact h1
  have hc := h.clear_flag h0 h2
  have hfl : load (s.lru_in_replacer.set f.toNat false) f = .ok false := by
    rw [load_set false f h0 (by rw [h.flags_len]; exact h2)]
    simp
  refine hc.set_frame (r := { p with pin_count := p.pin_count + 1 }) hp rfl
    (h.frame_data f p hp) ?_ ?_ ?_
  · have := h.frame_pin f p hp
    show 0 ≤ p.pin_count + 1
    omega
  · intro hlt
    have hlt1 : f < s.free_list_size := hlt
    omega
  · intro hflag
    have hflag1 : load (s.lru_in_replacer.set f.toNat false) f = .ok true := hflag
    rw [hfl] at hflag1
    cases hflag1

theorem fetch_page_free {s : BufferPoolManager} (h : Inv s) {id : Int}
    (he : load s.page_table id = .ok INVALID_PAGE_ID) (hfree : 0 < s.free_list_size) :
    ∃ old, load s.pages (s.free_list_size - 1) = .ok old ∧
      fetch_page s id = .ok (some (s.free_list_size - 1), after_free s id old) := by
  have hsz := h.free_size
  have hf0 : 0 ≤ s.free_list_size - 1 := by omega
  have hflt : s.free_list_size - 1 < (BUFFER_POOL_SIZE : Int) := by omega
  obtain ⟨fr, hfr⟩ := load_total (l := s.free_list) hf0 (by rw [h.free_len]; exact hflt)
  have hfreq := h.free_entry _ _ hfr
  subst hfreq
  obtain ⟨old, hold⟩ := load_total (l := s.pages) hf0 (by rw [h.pages_len]; exact hflt)
  obtain ⟨hid0, hidlt⟩ := load_bounds he
  have hst := store_eq (l := s.pages) (loaded s.disk_manager id old) hf0
    (by rw [h.pages_len]; exact hflt)
  have htb := store_eq (l := s.page_table) (s.free_list_size - 1) hid0 hidlt
  have hfl := store_eq (l := s.lru_in_replacer) false hf0 (by rw [h.flags_len]; exact hflt)
  refine ⟨old, hold, ?_⟩
  have hgt : s.free_list_size > 0 := hfree
  simp only [loaded] at hst
  simp [fetch_page, he, hgt, hfr, fetch_page_load, hold, hst, htb, lru_replacer_pin, hfl,
    after_free, loaded]

theorem after_free_inv {s : BufferPoolManager} (h : Inv s) {id : Int} (old : Page)
    (he : load s.page_table id = .ok INVALID_PAGE_ID) (hfree : 0 < s.free_list_size) :
    Inv (after_free s id old) := by
  have hsz := h.free_size
  have hi := h.install_free (g := loaded s.disk_manager id old) hfree he rfl rfl
    (read_page_from_disk_length _ _ _ (load_bounds he).1)
  exact hi.clear_flag (f := s.free_list_size - 1) (by omega) (by omega)

theorem fetch_page_evict {s : BufferPoolManager} (h : Inv s) {id : Int}
    (he : load s.page_table id = .ok INVALID_PAGE_ID) (hfree : s.free_list_size ≤ 0) :
    (lru_replacer_evict s = .ok (none, s) ∧ fetch_page s id = .ok (none, s)) ∨
    ∃ (f hd : Int) (victim : Page), load s.lru_in_replacer f = .ok true ∧
      load s.pages f = .ok victim ∧ 0 ≤ hd ∧ hd < (BUFFER_POOL_SIZE : Int) ∧
      (s.lru_tail < hd → s.lru_tail < s.lru_head) ∧
      lru_replacer_evict s = .ok (some f,
        { s with lru_head := hd, lru_in_replacer := s.lru_in_replacer.set f.toNat false }) ∧
      fetch_page s id = .ok (some f, after_evict s id f hd victim) := by
  have hngt : ¬ s.free_list_size > 0 := by omega
  rcases lru_replacer_evict_spec h with hnone | ⟨f, hd, hflag, hd0, hd1, hdw, hev⟩
  · left
    refine ⟨hnone, ?_⟩
    simp [fetch_page, he, hngt, hnone]
  · right
    obtain ⟨hf0, hflt⟩ := load_bounds hflag
    rw [h.flags_len] at hflt
    obtain ⟨victim, hv⟩ := load_total (l := s.pages) hf0 (by rw [h.pages_len]; exact hflt)
    have hused : s.free_list_size ≤ f := by omega
    obtain ⟨hv0, hvlt, hvt⟩ := h.frame_used f victim hv hused
    obtain ⟨hid0, hidlt⟩ := load_bounds he
    have htb1 := store_eq (l := s.page_table) INVALID_PAGE_ID hv0
      (by rw [h.table_len]; exact hvlt)
    have htb2 := store_eq (l := s.page_table.set victim.page_id.toNat INVALID_PAGE_ID) f hid0
      (by simpa using hidlt)
    have hst := store_eq (l := s.pages)
      (loaded (write_back s.disk_manager victim) id victim) hf0
      (by rw [h.pages_len]; exact hflt)
    have hfl := store_eq (l := s.lru_in_replacer.set f.toNat false) false hf0
      (by simpa [h.flags_len] using hflt)
    refine ⟨f, hd, victim, hflag, hv, hd0, hd1, hdw, hev, ?_⟩
    simp only [loaded, write_back] at hst
    simp [fetch_page, he, hngt, hev, hv, htb1, fetch_page_load, hst, htb2, lru_replacer_pin, hfl,
      after_evict, loaded, write_back]

theorem after_evict_inv {s : BufferPoolManager} (h : Inv s) {id f hd : Int} {victim : Page}
    (he : load s.page_table id = .ok INVALID_PAGE_ID) (hfree : s.free_list_size ≤ 0)
    (hflag : load s.lru_in_replacer f = .ok true) (hv : load s.pages f = .ok victim)
    (hd0 : 0 ≤ hd) (hd1 : hd < (BUFFER_POOL_SIZE : Int))
    (hdw : s.lru_tail < hd → s.lru_tail < s.lru_head) :
    Inv (after_evict s id f hd victim) := by
  obtain ⟨hf0, hflt⟩ := load_bounds hflag
  rw [h.flags_len] at hflt
  have h1 := (h.set_head hd0 hd1 hdw).clear_flag hf0 hflt
  have hfl : load (s.lru_in_replacer.set f.toNat false) f = .ok false := by
    rw [load_set false f hf0 (by rw [h.flags_len]; exact hflt)]
    simp
  have h2 := h1.install_victim (g := loaded (write_back s.disk_manager victim) id victim) hv
    (show s.free_list_size ≤ f by omega) hfl he rfl rfl
    (read_page_from_disk_length _ _ _ (load_bounds he).1)
  exact (h2.clear_flag hf0 hflt).set_disk (write_back s.disk_manager victim)

/-- The invariant is kept by `fetch_page`. -/
theorem fetch_page_inv {s s1 : BufferPoolManager} (h : Inv s) {id : Int} {r : Option Int}
    (hfetch : fetch_page s id = .ok (r, s1)) : Inv s1 := by
  cases he : load s.page_table id with
  | error e => simp [fetch_page, he] at hfetch
  | ok e =>
    by_cases hne : e = INVALID_PAGE_ID
    · subst hne
      by_cases hfree : 0 < s.free_list_size
      · obtain ⟨old, _, hf⟩ := fetch_page_free h he hfree
        rw [hf] at hfetch
        cases hfetch
        exact after_free_inv h old he hfree
      · rcases fetch_page_evict h he (by omega) with ⟨_, hf⟩ | ⟨f, hd, victim, hflag, hv, hd0, hd1, hdw, _, hf⟩
        · rw [hf] at hfetch
          cases hfetch
          exact h
        · rw [hf] at hfetch
          cases hfetch
          exact after_evict_inv h he (by omega) hflag hv hd0 hd1 hdw
    · obtain ⟨p, hp, _, hused, hf⟩ := fetch_page_hit h he hne
      rw [hf] at hfetch
      cases hfetch
      exact after_hit_inv h hp hused

theorem resident_frame {s : BufferPoolManager} (h : Inv s) {id e : Int}
    (he : load s.page_table id = .ok e) (hne : e ≠ INVALID_PAGE_ID) :
    ∃ p, load s.pages e = .ok p ∧ p.page_id = id ∧ s.free_list_size ≤ e := by
  obtain ⟨p, hp, hpid⟩ := h.table_ok id e he hne
  refine ⟨p, hp, hpid, ?_⟩
  by_contra hlt
  have := (h.frame_free e p hp (by omega)).1
  have := (load_bounds he).1
  simp only [INVALID_PAGE_ID] at *
  omega

theorem unpin_page_absent {s : BufferPoolManager} {id : Int} (d : Bool)
    (he : load s.page_table id = .ok INVALID_PAGE_ID) :
    unpin_page s id d = .ok (false, s) := by
  simp [unpin_page, he]

theorem unpin_page_zero {s : BufferPoolManager} {id e : Int} {p : Page} (d : Bool)
    (he : load s.page_table id = .ok e) (hne : e ≠ INVALID_PAGE_ID)
    (hp : load s.pages e = .ok p) (hpin : p.pin_count ≤ 0) :
    unpin_page s id d = .ok (false, s) := by
  simp [unpin_page, he, hne, hp, hpin]

theorem unpin_page_pinned {s : BufferPoolManager} (h : Inv s) {id e : Int} {p : Page} (d : Bool)
    (he : load s.page_table id = .ok e) (hne : e ≠ INVALID_PAGE_ID)
    (hp : load s.pages e = .ok p) (hpin : 0 < p.pin_count) :
    load s.lru_in_replacer e = .ok false ∧
    unpin_page s id d = .ok (true, after_unpin s e p d) := by
  obtain ⟨h0, h1⟩ := load_bounds hp
  have h2 : e < (BUFFER_POOL_SIZE : Int) := by rw [← h.pages_len]; exact h1
  obtain ⟨fl, hfl⟩ := load_total (l := s.lru_in_replacer) h0 (by rw [h.flags_len]; exact h2)
  have hflf : fl = false := by
    cases fl with
    | false => rfl
    | true =>
      have := h.frame_flag e p hp hfl
      omega
  subst hflf
  have hst := fun v => store_eq (l := s.pages) v h0 h1
  have ht := h.tail_range
  have hq := store_eq (l := s.lru_replacer) e ht.1 (by rw [h.queue_len]; exact ht.2)
  have hfs := store_eq (l := s.lru_in_replacer) true h0 (by rw [h.flags_len]; exact h2)
  have hnle : ¬ p.pin_count ≤ 0 := by omega
  refine ⟨hfl, ?_⟩
  by_cases hz : p.pin_count - 1 = 0
  · simp [unpin_page, he, hne, hp, hnle, hst, hz, lru_replacer_unpin, hfl, hq, hfs, after_unpin,
      unpinned]
  · simp [unpin_page, he, hne, hp, hnle, hst, hz, after_unpin, unpinned]

theorem after_unpin_inv {s : BufferPoolManager} (h : Inv s) {f : Int} {p : Page} (d : Bool)
    (hp : load s.pages f = .ok p) (hused : s.free_list_size ≤ f) (hpin : 0 < p.pin_count) :
    Inv (after_unpin s f p d) := by
  obtain ⟨h0, h1⟩ := load_bounds hp
  have hs : Inv { s with pages := s.pages.set f.toNat (unpinned p d) } := by
    refine h.set_frame (r := unpinned p d) hp rfl (h.frame_data f p hp) ?_ ?_ ?_
    · show 0 ≤ p.pin_count - 1
      omega
    · intro hlt
      omega
    · intro hflag
      have := h.frame_flag f p hp hflag
      omega
  unfold after_unpin
  split
  · rename_i hz
    exact hs.enqueue (f := f) (p := unpinned p d)
      (by
        show load (s.pages.set f.toNat (unpinned p d)) f = .ok (unpinned p d)
        rw [load_set _ _ h0 h1]; simp)
      hz hused
  · exact hs

/-- The invariant is kept by `unpin_page`. -/
theorem unpin_page_inv {s s1 : BufferPoolManager} (h : Inv s) {id : Int} {d r : Bool}
    (hu : unpin_page s id d = .ok (r, s1)) : Inv s1 := by
  cases he : load s.page_table id with
  | error e => simp [unpin_page, he] at hu
  | ok e =>
    by_cases hne : e = INVALID_PAGE_ID
    · subst hne
      rw [unpin_page_absent d he] at hu
      cases hu
      exact h
    · obtain ⟨p, hp, _, hused⟩ := resident_frame h he hne
      by_cases hpin : 0 < p.pin_count
      · rw [(unpin_page_pinned h d he hne hp hpin).2] at hu
        cases hu
        exact after_unpin_inv h d hp hused hpin
      · rw [unpin_page_zero d he hne hp (by omega)] at hu
        cases hu
        exact h

theorem flush_page_absent {s : BufferPoolManager} {id : Int}
    (he : load s.page_table id = .ok INVALID_PAGE_ID) :
    flush_page s id = .ok (false, s) := by
  simp [flush_page, he]

theorem flush_page_resident {s : BufferPoolManager} {id e : Int} {p : Page}
    (he : load s.page_table id = .ok e) (hne : e ≠ INVALID_PAGE_ID)
    (hp : load s.pages e = .ok p) :
    flush_page s id = .ok (true, after_flush s id e p) := by
  obtain ⟨h0, h1⟩ := load_bounds hp
  have hst := store_eq (l := s.pages) { p with is_dirty := false } h0 h1
  simp [flush_page, he, hne, hp, hst, after_flush]

theorem after_flush_inv {s : BufferPoolManager} (h : Inv s) (id : Int) {f : Int} {p : Page}
    (hp : load s.pages f = .ok p) : Inv (after_flush s id f p) := by
  have hs : Inv { s with pages := s.pages.set f.toNat { p with is_dirty := false } } :=
    h.set_frame (r := { p with is_dirty := false }) hp rfl (h.frame_data f p hp)
      (h.frame_pin f p hp) (fun hlt => (h.frame_free f p hp hlt).2.1)
      (fun hflag => h.frame_flag f p hp hflag)
  exact hs.set_disk _

/-- The function `flush_page` always has a result on identifiers of the page table, and
keeps the invariant. -/
theorem flush_page_total {s : BufferPoolManager} (h : Inv s) {id : Int}
    (h0 : 0 ≤ id) (h1 : id < (TABLE_MAX_PAGES : Int)) :
    ∃ r s1, flush_page s id = .ok (r, s1) ∧ Inv s1 := by
  obtain ⟨e, he⟩ := load_total (l := s.page_table) h0 (by rw [h.table_len]; exact h1)
  by_cases hne : e = INVALID_PAGE_ID
  · subst hne
    exact ⟨false, s, flush_page_absent he, h⟩
  · obtain ⟨p, hp, _, _⟩ := resident_frame h he hne
    exact ⟨true, _, flush_page_resident he hne hp, after_flush_inv h id hp⟩

/-- The invariant is kept by `flush_page`. -/
theorem flush_page_inv {s s1 : BufferPoolManager} (h : Inv s) {id : Int} {r : Bool}
    (hu : flush_page s id = .ok (r, s1)) : Inv s1 := by
  cases he : load s.page_table id with
  | error e => simp [flush_page, he] at hu
  | ok e =>
    obtain ⟨h0, h1⟩ := load_bounds he
    rw [h.table_len] at h1
    obtain ⟨r1, s2, hf, hinv⟩ := flush_page_total h h0 h1
    rw [hf] at hu
    cases hu
    exact hinv

/-- The loop of `flush_all_pages` keeps the invariant. -/
theorem flush_all_loop_inv (l : List Nat) :
    ∀ {s s1 : BufferPoolManager}, Inv s → flush_all_loop l s = .ok s1 → Inv s1 := by
  induction l with
  | nil =>
    intro s s1 h hl
    simp only [flush_all_loop, Except.ok.injEq] at hl
    subst hl
    exact h
  | cons i rest ih =>
    intro s s1 h hl
    unfold flush_all_loop at hl
    split at hl
    · cases hl
    · rename_i page hpage
      split at hl
      · split at hl
        · cases hl
        · rename_i r s2 hfl
          exact ih (flush_page_inv h hfl) hl
      · exact ih h hl

/-- The loop of `flush_all_pages` has a result on frame indices of the pool. -/
theorem flush_all_loop_total (l : List Nat) :
    ∀ {s : BufferPoolManager}, Inv s → (∀ i ∈ l, i < BUFFER_POOL_SIZE) →
      ∃ s1, flush_all_loop l s = .ok s1 := by
  induction l with
  | nil =>
    intro s _ _
    exact ⟨s, rfl⟩
  | cons i rest ih =>
    intro s h hl
    have hi : i < BUFFER_POOL_SIZE := hl i (List.mem_cons_self _ _)
    have hrest : ∀ j ∈ rest, j < BUFFER_POOL_SIZE := fun j hj => hl j (List.mem_cons_of_mem _ hj)
    obtain ⟨page, hpage⟩ := load_total (l := s.pages) (i := (i : Int)) (by omega)
      (by rw [h.pages_len]; exact_mod_cast hi)
    by_cases hc : page.page_id ≠ INVALID_PAGE_ID ∧ page.is_dirty = true
    · have hused : s.free_list_size ≤ (i : Int) := by
        by_contra hlt
        exact hc.1 (h.frame_free _ page hpage (by omega)).1
      obtain ⟨hp0, hp1, _⟩ := h.frame_used _ page hpage hused
      obtain ⟨r, s2, hf, hinv⟩ := flush_page_total h hp0 hp1
      obtain ⟨s3, hs3⟩ := ih hinv hrest
      exact ⟨s3, by simp [flush_all_loop, hpage, hc, hf, hs3]⟩
    · obtain ⟨s3, hs3⟩ := ih h hrest
      exact ⟨s3, by simp only [flush_all_loop, hpage, hc, if_false, hs3]⟩

theorem write_page_data_inv {s s1 : BufferPoolManager} (h : Inv s) {f : Int} {bytes : List UInt8}
    (hw : write_page_data s f bytes = .ok s1) : Inv s1 := by
  cases hp : load s.pages f with
  | error e => simp [write_page_data, hp] at hw
  | ok p =>
    obtain ⟨h0, h1⟩ := load_bounds hp
    by_cases hlen : bytes.length ≤ PAGE_SIZE
    · have hst := store_eq (l := s.pages)
        { p with data := bytes ++ p.data.drop bytes.length } h0 h1
      simp only [write_page_data, hp, hlen, if_true, hst, Except.ok.injEq] at hw
      subst hw
      refine h.set_frame (r := { p with data := bytes ++ p.data.drop bytes.length }) hp rfl ?_
        (h.frame_pin f p hp) (fun hlt => (h.frame_free f p hp hlt).2.1)
        (fun hflag => h.frame_flag f p hp hflag)
      have := h.frame_data f p hp
      simp only [List.length_append, List.length_drop]
      omega
    · simp [write_page_data, hp, hlen] at hw

theorem new_page_inv {s s1 : BufferPoolManager} (h : Inv s) {r : Int × Option Int}
    (hn : new_page s = .ok (r, s1)) : Inv s1 := by
  unfold new_page at hn
  split at hn
  · cases hn
  · rename_i frame s2 hf
    cases hn
    exact fetch_page_inv h hf

theorem load_map_range {α : Type} (g : Nat → α) (n : Nat) (i : Int) (v : α)
    (h : load ((List.range n).map g) i = .ok v) : v = g i.toNat := by
  rw [load_eq_ok_iff] at h
  obtain ⟨_, h1⟩ := h
  have hlt := (List.getElem?_eq_some_iff.mp h1).1
  simp only [List.length_map, List.length_range] at hlt
  simp [List.getElem?_eq_getElem, hlt] at h1
  exact h1.symm

theorem load_replicate {α : Type} (a : α) (n : Nat) (i : Int) (v : α)
    (h : load (List.replicate n a) i = .ok v) : v = a := by
  rw [load_eq_ok_iff] at h
  obtain ⟨_, h1⟩ := h
  have hlt := (List.getElem?_eq_some_iff.mp h1).1
  simp only [List.length_replicate] at hlt
  simp [List.getElem?_eq_getElem, hlt] at h1
  exact h1.symm

/-- A fresh pool satisfies the invariant. -/
theorem create_inv (d : DiskManager) (raw_data : Nat → Nat → UInt8) (raw_queue : Nat → Int) :
    Inv (create_buffer_pool_manager d raw_data raw_queue) := by
  constructor
  · simp [create_buffer_pool_manager]
  · simp [create_buffer_pool_manager]
  · simp [create_buffer_pool_manager]
  · simp [create_buffer_pool_manager]
  · simp [create_buffer_pool_manager]
  · intro i e hl
    have hb := (load_bounds hl).1
    have := load_map_range _ _ _ _ hl
    rw [this]
    simp [Int.toNat_of_nonneg hb]
  · simp [create_buffer_pool_manager]
  · simp [create_buffer_pool_manager, BUFFER_POOL_SIZE]
  · simp [create_buffer_pool_manager, BUFFER_POOL_SIZE]
  · intro i e hl hi
    have hb := (load_bounds hl).1
    simp only [create_buffer_pool_manager] at hi
    omega
  · intro i p hl hi
    have hb := load_bounds hl
    have hp := load_map_range _ _ _ _ hl
    simp only [create_buffer_pool_manager, List.length_map, List.length_range] at hb
    obtain ⟨fl, hfl⟩ := load_total
      (l := (create_buffer_pool_manager d raw_data raw_queue).lru_in_replacer) hb.1
      (by simpa [create_buffer_pool_manager] using hb.2)
    have hflv := load_replicate _ _ _ _ hfl
    subst hflv
    subst hp
    exact ⟨rfl, rfl, hfl⟩
  · intro i p hl hi
    have hb := load_bounds hl
    simp only [create_buffer_pool_manager, List.length_map, List.length_range] at hb hi
    omega
  · intro i p hl
    have hp := load_map_range _ _ _ _ hl
    subst hp
    exact le_refl _
  · intro i p hl hfl
    have hp := load_map_range _ _ _ _ hl
    subst hp
    rfl
  · intro i p hl
    have hp := load_map_range _ _ _ _ hl
    subst hp
    simp
  · intro q e hl hne
    exact absurd (load_replicate _ _ _ _ hl) hne

/-- The invariant is kept by every call with a defined result. -/
theorem step_inv {s s1 : BufferPoolManager} (h : Inv s) (op : Op)
    (hs : step s op = .ok s1) : Inv s1 := by
  cases op with
  | fetch id =>
    simp only [step] at hs
    cases hf : fetch_page s id with
    | error e => simp [hf, Except.map] at hs
    | ok r =>
      obtain ⟨fr, s2⟩ := r
      simp only [hf, Except.map, Except.ok.injEq] at hs
      subst hs
      exact fetch_page_inv h hf
  | new =>
    simp only [step] at hs
    cases hf : new_page s with
    | error e => simp [hf, Except.map] at hs
    | ok r =>
      obtain ⟨fr, s2⟩ := r
      simp only [hf, Except.map, Except.ok.injEq] at hs
      subst hs
      exact new_page_inv h hf
  | unpin id d =>
    simp only [step] at hs
    cases hf : unpin_page s id d with
    | error e => simp [hf, Except.map] at hs
    | ok r =>
      obtain ⟨fr, s2⟩ := r
      simp only [hf, Except.map, Except.ok.injEq] at hs
      subst hs
      exact unpin_page_inv h hf
  | flush id =>
    simp only [step] at hs
    cases hf : flush_page s id with
    | error e => simp [hf, Except.map] at hs
    | ok r =>
      obtain ⟨fr, s2⟩ := r
      simp only [hf, Except.map, Except.ok.injEq] at hs
      subst hs
      exact flush_page_inv h hf
  | flush_all => exact flush_all_loop_inv _ h hs
  | write f bytes => exact write_page_data_inv h hs

/-- Every reachable pool satisfies the invariant. -/
theorem Reachable.inv {s : BufferPoolManager} (hr : Reachable s) : Inv s := by
  induction hr with
  | init d raw_data raw_queue => exact create_inv d raw_data raw_queue
  | step op _ hs ih => exact step_inv ih op hs

theorem run_reachable (ops : List Op) :
    ∀ {s s1 : BufferPoolManager}, Reachable s → run s ops = .ok s1 → Reachable s1 := by
  induction ops with
  | nil =>
    intro s s1 hr h
    simp only [run, Except.ok.injEq] at h
    subst h
    exact hr
  | cons op ops ih =>
    intro s s1 hr h
    unfold run at h
    split at h
    · cases h
    · rename_i s2 hs
      exact ih (Reachable.step op hr hs) h

theorem fresh_pool_reachable : Reachable fresh_pool := Reachable.init _ _ _

theorem mem_of_load {α : Type} {l : List α} {i : Int} {v : α} (h : load l i = .ok v) :
    v ∈ l := by
  rw [load_eq_ok_iff] at h
  exact List.mem_iff_getElem?.mpr ⟨_, h.2⟩

theorem load_of_mem {α : Type} {l : List α} {v : α} (h : v ∈ l) :
    ∃ i : Int, load l i = .ok v := by
  obtain ⟨n, hn⟩ := List.mem_iff_getElem?.mp h
  exact ⟨(n : Int), (load_eq_ok_iff _ _ _).mpr ⟨by omega, by simpa using hn⟩⟩

/-- C1. In the eviction-order scenario of the specification (pages `0..9` fetched on
a fresh pool, then unpinned in the order `0, 1, ..., 9`) every frame is unpinned and
page 0 sits in frame 9, yet `fetch_page(10)` returns no page and evicts nothing: the
ten queue entries have wrapped the tail of the ring buffer onto its head.  Also, after
unpinning page 0, then page 1, and pinning and unpinning page 0 again, `fetch_page(10)`
evicts page 0 although page 1 has been unpinned for longer. -/
theorem C1_eviction_order_violated :
    (run fresh_pool (fetches BUFFER_POOL_SIZE ++ unpins BUFFER_POOL_SIZE) = .ok unpinned_pool
      ∧ unpinned_pool.free_list_size = 0
      ∧ (∀ p ∈ unpinned_pool.pages, p.page_id ≠ INVALID_PAGE_ID ∧ p.pin_count = 0)
      ∧ load unpinned_pool.page_table 0 = .ok 9
      ∧ load unpinned_pool.page_table 10 = .ok INVALID_PAGE_ID
      ∧ unpinned_pool.lru_head = unpinned_pool.lru_tail
      ∧ fetch_page unpinned_pool 10 = .ok (none, unpinned_pool))
    ∧ (run fresh_pool (fetches BUFFER_POOL_SIZE ++
          [Op.unpin 0 false, Op.unpin 1 false, Op.fetch 0, Op.unpin 0 false]) = .ok repinned_pool
      ∧ load repinned_pool.page_table 0 = .ok 9
      ∧ load repinned_pool.page_table 1 = .ok 8
      ∧ (fetch_page repinned_pool 10).map Prod.fst = .ok (some 9)
      ∧ load (run_or repinned_pool [Op.fetch 10]).page_table 0 = .ok INVALID_PAGE_ID
      ∧ load (run_or repinned_pool [Op.fetch 10]).page_table 1 = .ok 8) := by
  refine ⟨⟨rfl, by decide, by decide, rfl, rfl, by decide, rfl⟩, rfl, rfl, rfl, rfl, rfl, rfl⟩

/-- C2. On a fresh pool over an empty backing file the first call of `new_page` returns
identifier 0 in frame 9, and so does the second: `allocate_page_on_disk` derives the
identifier from the size of the file, which `new_page` does not extend. -/
theorem C2_new_page_repeats_identifier :
    allocate_page_on_disk fresh_pool.disk_manager = 0
    ∧ (new_page fresh_pool).map Prod.fst = .ok (0, some 9)
    ∧ allocate_page_on_disk (run_or fresh_pool [Op.new]).disk_manager = 0
    ∧ (new_page (run_or fresh_pool [Op.new])).map Prod.fst = .ok (0, some 9)
    ∧ (page_at (run_or fresh_pool [Op.new, Op.new]) 9).pin_count = 2 := by
  refine ⟨by decide, rfl, by decide, rfl, by decide⟩

/-- C4. After fetching the pages `0..9` and unpinning and re-fetching page 0 nine
times, `unpin_page(0, false)` returns true and brings the pin count of page 0 (in frame
9) to zero, yet `fetch_page(10)` for the absent page 10 returns no page. -/
theorem C4_exhaustion_with_unpinned_frame :
    run fresh_pool (fetches BUFFER_POOL_SIZE ++
        (List.replicate 9 [Op.unpin 0 false, Op.fetch 0]).flatten) = .ok churned_pool
    ∧ (unpin_page churned_pool 0 false).map Prod.fst = .ok true
    ∧ load (run_or churned_pool [Op.unpin 0 false]).page_table 0 = .ok 9
    ∧ (page_at (run_or churned_pool [Op.unpin 0 false]) 9).page_id = 0
    ∧ (page_at (run_or churned_pool [Op.unpin 0 false]) 9).pin_count = 0
    ∧ load (run_or churned_pool [Op.unpin 0 false]).lru_in_replacer 9 = .ok true
    ∧ load (run_or churned_pool [Op.unpin 0 false]).page_table 10 = .ok INVALID_PAGE_ID
    ∧ fetch_page (run_or churned_pool [Op.unpin 0 false]) 10
        = .ok (none, run_or churned_pool [Op.unpin 0 false]) := by
  refine ⟨rfl, rfl, rfl, by decide, by decide, rfl, rfl, rfl⟩

theorem pinned_pool_reachable : Reachable pinned_pool :=
  run_reachable (fetches BUFFER_POOL_SIZE) fresh_pool_reachable rfl

theorem new_page_eq (s : BufferPoolManager) :
    new_page s = (fetch_page s (allocate_page_on_disk s.disk_manager)).map
      (fun r => ((allocate_page_on_disk s.disk_manager, r.1), r.2)) := by
  unfold new_page
  cases fetch_page s (allocate_page_on_disk s.disk_manager) with
  | error e => rfl
  | ok r => rfl

/-- A miss of `fetch_page` that returns a frame reuses a frame whose pin count was zero
and leaves every pinned frame as it was. -/
theorem fetch_page_miss_frame {s s1 : BufferPoolManager} (h : Inv s) {id f : Int}
    (hmiss : load s.page_table id = .ok INVALID_PAGE_ID)
    (hf : fetch_page s id = .ok (some f, s1)) :
    (∃ victim, load s.pages f = .ok victim ∧ victim.pin_count = 0) ∧
    ∀ g p, load s.pages g = .ok p → 0 < p.pin_count → load s1.pages g = .ok p := by
  by_cases hfree : 0 < s.free_list_size
  · obtain ⟨old, hold, hfetch⟩ := fetch_page_free h hmiss hfree
    rw [hfetch] at hf
    simp only [Except.ok.injEq, Prod.mk.injEq, Option.some.injEq] at hf
    obtain ⟨hf1, hf2⟩ := hf
    subst hf1 hf2
    have hz := (h.frame_free _ old hold (by omega)).2.1
    obtain ⟨h0, h1⟩ := load_bounds hold
    refine ⟨⟨old, hold, hz⟩, ?_⟩
    intro g p hg hpin
    show load (s.pages.set _ _) g = _
    rw [load_set _ _ h0 h1]
    split
    · rename_i hgf
      rw [hgf, hold] at hg
      cases hg
      omega
    · exact hg
  · rcases fetch_page_evict h hmiss (by omega) with ⟨_, hnone⟩ | ⟨f1, hd, victim, hflag, hv, _, _, _, _, hfetch⟩
    · rw [hnone] at hf
      cases hf
    · rw [hfetch] at hf
      simp only [Except.ok.injEq, Prod.mk.injEq, Option.some.injEq] at hf
      obtain ⟨hf1, hf2⟩ := hf
      subst hf1 hf2
      have hz := h.frame_flag _ victim hv hflag
      obtain ⟨h0, h1⟩ := load_bounds hv
      refine ⟨⟨victim, hv, hz⟩, ?_⟩
      intro g p hg hpin
      show load (s.pages.set _ _) g = _
      rw [load_set _ _ h0 h1]
      split
      · rename_i hgf
        rw [hgf, hv] at hg
        cases hg
        omega
      · exact hg

/-- With an empty free list and every resident frame pinned, a miss returns no page
and leaves the pool as it was. -/
theorem fetch_page_all_pinned {s : BufferPoolManager} (h : Inv s) {id : Int}
    (hmiss : load s.page_table id = .ok INVALID_PAGE_ID) (hfull : s.free_list_size = 0)
    (hpinned : ∀ p ∈ s.pages, p.page_id ≠ INVALID_PAGE_ID → 0 < p.pin_count) :
    fetch_page s id = .ok (none, s) := by
  rcases fetch_page_evict h hmiss (by omega) with ⟨_, hnone⟩ | ⟨f1, hd, victim, hflag, hv, _, _, _, _, _⟩
  · exact hnone
  · have hz := h.frame_flag _ victim hv hflag
    have hu := h.frame_used _ victim hv (by have := (load_bounds hv).1; omega)
    have := hpinned victim (mem_of_load hv) (by simp only [INVALID_PAGE_ID]; omega)
    omega

/-- C3. Pinned pages are never evicted.  In a state reachable from a fresh pool, for an
identifier of the page table that is not resident: `fetch_page` has a result; when it
returns a frame, that frame had pin count zero before the call and every frame with a
positive pin count is left as it was (the same holds for `new_page` when it allocates
this identifier, and the frame chosen by `lru_replacer_evict` is resident with pin
count zero); and when the free list is empty and every resident frame has a positive
pin count, `fetch_page` and `new_page` return no page and leave the pool as it was. -/
theorem C3_pinned_pages_never_evicted (s : BufferPoolManager) (hr : Reachable s) (id : Int)
    (hmiss : load s.page_table id = .ok INVALID_PAGE_ID) :
    (∃ r s1, fetch_page s id = .ok (r, s1)) ∧
    (∀ f s1, fetch_page s id = .ok (some f, s1) →
      (∃ victim, load s.pages f = .ok victim ∧ victim.pin_count = 0) ∧
      ∀ g p, load s.pages g = .ok p → 0 < p.pin_count → load s1.pages g = .ok p) ∧
    (allocate_page_on_disk s.disk_manager = id →
      ∀ f s1, new_page s = .ok ((id, some f), s1) →
      (∃ victim, load s.pages f = .ok victim ∧ victim.pin_count = 0) ∧
      ∀ g p, load s.pages g = .ok p → 0 < p.pin_count → load s1.pages g = .ok p) ∧
    (∀ f s1, lru_replacer_evict s = .ok (some f, s1) →
      ∃ victim, load s.pages f = .ok victim ∧ victim.pin_count = 0 ∧
        victim.page_id ≠ INVALID_PAGE_ID) ∧
    (s.free_list_size = 0 →
      (∀ p ∈ s.pages, p.page_id ≠ INVALID_PAGE_ID → 0 < p.pin_count) →
      fetch_page s id = .ok (none, s) ∧
      (allocate_page_on_disk s.disk_manager = id → new_page s = .ok ((id, none), s))) := by
  have h := hr.inv
  refine ⟨?_, ?_, ?_, ?_, ?_⟩
  · by_cases hfree : 0 < s.free_list_size
    · obtain ⟨old, _, hfetch⟩ := fetch_page_free h hmiss hfree
      exact ⟨_, _, hfetch⟩
    · rcases fetch_page_evict h hmiss (by omega) with ⟨_, hnone⟩ | ⟨f1, hd, victim, _, _, _, _, _, _, hfetch⟩
      · exact ⟨_, _, hnone⟩
      · exact ⟨_, _, hfetch⟩
  · intro f s1 hf
    exact fetch_page_miss_frame h hmiss hf
  · intro hal f s1 hn
    rw [new_page_eq, hal] at hn
    cases hfp : fetch_page s id with
    | error e => simp [hfp, Except.map] at hn
    | ok r =>
      obtain ⟨r1, s2⟩ := r
      simp only [hfp, Except.map, Except.ok.injEq, Prod.mk.injEq, true_and] at hn
      obtain ⟨hn1, hn2⟩ := hn
      subst hn1 hn2
      exact fetch_page_miss_frame h hmiss hfp
  · intro f s1 hev
    rcases lru_replacer_evict_spec h with hnone | ⟨f1, hd, hflag, _, _, _, hev1⟩
    · rw [hnone] at hev
      cases hev
    · rw [hev1] at hev
      simp only [Except.ok.injEq, Prod.mk.injEq, Option.some.injEq] at hev
      obtain ⟨hf1, _⟩ := hev
      subst hf1
      obtain ⟨h0, h1⟩ := load_bounds hflag
      obtain ⟨victim, hv⟩ := load_total (l := s.pages) h0
        (by rw [h.pages_len, ← h.flags_len]; exact h1)
      have hz := h.frame_flag _ victim hv hflag
      refine ⟨victim, hv, hz, ?_⟩
      intro hinv
      by_cases hlt : f1 < s.free_list_size
      · have := (h.frame_free _ victim hv hlt).2.2
        rw [hflag] at this
        cases this
      · have := (h.frame_used _ victim hv (by omega)).1
        simp only [INVALID_PAGE_ID] at hinv
        omega
  · intro hfull hpinned
    have hfetch := fetch_page_all_pinned h hmiss hfull hpinned
    refine ⟨hfetch, ?_⟩
    intro hal
    rw [new_page_eq, hal, hfetch]
    rfl

/-- C3, on the pool in which the pages `0..9` are all pinned: `fetch_page(10)` returns no page. -/
theorem C3_pinned_pages_never_evicted_witness :
    Reachable pinned_pool ∧ load pinned_pool.page_table 10 = .ok INVALID_PAGE_ID ∧
    pinned_pool.free_list_size = 0 ∧
    (∀ p ∈ pinned_pool.pages, p.page_id ≠ INVALID_PAGE_ID → 0 < p.pin_count) ∧
    fetch_page pinned_pool 10 = .ok (none, pinned_pool) :=
  ⟨pinned_pool_reachable, rfl, by decide, by decide,
    ((C3_pinned_pages_never_evicted pinned_pool pinned_pool_reachable 10 rfl).2.2.2.2
      (by decide) (by decide)).1⟩

theorem unpinned_pool_reachable : Reachable unpinned_pool :=
  run_reachable (fetches BUFFER_POOL_SIZE ++ unpins BUFFER_POOL_SIZE) fresh_pool_reachable rfl

/-- C6. Page-table consistency.  In every state reachable from a fresh pool, for a page
identifier `p` of the page table and a frame index `f` of the pool, `page_table[p] = f`
if and only if `pages[f].page_id = p`; hence two frames holding the same valid page
identifier are the same frame, and two page identifiers mapped to the same frame are
the same identifier. -/
theorem C6_page_table_consistent (s : BufferPoolManager) (hr : Reachable s) :
    (∀ p f : Int, 0 ≤ p → p < (TABLE_MAX_PAGES : Int) → 0 ≤ f → f < (BUFFER_POOL_SIZE : Int) →
      (load s.page_table p = .ok f ↔ ∃ pg, load s.pages f = .ok pg ∧ pg.page_id = p)) ∧
    (∀ (f g : Int) (pf pg : Page), load s.pages f = .ok pf → load s.pages g = .ok pg →
      pf.page_id ≠ INVALID_PAGE_ID → pf.page_id = pg.page_id → f = g) ∧
    (∀ p q e : Int, load s.page_table p = .ok e → load s.page_table q = .ok e →
      e ≠ INVALID_PAGE_ID → p = q) := by
  have h := hr.inv
  have key : ∀ (f : Int) (pf : Page), load s.pages f = .ok pf →
      pf.page_id ≠ INVALID_PAGE_ID → load s.page_table pf.page_id = .ok f := by
    intro f pf hpf hne
    by_cases hlt : f < s.free_list_size
    · exact absurd (h.frame_free f pf hpf hlt).1 hne
    · exact (h.frame_used f pf hpf (by omega)).2.2
  refine ⟨?_, ?_, ?_⟩
  · intro p f hp0 _ hf0 _
    constructor
    · intro hl
      exact h.table_ok p f hl (by simp only [INVALID_PAGE_ID]; omega)
    · rintro ⟨pg, hpg, hid⟩
      have := key f pg hpg (by simp only [INVALID_PAGE_ID]; omega)
      rw [hid] at this
      exact this
  · intro f g pf pg hpf hpg hne heq
    have h1 := key f pf hpf hne
    have h2 := key g pg hpg (by rw [← heq]; exact hne)
    rw [heq, h2] at h1
    simp only [Except.ok.injEq] at h1
    exact h1.symm
  · intro p q e hp hq hne
    obtain ⟨pg1, h1, hid1⟩ := h.table_ok p e hp hne
    obtain ⟨pg2, h2, hid2⟩ := h.table_ok q e hq hne
    rw [h1] at h2
    cases h2
    rw [← hid1, ← hid2]

/-- C6, on the pool in which the pages `0..9` are pinned: page 0 is mapped to frame 9
exactly when frame 9 holds page 0. -/
theorem C6_page_table_consistent_witness :
    Reachable pinned_pool ∧
    (load pinned_pool.page_table 0 = .ok 9 ↔
      ∃ pg, load pinned_pool.pages 9 = .ok pg ∧ pg.page_id = 0) :=
  ⟨pinned_pool_reachable,
    (C6_page_table_consistent pinned_pool pinned_pool_reachable).1 0 9
      (by decide) (by decide) (by decide) (by decide)⟩

/-- C8. When `unpin_page(id, d)` succeeds in a state reachable from a fresh pool, the
page was resident in a frame `f` with a positive pin count; afterwards that frame has
the same bytes and page identifier, its pin count is one less and its dirty flag is
`d` or the old flag; every other frame, the page table, the free list, the head of the
queue and the disk are unchanged; the in-queue flags of the other frames are unchanged;
and the flag of `f` is set exactly when the new pin count is zero, in which case `f` is
written at the old tail of the queue and the tail advances by one position, while
otherwise queue and tail are unchanged. -/
theorem C8_unpin_page_success (s s1 : BufferPoolManager) (hr : Reachable s) (id : Int)
    (d : Bool) (hun : unpin_page s id d = .ok (true, s1)) :
    ∃ f p, load s.page_table id = .ok f ∧ f ≠ INVALID_PAGE_ID ∧ load s.pages f = .ok p ∧
      0 < p.pin_count ∧
      load s1.pages f = .ok { data := p.data, page_id := p.page_id,
                              pin_count := p.pin_count - 1, is_dirty := (d || p.is_dirty) } ∧
      (∀ g, g ≠ f → load s1.pages g = load s.pages g) ∧
      s1.page_table = s.page_table ∧ s1.free_list = s.free_list ∧
      s1.free_list_size = s.free_list_size ∧ s1.lru_head = s.lru_head ∧
      s1.disk_manager = s.disk_manager ∧
      (∀ g, g ≠ f → load s1.lru_in_replacer g = load s.lru_in_replacer g) ∧
      load s.lru_in_replacer f = .ok false ∧
      load s1.lru_in_replacer f = .ok (decide (p.pin_count - 1 = 0)) ∧
      (p.pin_count - 1 = 0 →
        s1.lru_replacer = s.lru_replacer.set s.lru_tail.toNat f ∧
        load s1.lru_replacer s.lru_tail = .ok f ∧
        s1.lru_tail = (s.lru_tail + 1) % (BUFFER_POOL_SIZE : Int)) ∧
      (p.pin_count - 1 ≠ 0 →
        s1.lru_replacer = s.lru_replacer ∧ s1.lru_tail = s.lru_tail) := by
  have h := hr.inv
  cases he : load s.page_table id with
  | error e => simp [unpin_page, he] at hun
  | ok e =>
    by_cases hne : e = INVALID_PAGE_ID
    · subst hne
      rw [unpin_page_absent d he] at hun
      cases hun
    · obtain ⟨p, hp, _, _⟩ := resident_frame h he hne
      by_cases hpin : 0 < p.pin_count
      · obtain ⟨hfl, hres⟩ := unpin_page_pinned h d he hne hp hpin
        rw [hres] at hun
        simp only [Except.ok.injEq, Prod.mk.injEq, true_and] at hun
        subst hun
        obtain ⟨hf0, hf1⟩ := load_bounds hp
        have hf2 : e < s.lru_in_replacer.length := by
          rw [h.flags_len, ← h.pages_len]; exact hf1
        have ht := h.tail_range
        have ht2 : s.lru_tail < s.lru_replacer.length := by rw [h.queue_len]; exact ht.2
        have hup : unpinned p d =
            { data := p.data, page_id := p.page_id,
              pin_count := p.pin_count - 1, is_dirty := (d || p.is_dirty) } := by
          cases d <;> rfl
        refine ⟨e, p, rfl, hne, hp, hpin, ?_⟩
        by_cases hz : p.pin_count - 1 = 0
        · have hs1 : after_unpin s e p d =
              { s with
                pages := s.pages.set e.toNat (unpinned p d)
                lru_replacer := s.lru_replacer.set s.lru_tail.toNat e
                lru_tail := (s.lru_tail + 1) % (BUFFER_POOL_SIZE : Int)
                lru_in_replacer := s.lru_in_replacer.set e.toNat true } := by
            unfold after_unpin
            rw [if_pos hz]
          rw [hs1, ← hup]
          refine ⟨?_, ?_, rfl, rfl, rfl, rfl, rfl, ?_, hfl, ?_, ?_, ?_⟩
          · show load (s.pages.set _ _) e = _
            rw [load_set _ _ hf0 hf1]; simp
          · intro g hg
            show load (s.pages.set _ _) g = _
            rw [load_set _ _ hf0 hf1]; simp [hg]
          · intro g hg
            show load (s.lru_in_replacer.set _ _) g = _
            rw [load_set _ _ hf0 hf2]; simp [hg]
          · show load (s.lru_in_replacer.set _ _) e = _
            rw [load_set _ _ hf0 hf2]; simp [hz]
          · intro _
            refine ⟨rfl, ?_, rfl⟩
            show load (s.lru_replacer.set _ _) s.lru_tail = _
            rw [load_set _ _ ht.1 ht2]; simp
          · intro hnz
            exact absurd hz hnz
        · have hs1 : after_unpin s e p d =
              { s with pages := s.pages.set e.toNat (unpinned p d) } := by
            unfold after_unpin
            rw [if_neg hz]
          rw [hs1, ← hup]
          refine ⟨?_, ?_, rfl, rfl, rfl, rfl, rfl, ?_, hfl, ?_, ?_, ?_⟩
          · show load (s.pages.set _ _) e = _
            rw [load_set _ _ hf0 hf1]; simp
          · intro g hg
            show load (s.pages.set _ _) g = _
            rw [load_set _ _ hf0 hf1]; simp [hg]
          · intro g _
            rfl
          · show load s.lru_in_replacer e = _
            rw [hfl]; simp [hz]
          · intro hzz
            exact absurd hzz hz
          · intro _
            exact ⟨rfl, rfl⟩
      · rw [unpin_page_zero d he hne hp (by omega)] at hun
        cases hun

/-- C8, on the pool in which the pages `0..9` are pinned: `unpin_page(0, true)`. -/
theorem C8_unpin_page_success_witness :
    Reachable pinned_pool ∧
    unpin_page pinned_pool 0 true = .ok (true, run_or pinned_pool [Op.unpin 0 true]) ∧
    ∃ f p, load pinned_pool.page_table 0 = .ok f ∧ f ≠ INVALID_PAGE_ID ∧
      load pinned_pool.pages f = .ok p ∧ 0 < p.pin_count ∧
      load (run_or pinned_pool [Op.unpin 0 true]).pages f
        = .ok { data := p.data, page_id := p.page_id,
                pin_count := p.pin_count - 1, is_dirty := (true || p.is_dirty) } :=
  ⟨pinned_pool_reachable, rfl,
    match C8_unpin_page_success pinned_pool (run_or pinned_pool [Op.unpin 0 true])
      pinned_pool_reachable 0 true rfl with
    | ⟨f, p, h1, h2, h3, h4, h5, _⟩ => ⟨f, p, h1, h2, h3, h4, h5⟩⟩

/-! ### The pin count as a 32-bit `int` -/

theorem to_int32_of_range {x : Int} (h0 : -2147483648 ≤ x) (h1 : x < 2147483648) :
    to_int32 x = x := by
  unfold to_int32
  split <;> omega

/-- The value `to_int32 x` lies in the range of a 32-bit `int` and differs from `x` by a
multiple of `2^32`. -/
theorem to_int32_spec (x : Int) :
    -2147483648 ≤ to_int32 x ∧ to_int32 x < 2147483648 ∧
      (to_int32 x - x) % 4294967296 = 0 := by
  unfold to_int32
  split <;> omega

/-- On a pool that satisfies the invariant and whose pin counts are below `INT_MAX`,
`fetch_page_int32` is `fetch_page`. -/
theorem fetch_page_int32_eq {s : BufferPoolManager} (h : Inv s) (hb : pins_below_max s)
    (id : Int) : fetch_page_int32 s id = fetch_page s id := by
  unfold fetch_page_int32 fetch_page
  cases hl : load s.page_table id with
  | error e => rfl
  | ok entry =>
    dsimp only
    by_cases he : entry ≠ INVALID_PAGE_ID
    · rw [if_pos he, if_pos he]
      cases hp : load s.pages entry with
      | error e => rfl
      | ok page =>
        dsimp only
        have h0 := h.frame_pin entry page hp
        have h1 : page.pin_count < INT_MAX := hb page (mem_of_load hp)
        simp only [INT_MAX] at h1
        have h2 : to_int32 (page.pin_count + 1) = page.pin_count + 1 :=
          to_int32_of_range (by omega) (by omega)
        rw [h2]
    · rw [if_neg he, if_neg he]

/-- A call of `new_page_int32` is a call of `fetch_page_int32` for the identifier that
`allocate_page_on_disk_int32` returns. -/
theorem new_page_int32_eq (s : BufferPoolManager) :
    (new_page_int32 s).map Prod.snd
      = (fetch_page_int32 s (allocate_page_on_disk_int32 s.disk_manager)).map Prod.snd := by
  unfold new_page_int32
  generalize fetch_page_int32 s (allocate_page_on_disk_int32 s.disk_manager) = x
  cases x with
  | error e => rfl
  | ok r =>
    obtain ⟨frame, s1⟩ := r
    rfl

/-- On a pool that satisfies the invariant, a call with 32-bit pin counts and page
identifiers, made while the pin counts are below `INT_MAX` if it is a call of
`fetch_page` or `new_page`, leads to a state that a call of the functions computing in
the integers leads to as well. -/
theorem step_int32_sim {s s1 : BufferPoolManager} (h : Inv s) (op : Op)
    (hb : op.pins = true → pins_below_max s) (hs : step_int32 s op = .ok s1) :
    ∃ op1, step s op1 = .ok s1 := by
  cases op with
  | fetch page_id =>
    refine ⟨Op.fetch page_id, ?_⟩
    have h1 : (fetch_page_int32 s page_id).map Prod.snd = .ok s1 := hs
    rw [fetch_page_int32_eq h (hb rfl)] at h1
    exact h1
  | new =>
    refine ⟨Op.fetch (allocate_page_on_disk_int32 s.disk_manager), ?_⟩
    have h1 : (new_page_int32 s).map Prod.snd = .ok s1 := hs
    rw [new_page_int32_eq, fetch_page_int32_eq h (hb rfl)] at h1
    exact h1
  | unpin page_id is_dirty => exact ⟨Op.unpin page_id is_dirty, hs⟩
  | flush page_id => exact ⟨Op.flush page_id, hs⟩
  | flush_all => exact ⟨Op.flush_all, hs⟩
  | write frame_id bytes => exact ⟨Op.write frame_id bytes, hs⟩

/-- A state reached by calls of which those of `fetch_page` and `new_page` are made while
the pin counts are below `INT_MAX` is a state reached by calls of the functions that
compute in the integers. -/
theorem ReachableWithin.reachable {s : BufferPoolManager} (hr : ReachableWithin s) :
    Reachable s := by
  induction hr with
  | init d raw_data raw_queue => exact Reachable.init d raw_data raw_queue
  | step op _ hb hs ih =>
    obtain ⟨op1, h1⟩ := step_int32_sim ih.inv op hb hs
    exact Reachable.step op1 ih h1

theorem run_within_reachable (ops : List Op) :
    ∀ {s s1 : BufferPoolManager}, ReachableWithin s → run_within s ops = some s1 →
      ReachableWithin s1 := by
  induction ops with
  | nil =>
    intro s s1 hr h
    simp only [run_within, Option.some.injEq] at h
    subst h
    exact hr
  | cons op ops ih =>
    intro s s1 hr h
    unfold run_within at h
    split at h
    · rename_i hb
      split at h
      · cases h
      · rename_i s2 hs
        exact ih (ReachableWithin.step op hr hb hs) h
    · cases h

theorem fresh_pool_within : ReachableWithin fresh_pool := ReachableWithin.init _ _ _

/-- A hit of `fetch_page_int32`: the pin count of the frame is incremented in 32 bits and
its in-queue flag is cleared. -/
theorem fetch_page_int32_hit {s : BufferPoolManager} {id e : Int} {p : Page}
    (he : load s.page_table id = .ok e) (hne : e ≠ INVALID_PAGE_ID)
    (hp : load s.pages e = .ok p) (hlen : e < s.lru_in_replacer.length) :
    fetch_page_int32 s id = .ok (some e,
      { s with
        pages := s.pages.set e.toNat { p with pin_count := to_int32 (p.pin_count + 1) }
        lru_in_replacer := s.lru_in_replacer.set e.toNat false }) := by
  obtain ⟨h0, h1⟩ := load_bounds hp
  have hst := store_eq (l := s.pages) { p with pin_count := to_int32 (p.pin_count + 1) } h0 h1
  have hfl := store_eq (l := s.lru_in_replacer) false h0 hlen
  simp [fetch_page_int32, he, hne, hp, hst, lru_replacer_pin, hfl]

theorem set_getD_self {α : Type} (l : List α) (d : α) :
    ∀ n : Nat, l.set n (l.getD n d) = l := by
  induction l with
  | nil => intro n; rfl
  | cons a t ih =>
    intro n
    cases n with
    | zero => rfl
    | succ k =>
      show a :: t.set k (t.getD k d) = a :: t
      rw [ih k]

theorem hit_pool_one : hit_pool 1 = run_or fresh_pool [Op.fetch 0] := by
  have e1 : ({ page_at (run_or fresh_pool [Op.fetch 0]) 9 with pin_count := 1 } : Page)
      = page_at (run_or fresh_pool [Op.fetch 0]) 9 := rfl
  have hx : (run_or fresh_pool [Op.fetch 0]).pages.set 9
      { page_at (run_or fresh_pool [Op.fetch 0]) 9 with pin_count := 1 }
      = (run_or fresh_pool [Op.fetch 0]).pages := by
    rw [e1]
    exact set_getD_self _ _ 9
  unfold hit_pool
  rw [hx]

/-- The first `fetch_page(0)` on a fresh pool over an empty backing file loads page 0
into frame 9 with pin count 1. -/
theorem hit_pool_first : step_int32 fresh_pool (Op.fetch 0) = .ok (hit_pool 1) := by
  have h1 : step_int32 fresh_pool (Op.fetch 0) = step fresh_pool (Op.fetch 0) := by
    show (fetch_page_int32 fresh_pool 0).map Prod.snd = (fetch_page fresh_pool 0).map Prod.snd
    rw [fetch_page_int32_eq fresh_pool_reachable.inv (by decide)]
  have h2 : step fresh_pool (Op.fetch 0) = .ok (run_or fresh_pool [Op.fetch 0]) := rfl
  rw [h1, h2, hit_pool_one]

/-- Each further `fetch_page(0)` is a hit that replaces the pin count `n` of frame 9 by
the 32-bit value of `n + 1`. -/
theorem hit_pool_next (n : Int) :
    step_int32 (hit_pool n) (Op.fetch 0) = .ok (hit_pool (to_int32 (n + 1))) := by
  have he : load (hit_pool n).page_table 0 = .ok 9 := rfl
  have hp : load (hit_pool n).pages 9
      = .ok { page_at (run_or fresh_pool [Op.fetch 0]) 9 with pin_count := n } := rfl
  have hlen : (9 : Int) < ((hit_pool n).lru_in_replacer.length : Int) := by
    show (9 : Int) < ((run_or fresh_pool [Op.fetch 0]).lru_in_replacer.length : Int)
    decide
  have h := fetch_page_int32_hit he (by decide) hp hlen
  have hfl : (run_or fresh_pool [Op.fetch 0]).lru_in_replacer.set 9 false
      = (run_or fresh_pool [Op.fetch 0]).lru_in_replacer := rfl
  have hpages : ((run_or fresh_pool [Op.fetch 0]).pages.set 9
        { page_at (run_or fresh_pool [Op.fetch 0]) 9 with pin_count := n }).set 9
        { page_at (run_or fresh_pool [Op.fetch 0]) 9 with pin_count := to_int32 (n + 1) }
      = (run_or fresh_pool [Op.fetch 0]).pages.set 9
        { page_at (run_or fresh_pool [Op.fetch 0]) 9 with pin_count := to_int32 (n + 1) } :=
    List.set_set _ _ _ _
  have hX : ({ hit_pool n with
        pages := (hit_pool n).pages.set (9 : Int).toNat
          { ({ page_at (run_or fresh_pool [Op.fetch 0]) 9 with pin_count := n } : Page) with
            pin_count := to_int32 (n + 1) }
        lru_in_replacer := (hit_pool n).lru_in_replacer.set (9 : Int).toNat false }
        : BufferPoolManager) = hit_pool (to_int32 (n + 1)) := by
    show ({ run_or fresh_pool [Op.fetch 0] with
        pages := ((run_or fresh_pool [Op.fetch 0]).pages.set 9
          { page_at (run_or fresh_pool [Op.fetch 0]) 9 with pin_count := n }).set 9
          { page_at (run_or fresh_pool [Op.fetch 0]) 9 with pin_count := to_int32 (n + 1) }
        lru_in_replacer := (run_or fresh_pool [Op.fetch 0]).lru_in_replacer.set 9 false }
        : BufferPoolManager) = _
    rw [hpages, hfl]
    rfl
  show (fetch_page_int32 (hit_pool n) 0).map Prod.snd = _
  rw [h]
  exact congrArg Except.ok hX

/-- After `n + 1` calls of `fetch_page(0)`, for `n + 1` up to `INT_MAX`, the pin count of
frame 9 is `n + 1`. -/
theorem hit_pool_reachable (n : Nat) (hn : n < 2147483647) :
    Reachable_int32 (hit_pool ((n : Int) + 1)) := by
  induction n with
  | zero => exact Reachable_int32.step (Op.fetch 0) (Reachable_int32.init _ _ _) hit_pool_first
  | succ k ih =>
    have hk := Reachable_int32.step (Op.fetch 0) (ih (by omega)) (hit_pool_next ((k : Int) + 1))
    have h2 : to_int32 ((k : Int) + 1 + 1) = ((k + 1 : Nat) : Int) + 1 := by
      rw [to_int32_of_range (x := (k : Int) + 1 + 1) (by omega) (by omega)]
      push_cast
      rfl
    rw [h2] at hk
    exact hk

/-- The call number `2^31` of `fetch_page(0)` wraps the pin count of frame 9 from
`INT_MAX` to `-2147483648`. -/
theorem hit_pool_wrapped :
    Reachable_int32 (hit_pool 2147483647) ∧
    step_int32 (hit_pool 2147483647) (Op.fetch 0) = .ok (hit_pool (-2147483648)) ∧
    Reachable_int32 (hit_pool (-2147483648)) := by
  have h1 : Reachable_int32 (hit_pool 2147483647) := hit_pool_reachable 2147483646 (by omega)
  have h2 : step_int32 (hit_pool 2147483647) (Op.fetch 0) = .ok (hit_pool (-2147483648)) :=
    hit_pool_next 2147483647
  exact ⟨h1, h2, Reachable_int32.step (Op.fetch 0) h1 h2⟩

/-- C9 does not hold of the 32-bit pin count.  On a fresh pool over an empty backing
file the first `fetch_page(0)` loads page 0 into frame 9 with pin count 1, each further
`fetch_page(0)` is a hit that increments the pin count in 32 bits, and after `2^31`
calls the state reached has pin count `-2147483648` in frame 9. -/
theorem C9_pin_count_wraps :
    step_int32 fresh_pool (Op.fetch 0) = .ok (hit_pool 1)
    ∧ (∀ n : Int, step_int32 (hit_pool n) (Op.fetch 0) = .ok (hit_pool (to_int32 (n + 1))))
    ∧ Reachable_int32 (hit_pool 2147483647)
    ∧ to_int32 (2147483647 + 1) = -2147483648
    ∧ Reachable_int32 (hit_pool (-2147483648))
    ∧ load (hit_pool (-2147483648)).pages 9 = .ok (page_at (hit_pool (-2147483648)) 9)
    ∧ (page_at (hit_pool (-2147483648)) 9).pin_count = -2147483648
    ∧ ¬ (∀ p ∈ (hit_pool (-2147483648)).pages, 0 ≤ p.pin_count) := by
  refine ⟨hit_pool_first, hit_pool_next, hit_pool_wrapped.1, by decide, hit_pool_wrapped.2.2,
    rfl, rfl, ?_⟩
  intro hall
  have hmem : page_at (hit_pool (-2147483648)) 9 ∈ (hit_pool (-2147483648)).pages :=
    mem_of_load (i := 9) rfl
  have hneg : (page_at (hit_pool (-2147483648)) 9).pin_count = -2147483648 := rfl
  have := hall _ hmem
  omega

/-- C9, amended.  In every state reachable from a fresh pool by calls of `fetch_page`,
`new_page`, `unpin_page`, `flush_page` and `flush_all_pages` (and writes of callers into
page buffers), pin counts and page identifiers being 32-bit `int`s and each call of
`fetch_page` or `new_page` being made while every pin count is below `INT_MAX`, every
frame has a pin count that is not negative. -/
theorem C9_pin_count_nonneg (s : BufferPoolManager) (hr : ReachableWithin s) :
    ∀ p ∈ s.pages, 0 ≤ p.pin_count := by
  intro p hp
  obtain ⟨i, hi⟩ := load_of_mem hp
  exact hr.reachable.inv.frame_pin i p hi

/-- C9 amended, on the pool of the eviction-order scenario. -/
theorem C9_pin_count_nonneg_witness :
    ReachableWithin unpinned_pool ∧ ∀ p ∈ unpinned_pool.pages, 0 ≤ p.pin_count :=
  ⟨run_within_reachable (fetches BUFFER_POOL_SIZE ++ unpins BUFFER_POOL_SIZE)
      fresh_pool_within rfl,
    C9_pin_count_nonneg unpinned_pool
      (run_within_reachable (fetches BUFFER_POOL_SIZE ++ unpins BUFFER_POOL_SIZE)
        fresh_pool_within rfl)⟩

theorem read_page_getElem? (d : DiskManager) (id : Int) (buf : List UInt8) (hid : 0 ≤ id)
    (n : Nat) :
    (read_page_from_disk d id buf)[n]? =
      if n < PAGE_SIZE then some (byte_at d.file ((id * (PAGE_SIZE : Int)).toNat + n)) else none := by
  have hoff : ¬ id * (PAGE_SIZE : Int) < 0 := by
    have : 0 ≤ id * (PAGE_SIZE : Int) := Int.mul_nonneg hid (by simp [PAGE_SIZE])
    omega
  simp only [read_page_from_disk, hoff, if_false, byte_at]
  rw [List.getElem?_append]
  simp only [List.length_take, List.length_drop, List.getElem?_take, List.getElem?_drop,
    List.getElem?_replicate]
  by_cases hn : n < PAGE_SIZE
  · by_cases hlen : (id * (PAGE_SIZE : Int)).toNat + n < d.file.length
    · have h1 : n < min PAGE_SIZE (d.file.length - (id * (PAGE_SIZE : Int)).toNat) := by omega
      simp [hn, h1, List.getElem?_eq_getElem hlen]
    · have h1 : ¬ n < min PAGE_SIZE (d.file.length - (id * (PAGE_SIZE : Int)).toNat) := by omega
      have h2 : n - min PAGE_SIZE (d.file.length - (id * (PAGE_SIZE : Int)).toNat)
          < PAGE_SIZE - min PAGE_SIZE (d.file.length - (id * (PAGE_SIZE : Int)).toNat) := by omega
      have h3 : d.file[(id * (PAGE_SIZE : Int)).toNat + n]? = none :=
        List.getElem?_eq_none (by omega)
      simp [hn, h1, h2, h3]
  · have h1 : ¬ n < min PAGE_SIZE (d.file.length - (id * (PAGE_SIZE : Int)).toNat) := by omega
    have h2 : ¬ n - min PAGE_SIZE (d.file.length - (id * (PAGE_SIZE : Int)).toNat)
        < PAGE_SIZE - min PAGE_SIZE (d.file.length - (id * (PAGE_SIZE : Int)).toNat) := by omega
    simp [hn, h1, h2]

theorem write_page_byte_at (d : DiskManager) (id : Int) (data : List UInt8) (hid : 0 ≤ id)
    (hw : d.write_ok = true) (hlen : data.length = PAGE_SIZE) (k : Nat) :
    byte_at (write_page_to_disk d id data).file k =
      if (id * (PAGE_SIZE : Int)).toNat ≤ k ∧ k < (id * (PAGE_SIZE : Int)).toNat + PAGE_SIZE then
        byte_at data (k - (id * (PAGE_SIZE : Int)).toNat)
      else byte_at d.file k := by
  have hoff : ¬ id * (PAGE_SIZE : Int) < 0 := by
    have : 0 ≤ id * (PAGE_SIZE : Int) := Int.mul_nonneg hid (by simp [PAGE_SIZE])
    omega
  generalize hoffv : (id * (PAGE_SIZE : Int)).toNat = off
  simp only [write_page_to_disk, hoff, if_false, hw, Bool.true_eq_false, byte_at, hoffv]
  have htake : data.take PAGE_SIZE = data := by
    rw [← hlen]; exact List.take_length data
  rw [htake]
  have hlenAB : (List.take off d.file ++ List.replicate (off - d.file.length) 0).length = off := by
    simp only [List.length_append, List.length_take, List.length_replicate]
    omega
  by_cases hk1 : k < off
  · have hc : ¬ (off ≤ k ∧ k < off + PAGE_SIZE) := by omega
    rw [if_neg hc, List.append_assoc,
      List.getElem?_append_left (by simp only [List.length_append, hlenAB]; omega),
      List.getElem?_append]
    simp only [List.length_take, List.getElem?_take, List.getElem?_replicate]
    by_cases hk2 : k < d.file.length
    · have : k < min off d.file.length := by omega
      simp [this, hk1]
    · have h3 : d.file[k]? = none := List.getElem?_eq_none (by omega)
      have : ¬ k < min off d.file.length := by omega
      have h4 : k - min off d.file.length < off - d.file.length := by omega
      simp [this, h3, h4]
  · by_cases hk3 : k < off + PAGE_SIZE
    · have hc : off ≤ k ∧ k < off + PAGE_SIZE := by omega
      rw [if_pos hc, List.getElem?_append_left
          (by simp only [List.length_append, hlenAB, hlen]; omega),
        List.getElem?_append_right (by rw [hlenAB]; omega), hlenAB]
    · have hc : ¬ (off ≤ k ∧ k < off + PAGE_SIZE) := by omega
      rw [if_neg hc, List.getElem?_append_right
          (by simp only [List.length_append, hlenAB, hlen]; omega)]
      simp only [List.length_append, hlenAB, hlen, List.getElem?_drop]
      have : off + PAGE_SIZE + (k - (off + PAGE_SIZE)) = k := by omega
      rw [this]

/-- Reading a page back after writing it gives the bytes written. -/
theorem read_after_write_same (d : DiskManager) (id : Int) (data buf : List UInt8)
    (hid : 0 ≤ id) (hw : d.write_ok = true) (hlen : data.length = PAGE_SIZE) :
    read_page_from_disk (write_page_to_disk d id data) id buf = data := by
  apply List.ext_getElem?
  intro n
  rw [read_page_getElem? _ _ _ hid, write_page_byte_at d id data hid hw hlen]
  by_cases hn : n < PAGE_SIZE
  · have hc : (id * (PAGE_SIZE : Int)).toNat ≤ (id * (PAGE_SIZE : Int)).toNat + n ∧
        (id * (PAGE_SIZE : Int)).toNat + n < (id * (PAGE_SIZE : Int)).toNat + PAGE_SIZE := by
      omega
    rw [if_pos hn, if_pos hc]
    have : (id * (PAGE_SIZE : Int)).toNat + n - (id * (PAGE_SIZE : Int)).toNat = n := by omega
    rw [this]
    have hlt : n < data.length := by omega
    simp [byte_at, List.getElem?_eq_getElem hlt]
  · rw [if_neg hn]
    exact (List.getElem?_eq_none (by omega)).symm

/-- Writing one page leaves the content of every other page as it was. -/
theorem read_after_write_other (d : DiskManager) (id id1 : Int) (data buf : List UInt8)
    (hid : 0 ≤ id) (hid1 : 0 ≤ id1) (hne : id ≠ id1) (hlen : data.length = PAGE_SIZE) :
    read_page_from_disk (write_page_to_disk d id1 data) id buf = read_page_from_disk d id buf := by
  by_cases hw : d.write_ok = true
  · apply List.ext_getElem?
    intro n
    rw [read_page_getElem? _ _ _ hid, read_page_getElem? _ _ _ hid,
      write_page_byte_at d id1 data hid1 hw hlen]
    by_cases hn : n < PAGE_SIZE
    · have hc : ¬ ((id1 * (PAGE_SIZE : Int)).toNat ≤ (id * (PAGE_SIZE : Int)).toNat + n ∧
          (id * (PAGE_SIZE : Int)).toNat + n < (id1 * (PAGE_SIZE : Int)).toNat + PAGE_SIZE) := by
        simp only [PAGE_SIZE, Nat.cast_ofNat] at hn ⊢
        omega
      rw [if_pos hn, if_neg hc, if_pos hn]
    · rw [if_neg hn, if_neg hn]
  · have hoff : write_page_to_disk d id1 data = d := by
      simp only [Bool.not_eq_true] at hw
      simp [write_page_to_disk, hw]
    rw [hoff]

theorem write_page_to_disk_write_ok (d : DiskManager) (id : Int) (data : List UInt8) :
    (write_page_to_disk d id data).write_ok = d.write_ok := by
  unfold write_page_to_disk
  simp only
  split
  · rfl
  · split <;> rfl

theorem read_page_buf_irrelevant (d : DiskManager) (id : Int) (buf buf1 : List UInt8)
    (hid : 0 ≤ id) : read_page_from_disk d id buf = read_page_from_disk d id buf1 := by
  apply List.ext_getElem?
  intro n
  rw [read_page_getElem? _ _ _ hid, read_page_getElem? _ _ _ hid]

theorem disk_page_eq (d : DiskManager) (id : Int) (buf : List UInt8) (hid : 0 ≤ id) :
    read_page_from_disk d id buf = disk_page d id :=
  read_page_buf_irrelevant d id buf [] hid

theorem write_back_write_ok (d : DiskManager) (victim : Page) :
    (write_back d victim).write_ok = d.write_ok := by
  unfold write_back
  split
  · exact write_page_to_disk_write_ok _ _ _
  · rfl

theorem write_back_other (d : DiskManager) (victim : Page) (id : Int) (hid : 0 ≤ id)
    (hv : 0 ≤ victim.page_id) (hne : id ≠ victim.page_id)
    (hlen : victim.data.length = PAGE_SIZE) :
    disk_page (write_back d victim) id = disk_page d id := by
  unfold write_back disk_page
  split
  · exact read_after_write_other d id victim.page_id victim.data [] hid hv hne hlen
  · rfl

/-- When `fetch_page` returns a frame, the page table maps the identifier to it. -/
theorem fetch_page_maps {s s1 : BufferPoolManager} (h : Inv s) {id g : Int}
    (hf : fetch_page s id = .ok (some g, s1)) : load s1.page_table id = .ok g := by
  cases he : load s.page_table id with
  | error e => simp [fetch_page, he] at hf
  | ok e =>
    obtain ⟨hid0, hid1⟩ := load_bounds he
    by_cases hne : e = INVALID_PAGE_ID
    · subst hne
      by_cases hfree : 0 < s.free_list_size
      · obtain ⟨old, _, hfetch⟩ := fetch_page_free h he hfree
        rw [hfetch] at hf
        simp only [Except.ok.injEq, Prod.mk.injEq, Option.some.injEq] at hf
        obtain ⟨hf1, hf2⟩ := hf
        subst hf1 hf2
        show load (s.page_table.set _ _) id = _
        rw [load_set _ _ hid0 hid1]; simp
      · rcases fetch_page_evict h he (by omega) with ⟨_, hnone⟩ | ⟨f1, hd, victim, _, _, _, _, _, _, hfetch⟩
        · rw [hnone] at hf
          cases hf
        · rw [hfetch] at hf
          simp only [Except.ok.injEq, Prod.mk.injEq, Option.some.injEq] at hf
          obtain ⟨hf1, hf2⟩ := hf
          subst hf1 hf2
          show load ((s.page_table.set _ _).set _ _) id = _
          rw [load_set _ _ hid0 (by simpa using hid1)]; simp
    · obtain ⟨p, _, _, _, hfetch⟩ := fetch_page_hit h he hne
      rw [hfetch] at hf
      simp only [Except.ok.injEq, Prod.mk.injEq, Option.some.injEq] at hf
      obtain ⟨hf1, hf2⟩ := hf
      subst hf1 hf2
      exact he

/-- The function `fetch_page` keeps the content of every page, and the disk writable. -/
theorem fetch_page_holds {s s1 : BufferPoolManager} (h : Inv s) {id id1 : Int} {r : Option Int}
    {B : List UInt8} (hw : s.disk_manager.write_ok = true) (hB : Holds s id B)
    (hf : fetch_page s id1 = .ok (r, s1)) :
    s1.disk_manager.write_ok = true ∧ Holds s1 id B := by
  cases he : load s.page_table id1 with
  | error e => simp [fetch_page, he] at hf
  | ok e =>
    obtain ⟨hid0, hid1⟩ := load_bounds he
    by_cases hne : e = INVALID_PAGE_ID
    · subst hne
      by_cases hfree : 0 < s.free_list_size
      · obtain ⟨old, hold, hfetch⟩ := fetch_page_free h he hfree
        rw [hfetch] at hf
        simp only [Except.ok.injEq, Prod.mk.injEq] at hf
        obtain ⟨_, hf2⟩ := hf
        subst hf2
        obtain ⟨ho0, ho1⟩ := load_bounds hold
        refine ⟨hw, ?_⟩
        rcases hB with ⟨f, p, hf1, hfne, hp, hd, hdisk⟩ | ⟨hf1, hdisk⟩
        · left
          have hidne : id ≠ id1 := by
            intro heq
            rw [heq, he] at hf1
            simp only [Except.ok.injEq] at hf1
            exact hfne hf1.symm
          obtain ⟨_, _, _, hused⟩ := resident_frame h hf1 hfne
          refine ⟨f, p, ?_, hfne, ?_, hd, hdisk⟩
          · show load (s.page_table.set _ _) id = _
            rw [load_set _ _ hid0 hid1]; simp [hidne, hf1]
          · show load (s.pages.set _ _) f = _
            rw [load_set _ _ ho0 ho1]
            have : f ≠ s.free_list_size - 1 := by omega
            simp [this, hp]
        · by_cases hidne : id = id1
          · subst hidne
            left
            refine ⟨s.free_list_size - 1, loaded s.disk_manager id old, ?_, ?_, ?_, ?_, Or.inr hdisk⟩
            · show load (s.page_table.set _ _) id = _
              rw [load_set _ _ hid0 hid1]; simp
            · simp only [INVALID_PAGE_ID]; omega
            · show load (s.pages.set _ _) _ = _
              rw [load_set _ _ ho0 ho1]; simp
            · show read_page_from_disk _ _ _ = B
              rw [disk_page_eq _ _ _ hid0]; exact hdisk
          · right
            refine ⟨?_, hdisk⟩
            show load (s.page_table.set _ _) id = _
            rw [load_set _ _ hid0 hid1]; simp [hidne, hf1]
      · rcases fetch_page_evict h he (by omega) with ⟨_, hnone⟩ | ⟨f1, hd, victim, hflag, hv, _, _, _, _, hfetch⟩
        · rw [hnone] at hf
          cases hf
          exact ⟨hw, hB⟩
        · rw [hfetch] at hf
          simp only [Except.ok.injEq, Prod.mk.injEq] at hf
          obtain ⟨_, hf2⟩ := hf
          subst hf2
          obtain ⟨hv0, hv1⟩ := load_bounds hv
          obtain ⟨hvid0, hvid1, hvt⟩ := h.frame_used f1 victim hv (by omega)
          have hvlen := h.frame_data f1 victim hv
          have hvne : victim.page_id ≠ id1 := by
            intro heq
            rw [heq, he] at hvt
            simp only [Except.ok.injEq, INVALID_PAGE_ID] at hvt
            omega
          have hT : ∀ i, load ((s.page_table.set victim.page_id.toNat INVALID_PAGE_ID).set
              id1.toNat f1) i = if i = id1 then .ok f1 else
                if i = victim.page_id then .ok INVALID_PAGE_ID else load s.page_table i := by
            intro i
            rw [load_set _ _ hid0 (by simpa using hid1),
              load_set _ _ hvid0 (by rw [h.table_len]; exact hvid1)]
          have hP : ∀ i, load (s.pages.set f1.toNat
              (loaded (write_back s.disk_manager victim) id1 victim)) i =
                if i = f1 then .ok (loaded (write_back s.disk_manager victim) id1 victim)
                else load s.pages i := fun i => load_set _ _ hv0 hv1
          refine ⟨by show (write_back _ _).write_ok = true; rw [write_back_write_ok]; exact hw, ?_⟩
          rcases hB with ⟨f, p, hf1, hfne, hp, hd, hdisk⟩ | ⟨hf1, hdisk⟩
          · have hidne : id ≠ id1 := by
              intro heq
              rw [heq, he] at hf1
              simp only [Except.ok.injEq] at hf1
              exact hfne hf1.symm
            have hidn := (load_bounds hf1).1
            by_cases hff : f = f1
            · subst hff
              rw [hv] at hp
              cases hp
              have hvp : victim.page_id = id := by
                obtain ⟨q, hq1, hq2⟩ := h.table_ok id f hf1 hfne
                rw [hv] at hq1
                cases hq1
                exact hq2
              right
              refine ⟨?_, ?_⟩
              · show load ((s.page_table.set _ _).set _ _) id = _
                rw [hT]; simp [hidne, hvp]
              · show disk_page (write_back _ _) id = _
                unfold write_back
                split
                · rw [hvp]
                  unfold disk_page
                  rw [read_after_write_same _ _ _ _ hidn hw hvlen]
                  exact hd
                · rename_i hnd
                  rcases hdisk with hdirty | hdisk
                  · exact absurd hdirty hnd
                  · exact hdisk
            · have hvp : victim.page_id ≠ id := by
                intro heq
                rw [heq, hf1] at hvt
                simp only [Except.ok.injEq] at hvt
                exact hff hvt
              left
              refine ⟨f, p, ?_, hfne, ?_, hd, ?_⟩
              · show load ((s.page_table.set _ _).set _ _) id = _
                rw [hT]; simp [hidne, Ne.symm hvp, hf1]
              · show load (s.pages.set _ _) f = _
                rw [hP]; simp [hff, hp]
              · rcases hdisk with hdirty | hdisk
                · exact Or.inl hdirty
                · right
                  show disk_page (write_back _ _) id = _
                  rw [write_back_other _ _ _ hidn hvid0 (Ne.symm hvp) hvlen]
                  exact hdisk
          · have hidn := (load_bounds hf1).1
            have hvp : victim.page_id ≠ id := by
              intro heq
              rw [heq, hf1] at hvt
              simp only [Except.ok.injEq, INVALID_PAGE_ID] at hvt
              omega
            have hdisk1 : disk_page (write_back s.disk_manager victim) id = B := by
              rw [write_back_other _ _ _ hidn hvid0 (Ne.symm hvp) hvlen]
              exact hdisk
            by_cases hidne : id = id1
            · subst hidne
              left
              refine ⟨f1, loaded (write_back s.disk_manager victim) id victim, ?_, ?_, ?_, ?_,
                Or.inr hdisk1⟩
              · show load ((s.page_table.set _ _).set _ _) id = _
                rw [hT]; simp
              · simp only [INVALID_PAGE_ID]; omega
              · show load (s.pages.set _ _) f1 = _
                rw [hP]; simp
              · show read_page_from_disk _ _ _ = B
                rw [disk_page_eq _ _ _ hid0]; exact hdisk1
            · right
              refine ⟨?_, hdisk1⟩
              show load ((s.page_table.set _ _).set _ _) id = _
              rw [hT]; simp [hidne, Ne.symm hvp, hf1]
    · obtain ⟨p1, hp1, _, _, hfetch⟩ := fetch_page_hit h he hne
      rw [hfetch] at hf
      simp only [Except.ok.injEq, Prod.mk.injEq] at hf
      obtain ⟨_, hf2⟩ := hf
      subst hf2
      obtain ⟨ho0, ho1⟩ := load_bounds hp1
      refine ⟨hw, ?_⟩
      rcases hB with ⟨f, p, hf1, hfne, hp, hd, hdisk⟩ | ⟨hf1, hdisk⟩
      · left
        by_cases hff : f = e
        · subst hff
          rw [hp1] at hp
          cases hp
          refine ⟨f, { p1 with pin_count := p1.pin_count + 1 }, hf1, hfne, ?_, hd, hdisk⟩
          show load (s.pages.set _ _) f = _
          rw [load_set _ _ ho0 ho1]; simp
        · refine ⟨f, p, hf1, hfne, ?_, hd, hdisk⟩
          show load (s.pages.set _ _) f = _
          rw [load_set _ _ ho0 ho1]; simp [hff, hp]
      · right
        exact ⟨hf1, hdisk⟩

/-- The function `unpin_page` keeps the content of every page. -/
theorem unpin_page_holds {s s1 : BufferPoolManager} (h : Inv s) {id id1 : Int} {d r : Bool}
    {B : List UInt8} (hB : Holds s id B) (hu : unpin_page s id1 d = .ok (r, s1)) :
    s1.disk_manager = s.disk_manager ∧ Holds s1 id B := by
  cases he : load s.page_table id1 with
  | error e => simp [unpin_page, he] at hu
  | ok e =>
    by_cases hne : e = INVALID_PAGE_ID
    · subst hne
      rw [unpin_page_absent d he] at hu
      cases hu
      exact ⟨rfl, hB⟩
    · obtain ⟨p1, hp1, _, _⟩ := resident_frame h he hne
      by_cases hpin : 0 < p1.pin_count
      · rw [(unpin_page_pinned h d he hne hp1 hpin).2] at hu
        simp only [Except.ok.injEq, Prod.mk.injEq] at hu
        obtain ⟨_, hu2⟩ := hu
        subst hu2
        obtain ⟨ho0, ho1⟩ := load_bounds hp1
        have hpages : (after_unpin s e p1 d).pages = s.pages.set e.toNat (unpinned p1 d) := by
          unfold after_unpin; split <;> rfl
        have htable : (after_unpin s e p1 d).page_table = s.page_table := by
          unfold after_unpin; split <;> rfl
        have hdisk1 : (after_unpin s e p1 d).disk_manager = s.disk_manager := by
          unfold after_unpin; split <;> rfl
        refine ⟨hdisk1, ?_⟩
        unfold Holds
        rw [hpages, htable, hdisk1]
        rcases hB with ⟨f, p, hf1, hfne, hp, hd, hdisk⟩ | ⟨hf1, hdisk⟩
        · left
          by_cases hff : f = e
          · subst hff
            rw [hp1] at hp
            cases hp
            refine ⟨f, unpinned p1 d, hf1, hfne, ?_, hd, ?_⟩
            · rw [load_set _ _ ho0 ho1]; simp
            · rcases hdisk with hdirty | hdisk
              · left
                show (if d = true then true else p1.is_dirty) = true
                rw [hdirty]; simp
              · exact Or.inr hdisk
          · refine ⟨f, p, hf1, hfne, ?_, hd, hdisk⟩
            rw [load_set _ _ ho0 ho1]; simp [hff, hp]
        · right
          exact ⟨hf1, hdisk⟩
      · rw [unpin_page_zero d he hne hp1 (by omega)] at hu
        cases hu
        exact ⟨rfl, hB⟩

/-- The function `flush_page` keeps the content of every page, and the disk writable. -/
theorem flush_page_holds {s s1 : BufferPoolManager} (h : Inv s) {id id1 : Int} {r : Bool}
    {B : List UInt8} (hw : s.disk_manager.write_ok = true) (hB : Holds s id B)
    (hfl : flush_page s id1 = .ok (r, s1)) :
    s1.disk_manager.write_ok = true ∧ Holds s1 id B := by
  cases he : load s.page_table id1 with
  | error e => simp [flush_page, he] at hfl
  | ok e =>
    obtain ⟨hid0, _⟩ := load_bounds he
    by_cases hne : e = INVALID_PAGE_ID
    · subst hne
      rw [flush_page_absent he] at hfl
      cases hfl
      exact ⟨hw, hB⟩
    · obtain ⟨p1, hp1, _, _⟩ := resident_frame h he hne
      rw [flush_page_resident he hne hp1] at hfl
      simp only [Except.ok.injEq, Prod.mk.injEq] at hfl
      obtain ⟨_, hfl2⟩ := hfl
      subst hfl2
      obtain ⟨ho0, ho1⟩ := load_bounds hp1
      have hlen := h.frame_data e p1 hp1
      refine ⟨by show (write_page_to_disk _ _ _).write_ok = true
                 rw [write_page_to_disk_write_ok]; exact hw, ?_⟩
      rcases hB with ⟨f, p, hf1, hfne, hp, hd, hdisk⟩ | ⟨hf1, hdisk⟩
      · left
        have hidn := (load_bounds hf1).1
        by_cases hidne : id = id1
        · subst hidne
          rw [he] at hf1
          cases hf1
          rw [hp1] at hp
          cases hp
          refine ⟨e, { p1 with is_dirty := false }, he, hfne, ?_, hd, Or.inr ?_⟩
          · show load (s.pages.set _ _) e = _
            rw [load_set _ _ ho0 ho1]; simp
          · show disk_page (write_page_to_disk _ _ _) id = B
            unfold disk_page
            rw [read_after_write_same _ _ _ _ hid0 hw hlen]
            exact hd
        · have hff : f ≠ e := by
            intro heq
            subst heq
            obtain ⟨q1, hq1, hq1id⟩ := h.table_ok id f hf1 hfne
            obtain ⟨q2, hq2, hq2id⟩ := h.table_ok id1 f he hne
            rw [hq1] at hq2
            cases hq2
            exact hidne (hq1id.symm.trans hq2id)
          refine ⟨f, p, hf1, hfne, ?_, hd, ?_⟩
          · show load (s.pages.set _ _) f = _
            rw [load_set _ _ ho0 ho1]; simp [hff, hp]
          · rcases hdisk with hdirty | hdisk
            · exact Or.inl hdirty
            · right
              show disk_page (write_page_to_disk _ _ _) id = B
              unfold disk_page
              rw [read_after_write_other _ _ _ _ _ hidn hid0 hidne hlen]
              exact hdisk
      · right
        have hidn := (load_bounds hf1).1
        have hidne : id ≠ id1 := by
          intro heq
          rw [heq, he] at hf1
          simp only [Except.ok.injEq] at hf1
          exact hne hf1
        refine ⟨hf1, ?_⟩
        show disk_page (write_page_to_disk _ _ _) id = B
        unfold disk_page
        rw [read_after_write_other _ _ _ _ _ hidn hid0 hidne hlen]
        exact hdisk

/-- The loop of `flush_all_pages` keeps the content of every page. -/
theorem flush_all_loop_holds (l : List Nat) {id : Int} {B : List UInt8} :
    ∀ {s s1 : BufferPoolManager}, Inv s → s.disk_manager.write_ok = true → Holds s id B →
      flush_all_loop l s = .ok s1 → s1.disk_manager.write_ok = true ∧ Holds s1 id B := by
  induction l with
  | nil =>
    intro s s1 _ hw hB hl
    simp only [flush_all_loop, Except.ok.injEq] at hl
    subst hl
    exact ⟨hw, hB⟩
  | cons i rest ih =>
    intro s s1 h hw hB hl
    unfold flush_all_loop at hl
    split at hl
    · cases hl
    · split at hl
      · split at hl
        · cases hl
        · rename_i r s2 hfl
          obtain ⟨hw2, hB2⟩ := flush_page_holds h hw hB hfl
          exact ih (flush_page_inv h hfl) hw2 hB2 hl
      · exact ih h hw hB hl

/-- A write of a caller into another frame keeps the content of the page. -/
theorem write_page_data_holds {s s1 : BufferPoolManager} {id f : Int} {bytes B : List UInt8}
    (hB : Holds s id B) (hsp : spares id s (Op.write f bytes) = true)
    (hwr : write_page_data s f bytes = .ok s1) :
    s1.disk_manager = s.disk_manager ∧ Holds s1 id B := by
  cases hp : load s.pages f with
  | error e => simp [write_page_data, hp] at hwr
  | ok p1 =>
    obtain ⟨h0, h1⟩ := load_bounds hp
    by_cases hlen : bytes.length ≤ PAGE_SIZE
    · have hst := store_eq (l := s.pages)
        { p1 with data := bytes ++ p1.data.drop bytes.length } h0 h1
      simp only [write_page_data, hp, hlen, if_true, hst, Except.ok.injEq] at hwr
      subst hwr
      refine ⟨rfl, ?_⟩
      rcases hB with ⟨g, p, hg, hgne, hpg, hd, hdisk⟩ | ⟨hg, hdisk⟩
      · left
        have hgf : g ≠ f := by
          simpa [spares, hg] using hsp
        refine ⟨g, p, hg, hgne, ?_, hd, hdisk⟩
        show load (s.pages.set _ _) g = _
        rw [load_set _ _ h0 h1]; simp [hgf, hpg]
      · right
        exact ⟨hg, hdisk⟩
    · simp [write_page_data, hp, hlen] at hwr

/-- Every call that spares the frame of a page keeps the content of that page. -/
theorem step_holds {s s1 : BufferPoolManager} (h : Inv s) {id : Int} {B : List UInt8}
    (hw : s.disk_manager.write_ok = true) (hB : Holds s id B) (op : Op)
    (hsp : spares id s op = true) (hs : step s op = .ok s1) :
    s1.disk_manager.write_ok = true ∧ Holds s1 id B := by
  cases op with
  | fetch id1 =>
    simp only [step] at hs
    cases hf : fetch_page s id1 with
    | error e => simp [hf, Except.map] at hs
    | ok r =>
      obtain ⟨fr, s2⟩ := r
      simp only [hf, Except.map, Except.ok.injEq] at hs
      subst hs
      exact fetch_page_holds h hw hB hf
  | new =>
    simp only [step, new_page_eq] at hs
    cases hf : fetch_page s (allocate_page_on_disk s.disk_manager) with
    | error e => simp [hf, Except.map] at hs
    | ok r =>
      obtain ⟨fr, s2⟩ := r
      simp only [hf, Except.map, Except.ok.injEq] at hs
      subst hs
      exact fetch_page_holds h hw hB hf
  | unpin id1 d =>
    simp only [step] at hs
    cases hf : unpin_page s id1 d with
    | error e => simp [hf, Except.map] at hs
    | ok r =>
      obtain ⟨fr, s2⟩ := r
      simp only [hf, Except.map, Except.ok.injEq] at hs
      subst hs
      obtain ⟨hd, hB2⟩ := unpin_page_holds h hB hf
      exact ⟨by rw [hd]; exact hw, hB2⟩
  | flush id1 =>
    simp only [step] at hs
    cases hf : flush_page s id1 with
    | error e => simp [hf, Except.map] at hs
    | ok r =>
      obtain ⟨fr, s2⟩ := r
      simp only [hf, Except.map, Except.ok.injEq] at hs
      subst hs
      exact flush_page_holds h hw hB hf
  | flush_all => exact flush_all_loop_holds _ h hw hB hs
  | write f bytes =>
    obtain ⟨hd, hB2⟩ := write_page_data_holds hB hsp hs
    exact ⟨by rw [hd]; exact hw, hB2⟩

/-- A sequence of calls that leaves the frame of a page alone keeps the content of that
page. -/
theorem run_holds (ops : List Op) {id : Int} {B : List UInt8} :
    ∀ {s s1 : BufferPoolManager}, Inv s → s.disk_manager.write_ok = true → Holds s id B →
      untouched id s ops = true → run s ops = .ok s1 →
      Inv s1 ∧ s1.disk_manager.write_ok = true ∧ Holds s1 id B := by
  induction ops with
  | nil =>
    intro s s1 h hw hB _ hrun
    simp only [run, Except.ok.injEq] at hrun
    subst hrun
    exact ⟨h, hw, hB⟩
  | cons op ops ih =>
    intro s s1 h hw hB hq hrun
    unfold run at hrun
    split at hrun
    · cases hrun
    · rename_i s2 hs
      simp only [untouched, hs, Bool.and_eq_true] at hq
      obtain ⟨hw2, hB2⟩ := step_holds h hw hB op hq.1 hs
      exact ih (step_inv h op hs) hw2 hB2 hq.2 hrun

theorem written_pool_reachable : Reachable written_pool :=
  run_reachable (fetches BUFFER_POOL_SIZE ++ [Op.write 9 [104, 105]]) fresh_pool_reachable rfl

/-- C5. Dirty write-back round trip.  Let page `id` be resident in a state reachable from
a fresh pool, its frame holding the bytes `B`, with writes to the disk succeeding.  After
`unpin_page(id, true)` has succeeded, let any sequence of calls follow in which no caller
writes into the frame holding `id`.  Then `B` has `PAGE_SIZE` bytes; if the page is no
longer resident (it has been evicted), page `id` of the backing file equals `B`; after a
successful `flush_page(id)`, page `id` of the backing file equals `B`; and `fetch_page(id)`
has a result and, when it returns a frame, that frame holds page `id` with exactly the
bytes `B`. -/
theorem C5_dirty_write_back_round_trip (s s1 s2 : BufferPoolManager) (hr : Reachable s)
    (hw : s.disk_manager.write_ok = true) (id f : Int) (p : Page)
    (hres : load s.page_table id = .ok f) (hne : f ≠ INVALID_PAGE_ID)
    (hp : load s.pages f = .ok p)
    (hun : unpin_page s id true = .ok (true, s1))
    (ops : List Op) (hq : untouched id s1 ops = true) (hrun : run s1 ops = .ok s2) :
    p.data.length = PAGE_SIZE ∧
    (load s2.page_table id = .ok INVALID_PAGE_ID → disk_page s2.disk_manager id = p.data) ∧
    (∀ s3, flush_page s2 id = .ok (true, s3) → disk_page s3.disk_manager id = p.data) ∧
    (∃ r s3, fetch_page s2 id = .ok (r, s3)) ∧
    (∀ g s3, fetch_page s2 id = .ok (some g, s3) →
      ∃ q, load s3.pages g = .ok q ∧ q.page_id = id ∧ q.data = p.data) := by
  have h := hr.inv
  have hpin : 0 < p.pin_count := by
    by_contra hle
    rw [unpin_page_zero true hres hne hp (by omega)] at hun
    cases hun
  have hs1 : s1 = after_unpin s f p true := by
    rw [(unpin_page_pinned h true hres hne hp hpin).2] at hun
    simp only [Except.ok.injEq, Prod.mk.injEq, true_and] at hun
    exact hun.symm
  have h1 : Inv s1 := unpin_page_inv h hun
  obtain ⟨hf0, hf1⟩ := load_bounds hp
  have hpages : (after_unpin s f p true).pages = s.pages.set f.toNat (unpinned p true) := by
    unfold after_unpin; split <;> rfl
  have htable : (after_unpin s f p true).page_table = s.page_table := by
    unfold after_unpin; split <;> rfl
  have hdisk1 : (after_unpin s f p true).disk_manager = s.disk_manager := by
    unfold after_unpin; split <;> rfl
  have hB1 : Holds s1 id p.data := by
    left
    refine ⟨f, unpinned p true, ?_, hne, ?_, rfl, Or.inl rfl⟩
    · rw [hs1, htable]; exact hres
    · rw [hs1, hpages, load_set _ _ hf0 hf1]; simp
  have hw1 : s1.disk_manager.write_ok = true := by
    rw [hs1, hdisk1]; exact hw
  obtain ⟨h2, hw2, hB2⟩ := run_holds ops h1 hw1 hB1 hq hrun
  obtain ⟨hid0, hid1⟩ := load_bounds hres
  rw [h.table_len, ← h2.table_len] at hid1
  refine ⟨h.frame_data f p hp, ?_, ?_, ?_, ?_⟩
  · intro hout
    rcases hB2 with ⟨g, q, hg, hgne, _⟩ | ⟨_, hdisk⟩
    · rw [hout] at hg
      simp only [Except.ok.injEq] at hg
      exact absurd hg.symm hgne
    · exact hdisk
  · intro s3 hfl
    obtain ⟨_, hB3⟩ := flush_page_holds h2 hw2 hB2 hfl
    cases he : load s2.page_table id with
    | error e => simp [flush_page, he] at hfl
    | ok e =>
      by_cases hene : e = INVALID_PAGE_ID
      · subst hene
        rw [flush_page_absent he] at hfl
        cases hfl
      · obtain ⟨q, hq1, _, _⟩ := resident_frame h2 he hene
        rw [flush_page_resident he hene hq1] at hfl
        simp only [Except.ok.injEq, Prod.mk.injEq, true_and] at hfl
        subst hfl
        show disk_page (write_page_to_disk _ _ _) id = _
        unfold disk_page
        rw [read_after_write_same _ _ _ _ hid0 hw2 (h2.frame_data e q hq1)]
        rcases hB2 with ⟨g, q2, hg, _, hq2, hd, _⟩ | ⟨hg, _⟩
        · rw [he] at hg
          cases hg
          rw [hq1] at hq2
          cases hq2
          exact hd
        · rw [he] at hg
          simp only [Except.ok.injEq] at hg
          exact absurd hg hene
  · obtain ⟨e, he⟩ := load_total (l := s2.page_table) hid0 hid1
    by_cases hene : e = INVALID_PAGE_ID
    · subst hene
      by_cases hfree : 0 < s2.free_list_size
      · obtain ⟨old, _, hfetch⟩ := fetch_page_free h2 he hfree
        exact ⟨_, _, hfetch⟩
      · rcases fetch_page_evict h2 he (by omega) with ⟨_, hnone⟩ | ⟨f1, hd, victim, _, _, _, _, _, _, hfetch⟩
        · exact ⟨_, _, hnone⟩
        · exact ⟨_, _, hfetch⟩
    · obtain ⟨q, _, _, _, hfetch⟩ := fetch_page_hit h2 he hene
      exact ⟨_, _, hfetch⟩
  · intro g s3 hfetch
    have h3 := fetch_page_inv h2 hfetch
    have hmap := fetch_page_maps h2 hfetch
    obtain ⟨_, hB3⟩ := fetch_page_holds h2 hw2 hB2 hfetch
    have hg0 : g ≠ INVALID_PAGE_ID := by
      intro hg
      have hnone : load s3.page_table id = .ok INVALID_PAGE_ID := by rw [hmap, hg]
      cases he : load s2.page_table id with
      | error e => simp [fetch_page, he] at hfetch
      | ok e =>
        by_cases hene : e = INVALID_PAGE_ID
        · subst hene
          by_cases hfree : 0 < s2.free_list_size
          · obtain ⟨old, hold, hfe⟩ := fetch_page_free h2 he hfree
            rw [hfe] at hfetch
            simp only [Except.ok.injEq, Prod.mk.injEq, Option.some.injEq] at hfetch
            have := (load_bounds hold).1
            simp only [INVALID_PAGE_ID] at hg
            omega
          · rcases fetch_page_evict h2 he (by omega) with ⟨_, hnone1⟩ | ⟨f1, hd, victim, _, hv, _, _, _, _, hfe⟩
            · rw [hnone1] at hfetch
              cases hfetch
            · rw [hfe] at hfetch
              simp only [Except.ok.injEq, Prod.mk.injEq, Option.some.injEq] at hfetch
              have := (load_bounds hv).1
              simp only [INVALID_PAGE_ID] at hg
              omega
        · obtain ⟨q, _, _, _, hfe⟩ := fetch_page_hit h2 he hene
          rw [hfe] at hfetch
          simp only [Except.ok.injEq, Prod.mk.injEq, Option.some.injEq] at hfetch
          exact hene (hfetch.1.trans hg)
    obtain ⟨q, hq1, hq2⟩ := h3.table_ok id g hmap hg0
    refine ⟨q, hq1, hq2, ?_⟩
    rcases hB3 with ⟨g1, q1, hg1, _, hq3, hd, _⟩ | ⟨hg1, _⟩
    · rw [hmap] at hg1
      cases hg1
      rw [hq1] at hq3
      cases hq3
      exact hd
    · rw [hmap] at hg1
      simp only [Except.ok.injEq] at hg1
      exact absurd hg1 hg0

/-- C5, on the pool in which the pages `0..9` are pinned and the bytes `104, 105` have
been written into page 0 (frame 9): after `unpin_page(0, true)` and the eviction of page 0
by `fetch_page(10)`, page 0 of the backing file holds the bytes of the frame. -/
theorem C5_dirty_write_back_round_trip_witness :
    Reachable written_pool ∧ written_pool.disk_manager.write_ok = true ∧
    load written_pool.page_table 0 = .ok 9 ∧
    load written_pool.pages 9 = .ok (page_at written_pool 9) ∧
    unpin_page written_pool 0 true = .ok (true, run_or written_pool [Op.unpin 0 true]) ∧
    untouched 0 (run_or written_pool [Op.unpin 0 true]) [Op.fetch 10] = true ∧
    run (run_or written_pool [Op.unpin 0 true]) [Op.fetch 10]
      = .ok (run_or written_pool [Op.unpin 0 true, Op.fetch 10]) ∧
    load (run_or written_pool [Op.unpin 0 true, Op.fetch 10]).page_table 0
      = .ok INVALID_PAGE_ID ∧
    disk_page (run_or written_pool [Op.unpin 0 true, Op.fetch 10]).disk_manager 0
      = (page_at written_pool 9).data :=
  ⟨written_pool_reachable, rfl, rfl, rfl, rfl, rfl, rfl, rfl,
    (C5_dirty_write_back_round_trip written_pool (run_or written_pool [Op.unpin 0 true])
      (run_or written_pool [Op.unpin 0 true, Op.fetch 10]) written_pool_reachable rfl 0 9
      (page_at written_pool 9) rfl (by decide) rfl rfl [Op.fetch 10] rfl rfl).2.1 rfl⟩

/-- C11. Postcondition of a miss of `fetch_page`.  In a state reachable from a fresh
pool, when `fetch_page(id)` for an identifier of the page table that is not resident
returns frame `f`: afterwards frame `f` holds page `id` with pin count 1 and a clear
dirty flag, its in-queue flag is clear, the page table maps `id` to `f`, and its bytes
are those `read_page_from_disk` finds for `id` on the disk as it is after the call; that
disk is the old one when the frame came from the free list, and the old one after the
write-back of the victim (if dirty) when it was evicted; and if the frame held another
page before, the page table no longer maps that page, dirty or not. -/
theorem C11_fetch_page_miss (s s1 : BufferPoolManager) (hr : Reachable s) (id f : Int)
    (hmiss : load s.page_table id = .ok INVALID_PAGE_ID)
    (hf : fetch_page s id = .ok (some f, s1)) :
    ∃ old q, load s.pages f = .ok old ∧ load s1.pages f = .ok q ∧
      q.page_id = id ∧ q.pin_count = 1 ∧ q.is_dirty = false ∧
      load s1.lru_in_replacer f = .ok false ∧
      load s1.page_table id = .ok f ∧
      q.data = disk_page s1.disk_manager id ∧
      q.data.length = PAGE_SIZE ∧
      s1.disk_manager =
        (if 0 < s.free_list_size then s.disk_manager
         else if old.is_dirty = true then
           write_page_to_disk s.disk_manager old.page_id old.data
         else s.disk_manager) ∧
      (old.page_id ≠ INVALID_PAGE_ID → load s1.page_table old.page_id = .ok INVALID_PAGE_ID) := by
  have h := hr.inv
  obtain ⟨hid0, hid1⟩ := load_bounds hmiss
  by_cases hfree : 0 < s.free_list_size
  · obtain ⟨old, hold, hfetch⟩ := fetch_page_free h hmiss hfree
    rw [hfetch] at hf
    simp only [Except.ok.injEq, Prod.mk.injEq, Option.some.injEq] at hf
    obtain ⟨hf1, hf2⟩ := hf
    subst hf1 hf2
    obtain ⟨ho0, ho1⟩ := load_bounds hold
    have hfl : s.free_list_size - 1 < s.lru_in_replacer.length := by
      rw [h.flags_len, ← h.pages_len]; exact ho1
    refine ⟨old, loaded s.disk_manager id old, hold, ?_, rfl, rfl, rfl, ?_, ?_, ?_, ?_, ?_, ?_⟩
    · show load (s.pages.set _ _) _ = _
      rw [load_set _ _ ho0 ho1]; simp
    · show load (s.lru_in_replacer.set _ _) _ = _
      rw [load_set _ _ ho0 hfl]; simp
    · show load (s.page_table.set _ _) _ = _
      rw [load_set _ _ hid0 hid1]; simp
    · exact disk_page_eq _ _ _ hid0
    · exact read_page_from_disk_length _ _ _ hid0
    · rw [if_pos hfree]; rfl
    · intro hne
      exact absurd (h.frame_free _ old hold (by omega)).1 hne
  · rcases fetch_page_evict h hmiss (by omega) with
      ⟨_, hnone⟩ | ⟨f1, hd, victim, hflag, hv, _, _, _, _, hfetch⟩
    · rw [hnone] at hf
      cases hf
    · rw [hfetch] at hf
      simp only [Except.ok.injEq, Prod.mk.injEq, Option.some.injEq] at hf
      obtain ⟨hf1, hf2⟩ := hf
      subst hf1 hf2
      obtain ⟨hv0, hv1⟩ := load_bounds hv
      obtain ⟨hvid0, hvid1, hvt⟩ := h.frame_used f1 victim hv (by omega)
      have hvne : victim.page_id ≠ id := by
        intro heq
        rw [heq, hmiss] at hvt
        simp only [Except.ok.injEq, INVALID_PAGE_ID] at hvt
        omega
      have hfl : f1 < (s.lru_in_replacer.set f1.toNat false).length := by
        rw [List.length_set, h.flags_len, ← h.pages_len]; exact hv1
      have htl : id < (s.page_table.set victim.page_id.toNat INVALID_PAGE_ID).length := by
        rw [List.length_set]; exact hid1
      refine ⟨victim, loaded (write_back s.disk_manager victim) id victim, hv, ?_, rfl, rfl, rfl,
        ?_, ?_, ?_, ?_, ?_, ?_⟩
      · show load (s.pages.set _ _) _ = _
        rw [load_set _ _ hv0 hv1]; simp
      · show load ((s.lru_in_replacer.set _ _).set _ _) _ = _
        rw [load_set _ _ hv0 hfl]; simp
      · show load ((s.page_table.set _ _).set _ _) _ = _
        rw [load_set _ _ hid0 htl]; simp
      · exact disk_page_eq _ _ _ hid0
      · exact read_page_from_disk_length _ _ _ hid0
      · rw [if_neg hfree]; rfl
      · intro _
        show load ((s.page_table.set _ _).set _ _) _ = _
        rw [load_set _ _ hid0 htl, if_neg hvne,
          load_set _ _ hvid0 (by rw [h.table_len]; exact hvid1)]
        simp

/-- The eviction scan that finds no frame returns the pool it was given. -/
theorem evict_scan_none (fuel : Nat) :
    ∀ (s s1 : BufferPoolManager) (cur : Int), evict_scan fuel s cur = .ok (none, s1) → s1 = s := by
  induction fuel with
  | zero =>
    intro s s1 cur h
    simp [evict_scan] at h
  | succ fuel ih =>
    intro s s1 cur h
    unfold evict_scan at h
    split at h
    · split at h
      · cases h
      · split at h
        · cases h
        · split at h
          · split at h
            · cases h
            · cases h
          · exact ih _ _ _ h
    · simp only [Except.ok.injEq, Prod.mk.injEq, true_and] at h
      exact h.symm

/-- C12. Failure atomicity of `fetch_page`: whenever `fetch_page` returns no page, the
pool (frames, page table, free list, queue with head, tail, entries and flags) and the
disk are exactly as before the call.  This holds in every state, reachable or not. -/
theorem C12_fetch_page_failure_atomic (s s1 : BufferPoolManager) (id : Int)
    (hf : fetch_page s id = .ok (none, s1)) : s1 = s := by
  unfold fetch_page at hf
  split at hf
  · cases hf
  · split at hf
    · split at hf
      · cases hf
      · split at hf
        · cases hf
        · split at hf
          · cases hf
          · rename_i bpm1 hpin
            simp only [Except.ok.injEq, Prod.mk.injEq] at hf
            exact absurd hf.1 (by simp)
    · split at hf
      · split at hf
        · cases hf
        · rename_i frame_id hl
          unfold fetch_page_load at hf
          split at hf
          · cases hf
          · split at hf
            · cases hf
            · split at hf
              · cases hf
              · split at hf
                · cases hf
                · simp only [Except.ok.injEq, Prod.mk.injEq] at hf
                  exact absurd hf.1 (by simp)
      · split at hf
        · cases hf
        · rename_i bpm1 hev
          simp only [Except.ok.injEq, Prod.mk.injEq, true_and] at hf
          subst hf
          exact evict_scan_none _ _ _ _ hev
        · split at hf
          · cases hf
          · split at hf
            · cases hf
            · unfold fetch_page_load at hf
              split at hf
              · cases hf
              · split at hf
                · cases hf
                · split at hf
                  · cases hf
                  · split at hf
                    · cases hf
                    · simp only [Except.ok.injEq, Prod.mk.injEq] at hf
                      exact absurd hf.1 (by simp)

/-- A call result is determined by its two components. -/
theorem result_eq {α β : Type} {x : Except Fault (α × β)} {a : α} {b : β}
    (h1 : x.map Prod.fst = .ok a) (h2 : x.map Prod.snd = .ok b) : x = .ok (a, b) := by
  cases x with
  | error e => cases h1
  | ok r =>
    obtain ⟨r1, r2⟩ := r
    simp only [Except.map, Except.ok.injEq] at h1 h2
    rw [h1, h2]

/-- C12, on the pool in which the pages `0..9` are all pinned: `fetch_page(10)` returns no
page and the pool after the call is the pool before it. -/
theorem C12_fetch_page_failure_atomic_witness :
    fetch_page pinned_pool 10 = .ok (none, run_or pinned_pool [Op.fetch 10]) ∧
    run_or pinned_pool [Op.fetch 10] = pinned_pool :=
  ⟨result_eq rfl rfl,
    C12_fetch_page_failure_atomic pinned_pool (run_or pinned_pool [Op.fetch 10]) 10
      (result_eq rfl rfl)⟩

/-- C11, on the pool in which the pages `0..9` are resident, page 0 (frame 9) has been
written and unpinned dirty: `fetch_page(10)` evicts frame 9 and loads page 10 into it. -/
theorem C11_fetch_page_miss_witness :
    Reachable (run_or written_pool [Op.unpin 0 true]) ∧
    load (run_or written_pool [Op.unpin 0 true]).page_table 10 = .ok INVALID_PAGE_ID ∧
    fetch_page (run_or written_pool [Op.unpin 0 true]) 10
      = .ok (some 9, run_or written_pool [Op.unpin 0 true, Op.fetch 10]) ∧
    ∃ old q, load (run_or written_pool [Op.unpin 0 true]).pages 9 = .ok old ∧
      load (run_or written_pool [Op.unpin 0 true, Op.fetch 10]).pages 9 = .ok q ∧
      q.page_id = 10 ∧ q.pin_count = 1 ∧ q.is_dirty = false ∧
      load (run_or written_pool [Op.unpin 0 true, Op.fetch 10]).lru_in_replacer 9 = .ok false ∧
      load (run_or written_pool [Op.unpin 0 true, Op.fetch 10]).page_table 10 = .ok 9 ∧
      q.data = disk_page (run_or written_pool [Op.unpin 0 true, Op.fetch 10]).disk_manager 10 :=
  ⟨run_reachable [Op.unpin 0 true] written_pool_reachable rfl, rfl, result_eq rfl rfl,
    match C11_fetch_page_miss (run_or written_pool [Op.unpin 0 true])
      (run_or written_pool [Op.unpin 0 true, Op.fetch 10])
      (run_reachable [Op.unpin 0 true] written_pool_reachable rfl) 10 9 rfl
      (result_eq rfl rfl) with
    | ⟨old, q, h1, h2, h3, h4, h5, h6, h7, h8, _⟩ => ⟨old, q, h1, h2, h3, h4, h5, h6, h7, h8⟩⟩

/-- C13. On a fresh pool over an empty backing file, after one `new_page` (identifier 0,
frame 9) and a write of the bytes `104, 105` into that page, a second `new_page` returns
identifier 0 again: the identifier was resident before the call (a hit, not a miss), and
the frame returned has pin count 2 and starts with the bytes written, not with zeros. -/
theorem C13_new_page_returns_resident_page :
    run fresh_pool [Op.new, Op.write 9 [104, 105]]
      = .ok (run_or fresh_pool [Op.new, Op.write 9 [104, 105]])
    ∧ (run_or fresh_pool [Op.new, Op.write 9 [104, 105]]).disk_manager.file = []
    ∧ load (run_or fresh_pool [Op.new, Op.write 9 [104, 105]]).page_table 0 = .ok 9
    ∧ (new_page (run_or fresh_pool [Op.new, Op.write 9 [104, 105]])).map Prod.fst
        = .ok (0, some 9)
    ∧ (page_at (run_or fresh_pool [Op.new, Op.write 9 [104, 105], Op.new]) 9).page_id = 0
    ∧ (page_at (run_or fresh_pool [Op.new, Op.write 9 [104, 105], Op.new]) 9).pin_count = 2
    ∧ (page_at (run_or fresh_pool [Op.new, Op.write 9 [104, 105], Op.new]) 9).data.take 2
        = [104, 105] := by
  refine ⟨rfl, by decide, rfl, rfl, by decide, by decide, by decide⟩

theorem write_page_to_disk_failed (d : DiskManager) (id : Int) (data : List UInt8)
    (hw : d.write_ok = false) : write_page_to_disk d id data = d := by
  unfold write_page_to_disk
  simp [hw]

/-- C14. In a state reachable from a fresh pool and for an identifier of the page
table, `flush_page` has a result.  It returns false exactly when the identifier is not
resident, and then pool and disk are as before.  Otherwise it returns true, whatever the
pin count: the frame of the page keeps its bytes, page identifier and pin count and its
dirty flag is clear; every other frame, the page table, the free list and the queue with
its head, tail and flags are unchanged; every other page of the disk reads as before;
and, the write succeeding, page `id` of the disk reads as the bytes of the frame. -/
theorem C14_flush_page (s : BufferPoolManager) (hr : Reachable s) (id : Int)
    (h0 : 0 ≤ id) (h1 : id < (TABLE_MAX_PAGES : Int)) :
    ∃ r s1, flush_page s id = .ok (r, s1) ∧
      (r = false ↔ load s.page_table id = .ok INVALID_PAGE_ID) ∧
      (r = false → s1 = s) ∧
      (r = true → ∃ f p, load s.page_table id = .ok f ∧ f ≠ INVALID_PAGE_ID ∧
        load s.pages f = .ok p ∧
        load s1.pages f = .ok { data := p.data, page_id := p.page_id,
                                pin_count := p.pin_count, is_dirty := false } ∧
        (∀ g, g ≠ f → load s1.pages g = load s.pages g) ∧
        s1.page_table = s.page_table ∧ s1.free_list = s.free_list ∧
        s1.free_list_size = s.free_list_size ∧ s1.lru_replacer = s.lru_replacer ∧
        s1.lru_head = s.lru_head ∧ s1.lru_tail = s.lru_tail ∧
        s1.lru_in_replacer = s.lru_in_replacer ∧
        s1.disk_manager.write_ok = s.disk_manager.write_ok ∧
        (∀ id1, 0 ≤ id1 → id1 ≠ id →
          disk_page s1.disk_manager id1 = disk_page s.disk_manager id1) ∧
        (s.disk_manager.write_ok = true → disk_page s1.disk_manager id = p.data) ∧
        (s.disk_manager.write_ok = false → s1.disk_manager = s.disk_manager)) := by
  have h := hr.inv
  obtain ⟨e, he⟩ := load_total (l := s.page_table) h0 (by rw [h.table_len]; exact h1)
  by_cases hne : e = INVALID_PAGE_ID
  · subst hne
    refine ⟨false, s, flush_page_absent he, by simp [he], fun _ => rfl, ?_⟩
    intro hc
    cases hc
  · obtain ⟨p, hp, _, _⟩ := resident_frame h he hne
    obtain ⟨hf0, hf1⟩ := load_bounds hp
    have hlen := h.frame_data e p hp
    refine ⟨true, after_flush s id e p, flush_page_resident he hne hp, ?_, ?_, ?_⟩
    · simp only [Bool.true_eq_false, false_iff]
      rw [he]
      simpa using hne
    · intro hc
      cases hc
    · intro _
      refine ⟨e, p, he, hne, hp, ?_, ?_, rfl, rfl, rfl, rfl, rfl, rfl, rfl, ?_, ?_, ?_, ?_⟩
      · show load (s.pages.set _ _) e = _
        rw [load_set _ _ hf0 hf1]; simp
      · intro g hg
        show load (s.pages.set _ _) g = _
        rw [load_set _ _ hf0 hf1]; simp [hg]
      · exact write_page_to_disk_write_ok _ _ _
      · intro id1 hid1 hne1
        show disk_page (write_page_to_disk _ _ _) id1 = _
        unfold disk_page
        exact read_after_write_other _ _ _ _ _ hid1 h0 hne1 hlen
      · intro hw
        show disk_page (write_page_to_disk _ _ _) id = _
        unfold disk_page
        exact read_after_write_same _ _ _ _ h0 hw hlen
      · intro hw
        exact write_page_to_disk_failed _ _ _ hw

/-- C14, on the pool in which the pages `0..9` are pinned and page 0 has been written:
`flush_page(0)` returns true although the page is pinned. -/
theorem C14_flush_page_witness :
    Reachable written_pool ∧ (page_at written_pool 9).pin_count = 1 ∧
    ∃ r s1, flush_page written_pool 0 = .ok (r, s1) ∧
      (r = false ↔ load written_pool.page_table 0 = .ok INVALID_PAGE_ID) ∧
      (r = false → s1 = written_pool) :=
  ⟨written_pool_reachable, by decide,
    match C14_flush_page written_pool written_pool_reachable 0 (by decide) (by decide) with
    | ⟨r, s1, h1, h2, h3, _⟩ => ⟨r, s1, h1, h2, h3⟩⟩

/-- C16. For a page identifier `id` that is not negative and whose offset
`id * PAGE_SIZE` fits a C `int`, `read_page_from_disk` fills the buffer with exactly
`PAGE_SIZE` bytes: byte `n` is the byte of the file at position `id * PAGE_SIZE + n`
where the file has one, and zero elsewhere; when the offset is at or beyond the end of
the file, the buffer is `PAGE_SIZE` zero bytes.  (The function has no effect on the
file: in the embedding it returns the buffer only.) -/
theorem C16_read_page_zero_fill (d : DiskManager) (id : Int) (buf : List UInt8)
    (h0 : 0 ≤ id) (_h1 : id * (PAGE_SIZE : Int) < 2 ^ 31) :
    (read_page_from_disk d id buf).length = PAGE_SIZE ∧
    (∀ n, n < PAGE_SIZE →
      (id.toNat * PAGE_SIZE + n < d.file.length →
        (read_page_from_disk d id buf)[n]? = d.file[id.toNat * PAGE_SIZE + n]?) ∧
      (d.file.length ≤ id.toNat * PAGE_SIZE + n →
        (read_page_from_disk d id buf)[n]? = some 0)) ∧
    (d.file.length ≤ id.toNat * PAGE_SIZE →
      read_page_from_disk d id buf = List.replicate PAGE_SIZE 0) := by
  have hoff : (id * (PAGE_SIZE : Int)).toNat = id.toNat * PAGE_SIZE := by
    have : id = (id.toNat : Int) := (Int.toNat_of_nonneg h0).symm
    conv_lhs => rw [this]
    rw [← Nat.cast_mul, Int.toNat_natCast]
  refine ⟨read_page_from_disk_length d id buf h0, ?_, ?_⟩
  · intro n hn
    rw [read_page_getElem? d id buf h0 n, if_pos hn, hoff]
    constructor
    · intro hlt
      simp [byte_at, List.getElem?_eq_getElem hlt]
    · intro hge
      simp [byte_at, List.getElem?_eq_none hge]
  · intro hge
    apply List.ext_getElem?
    intro n
    rw [read_page_getElem? d id buf h0 n, hoff, List.getElem?_replicate]
    by_cases hn : n < PAGE_SIZE
    · have : d.file[id.toNat * PAGE_SIZE + n]? = none := List.getElem?_eq_none (by omega)
      simp [hn, byte_at, this]
    · simp [hn]

/-- C16, for page 3 of a file of two bytes. -/
theorem C16_read_page_zero_fill_witness :
    (0 : Int) ≤ 3 ∧ (3 : Int) * (PAGE_SIZE : Int) < 2 ^ 31 ∧
    read_page_from_disk { file := [7, 8], write_ok := true } 3 [1]
      = List.replicate PAGE_SIZE 0 :=
  ⟨by decide, by decide,
    (C16_read_page_zero_fill { file := [7, 8], write_ok := true } 3 [1]
      (by decide) (by decide)).2.2 (by decide)⟩

/-- On a file of `2^31` pages (8 TiB) the quotient does not fit the 32-bit `page_id_t`:
`allocate_page_on_disk_int32` returns `-2147483648`. -/
theorem allocate_page_on_disk_int32_truncates (d : DiskManager)
    (h : d.file.length = 2147483648 * PAGE_SIZE) :
    allocate_page_on_disk_int32 d = -2147483648 := by
  unfold allocate_page_on_disk_int32 to_int32
  rw [h]
  simp only [PAGE_SIZE]
  split <;> omega

/-- C17. On a file shorter than `2^31` pages (8 TiB), where the quotient fits the 32-bit
`page_id_t`, the function `allocate_page_on_disk` returns the size of the file divided by
`PAGE_SIZE`, rounded down (and the quotient computed in the integers is the value
returned); it depends on the file only, so two calls on disks with the same file return
the same identifier.  (The function has no effect on the file: in the embedding it
returns the identifier only.) -/
theorem C17_allocate_page_on_disk (d : DiskManager)
    (hsize : d.file.length < 2147483648 * PAGE_SIZE) :
    allocate_page_on_disk_int32 d = ((d.file.length / PAGE_SIZE : Nat) : Int) ∧
    allocate_page_on_disk_int32 d = allocate_page_on_disk d ∧
    (allocate_page_on_disk_int32 d).toNat * PAGE_SIZE ≤ d.file.length ∧
    d.file.length < ((allocate_page_on_disk_int32 d).toNat + 1) * PAGE_SIZE ∧
    (∀ d1 : DiskManager, d1.file = d.file →
      allocate_page_on_disk_int32 d1 = allocate_page_on_disk_int32 d) := by
  have heq : allocate_page_on_disk_int32 d = ((d.file.length / PAGE_SIZE : Nat) : Int) := by
    unfold allocate_page_on_disk_int32 to_int32
    simp only [PAGE_SIZE] at hsize ⊢
    split <;> omega
  have heq1 : allocate_page_on_disk d = ((d.file.length / PAGE_SIZE : Nat) : Int) := by
    unfold allocate_page_on_disk
    exact (Int.ofNat_ediv _ _).symm
  refine ⟨heq, by rw [heq, heq1], ?_, ?_, ?_⟩
  · rw [heq, Int.toNat_natCast]
    exact Nat.div_mul_le_self _ _
  · rw [heq, Int.toNat_natCast]
    simp only [PAGE_SIZE]
    omega
  · intro d1 hd
    unfold allocate_page_on_disk_int32
    rw [hd]

/-- C17, on a file of two pages: `allocate_page_on_disk` returns the quotient of the
file size by `PAGE_SIZE`. -/
theorem C17_allocate_page_on_disk_witness :
    ({ file := List.replicate 8192 0, write_ok := true } : DiskManager).file.length
      < 2147483648 * PAGE_SIZE ∧
    allocate_page_on_disk_int32 { file := List.replicate 8192 0, write_ok := true }
      = (((({ file := List.replicate 8192 0, write_ok := true } : DiskManager).file.length
          / PAGE_SIZE : Nat)) : Int) :=
  ⟨lt_of_eq_of_lt (List.length_replicate _ _) (by decide),
    (C17_allocate_page_on_disk { file := List.replicate 8192 0, write_ok := true }
      (lt_of_eq_of_lt (List.length_replicate _ _) (by decide))).1⟩

theorem after_hit_inv2 {s : BufferPoolManager} (h : Inv s) (k : Inv2 s) {f : Int} {p : Page}
    (hp : load s.pages f = .ok p) (hused : s.free_list_size ≤ f) : Inv2 (after_hit s f p) := by
  obtain ⟨h0, h1⟩ := load_bounds hp
  have h2 : f < s.lru_in_replacer.length := by rw [h.flags_len, ← h.pages_len]; exact h1
  have P := fun i => load_set (l := s.pages) { p with pin_count := p.pin_count + 1 } i h0 h1
  have L := fun i => load_set (l := s.lru_in_replacer) false i h0 h2
  constructor
  · intro i q hq hi
    have hi1 : i < s.free_list_size := hi
    have hq1 : load (s.pages.set f.toNat { p with pin_count := p.pin_count + 1 }) i = .ok q := hq
    rw [P] at hq1
    split at hq1
    · omega
    · exact k.free_clean i q hq1 hi1
  · intro i q hq hi hz
    have hi1 : s.free_list_size ≤ i := hi
    have hq1 : load (s.pages.set f.toNat { p with pin_count := p.pin_count + 1 }) i = .ok q := hq
    show load (s.lru_in_replacer.set f.toNat false) i = _
    rw [P] at hq1
    rw [L]
    split at hq1
    · cases hq1
      have := h.frame_pin f p hp
      have hz1 : p.pin_count + 1 = 0 := hz
      omega
    · rename_i hne
      rw [if_neg hne]
      exact k.unpinned_flagged i q hq1 hi1 hz

theorem after_free_inv2 {s : BufferPoolManager} (h : Inv s) (k : Inv2 s) {id : Int} (old : Page)
    (hfree : 0 < s.free_list_size) : Inv2 (after_free s id old) := by
  have hsz := h.free_size
  have h0 : 0 ≤ s.free_list_size - 1 := by omega
  have h1 : s.free_list_size - 1 < s.pages.length := by rw [h.pages_len]; omega
  have h2 : s.free_list_size - 1 < s.lru_in_replacer.length := by rw [h.flags_len]; omega
  have P := fun i => load_set (l := s.pages) (loaded s.disk_manager id old) i h0 h1
  have L := fun i => load_set (l := s.lru_in_replacer) false i h0 h2
  constructor
  · intro i q hq hi
    have hi1 : i < s.free_list_size - 1 := hi
    have hq1 : load (s.pages.set (s.free_list_size - 1).toNat
      (loaded s.disk_manager id old)) i = .ok q := hq
    rw [P] at hq1
    split at hq1
    · omega
    · exact k.free_clean i q hq1 (by omega)
  · intro i q hq hi hz
    have hi1 : s.free_list_size - 1 ≤ i := hi
    have hq1 : load (s.pages.set (s.free_list_size - 1).toNat
      (loaded s.disk_manager id old)) i = .ok q := hq
    show load (s.lru_in_replacer.set (s.free_list_size - 1).toNat false) i = _
    rw [P] at hq1
    rw [L]
    split at hq1
    · cases hq1
      cases hz
    · rename_i hne
      rw [if_neg hne]
      exact k.unpinned_flagged i q hq1 (by omega) hz

theorem after_evict_inv2 {s : BufferPoolManager} (h : Inv s) (k : Inv2 s) {id f hd : Int}
    {victim : Page} (hfree : s.free_list_size ≤ 0) (hv : load s.pages f = .ok victim) :
    Inv2 (after_evict s id f hd victim) := by
  obtain ⟨h0, h1⟩ := load_bounds hv
  have h2 : f < s.lru_in_replacer.length := by rw [h.flags_len, ← h.pages_len]; exact h1
  have h3 : f < (s.lru_in_replacer.set f.toNat false).length := by
    rw [List.length_set]; exact h2
  have P := fun i => load_set (l := s.pages)
    (loaded (write_back s.disk_manager victim) id victim) i h0 h1
  have L := fun i => load_set (l := s.lru_in_replacer) false i h0 h2
  have L2 := fun i => load_set (l := s.lru_in_replacer.set f.toNat false) false i h0 h3
  constructor
  · intro i q hq hi
    have hi1 : i < s.free_list_size := hi
    have := (load_bounds hq).1
    omega
  · intro i q hq hi hz
    have hi1 : s.free_list_size ≤ i := hi
    have hq1 : load (s.pages.set f.toNat
      (loaded (write_back s.disk_manager victim) id victim)) i = .ok q := hq
    show load ((s.lru_in_replacer.set f.toNat false).set f.toNat false) i = _
    rw [P] at hq1
    rw [L2, L]
    split at hq1
    · cases hq1
      cases hz
    · rename_i hne
      rw [if_neg hne, if_neg hne]
      exact k.unpinned_flagged i q hq1 hi1 hz

theorem after_unpin_inv2 {s : BufferPoolManager} (h : Inv s) (k : Inv2 s) {f : Int} {p : Page}
    (d : Bool) (hp : load s.pages f = .ok p) (hused : s.free_list_size ≤ f) :
    Inv2 (after_unpin s f p d) := by
  obtain ⟨h0, h1⟩ := load_bounds hp
  have h2 : f < s.lru_in_replacer.length := by rw [h.flags_len, ← h.pages_len]; exact h1
  have P := fun i => load_set (l := s.pages) (unpinned p d) i h0 h1
  have L := fun i => load_set (l := s.lru_in_replacer) true i h0 h2
  unfold after_unpin
  split
  · rename_i hz0
    constructor
    · intro i q hq hi
      have hi1 : i < s.free_list_size := hi
      have hq1 : load (s.pages.set f.toNat (unpinned p d)) i = .ok q := hq
      rw [P] at hq1
      split at hq1
      · omega
      · exact k.free_clean i q hq1 hi1
    · intro i q hq hi hz
      have hi1 : s.free_list_size ≤ i := hi
      have hq1 : load (s.pages.set f.toNat (unpinned p d)) i = .ok q := hq
      show load (s.lru_in_replacer.set f.toNat true) i = _
      rw [P] at hq1
      rw [L]
      split at hq1
      · rename_i heq
        rw [if_pos heq]
      · rename_i hne
        rw [if_neg hne]
        exact k.unpinned_flagged i q hq1 hi1 hz
  · rename_i hz0
    constructor
    · intro i q hq hi
      have hi1 : i < s.free_list_size := hi
      have hq1 : load (s.pages.set f.toNat (unpinned p d)) i = .ok q := hq
      rw [P] at hq1
      split at hq1
      · omega
      · exact k.free_clean i q hq1 hi1
    · intro i q hq hi hz
      have hi1 : s.free_list_size ≤ i := hi
      have hq1 : load (s.pages.set f.toNat (unpinned p d)) i = .ok q := hq
      show load s.lru_in_replacer i = _
      rw [P] at hq1
      split at hq1
      · cases hq1
        exact absurd hz hz0
      · exact k.unpinned_flagged i q hq1 hi1 hz

theorem set_same_meta_inv2 {s : BufferPoolManager} (k : Inv2 s) {f : Int} {p r : Page}
    (d : DiskManager) (hp : load s.pages f = .ok p) (hpin : r.pin_count = p.pin_count)
    (hdirty : r.is_dirty = true → p.is_dirty = true) :
    Inv2 { s with disk_manager := d, pages := s.pages.set f.toNat r } := by
  obtain ⟨h0, h1⟩ := load_bounds hp
  have P := fun i => load_set (l := s.pages) r i h0 h1
  constructor
  · intro i q hq hi
    have hi1 : i < s.free_list_size := hi
    have hq1 : load (s.pages.set f.toNat r) i = .ok q := hq
    rw [P] at hq1
    split at hq1
    · rename_i heq
      subst heq
      cases hq1
      have hc := k.free_clean i p hp hi1
      cases hr : r.is_dirty with
      | false => rfl
      | true => rw [hdirty hr] at hc; cases hc
    · exact k.free_clean i q hq1 hi1
  · intro i q hq hi hz
    have hi1 : s.free_list_size ≤ i := hi
    have hq1 : load (s.pages.set f.toNat r) i = .ok q := hq
    show load s.lru_in_replacer i = _
    rw [P] at hq1
    split at hq1
    · rename_i heq
      subst heq
      cases hq1
      exact k.unpinned_flagged i p hp hi1 (by rw [← hpin]; exact hz)
    · exact k.unpinned_flagged i q hq1 hi1 hz

theorem fetch_page_inv2 {s s1 : BufferPoolManager} (h : Inv s) (k : Inv2 s) {id : Int}
    {r : Option Int} (hfetch : fetch_page s id = .ok (r, s1)) : Inv2 s1 := by
  cases he : load s.page_table id with
  | error e => simp [fetch_page, he] at hfetch
  | ok e =>
    by_cases hne : e = INVALID_PAGE_ID
    · subst hne
      by_cases hfree : 0 < s.free_list_size
      · obtain ⟨old, _, hf⟩ := fetch_page_free h he hfree
        rw [hf] at hfetch
        cases hfetch
        exact after_free_inv2 h k old hfree
      · rcases fetch_page_evict h he (by omega) with
          ⟨_, hf⟩ | ⟨f, hd, victim, hflag, hv, hd0, hd1, hdw, _, hf⟩
        · rw [hf] at hfetch
          cases hfetch
          exact k
        · rw [hf] at hfetch
          cases hfetch
          exact after_evict_inv2 h k (by omega) hv
    · obtain ⟨p, hp, _, hused, hf⟩ := fetch_page_hit h he hne
      rw [hf] at hfetch
      cases hfetch
      exact after_hit_inv2 h k hp hused

theorem unpin_page_inv2 {s s1 : BufferPoolManager} (h : Inv s) (k : Inv2 s) {id : Int}
    {d r : Bool} (hu : unpin_page s id d = .ok (r, s1)) : Inv2 s1 := by
  cases he : load s.page_table id with
  | error e => simp [unpin_page, he] at hu
  | ok e =>
    by_cases hne : e = INVALID_PAGE_ID
    · subst hne
      rw [unpin_page_absent d he] at hu
      cases hu
      exact k
    · obtain ⟨p, hp, _, hused⟩ := resident_frame h he hne
      by_cases hpin : 0 < p.pin_count
      · rw [(unpin_page_pinned h d he hne hp hpin).2] at hu
        cases hu
        exact after_unpin_inv2 h k d hp hused
      · rw [unpin_page_zero d he hne hp (by omega)] at hu
        cases hu
        exact k

theorem flush_page_inv2 {s s1 : BufferPoolManager} (h : Inv s) (k : Inv2 s) {id : Int}
    {r : Bool} (hu : flush_page s id = .ok (r, s1)) : Inv2 s1 := by
  cases he : load s.page_table id with
  | error e => simp [flush_page, he] at hu
  | ok e =>
    by_cases hne : e = INVALID_PAGE_ID
    · subst hne
      rw [flush_page_absent he] at hu
      cases hu
      exact k
    · obtain ⟨p, hp, _, _⟩ := resident_frame h he hne
      rw [flush_page_resident he hne hp] at hu
      cases hu
      exact set_same_meta_inv2 k _ hp rfl (fun hc => by cases hc)

theorem flush_all_loop_inv2 (l : List Nat) :
    ∀ {s s1 : BufferPoolManager}, Inv s → Inv2 s → flush_all_loop l s = .ok s1 → Inv2 s1 := by
  induction l with
  | nil =>
    intro s s1 _ k hl
    simp only [flush_all_loop, Except.ok.injEq] at hl
    subst hl
    exact k
  | cons i rest ih =>
    intro s s1 h k hl
    unfold flush_all_loop at hl
    split at hl
    · cases hl
    · split at hl
      · split at hl
        · cases hl
        · rename_i r s2 hfl
          exact ih (flush_page_inv h hfl) (flush_page_inv2 h k hfl) hl
      · exact ih h k hl

theorem write_page_data_inv2 {s s1 : BufferPoolManager} (k : Inv2 s) {f : Int}
    {bytes : List UInt8} (hw : write_page_data s f bytes = .ok s1) : Inv2 s1 := by
  cases hp : load s.pages f with
  | error e => simp [write_page_data, hp] at hw
  | ok p =>
    obtain ⟨h0, h1⟩ := load_bounds hp
    by_cases hlen : bytes.length ≤ PAGE_SIZE
    · have hst := fun v => store_eq (l := s.pages) v h0 h1
      simp only [write_page_data, hp, hlen, if_true, hst, Except.ok.injEq] at hw
      subst hw
      exact set_same_meta_inv2 k s.disk_manager hp rfl (fun hc => hc)
    · simp [write_page_data, hp, hlen] at hw

theorem create_inv2 (d : DiskManager) (raw_data : Nat → Nat → UInt8) (raw_queue : Nat → Int) :
    Inv2 (create_buffer_pool_manager d raw_data raw_queue) := by
  constructor
  · intro i p hl _
    have hp := load_map_range _ _ _ _ hl
    subst hp
    rfl
  · intro i p hl hi
    have hb := load_bounds hl
    simp only [create_buffer_pool_manager, List.length_map, List.length_range] at hb hi
    omega

theorem step_inv2 {s s1 : BufferPoolManager} (h : Inv s) (k : Inv2 s) (op : Op)
    (hs : step s op = .ok s1) : Inv2 s1 := by
  cases op with
  | fetch id =>
    simp only [step] at hs
    cases hf : fetch_page s id with
    | error e => simp [hf, Except.map] at hs
    | ok r =>
      obtain ⟨fr, s2⟩ := r
      simp only [hf, Except.map, Except.ok.injEq] at hs
      subst hs
      exact fetch_page_inv2 h k hf
  | new =>
    simp only [step, new_page_eq] at hs
    cases hf : fetch_page s (allocate_page_on_disk s.disk_manager) with
    | error e => simp [hf, Except.map] at hs
    | ok r =>
      obtain ⟨fr, s2⟩ := r
      simp only [hf, Except.map, Except.ok.injEq] at hs
      subst hs
      exact fetch_page_inv2 h k hf
  | unpin id d =>
    simp only [step] at hs
    cases hf : unpin_page s id d with
    | error e => simp [hf, Except.map] at hs
    | ok r =>
      obtain ⟨fr, s2⟩ := r
      simp only [hf, Except.map, Except.ok.injEq] at hs
      subst hs
      exact unpin_page_inv2 h k hf
  | flush id =>
    simp only [step] at hs
    cases hf : flush_page s id with
    | error e => simp [hf, Except.map] at hs
    | ok r =>
      obtain ⟨fr, s2⟩ := r
      simp only [hf, Except.map, Except.ok.injEq] at hs
      subst hs
      exact flush_page_inv2 h k hf
  | flush_all => exact flush_all_loop_inv2 _ h k hs
  | write f bytes => exact write_page_data_inv2 k hs

/-- Every reachable pool satisfies the further invariant. -/
theorem Reachable.inv2 {s : BufferPoolManager} (hr : Reachable s) : Inv2 s := by
  induction hr with
  | init d raw_data raw_queue => exact create_inv2 d raw_data raw_queue
  | step op hr1 hs ih => exact step_inv2 hr1.inv ih op hs

theorem flushed_of_clean {p : Page} (h : p.is_dirty = false) : flushed p = p := by
  cases p
  simp only [flushed] at *
  simp [h]

/-- What the loop of `flush_all_pages` does over the frame indices `l`. -/
theorem flush_all_loop_spec (l : List Nat) :
    ∀ {s s1 : BufferPoolManager}, Inv s → flush_all_loop l s = .ok s1 →
      (s1.page_table = s.page_table ∧ s1.free_list = s.free_list ∧
        s1.free_list_size = s.free_list_size ∧ s1.lru_replacer = s.lru_replacer ∧
        s1.lru_head = s.lru_head ∧ s1.lru_tail = s.lru_tail ∧
        s1.lru_in_replacer = s.lru_in_replacer ∧
        s1.disk_manager.write_ok = s.disk_manager.write_ok) ∧
      (∀ (j : Nat) p, load s.pages (j : Int) = .ok p →
        load s1.pages (j : Int) = .ok p ∨ load s1.pages (j : Int) = .ok (flushed p)) ∧
      (∀ (j : Nat) p, j ∈ l → load s.pages (j : Int) = .ok p → p.page_id ≠ INVALID_PAGE_ID →
        load s1.pages (j : Int) = .ok (flushed p)) ∧
      (∀ id : Int, 0 ≤ id →
        (∀ (j : Nat) p, j ∈ l → load s.pages (j : Int) = .ok p → p.page_id = id →
          p.is_dirty = false) →
        disk_page s1.disk_manager id = disk_page s.disk_manager id) ∧
      (s.disk_manager.write_ok = true →
        ∀ (j : Nat) p, j ∈ l → load s.pages (j : Int) = .ok p → p.page_id ≠ INVALID_PAGE_ID →
          p.is_dirty = true → disk_page s1.disk_manager p.page_id = p.data) := by
  induction l with
  | nil =>
    intro s s1 _ hl
    simp only [flush_all_loop, Except.ok.injEq] at hl
    subst hl
    refine ⟨⟨rfl, rfl, rfl, rfl, rfl, rfl, rfl, rfl⟩, fun j p hp => Or.inl hp, ?_, ?_, ?_⟩
    · intro j p hj
      cases hj
    · intro id _ _
      rfl
    · intro _ j p hj
      cases hj
  | cons i rest ih =>
    intro s s1 h hl
    unfold flush_all_loop at hl
    split at hl
    · cases hl
    · rename_i page hpage
      split at hl
      · rename_i hc
        obtain ⟨hres, hdirty⟩ := hc
        split at hl
        · cases hl
        · rename_i r s2 hfl
          -- frame `i` holds a dirty resident page: it is flushed
          have hused : s.free_list_size ≤ (i : Int) := by
            by_contra hlt
            exact hres (h.frame_free _ page hpage (by omega)).1
          obtain ⟨hp0, hp1, hpt⟩ := h.frame_used _ page hpage hused
          have hine : (i : Int) ≠ INVALID_PAGE_ID := by simp only [INVALID_PAGE_ID]; omega
          rw [flush_page_resident hpt hine hpage] at hfl
          simp only [Except.ok.injEq, Prod.mk.injEq] at hfl
          obtain ⟨_, hs2⟩ := hfl
          subst hs2
          obtain ⟨hi0, hi1⟩ := load_bounds hpage
          have hlen := h.frame_data _ page hpage
          have h2 : Inv (after_flush s page.page_id (i : Int) page) :=
            after_flush_inv h page.page_id hpage
          have P : ∀ g, load (after_flush s page.page_id (i : Int) page).pages g =
              if g = (i : Int) then .ok (flushed page) else load s.pages g :=
            fun g => load_set _ _ hi0 hi1
          obtain ⟨hfields, hB, hA, hC, hD⟩ := ih h2 hl
          have hw2 : (after_flush s page.page_id (i : Int) page).disk_manager.write_ok
              = s.disk_manager.write_ok := write_page_to_disk_write_ok _ _ _
          have huniq : ∀ (j : Nat) p, load s.pages (j : Int) = .ok p →
              p.page_id = page.page_id → j = i := by
            intro j p hp hpid
            have hjused : s.free_list_size ≤ (j : Int) := by
              by_contra hlt
              have := (h.frame_free _ p hp (by omega)).1
              rw [hpid] at this
              exact hres this
            have := (h.frame_used _ p hp hjused).2.2
            rw [hpid, hpt] at this
            simp only [Except.ok.injEq] at this
            exact_mod_cast this.symm
          refine ⟨?_, ?_, ?_, ?_, ?_⟩
          · obtain ⟨a1, a2, a3, a4, a5, a6, a7, a8⟩ := hfields
            exact ⟨a1, a2, a3, a4, a5, a6, a7, a8.trans hw2⟩
          · intro j p hp
            by_cases hji : j = i
            · subst hji
              rw [hpage] at hp
              cases hp
              have hp2 : load (after_flush s page.page_id (j : Int) page).pages (j : Int)
                  = .ok (flushed page) := by rw [P]; simp
              rcases hB j (flushed page) hp2 with hx | hx
              · exact Or.inr hx
              · right
                rw [hx]
                rfl
            · have hji1 : (j : Int) ≠ (i : Int) := by exact_mod_cast hji
              have hp2 : load (after_flush s page.page_id (i : Int) page).pages (j : Int)
                  = .ok p := by rw [P, if_neg hji1]; exact hp
              exact hB j p hp2
          · intro j p hj hp hpres
            by_cases hji : j = i
            · subst hji
              rw [hpage] at hp
              cases hp
              have hp2 : load (after_flush s page.page_id (j : Int) page).pages (j : Int)
                  = .ok (flushed page) := by rw [P]; simp
              rcases hB j (flushed page) hp2 with hx | hx
              · exact hx
              · rw [hx]
                rfl
            · have hji1 : (j : Int) ≠ (i : Int) := by exact_mod_cast hji
              have hp2 : load (after_flush s page.page_id (i : Int) page).pages (j : Int)
                  = .ok p := by rw [P, if_neg hji1]; exact hp
              have hjr : j ∈ rest := by
                rcases List.mem_cons.mp hj with hx | hx
                · exact absurd hx hji
                · exact hx
              exact hA j p hjr hp2 hpres
          · intro id hid hclean
            have hne : id ≠ page.page_id := by
              intro heq
              have := hclean i page (List.mem_cons_self _ _) hpage heq.symm
              rw [hdirty] at this
              cases this
            have hstep : disk_page (after_flush s page.page_id (i : Int) page).disk_manager id
                = disk_page s.disk_manager id := by
              show disk_page (write_page_to_disk _ _ _) id = _
              unfold disk_page
              exact read_after_write_other _ _ _ _ _ hid hp0 hne hlen
            rw [← hstep]
            apply hC id hid
            intro j p hj hp hpid
            rw [P] at hp
            split at hp
            · cases hp
              rfl
            · exact hclean j p (List.mem_cons_of_mem _ hj) hp hpid
          · intro hw j p hj hp hpres hpd
            by_cases hji : j = i
            · subst hji
              rw [hpage] at hp
              cases hp
              have hstep : disk_page (after_flush s page.page_id (j : Int) page).disk_manager
                  page.page_id = page.data := by
                show disk_page (write_page_to_disk _ _ _) _ = _
                unfold disk_page
                exact read_after_write_same _ _ _ _ hp0 hw hlen
              rw [← hstep]
              apply hC page.page_id hp0
              intro j1 p1 _ hp1' hpid1
              rw [P] at hp1'
              split at hp1'
              · cases hp1'
                rfl
              · rename_i hne1
                have := huniq j1 p1 hp1' hpid1
                exact absurd (by exact_mod_cast this) hne1
            · have hji1 : (j : Int) ≠ (i : Int) := by exact_mod_cast hji
              have hp2 : load (after_flush s page.page_id (i : Int) page).pages (j : Int)
                  = .ok p := by rw [P, if_neg hji1]; exact hp
              have hjr : j ∈ rest := by
                rcases List.mem_cons.mp hj with hx | hx
                · exact absurd hx hji
                · exact hx
              exact hD (by rw [hw2]; exact hw) j p hjr hp2 hpres hpd
      · rename_i hc
        obtain ⟨hfields, hB, hA, hC, hD⟩ := ih h hl
        have hclean_i : page.page_id ≠ INVALID_PAGE_ID → page.is_dirty = false := by
          intro hres
          cases hd : page.is_dirty with
          | false => rfl
          | true => exact absurd ⟨hres, hd⟩ hc
        refine ⟨hfields, hB, ?_, ?_, ?_⟩
        · intro j p hj hp hpres
          rcases List.mem_cons.mp hj with hx | hx
          · subst hx
            rw [hpage] at hp
            cases hp
            rcases hB j page hpage with hy | hy
            · rw [hy, flushed_of_clean (hclean_i hpres)]
            · exact hy
          · exact hA j p hx hp hpres
        · intro id hid hclean
          exact hC id hid (fun j p hj hp hpid => hclean j p (List.mem_cons_of_mem _ hj) hp hpid)
        · intro hw j p hj hp hpres hpd
          rcases List.mem_cons.mp hj with hx | hx
          · subst hx
            rw [hpage] at hp
            cases hp
            rw [hclean_i hpres] at hpd
            cases hpd
          · exact hD hw j p hx hp hpres hpd

/-- C15. In every state reachable from a fresh pool, `flush_all_pages` has a result.
Afterwards no frame has its dirty flag set; every frame is as before but for a clear dirty
flag, so bytes, page identifiers and pin counts are unchanged; page table, free list and
the queue with its head, tail and flags are unchanged; a page of the disk that no dirty
frame held reads as before (nothing is written for clean or free frames); and, disk
writes succeeding, for every resident frame that was dirty the disk's page of that
frame's identifier reads as the frame's bytes. -/
theorem C15_flush_all_pages (s : BufferPoolManager) (hr : Reachable s) :
    ∃ s1, flush_all_pages s = .ok s1 ∧
      (∀ p ∈ s1.pages, p.is_dirty = false) ∧
      (∀ i p, load s.pages i = .ok p →
        load s1.pages i = .ok { data := p.data, page_id := p.page_id,
                                pin_count := p.pin_count, is_dirty := false }) ∧
      s1.page_table = s.page_table ∧ s1.free_list = s.free_list ∧
      s1.free_list_size = s.free_list_size ∧ s1.lru_replacer = s.lru_replacer ∧
      s1.lru_head = s.lru_head ∧ s1.lru_tail = s.lru_tail ∧
      s1.lru_in_replacer = s.lru_in_replacer ∧
      (∀ id : Int, 0 ≤ id →
        (∀ i p, load s.pages i = .ok p → p.page_id = id → p.is_dirty = false) →
        disk_page s1.disk_manager id = disk_page s.disk_manager id) ∧
      (s.disk_manager.write_ok = true →
        ∀ i p, load s.pages i = .ok p → p.page_id ≠ INVALID_PAGE_ID → p.is_dirty = true →
          disk_page s1.disk_manager p.page_id = p.data) := by
  have h := hr.inv
  have k := hr.inv2
  obtain ⟨s1, hs1⟩ := flush_all_loop_total (List.range BUFFER_POOL_SIZE) h
    (fun i hi => List.mem_range.mp hi)
  obtain ⟨⟨a1, a2, a3, a4, a5, a6, a7, _⟩, hB, hA, hC, hD⟩ := flush_all_loop_spec _ h hs1
  have h1 : Inv s1 := flush_all_loop_inv _ h hs1
  have hidx : ∀ (i : Int) (p : Page), load s.pages i = .ok p →
      (i.toNat : Int) = i ∧ i.toNat ∈ List.range BUFFER_POOL_SIZE := by
    intro i p hp
    obtain ⟨hi0, hi1⟩ := load_bounds hp
    rw [h.pages_len] at hi1
    refine ⟨Int.toNat_of_nonneg hi0, List.mem_range.mpr ?_⟩
    omega
  have hall : ∀ i p, load s.pages i = .ok p → load s1.pages i = .ok (flushed p) := by
    intro i p hp
    obtain ⟨hcast, hmem⟩ := hidx i p hp
    by_cases hres : p.page_id = INVALID_PAGE_ID
    · have hfree : i < s.free_list_size := by
        by_contra hge
        have := (h.frame_used i p hp (by omega)).1
        rw [hres] at this
        simp only [INVALID_PAGE_ID] at this
        omega
      have hclean := k.free_clean i p hp hfree
      have := hB i.toNat p (by rw [hcast]; exact hp)
      rw [hcast] at this
      rcases this with hx | hx
      · rw [hx, flushed_of_clean hclean]
      · exact hx
    · have := hA i.toNat p hmem (by rw [hcast]; exact hp) hres
      rw [hcast] at this
      exact this
  refine ⟨s1, hs1, ?_, hall, a1, a2, a3, a4, a5, a6, a7, ?_, ?_⟩
  · intro p1 hp1
    obtain ⟨i, hi⟩ := load_of_mem hp1
    obtain ⟨hi0, hi1⟩ := load_bounds hi
    rw [h1.pages_len, ← h.pages_len] at hi1
    obtain ⟨p, hp⟩ := load_total (l := s.pages) hi0 hi1
    have := hall i p hp
    rw [hi] at this
    simp only [Except.ok.injEq] at this
    rw [this]
    rfl
  · intro id hid hclean
    exact hC id hid (fun j p _ hp hpid => hclean _ p hp hpid)
  · intro hw i p hp hres hpd
    obtain ⟨hcast, hmem⟩ := hidx i p hp
    exact hD hw i.toNat p hmem (by rw [hcast]; exact hp) hres hpd

/-- C15, on the pool in which page 0 has been written and unpinned dirty. -/
theorem C15_flush_all_pages_witness :
    Reachable (run_or written_pool [Op.unpin 0 true]) ∧
    ∃ s1, flush_all_pages (run_or written_pool [Op.unpin 0 true]) = .ok s1 ∧
      (∀ p ∈ s1.pages, p.is_dirty = false) :=
  ⟨run_reachable [Op.unpin 0 true] written_pool_reachable rfl,
    match C15_flush_all_pages (run_or written_pool [Op.unpin 0 true])
      (run_reachable [Op.unpin 0 true] written_pool_reachable rfl) with
    | ⟨s1, h1, h2, _⟩ => ⟨s1, h1, h2⟩⟩

theorem fresh_pool_write_fails_reachable : Reachable fresh_pool_write_fails :=
  Reachable.init _ _ _

theorem lossy_pool_reachable : Reachable lossy_pool :=
  run_reachable (fetches BUFFER_POOL_SIZE ++ [Op.write 9 [104, 105], Op.unpin 0 true])
    fresh_pool_write_fails_reachable rfl

/-- C18, as stated, fails.  On a disk whose writes fail, page 0 sits dirty and unpinned
in frame 9 with the bytes `104, 105`; `fetch_page(10)` evicts it.  The write-back fails
(the file stays empty), and yet after the call page 0 is no longer mapped and frame 9
holds page 10, clean: the victim's mapping, page identifier and dirty flag are not kept. -/
theorem C18_mapping_not_kept :
    lossy_pool.disk_manager.write_ok = false
    ∧ lossy_pool.free_list_size = 0
    ∧ load lossy_pool.page_table 0 = .ok 9
    ∧ (page_at lossy_pool 9).page_id = 0
    ∧ (page_at lossy_pool 9).is_dirty = true
    ∧ (page_at lossy_pool 9).data.take 2 = [104, 105]
    ∧ load lossy_pool.page_table 10 = .ok INVALID_PAGE_ID
    ∧ fetch_page lossy_pool 10 = .ok (some 9, run_or lossy_pool [Op.fetch 10])
    ∧ (run_or lossy_pool [Op.fetch 10]).disk_manager.file = []
    ∧ ¬ (load (run_or lossy_pool [Op.fetch 10]).page_table 0 = .ok 9
        ∧ (page_at (run_or lossy_pool [Op.fetch 10]) 9).page_id = 0
        ∧ (page_at (run_or lossy_pool [Op.fetch 10]) 9).data = (page_at lossy_pool 9).data
        ∧ (page_at (run_or lossy_pool [Op.fetch 10]) 9).is_dirty = true
        ∧ (page_at (run_or lossy_pool [Op.fetch 10]) 9).page_id ≠ 10) := by
  refine ⟨by decide, by decide, rfl, by decide, by decide, by decide, rfl, result_eq rfl rfl,
    by decide, ?_⟩
  intro hc
  have h1 : (page_at (run_or lossy_pool [Op.fetch 10]) 9).page_id = 10 := by decide
  exact hc.2.2.2.2 h1

set_option linter.unusedVariables false in
/-- C18, amended.  In a state reachable from a fresh pool, when the `write` of the disk
fails and `fetch_page(id)` evicts a dirty victim from frame `f` (the identifier is not
resident and the free list is empty), `fetch_page` goes on after the failed write-back:
the victim's entry of the page table is removed, and frame `f` holds page `id` with pin
count 1, a clear dirty flag and the bytes that the disk holds for `id` after the call.
Nothing is said about what the failed `write` did to the file. -/
theorem C18_failed_write_back_continues (s s1 : BufferPoolManager) (hr : Reachable s)
    (hw : s.disk_manager.write_ok = false) (id f : Int) (victim : Page)
    (hmiss : load s.page_table id = .ok INVALID_PAGE_ID) (hfull : s.free_list_size = 0)
    (hv : load s.pages f = .ok victim) (hdirty : victim.is_dirty = true)
    (hf : fetch_page s id = .ok (some f, s1)) :
    victim.page_id ≠ id ∧ victim.page_id ≠ INVALID_PAGE_ID ∧
    load s.page_table victim.page_id = .ok f ∧
    load s1.page_table victim.page_id = .ok INVALID_PAGE_ID ∧
    load s1.page_table id = .ok f ∧
    load s1.pages f = .ok { data := disk_page s1.disk_manager id, page_id := id,
                            pin_count := 1, is_dirty := false } := by
  have h := hr.inv
  obtain ⟨hid0, hid1⟩ := load_bounds hmiss
  rcases fetch_page_evict h hmiss (by omega) with
    ⟨_, hnone⟩ | ⟨f1, hd, victim1, hflag, hv1, _, _, _, _, hfetch⟩
  · rw [hnone] at hf
    cases hf
  · rw [hfetch] at hf
    simp only [Except.ok.injEq, Prod.mk.injEq, Option.some.injEq] at hf
    obtain ⟨hf1, hf2⟩ := hf
    subst hf1 hf2
    rw [hv] at hv1
    cases hv1
    obtain ⟨hv0, hv1⟩ := load_bounds hv
    obtain ⟨hvid0, hvid1, hvt⟩ := h.frame_used f1 victim hv (by omega)
    have hvne : victim.page_id ≠ id := by
      intro heq
      rw [heq, hmiss] at hvt
      simp only [Except.ok.injEq, INVALID_PAGE_ID] at hvt
      omega
    have htl : id < (s.page_table.set victim.page_id.toNat INVALID_PAGE_ID).length := by
      rw [List.length_set]; exact hid1
    refine ⟨hvne, by simp only [INVALID_PAGE_ID]; omega, hvt, ?_, ?_, ?_⟩
    · show load ((s.page_table.set _ _).set _ _) _ = _
      rw [load_set _ _ hid0 htl, if_neg hvne,
        load_set _ _ hvid0 (by rw [h.table_len]; exact hvid1)]
      simp
    · show load ((s.page_table.set _ _).set _ _) _ = _
      rw [load_set _ _ hid0 htl]; simp
    · show load (s.pages.set _ _) _ = _
      rw [load_set _ _ hv0 hv1, if_pos rfl]
      simp only [loaded, Except.ok.injEq, Page.mk.injEq, and_true]
      exact disk_page_eq _ _ _ hid0

/-- C18 amended, on the pool over the disk whose writes fail: `fetch_page(10)` evicts the
dirty page 0 from frame 9, its entry of the page table is removed, and frame 9 holds
page 10. -/
theorem C18_failed_write_back_continues_witness :
    Reachable lossy_pool ∧ lossy_pool.disk_manager.write_ok = false ∧
    load lossy_pool.page_table 10 = .ok INVALID_PAGE_ID ∧ lossy_pool.free_list_size = 0 ∧
    load lossy_pool.pages 9 = .ok (page_at lossy_pool 9) ∧
    (page_at lossy_pool 9).is_dirty = true ∧
    fetch_page lossy_pool 10 = .ok (some 9, run_or lossy_pool [Op.fetch 10]) ∧
    ((page_at lossy_pool 9).page_id ≠ 10 ∧
      (page_at lossy_pool 9).page_id ≠ INVALID_PAGE_ID ∧
      load lossy_pool.page_table (page_at lossy_pool 9).page_id = .ok 9 ∧
      load (run_or lossy_pool [Op.fetch 10]).page_table (page_at lossy_pool 9).page_id
        = .ok INVALID_PAGE_ID ∧
      load (run_or lossy_pool [Op.fetch 10]).page_table 10 = .ok 9 ∧
      load (run_or lossy_pool [Op.fetch 10]).pages 9
        = .ok { data := disk_page (run_or lossy_pool [Op.fetch 10]).disk_manager 10,
                page_id := 10, pin_count := 1, is_dirty := false }) :=
  ⟨lossy_pool_reachable, by decide, rfl, by decide, rfl, by decide, result_eq rfl rfl,
    C18_failed_write_back_continues lossy_pool (run_or lossy_pool [Op.fetch 10])
      lossy_pool_reachable (by decide) 10 9 (page_at lossy_pool 9) rfl (by decide) rfl
      (by decide) (result_eq rfl rfl)⟩

set_option maxRecDepth 4000 in
/-- C19. The content check of main.c fails.  On a fresh pool over an empty file the three
calls of `new_page` of phase 1 all return identifier 0 in frame 9, and so do the ten calls
of phase 2, the file staying empty.  In phase 3, `fetch_page(1)` returns a page whose
content is the empty string, not the string written to the second page, and
`fetch_page(0)` returns a page whose content is the string that `sprintf` wrote in the
last iteration of phase 2, not the string written to the first page. -/
theorem C19_main_content_check_fails :
    (main_phase1 fresh_pool).map Prod.fst = .ok ([0, 0, 0], [some 9, some 9, some 9])
    ∧ (main_phase1 fresh_pool).map Prod.snd = .ok main_pool1
    ∧ (main_phase2 BUFFER_POOL_SIZE main_pool1).map Prod.fst
        = .ok [0, 0, 0, 0, 0, 0, 0, 0, 0, 0]
    ∧ (main_phase2 BUFFER_POOL_SIZE main_pool1).map Prod.snd = .ok main_pool2
    ∧ main_pool2.disk_manager.file = []
    ∧ (main_phase3 main_pool2).map Prod.fst = .ok (some [], some (c_string (text_auto 0)))
    ∧ [] ≠ c_string text_page2
    ∧ c_string (text_auto 0) ≠ c_string text_page1 := by
  refine ⟨rfl, rfl, rfl, rfl, by decide, rfl, by decide, by decide⟩

/-- The scan of `lru_replacer_evict` started at `cur`: when the entry `k` positions
further on is the first one whose frame is flagged, the scan returns that frame, clears
its flag and leaves the head just after that entry. -/
theorem evict_scan_first {s : BufferPoolManager} (h : Inv s) (f : Int) :
    ∀ (k fuel : Nat) (cur : Int), 0 ≤ cur → cur < BUFFER_POOL_SIZE →
    (k : Int) < (s.lru_tail - cur) % (BUFFER_POOL_SIZE : Int) → k < fuel →
    (∀ j : Nat, j < k → ∀ e, load s.lru_replacer ((cur + j) % (BUFFER_POOL_SIZE : Int)) = .ok e →
      load s.lru_in_replacer e = .ok false) →
    load s.lru_replacer ((cur + k) % (BUFFER_POOL_SIZE : Int)) = .ok f →
    load s.lru_in_replacer f = .ok true →
    evict_scan fuel s cur = .ok (some f,
      { s with
        lru_head := ((cur + k) % (BUFFER_POOL_SIZE : Int) + 1) % (BUFFER_POOL_SIZE : Int)
        lru_in_replacer := s.lru_in_replacer.set f.toNat false }) := by
  intro k
  induction k with
  | zero =>
    intro fuel cur h0 h1 hk hfuel _ hq hfl
    obtain ⟨fuel, rfl⟩ : ∃ n, fuel = n + 1 := ⟨fuel - 1, by omega⟩
    have ht := h.tail_range
    simp only [BUFFER_POOL_SIZE, Nat.cast_ofNat, Nat.cast_zero, add_zero] at h1 hk ht hq ⊢
    have hcur : cur ≠ s.lru_tail := by
      intro hc
      rw [hc] at hk
      simp at hk
    have hmod : cur % 10 = cur := by omega
    rw [hmod] at hq ⊢
    have hfb := load_bounds hfl
    have hst := store_eq (l := s.lru_in_replacer) false hfb.1 hfb.2
    simp [evict_scan, hcur, hq, hfl, hst, BUFFER_POOL_SIZE]
  | succ k ih =>
    intro fuel cur h0 h1 hk hfuel hbefore hq hfl
    obtain ⟨fuel, rfl⟩ : ∃ n, fuel = n + 1 := ⟨fuel - 1, by omega⟩
    have ht := h.tail_range
    simp only [BUFFER_POOL_SIZE, Nat.cast_ofNat, Nat.cast_add, Nat.cast_one] at h1 hk ht hq
    have hcur : cur ≠ s.lru_tail := by
      intro hc
      rw [hc] at hk
      simp at hk
      omega
    obtain ⟨e, he⟩ := load_total (l := s.lru_replacer) h0
      (by rw [h.queue_len]; simpa [BUFFER_POOL_SIZE] using h1)
    have hfalse := hbefore 0 (by omega) e (by
      simp only [BUFFER_POOL_SIZE, Nat.cast_ofNat, Nat.cast_zero, add_zero]
      have hmod : cur % 10 = cur := by omega
      rw [hmod]
      exact he)
    have hunf : evict_scan (fuel + 1) s cur
        = evict_scan fuel s ((cur + 1) % (BUFFER_POOL_SIZE : Int)) := by
      simp [evict_scan, hcur, he, hfalse]
    rw [hunf]
    have hpos : ∀ j : Int, ((cur + 1) % 10 + j) % 10 = (cur + (j + 1)) % 10 := by
      intro j
      omega
    have hrec := ih fuel ((cur + 1) % (BUFFER_POOL_SIZE : Int))
      (by simp only [BUFFER_POOL_SIZE, Nat.cast_ofNat]; omega)
      (by simp only [BUFFER_POOL_SIZE, Nat.cast_ofNat]; omega)
      (by simp only [BUFFER_POOL_SIZE, Nat.cast_ofNat]; omega)
      (by omega)
      (by
        intro j hj e1 he1
        simp only [BUFFER_POOL_SIZE, Nat.cast_ofNat] at he1
        rw [hpos] at he1
        exact hbefore (j + 1) (by omega) e1 (by
          simp only [BUFFER_POOL_SIZE, Nat.cast_ofNat, Nat.cast_add, Nat.cast_one]
          exact he1))
      (by
        simp only [BUFFER_POOL_SIZE, Nat.cast_ofNat]
        rw [hpos]
        exact hq)
      hfl
    rw [hrec]
    simp only [BUFFER_POOL_SIZE, Nat.cast_ofNat, Nat.cast_add, Nat.cast_one]
    rw [hpos]

/-- The scan of `lru_replacer_evict` started at `cur`: when no entry from `cur` up to the
tail has a flagged frame, the scan finds nothing and changes nothing. -/
theorem evict_scan_unflagged {s : BufferPoolManager} (h : Inv s) :
    ∀ (fuel : Nat) (cur : Int), 0 ≤ cur → cur < BUFFER_POOL_SIZE →
    (s.lru_tail - cur) % (BUFFER_POOL_SIZE : Int) < fuel →
    (∀ j : Nat, (j : Int) < (s.lru_tail - cur) % (BUFFER_POOL_SIZE : Int) →
      ∀ e, load s.lru_replacer ((cur + j) % (BUFFER_POOL_SIZE : Int)) = .ok e →
      load s.lru_in_replacer e = .ok false) →
    evict_scan fuel s cur = .ok (none, s) := by
  intro fuel
  induction fuel with
  | zero =>
    intro cur _ _ hfuel _
    have : (0 : Int) ≤ (s.lru_tail - cur) % (BUFFER_POOL_SIZE : Int) :=
      Int.emod_nonneg _ (by simp [BUFFER_POOL_SIZE])
    simp only [Nat.cast_zero] at hfuel
    omega
  | succ fuel ih =>
    intro cur h0 h1 hfuel hall
    have ht := h.tail_range
    simp only [BUFFER_POOL_SIZE, Nat.cast_ofNat, Nat.cast_add, Nat.cast_one] at h1 hfuel ht
    by_cases hcur : cur = s.lru_tail
    · simp [evict_scan, hcur]
    · obtain ⟨e, he⟩ := load_total (l := s.lru_replacer) h0
        (by rw [h.queue_len]; simpa [BUFFER_POOL_SIZE] using h1)
      have hfalse := hall 0 (by
        simp only [BUFFER_POOL_SIZE, Nat.cast_ofNat, Nat.cast_zero]; omega) e (by
        simp only [BUFFER_POOL_SIZE, Nat.cast_ofNat, Nat.cast_zero, add_zero]
        have hmod : cur % 10 = cur := by omega
        rw [hmod]
        exact he)
      have hunf : evict_scan (fuel + 1) s cur
          = evict_scan fuel s ((cur + 1) % (BUFFER_POOL_SIZE : Int)) := by
        simp [evict_scan, hcur, he, hfalse]
      rw [hunf]
      have hpos : ∀ j : Int, ((cur + 1) % 10 + j) % 10 = (cur + (j + 1)) % 10 := by
        intro j
        omega
      apply ih
      · simp only [BUFFER_POOL_SIZE, Nat.cast_ofNat]; omega
      · simp only [BUFFER_POOL_SIZE, Nat.cast_ofNat]; omega
      · simp only [BUFFER_POOL_SIZE, Nat.cast_ofNat]; omega
      · intro j hj e1 he1
        simp only [BUFFER_POOL_SIZE, Nat.cast_ofNat] at he1 hj
        rw [hpos] at he1
        exact hall (j + 1) (by
          simp only [BUFFER_POOL_SIZE, Nat.cast_ofNat, Nat.cast_add, Nat.cast_one]; omega) e1 (by
          simp only [BUFFER_POOL_SIZE, Nat.cast_ofNat, Nat.cast_add, Nat.cast_one]
          exact he1)

theorem stale_pool_reachable : Reachable stale_pool :=
  run_reachable [Op.fetch 0, Op.fetch 1, Op.unpin 0 false, Op.unpin 1 false, Op.fetch 0]
    fresh_pool_reachable rfl

/-- C22. The scan of `lru_replacer_evict`.  In a state reachable from a fresh pool the
entries of the ring buffer are examined from `lru_head` up to, not including,
`lru_tail`, in ring order.  When the entry `k` positions after the head is the first one
whose frame is flagged, the function returns that frame, clears its flag and moves
`lru_head` to the position just after that entry, everything else unchanged.  When no
entry of that range has a flagged frame, it returns nothing and leaves the pool (head,
tail, queue contents, flags) as it was. -/
theorem C22_eviction_scan (s : BufferPoolManager) (hr : Reachable s) :
    (∀ (k : Nat) (f : Int),
      (k : Int) < (s.lru_tail - s.lru_head) % (BUFFER_POOL_SIZE : Int) →
      load s.lru_replacer ((s.lru_head + k) % (BUFFER_POOL_SIZE : Int)) = .ok f →
      load s.lru_in_replacer f = .ok true →
      (∀ j : Nat, j < k →
        ∀ e, load s.lru_replacer ((s.lru_head + j) % (BUFFER_POOL_SIZE : Int)) = .ok e →
        load s.lru_in_replacer e = .ok false) →
      lru_replacer_evict s = .ok (some f,
        { s with
          lru_head :=
            ((s.lru_head + k) % (BUFFER_POOL_SIZE : Int) + 1) % (BUFFER_POOL_SIZE : Int)
          lru_in_replacer := s.lru_in_replacer.set f.toNat false })) ∧
    ((∀ j : Nat, (j : Int) < (s.lru_tail - s.lru_head) % (BUFFER_POOL_SIZE : Int) →
        ∀ e, load s.lru_replacer ((s.lru_head + j) % (BUFFER_POOL_SIZE : Int)) = .ok e →
        load s.lru_in_replacer e = .ok false) →
      lru_replacer_evict s = .ok (none, s)) := by
  have h := hr.inv
  have hh := h.head_range
  constructor
  · intro k f hk hq hfl hbefore
    have hk10 : k < BUFFER_POOL_SIZE := by
      simp only [BUFFER_POOL_SIZE, Nat.cast_ofNat] at hk ⊢
      omega
    exact evict_scan_first h f k BUFFER_POOL_SIZE s.lru_head hh.1 hh.2 hk hk10 hbefore hq hfl
  · intro hall
    exact evict_scan_unflagged h BUFFER_POOL_SIZE s.lru_head hh.1 hh.2
      (by simp only [BUFFER_POOL_SIZE, Nat.cast_ofNat]; omega) hall

/-- C22, on the pool whose ring buffer holds the stale entry of frame 9 followed by the
entry of frame 8, with head 0 and tail 2: the scan skips the stale entry, returns frame
8, clears its flag and leaves the head at 2. -/
theorem C22_eviction_scan_witness :
    Reachable stale_pool ∧ stale_pool.lru_head = 0 ∧ stale_pool.lru_tail = 2 ∧
    load stale_pool.lru_replacer 0 = .ok 9 ∧ load stale_pool.lru_in_replacer 9 = .ok false ∧
    load stale_pool.lru_replacer 1 = .ok 8 ∧ load stale_pool.lru_in_replacer 8 = .ok true ∧
    lru_replacer_evict stale_pool = .ok (some 8,
      { stale_pool with
        lru_head := 2
        lru_in_replacer := stale_pool.lru_in_replacer.set 8 false }) :=
  ⟨stale_pool_reachable, rfl, rfl, rfl, rfl, rfl, rfl,
    (C22_eviction_scan stale_pool stale_pool_reachable).1 1 8
      (by decide) rfl rfl
      (fun j hj e he => by
        obtain rfl : j = 0 := by omega
        obtain rfl : e = 9 := (Except.ok.inj he).symm
        rfl)⟩

/-- In a list whose entry `j` is `j`, each index occurs exactly once among the first `k`
entries, for `k` within the list. -/
theorem count_take_identity {l : List Int} (hl : ∀ i e, load l i = .ok e → e = i)
    {k i : Int} (hk : k ≤ l.length) (h0 : 0 ≤ i) (h1 : i < k) :
    (l.take k.toNat).count i = 1 := by
  have heq : l.take k.toNat = (List.range k.toNat).map Int.ofNat := by
    apply List.ext_getElem
    · simp
      omega
    · intro n hn1 hn2
      simp only [List.length_take, lt_inf_iff] at hn1
      have hget : load l (n : Int) = .ok (l[n]) := by
        rw [load_eq_ok_iff]
        refine ⟨by omega, ?_⟩
        simp [List.getElem?_eq_getElem hn1.2]
      have := hl _ _ hget
      simp [this]
  rw [heq]
  apply List.count_eq_one_of_mem
  · exact List.Nodup.map Int.ofNat_injective (List.nodup_range _)
  · rw [List.mem_map]
    exact ⟨i.toNat, by rw [List.mem_range]; omega, by simp; omega⟩

/-- C23 does not hold of the 32-bit pin count.  In the state reached from a fresh pool
over an empty backing file by `2^31` calls of `fetch_page(0)`, frame 9 holds page 0 with
pin count `-2147483648` and a clear in-queue flag: it is neither free, nor
pinned-resident, nor unpinned-resident. -/
theorem C23_wrapped_frame_in_no_state :
    Reachable_int32 (hit_pool (-2147483648))
    ∧ load (hit_pool (-2147483648)).pages 9 = .ok (page_at (hit_pool (-2147483648)) 9)
    ∧ load (hit_pool (-2147483648)).lru_in_replacer 9 = .ok false
    ∧ (page_at (hit_pool (-2147483648)) 9).page_id = 0
    ∧ (page_at (hit_pool (-2147483648)) 9).pin_count = -2147483648
    ∧ ¬ frame_free (hit_pool (-2147483648)) 9 (page_at (hit_pool (-2147483648)) 9) false
    ∧ ¬ frame_pinned (page_at (hit_pool (-2147483648)) 9) false
    ∧ ¬ frame_unpinned (page_at (hit_pool (-2147483648)) 9) false := by
  have hid : (page_at (hit_pool (-2147483648)) 9).page_id = 0 := rfl
  have hpc : (page_at (hit_pool (-2147483648)) 9).pin_count = -2147483648 := rfl
  refine ⟨hit_pool_wrapped.2.2, rfl, rfl, hid, hpc, ?_, ?_, ?_⟩
  · rintro ⟨h, _⟩
    rw [hid] at h
    exact absurd h (by decide)
  · rintro ⟨_, h, _⟩
    rw [hpc] at h
    exact absurd h (by decide)
  · rintro ⟨_, h, _⟩
    rw [hpc] at h
    exact absurd h (by decide)

/-- C23, amended.  Frame-state trichotomy.  In every state reachable from a fresh pool,
pin counts and page identifiers being 32-bit `int`s and each call of `fetch_page` or
`new_page` being made while every pin count is below `INT_MAX`, each frame is in exactly
one of three states: free (no page, its index exactly once among the first
`free_list_size` entries of the free list, pin count 0, flag clear), pinned-resident
(valid page identifier, positive pin count, flag clear) or unpinned-resident (valid page
identifier, pin count 0, flag set); and the in-queue flag of a frame is set if and only
if the frame holds a page with pin count 0. -/
theorem C23_frame_state_trichotomy (s : BufferPoolManager) (hr : ReachableWithin s)
    (i : Int) (p : Page) (hp : load s.pages i = .ok p) :
    ∃ flag, load s.lru_in_replacer i = .ok flag ∧
      (frame_free s i p flag ∨ frame_pinned p flag ∨ frame_unpinned p flag) ∧
      ¬ (frame_free s i p flag ∧ frame_pinned p flag) ∧
      ¬ (frame_free s i p flag ∧ frame_unpinned p flag) ∧
      ¬ (frame_pinned p flag ∧ frame_unpinned p flag) ∧
      (flag = true ↔ (p.page_id ≠ INVALID_PAGE_ID ∧ p.pin_count = 0)) := by
  have h := hr.reachable.inv
  have h2 := hr.reachable.inv2
  have hb := load_bounds hp
  obtain ⟨flag, hflag⟩ := load_total (l := s.lru_in_replacer) hb.1
    (by rw [h.flags_len, ← h.pages_len]; exact hb.2)
  have hfs := h.free_size
  have hpin := h.frame_pin i p hp
  refine ⟨flag, hflag, ?_⟩
  by_cases hi : i < s.free_list_size
  · obtain ⟨hid, hpc, hfl⟩ := h.frame_free i p hp hi
    rw [hflag] at hfl
    injection hfl with hfl
    have hcount := count_take_identity h.free_entry (k := s.free_list_size)
      (by rw [h.free_len]; exact hfs.2) hb.1 hi
    have hfree : frame_free s i p flag := ⟨hid, hcount, hpc, hfl⟩
    refine ⟨Or.inl hfree, ?_, ?_, ?_, ?_⟩
    · rintro ⟨_, _, hpos, _⟩
      omega
    · rintro ⟨_, _, _, ht⟩
      rw [hfl] at ht
      exact Bool.noConfusion ht
    · rintro ⟨⟨_, hpos, _⟩, _⟩
      omega
    · rw [hfl]
      constructor
      · intro ht
        exact Bool.noConfusion ht
      · rintro ⟨hne, _⟩
        exact absurd hid hne
  · obtain ⟨hid0, hid1, _⟩ := h.frame_used i p hp (by omega)
    have hne : p.page_id ≠ INVALID_PAGE_ID := by
      simp only [INVALID_PAGE_ID]
      omega
    have hnotfree : ¬ frame_free s i p flag := fun hf => hne hf.1
    by_cases hpc : p.pin_count = 0
    · have hfl := h2.unpinned_flagged i p hp (by omega) hpc
      rw [hflag] at hfl
      injection hfl with hfl
      refine ⟨Or.inr (Or.inr ⟨⟨hid0, hid1⟩, hpc, hfl⟩), fun hx => hnotfree hx.1,
        fun hx => hnotfree hx.1, ?_, ?_⟩
      · rintro ⟨⟨_, hpos, _⟩, _⟩
        omega
      · exact ⟨fun _ => ⟨hne, hpc⟩, fun _ => hfl⟩
    · have hfl : flag = false := by
        cases flag
        · rfl
        · exact absurd (h.frame_flag i p hp hflag) hpc
      refine ⟨Or.inr (Or.inl ⟨⟨hid0, hid1⟩, by omega, hfl⟩), fun hx => hnotfree hx.1,
        fun hx => hnotfree hx.1, ?_, ?_⟩
      · rintro ⟨_, _, hz, _⟩
        exact hpc hz
      · rw [hfl]
        exact ⟨fun ht => Bool.noConfusion ht, fun hx => absurd hx.2 hpc⟩

/-- C23 amended, on the pool in which page 0 sits unpinned in frame 9, page 5 sits pinned
in frame 8 and the frames `0..7` are free: frame 9 is flagged, and unpinned-resident. -/
theorem C23_frame_state_trichotomy_witness :
    load (run_or fresh_pool [Op.fetch 0, Op.unpin 0 true, Op.fetch 5]).pages 9
      = .ok (page_at (run_or fresh_pool [Op.fetch 0, Op.unpin 0 true, Op.fetch 5]) 9) ∧
    frame_unpinned (page_at (run_or fresh_pool [Op.fetch 0, Op.unpin 0 true, Op.fetch 5]) 9)
      true ∧
    ∃ flag, load (run_or fresh_pool [Op.fetch 0, Op.unpin 0 true, Op.fetch 5]).lru_in_replacer 9
        = .ok flag ∧
      (frame_free (run_or fresh_pool [Op.fetch 0, Op.unpin 0 true, Op.fetch 5]) 9
          (page_at (run_or fresh_pool [Op.fetch 0, Op.unpin 0 true, Op.fetch 5]) 9) flag ∨
        frame_pinned (page_at (run_or fresh_pool [Op.fetch 0, Op.unpin 0 true, Op.fetch 5]) 9)
          flag ∨
        frame_unpinned (page_at (run_or fresh_pool [Op.fetch 0, Op.unpin 0 true, Op.fetch 5]) 9)
          flag) :=
  ⟨rfl, by decide,
    match C23_frame_state_trichotomy
      (run_or fresh_pool [Op.fetch 0, Op.unpin 0 true, Op.fetch 5])
      (run_within_reachable [Op.fetch 0, Op.unpin 0 true, Op.fetch 5] fresh_pool_within
        rfl) 9
      (page_at (run_or fresh_pool [Op.fetch 0, Op.unpin 0 true, Op.fetch 5]) 9) rfl with
    | ⟨flag, h1, h2, _⟩ => ⟨flag, h1, h2⟩⟩

/-- C24. A miss of `fetch_page` is served from the free list whenever it is not empty.
In a state reachable from a fresh pool with `free_list_size > 0`, a `fetch_page(id)` for
an identifier of the page table that is not resident returns the last entry of the free
list; afterwards `free_list_size` is one less, the disk is the old one (nothing was
written), every page-table entry that mapped a page still does, every other frame is
unchanged (bytes, page_id, pin_count, dirty flag), and the head, the tail and the
contents of the ring buffer, the free list and the in-queue flags of the other frames
are unchanged. -/
theorem C24_free_list_preferred (s s1 : BufferPoolManager) (hr : Reachable s) (id : Int)
    (r : Option Int) (hmiss : load s.page_table id = .ok INVALID_PAGE_ID)
    (hfree : 0 < s.free_list_size) (hf : fetch_page s id = .ok (r, s1)) :
    ∃ f, r = some f ∧ load s.free_list (s.free_list_size - 1) = .ok f ∧
      s1.free_list_size = s.free_list_size - 1 ∧
      s1.disk_manager = s.disk_manager ∧
      (∀ q e, load s.page_table q = .ok e → e ≠ INVALID_PAGE_ID →
        load s1.page_table q = .ok e) ∧
      (∀ i, i ≠ f → load s1.pages i = load s.pages i) ∧
      s1.lru_head = s.lru_head ∧ s1.lru_tail = s.lru_tail ∧
      s1.lru_replacer = s.lru_replacer ∧ s1.free_list = s.free_list ∧
      (∀ i, i ≠ f → load s1.lru_in_replacer i = load s.lru_in_replacer i) := by
  have h := hr.inv
  obtain ⟨old, hold, hfetch⟩ := fetch_page_free h hmiss hfree
  rw [hfetch] at hf
  injection hf with hf
  injection hf with hr1 hs1
  subst hr1 hs1
  have hfs := h.free_size
  have hb := load_bounds hmiss
  have hfb := load_bounds hold
  obtain ⟨e, he⟩ := load_total (l := s.free_list) (i := s.free_list_size - 1) (by omega)
    (by rw [h.free_len]; omega)
  have hee := h.free_entry _ _ he
  subst hee
  refine ⟨s.free_list_size - 1, rfl, he, rfl, rfl, ?_, ?_, rfl, rfl, rfl, rfl, ?_⟩
  · intro q e hq hne
    show load (s.page_table.set id.toNat (s.free_list_size - 1)) q = .ok e
    rw [load_set _ _ hb.1 hb.2]
    have hqid : q ≠ id := by
      intro hqid
      rw [hqid, hmiss] at hq
      injection hq with hq
      exact hne hq.symm
    rw [if_neg hqid]
    exact hq
  · intro i hi
    show load (s.pages.set (s.free_list_size - 1).toNat _) i = load s.pages i
    rw [load_set _ _ hfb.1 hfb.2, if_neg hi]
  · intro i hi
    show load (s.lru_in_replacer.set (s.free_list_size - 1).toNat false) i
      = load s.lru_in_replacer i
    rw [load_set _ _ hfb.1 (by rw [h.flags_len]; rw [h.pages_len] at hfb; exact hfb.2),
      if_neg hi]

/-- C24, on the pool in which page 0 has been fetched into frame 9 and unpinned dirty:
`fetch_page(5)` takes frame 8, the last entry of the free list, and leaves frame 9, the
disk and the ring buffer alone. -/
theorem C24_free_list_preferred_witness :
    load (run_or fresh_pool [Op.fetch 0, Op.unpin 0 true]).page_table 5
      = .ok INVALID_PAGE_ID ∧
    0 < (run_or fresh_pool [Op.fetch 0, Op.unpin 0 true]).free_list_size ∧
    fetch_page (run_or fresh_pool [Op.fetch 0, Op.unpin 0 true]) 5
      = .ok (some 8, run_or fresh_pool [Op.fetch 0, Op.unpin 0 true, Op.fetch 5]) ∧
    ∃ f, some 8 = some f ∧
      load (run_or fresh_pool [Op.fetch 0, Op.unpin 0 true]).free_list
        ((run_or fresh_pool [Op.fetch 0, Op.unpin 0 true]).free_list_size - 1) = .ok f ∧
      (run_or fresh_pool [Op.fetch 0, Op.unpin 0 true, Op.fetch 5]).free_list_size
        = (run_or fresh_pool [Op.fetch 0, Op.unpin 0 true]).free_list_size - 1 ∧
      (run_or fresh_pool [Op.fetch 0, Op.unpin 0 true, Op.fetch 5]).disk_manager
        = (run_or fresh_pool [Op.fetch 0, Op.unpin 0 true]).disk_manager :=
  ⟨rfl, by decide, result_eq rfl rfl,
    match C24_free_list_preferred (run_or fresh_pool [Op.fetch 0, Op.unpin 0 true])
      (run_or fresh_pool [Op.fetch 0, Op.unpin 0 true, Op.fetch 5])
      (run_reachable [Op.fetch 0, Op.unpin 0 true] fresh_pool_reachable rfl) 5 (some 8) rfl
      (by decide) (result_eq rfl rfl) with
    | ⟨f, h1, h2, h3, h4, _⟩ => ⟨f, h1, h2, h3, h4⟩⟩

/-- Writing a whole page at or beyond the end of the file leaves the file ending with
that page. -/
theorem write_page_to_disk_length (d : DiskManager) (id : Int) (data : List UInt8)
    (h0 : 0 ≤ id) (hw : d.write_ok = true) (hd : data.length = PAGE_SIZE)
    (hlen : d.file.length ≤ (id * (PAGE_SIZE : Int)).toNat) :
    (write_page_to_disk d id data).file.length = (id * (PAGE_SIZE : Int)).toNat + PAGE_SIZE := by
  have hoff : ¬ id * (PAGE_SIZE : Int) < 0 := by
    have : 0 ≤ id * (PAGE_SIZE : Int) := Int.mul_nonneg h0 (by simp [PAGE_SIZE])
    omega
  unfold write_page_to_disk
  simp only [hoff, if_false, hw, Bool.true_eq_false, List.length_append, List.length_take,
    List.length_replicate, List.length_drop, hd]
  omega

/-- An index at or beyond the length of the array is out of bounds. -/
theorem load_beyond {α : Type} {l : List α} {i : Int} (h : (l.length : Int) ≤ i) :
    load l i = .error Fault.out_of_bounds := by
  have hnone : l[i.toNat]? = none := by
    rw [List.getElem?_eq_none_iff]
    omega
  unfold load
  rw [hnone]
  split <;> rfl

/-- The function `new_page` indexes the page table with the identifier that
`allocate_page_on_disk` returns, without a check against the size of the table. -/
theorem new_page_beyond (s : BufferPoolManager)
    (h : (s.page_table.length : Int) ≤ allocate_page_on_disk s.disk_manager) :
    new_page s = .error Fault.out_of_bounds := by
  unfold new_page fetch_page
  rw [load_beyond h]

theorem full_file_pool_reachable : Reachable full_file_pool :=
  run_reachable [Op.fetch 99, Op.flush 99] fresh_pool_reachable rfl

theorem full_file_pool_allocate : allocate_page_on_disk full_file_pool.disk_manager = 100 := by
  have hr1 : Reachable (run_or fresh_pool [Op.fetch 99]) :=
    run_reachable [Op.fetch 99] fresh_pool_reachable rfl
  have hp : load (run_or fresh_pool [Op.fetch 99]).pages 9
      = .ok (page_at (run_or fresh_pool [Op.fetch 99]) 9) := rfl
  have hdata := hr1.inv.frame_data 9 _ hp
  have hdisk : full_file_pool.disk_manager
      = write_page_to_disk { file := [], write_ok := true } 99
          (page_at (run_or fresh_pool [Op.fetch 99]) 9).data := rfl
  have hlen := write_page_to_disk_length { file := [], write_ok := true } 99
    (page_at (run_or fresh_pool [Op.fetch 99]) 9).data (by decide) rfl hdata (by simp)
  unfold allocate_page_on_disk
  rw [hdisk, hlen]
  simp only [PAGE_SIZE]
  omega

/-- C25. Index safety fails for `new_page` once the backing file holds 100 pages.  On a
fresh pool over an empty backing file, `fetch_page(99)` followed by `flush_page(99)`
(both identifiers within the page table) extends the file to 100 pages; the page table
has 100 entries, `allocate_page_on_disk` then yields the identifier 100, and `new_page`
indexes `page_table[100]`, one past the end of the table. -/
theorem C25_new_page_index_out_of_bounds :
    run fresh_pool [Op.fetch 99, Op.flush 99] = .ok full_file_pool ∧
    Reachable full_file_pool ∧
    full_file_pool.page_table.length = TABLE_MAX_PAGES ∧
    allocate_page_on_disk full_file_pool.disk_manager = 100 ∧
    load full_file_pool.page_table 100 = .error Fault.out_of_bounds ∧
    new_page full_file_pool = .error Fault.out_of_bounds :=
  ⟨rfl, full_file_pool_reachable, full_file_pool_reachable.inv.table_len,
    full_file_pool_allocate,
    load_beyond (by
      rw [full_file_pool_reachable.inv.table_len]
      decide),
    new_page_beyond full_file_pool (by
      rw [full_file_pool_reachable.inv.table_len, full_file_pool_allocate]
      decide)⟩

end DbStorage

namespace Bptree

theorem bind_ok {α β : Type} (a : α) (f : α → Except Fault β) :
    (Except.ok a >>= f) = f a := rfl

theorem bind_error {α β : Type} (e : Fault) (f : α → Except Fault β) :
    (Except.error e >>= f) = Except.error e := rfl

theorem read_ok {α : Type} {xs : List α} {i : Nat} (d : α) (h : i < xs.length) :
    read xs i = .ok (xs.getD i d) := by
  unfold read
  rw [List.getD_eq_getElem?_getD, List.getElem?_eq_getElem h]
  rfl

theorem write_ok {α : Type} {l : List α} {i : Nat} (v : α) (h : i < l.length) :
    write l i v = .ok (l.set i v) := by
  unfold write
  rw [if_pos h]

theorem getD_set {α : Type} (xs : List α) (i j : Nat) (v d : α) (h : i < xs.length) :
    (xs.set i v).getD j d = if j = i then v else xs.getD j d := by
  rw [List.getD_eq_getElem?_getD, List.getD_eq_getElem?_getD, List.getElem?_set]
  by_cases hj : j = i
  · subst hj
    simp [h]
  · have hij : ¬ i = j := fun h => hj h.symm
    simp [hj, hij]

/-- The loop `scan`: it stops at the first index whose element fails `p`, or at the end. -/
theorem scan_spec {α : Type} (p : α → Bool) (xs : List α) (d : α) :
    ∀ (count i : Nat), i + count ≤ xs.length →
    ∃ r, scan p xs count i = .ok r ∧ i ≤ r ∧ r ≤ i + count ∧
      (∀ j, i ≤ j → j < r → p (xs.getD j d) = true) ∧
      (r < i + count → p (xs.getD r d) = false) := by
  intro count
  induction count with
  | zero =>
    intro i _
    exact ⟨i, rfl, le_refl _, le_refl _, fun j h1 h2 => by omega, fun h => by omega⟩
  | succ count ih =>
    intro i hlen
    have hr := read_ok d (show i < xs.length by omega)
    by_cases hp : p (xs.getD i d) = true
    · obtain ⟨r, hscan, h1, h2, h3, h4⟩ := ih (i + 1) (by omega)
      refine ⟨r, ?_, by omega, by omega, ?_, fun h => h4 (by omega)⟩
      · simp only [scan, hr, bind_ok, hp, if_true]
        exact hscan
      · intro j hj1 hj2
        by_cases hji : j = i
        · rw [hji]; exact hp
        · exact h3 j (by omega) hj2
    · refine ⟨i, ?_, le_refl _, by omega, fun j h1 h2 => by omega, fun _ => by simpa using hp⟩
      simp only [scan, hr, bind_ok, hp]
      rfl

/-- The loop `shift_right`: the elements `lo .. hi - 1` move one slot up. -/
theorem shift_right_spec {α : Type} (d : α) (lo : Nat) :
    ∀ (hi : Nat) (xs : List α), hi < xs.length →
    ∃ ys, shift_right xs lo hi = .ok ys ∧ ys.length = xs.length ∧
      ∀ j, ys.getD j d = if lo < j ∧ j ≤ hi then xs.getD (j - 1) d else xs.getD j d := by
  intro hi
  induction hi with
  | zero =>
    intro xs _
    refine ⟨xs, rfl, rfl, fun j => ?_⟩
    have : ¬ (lo < j ∧ j ≤ 0) := by omega
    rw [if_neg this]
  | succ hi ih =>
    intro xs hlen
    by_cases hlo : hi + 1 > lo
    · have hr := read_ok d (show hi < xs.length by omega)
      have hw := write_ok (xs.getD hi d) hlen
      obtain ⟨ys, hs, hl, hget⟩ := ih (xs.set (hi + 1) (xs.getD hi d)) (by simp; omega)
      refine ⟨ys, ?_, by simpa using hl, fun j => ?_⟩
      · simp only [shift_right, hlo, if_true, hr, bind_ok, hw]
        exact hs
      · rw [hget j, getD_set _ _ _ _ _ hlen, getD_set _ _ _ _ _ hlen]
        by_cases h1 : lo < j ∧ j ≤ hi
        · have h2 : lo < j ∧ j ≤ hi + 1 := by omega
          have h3 : ¬ j - 1 = hi + 1 := by omega
          rw [if_pos h1, if_pos h2, if_neg h3]
        · rw [if_neg h1]
          by_cases h4 : j = hi + 1
          · have h2 : lo < j ∧ j ≤ hi + 1 := by omega
            rw [if_pos h4, if_pos h2, h4]
            simp
          · have h2 : ¬ (lo < j ∧ j ≤ hi + 1) := by omega
            rw [if_neg h4, if_neg h2]
    · refine ⟨xs, ?_, rfl, fun j => ?_⟩
      · simp only [shift_right, hlo, if_false]
      · have : ¬ (lo < j ∧ j ≤ hi + 1) := by omega
        rw [if_neg this]

/-- The loop `spread`: the source elements are copied in order, leaving slot `gap` out. -/
theorem spread_spec {α : Type} (src : List α) (d : α) (gap : Nat) :
    ∀ (count i j : Nat) (dst : List α), i + count ≤ src.length → i + count < dst.length →
    ((i ≤ gap ∧ j = i) ∨ (gap < i ∧ j = i + 1)) →
    ∃ ys, spread src gap count i j dst = .ok ys ∧ ys.length = dst.length ∧
      ∀ m, ys.getD m d =
        if i ≤ m ∧ m < i + count ∧ m < gap then src.getD m d
        else if i + 1 ≤ m ∧ m ≤ i + count ∧ gap < m then src.getD (m - 1) d
        else dst.getD m d := by
  intro count
  induction count with
  | zero =>
    intro i j dst _ _ _
    refine ⟨dst, rfl, rfl, fun m => ?_⟩
    have h1 : ¬ (i ≤ m ∧ m < i + 0 ∧ m < gap) := by omega
    have h2 : ¬ (i + 1 ≤ m ∧ m ≤ i + 0 ∧ gap < m) := by omega
    rw [if_neg h1, if_neg h2]
  | succ count ih =>
    intro i j dst hsrc hdst hij
    have hr := read_ok d (show i < src.length by omega)
    by_cases hgap : j = gap
    · have hi : i = gap := by omega
      have hw := write_ok (src.getD i d) (show j + 1 < dst.length by omega)
      obtain ⟨ys, hs, hl, hget⟩ := ih (i + 1) (j + 1 + 1) (dst.set (j + 1) (src.getD i d))
        (by omega) (by simp; omega) (Or.inr ⟨by omega, by omega⟩)
      refine ⟨ys, ?_, by simpa using hl, fun m => ?_⟩
      · simp only [spread, hgap, if_true, hr, bind_ok]
        rw [hgap] at hw
        simp only [hw, bind_ok]
        rw [hgap] at hs
        exact hs
      · rw [hget m, getD_set _ _ _ _ _ (show j + 1 < dst.length by omega)]
        by_cases h1 : i ≤ m ∧ m < i + (count + 1) ∧ m < gap
        · omega
        · rw [if_neg h1]
          have h1b : ¬ (i + 1 ≤ m ∧ m < i + 1 + count ∧ m < gap) := by omega
          rw [if_neg h1b]
          by_cases h2 : i + 1 + 1 ≤ m ∧ m ≤ i + 1 + count ∧ gap < m
          · have h3 : i + 1 ≤ m ∧ m ≤ i + (count + 1) ∧ gap < m := by omega
            rw [if_pos h2, if_pos h3]
          · rw [if_neg h2]
            by_cases h4 : m = j + 1
            · have h3 : i + 1 ≤ m ∧ m ≤ i + (count + 1) ∧ gap < m := by omega
              have h5 : m - 1 = i := by omega
              rw [if_pos h4, if_pos h3, h5]
            · have h3 : ¬ (i + 1 ≤ m ∧ m ≤ i + (count + 1) ∧ gap < m) := by omega
              rw [if_neg h4, if_neg h3]
    · have hw := write_ok (src.getD i d) (show j < dst.length by omega)
      have hnext : (i + 1 ≤ gap ∧ j + 1 = i + 1) ∨ (gap < i + 1 ∧ j + 1 = i + 1 + 1) := by omega
      obtain ⟨ys, hs, hl, hget⟩ := ih (i + 1) (j + 1) (dst.set j (src.getD i d))
        (by omega) (by simp; omega) hnext
      refine ⟨ys, ?_, by simpa using hl, fun m => ?_⟩
      · simp only [spread, hgap, if_false, hr, bind_ok, hw]
        exact hs
      · rw [hget m, getD_set _ _ _ _ _ (show j < dst.length by omega)]
        by_cases h1 : i + 1 ≤ m ∧ m < i + 1 + count ∧ m < gap
        · have h2 : i ≤ m ∧ m < i + (count + 1) ∧ m < gap := by omega
          rw [if_pos h1, if_pos h2]
        · rw [if_neg h1]
          by_cases h2 : i + 1 + 1 ≤ m ∧ m ≤ i + 1 + count ∧ gap < m
          · have h3 : ¬ (i ≤ m ∧ m < i + (count + 1) ∧ m < gap) := by omega
            have h4 : i + 1 ≤ m ∧ m ≤ i + (count + 1) ∧ gap < m := by omega
            rw [if_pos h2, if_neg h3, if_pos h4]
          · rw [if_neg h2]
            by_cases h4 : m = j
            · rw [if_pos h4]
              rcases hij with ⟨hij1, hij2⟩ | ⟨hij1, hij2⟩
              · have h3 : i ≤ m ∧ m < i + (count + 1) ∧ m < gap := by omega
                rw [if_pos h3]
                have : m = i := by omega
                rw [this]
              · have h3 : ¬ (i ≤ m ∧ m < i + (count + 1) ∧ m < gap) := by omega
                have h5 : i + 1 ≤ m ∧ m ≤ i + (count + 1) ∧ gap < m := by omega
                rw [if_neg h3, if_pos h5]
                have : m - 1 = i := by omega
                rw [this]
            · have h3 : ¬ (i ≤ m ∧ m < i + (count + 1) ∧ m < gap) := by omega
              have h5 : ¬ (i + 1 ≤ m ∧ m ≤ i + (count + 1) ∧ gap < m) := by omega
              rw [if_neg h4, if_neg h3, if_neg h5]

/-- The loop `copy`: `count` elements of the source from `j` on land at `i` on. -/
theorem copy_spec {α : Type} (src : List α) (d : α) :
    ∀ (count i j : Nat) (dst : List α), j + count ≤ src.length → i + count ≤ dst.length →
    ∃ ys, copy src count i j dst = .ok ys ∧ ys.length = dst.length ∧
      ∀ m, ys.getD m d =
        if i ≤ m ∧ m < i + count then src.getD (j + (m - i)) d else dst.getD m d := by
  intro count
  induction count with
  | zero =>
    intro i j dst _ _
    refine ⟨dst, rfl, rfl, fun m => ?_⟩
    have h1 : ¬ (i ≤ m ∧ m < i + 0) := by omega
    rw [if_neg h1]
  | succ count ih =>
    intro i j dst hsrc hdst
    have hr := read_ok d (show j < src.length by omega)
    have hw := write_ok (src.getD j d) (show i < dst.length by omega)
    obtain ⟨ys, hs, hl, hget⟩ := ih (i + 1) (j + 1) (dst.set i (src.getD j d))
      (by omega) (by simp; omega)
    refine ⟨ys, ?_, by simpa using hl, fun m => ?_⟩
    · simp only [copy, hr, bind_ok, hw]
      exact hs
    · rw [hget m, getD_set _ _ _ _ _ (show i < dst.length by omega)]
      by_cases h1 : i + 1 ≤ m ∧ m < i + 1 + count
      · have h2 : i ≤ m ∧ m < i + (count + 1) := by omega
        have h3 : j + 1 + (m - (i + 1)) = j + (m - i) := by omega
        rw [if_pos h1, if_pos h2, h3]
      · rw [if_neg h1]
        by_cases h4 : m = i
        · have h2 : i ≤ m ∧ m < i + (count + 1) := by omega
          have h3 : j + (m - i) = j := by omega
          rw [if_pos h4, if_pos h2, h3]
        · have h2 : ¬ (i ≤ m ∧ m < i + (count + 1)) := by omega
          rw [if_neg h4, if_neg h2]

theorem deref_node {t : BPTree} {a : Nat} {n : Node} (h : t.heap[a]? = some n) :
    deref t (Ptr.node a) = .ok n := by
  simp only [deref, read, h]

theorem assign_node {t : BPTree} {a : Nat} (n : Node) (h : a < t.heap.length) :
    assign t (Ptr.node a) n = .ok { t with heap := t.heap.set a n } := by
  simp only [assign, write, h, if_true]

theorem live_lt {t : BPTree} {a : Nat} {n : Node} (h : t.heap[a]? = some n) :
    a < t.heap.length := (List.getElem?_eq_some_iff.mp h).1

theorem live_of_lt {t : BPTree} {a : Nat} (h : a < t.heap.length) :
    ∃ n, t.heap[a]? = some n := ⟨_, List.getElem?_eq_getElem h⟩

theorem singleton_live {x n : Node} {a : Nat} (h : [x][a]? = some n) : a = 0 ∧ n = x := by
  cases a with
  | zero => simp at h; exact ⟨rfl, h.symm⟩
  | succ a => simp at h

/-- The tree `create_bptree` returns is well formed and stores nothing. -/
theorem create_bptree_wf (order : Nat) (h : 3 ≤ order) (raw_key : Int) (raw_pointer : Ptr) :
    Wf (create_bptree order raw_key raw_pointer) (fun _ => Ptr.null) := by
  refine ⟨fun _ _ => True, fun _ => 0, 0, ?_, ?_⟩
  · refine
      { order := h
        root := rfl
        root_live := by simp [create_bptree, create_node]
        root_parent := ?_
        root_all := fun _ => trivial
        shape := ?_
        parent := ?_
        leaf := ?_
        disjoint := ?_
        sorted := ?_
        in_range := ?_
        child := ?_
        distinct := ?_ }
    · intro rn hrn
      obtain ⟨_, rfl⟩ := singleton_live hrn
      rfl
    · intro a n hn
      obtain ⟨_, rfl⟩ := singleton_live hn
      simp [create_bptree, create_node]
    · intro a n hn _
      obtain ⟨ha, rfl⟩ := singleton_live hn
      exact ⟨fun _ => ha, (fun v hv => by cases hv), (fun p hp => by cases hp)⟩
    · intro a n hn _
      obtain ⟨_, rfl⟩ := singleton_live hn
      exact
        { in_range := fun _ _ => trivial
          sorted := fun i j _ hj => by simp at hj
          value := fun i hi => by simp at hi
          complete := fun k _ hk => absurd rfl hk }
    · intro a b na nb k ha hb _ _ _ _
      rw [(singleton_live ha).1, (singleton_live hb).1]
    · intro a n hn hl
      obtain ⟨_, rfl⟩ := singleton_live hn
      cases hl
    · intro a n hn hl
      obtain ⟨_, rfl⟩ := singleton_live hn
      cases hl
    · intro a n hn hl
      obtain ⟨_, rfl⟩ := singleton_live hn
      cases hl
    · intro a n hn hl
      obtain ⟨_, rfl⟩ := singleton_live hn
      cases hl
  · simp [create_bptree, create_node]

/-- The inner loop of `find_leaf` computes the child a key is sent to. -/
theorem scan_route (n : Node) (key : Int) (hlen : n.num_keys ≤ n.keys.length) :
    ∃ i, scan (fun k => decide (key ≥ k)) n.keys n.num_keys 0 = .ok i ∧
      Route (key_at n) n.num_keys key i := by
  obtain ⟨r, hs, _, h2, h3, h4⟩ := scan_spec (fun k => decide (key ≥ k)) n.keys 0 n.num_keys 0
    (by omega)
  refine ⟨r, hs, by omega, ?_, ?_⟩
  · intro j hj
    have := h3 j (by omega) hj
    simpa [key_at] using this
  · intro hr
    have := h4 (by omega)
    simpa [key_at] using this

/-- The function `find_leaf` ends in the leaf the key is sent to. -/
theorem find_leaf_spec {t : BPTree} {R : Nat → Int → Prop} {ht : Nat → Nat} {M : Int → Ptr}
    {r : Nat} (h : Core t R R ht M none r) (key : Int) :
    ∀ (fuel a : Nat) (n : Node), t.heap[a]? = some n → R a key → ht a < fuel →
    ∃ (b : Nat) (bn : Node), find_leaf t key fuel (Ptr.node a) = .ok (Ptr.node b) ∧
      t.heap[b]? = some bn ∧ bn.is_leaf = true ∧ R b key := by
  intro fuel
  induction fuel with
  | zero => intro a n _ _ hf; omega
  | succ fuel ih =>
    intro a n hn hR hf
    by_cases hl : n.is_leaf = true
    · refine ⟨a, n, ?_, hn, hl, hR⟩
      simp only [find_leaf, deref_node hn, bind_ok, hl, if_true]
    · have hl0 : n.is_leaf = false := by simpa using hl
      obtain ⟨hk, hp, hnk, _⟩ := h.shape a n hn
      obtain ⟨i, hscan, hroute⟩ := scan_route n key (by omega)
      obtain ⟨c, cn, hc, hcn, _, hht, _, hRc⟩ := h.child a n hn hl0 i hroute.1
      have hord := h.order
      have hi := hroute.1
      have hread : read n.pointers i = .ok (Ptr.node c) := by
        rw [read_ok Ptr.null (by omega)]
        exact congrArg _ hc
      obtain ⟨b, bn, hfind, hb, hbl, hRb⟩ := ih c cn hcn ((hRc key).mpr ⟨hR, hroute⟩) (by omega)
      refine ⟨b, bn, ?_, hb, hbl, hRb⟩
      simp only [find_leaf, deref_node hn, bind_ok, hl0, hscan, hread]
      exact hfind

/-- The loop of `search` returns the value stored with the key, or `NULL`. -/
theorem search_loop_spec (n : Node) (key : Int) (hk : n.num_keys ≤ n.keys.length)
    (hp : n.num_keys ≤ n.pointers.length) :
    ∀ (count i : Nat), i + count = n.num_keys →
    (∃ j, i ≤ j ∧ j < n.num_keys ∧ key_at n j = key ∧
        search_loop n key count i = .ok (ptr_at n j)) ∨
      ((∀ j, i ≤ j → j < n.num_keys → key_at n j ≠ key) ∧
        search_loop n key count i = .ok Ptr.null) := by
  intro count
  induction count with
  | zero =>
    intro i hi
    exact Or.inr ⟨fun j h1 h2 => by omega, rfl⟩
  | succ count ih =>
    intro i hi
    have hr := read_ok (0 : Int) (show i < n.keys.length by omega)
    have hrp := read_ok Ptr.null (show i < n.pointers.length by omega)
    by_cases hkey : key_at n i = key
    · refine Or.inl ⟨i, le_refl _, by omega, hkey, ?_⟩
      have hkey1 : n.keys.getD i 0 = key := hkey
      simp only [search_loop, hr, bind_ok, hkey1, if_true, hrp]
      rfl
    · have hkey1 : ¬ n.keys.getD i 0 = key := hkey
      have hunf : search_loop n key (count + 1) i = search_loop n key count (i + 1) := by
        simp only [search_loop, hr, bind_ok, hkey1, if_false]
      rw [hunf]
      rcases ih (i + 1) (by omega) with ⟨j, h1, h2, h3, h4⟩ | ⟨h1, h2⟩
      · exact Or.inl ⟨j, by omega, h2, h3, h4⟩
      · refine Or.inr ⟨fun j hj1 hj2 => ?_, h2⟩
        by_cases hji : j = i
        · rw [hji]; exact hkey
        · exact h1 j (by omega) hj2

/-- The function `search` on a well-formed tree returns what the map holds. -/
theorem search_spec {t : BPTree} {M : Int → Ptr} (h : Wf t M) (key : Int) :
    search t key = .ok (M key) := by
  obtain ⟨R, ht, r, hc, hfuel⟩ := h
  obtain ⟨rn, hrn⟩ := live_of_lt hc.root_live
  obtain ⟨b, bn, hfind, hb, hbl, hRb⟩ :=
    find_leaf_spec hc key t.heap.length r rn hrn (hc.root_all key) (by omega)
  obtain ⟨hk, hp, hnk, _⟩ := hc.shape b bn hb
  have hleaf := hc.leaf b bn hb hbl
  have hunf : search t key = search_loop bn key bn.num_keys 0 := by
    simp only [search, hc.root, hfind, bind_ok, deref_node hb]
  rw [hunf]
  rcases search_loop_spec bn key (by omega) (by omega) bn.num_keys 0 (by omega) with
    ⟨j, _, hj, hkj, hres⟩ | ⟨hnone, hres⟩
  · rw [hres, (hleaf.value j hj).1, hkj]
  · rw [hres]
    have hnull : M key = Ptr.null := by
      by_contra hne
      obtain ⟨i, hi, hki⟩ := hleaf.complete key hRb hne
      exact hnone i (Nat.zero_le _) hi hki
    rw [hnull]

theorem ins_lt {α : Type} (f : Nat → α) (i : Nat) (v : α) {j : Nat} (h : j < i) :
    ins f i v j = f j := by
  simp [ins, h]

theorem ins_eq {α : Type} (f : Nat → α) (i : Nat) (v : α) : ins f i v i = v := by
  simp [ins]

theorem ins_gt {α : Type} (f : Nat → α) (i : Nat) (v : α) {j : Nat} (h : i < j) :
    ins f i v j = f (j - 1) := by
  have h1 : ¬ j < i := by omega
  have h2 : ¬ j = i := by omega
  simp [ins, h1, h2]

theorem LeafOk.congr {R R1 : Int → Prop} {M : Int → Ptr} {kf kf1 : Nat → Int}
    {pf pf1 : Nat → Ptr} {cnt : Nat} (h : LeafOk R M kf pf cnt) (hR : ∀ k, R1 k ↔ R k)
    (hk : ∀ j, j < cnt → kf1 j = kf j) (hp : ∀ j, j < cnt → pf1 j = pf j) :
    LeafOk R1 M kf1 pf1 cnt where
  in_range := fun i hi => by rw [hk i hi]; exact (hR _).mpr (h.in_range i hi)
  sorted := fun i j hij hj => by rw [hk i (by omega), hk j hj]; exact h.sorted i j hij hj
  value := fun i hi => by rw [hk i hi, hp i hi]; exact h.value i hi
  complete := fun k hk1 hM => by
    obtain ⟨i, hi, hki⟩ := h.complete k ((hR k).mp hk1) hM
    exact ⟨i, hi, by rw [hk i hi]; exact hki⟩

/-- A key stored in a leaf has a non-null value in the map. -/
theorem LeafOk.present {R : Int → Prop} {M : Int → Ptr} {kf : Nat → Int} {pf : Nat → Ptr}
    {cnt : Nat} (h : LeafOk R M kf pf cnt) {j : Nat} (hj : j < cnt) : M (kf j) ≠ Ptr.null := by
  have := h.value j hj
  rw [← this.1]
  exact this.2

/-- Inserting an absent key with its value at its place in a leaf. -/
theorem LeafOk.insert {R : Int → Prop} {M : Int → Ptr} {kf : Nat → Int} {pf : Nat → Ptr}
    {cnt : Nat} (h : LeafOk R M kf pf cnt) {key : Int} {value : Ptr} {i : Nat}
    (hkey : R key) (hM : M key = Ptr.null) (hv : value ≠ Ptr.null) (hi : i ≤ cnt)
    (hlt : ∀ j, j < i → kf j < key) (hge : i < cnt → ¬ kf i < key) :
    LeafOk R (Function.update M key value) (ins kf i key) (ins pf i value) (cnt + 1) := by
  have hne : ∀ j, j < cnt → kf j ≠ key := by
    intro j hj hjk
    have := h.present hj
    rw [hjk] at this
    exact this hM
  have hgt : ∀ j, i ≤ j → j < cnt → key < kf j := by
    intro j hij hj
    have h1 := hge (by omega)
    have h2 := hne i (by omega)
    by_cases hji : j = i
    · rw [hji]; omega
    · have := h.sorted i j (by omega) hj
      omega
  refine ⟨?_, ?_, ?_, ?_⟩
  · intro j hj
    rcases Nat.lt_trichotomy j i with hji | hji | hji
    · rw [ins_lt _ _ _ hji]; exact h.in_range j (by omega)
    · rw [hji, ins_eq]; exact hkey
    · rw [ins_gt _ _ _ hji]; exact h.in_range (j - 1) (by omega)
  · intro a b hab hb
    rcases Nat.lt_trichotomy a i with hai | hai | hai
    · rw [ins_lt _ _ _ hai]
      rcases Nat.lt_trichotomy b i with hbi | hbi | hbi
      · rw [ins_lt _ _ _ hbi]; exact h.sorted a b hab (by omega)
      · rw [hbi, ins_eq]; exact hlt a hai
      · rw [ins_gt _ _ _ hbi]
        have h1 := hlt a hai
        have h2 := hgt (b - 1) (by omega) (by omega)
        omega
    · rw [hai, ins_eq, ins_gt _ _ _ (show i < b by omega)]
      exact hgt (b - 1) (by omega) (by omega)
    · rw [ins_gt _ _ _ hai, ins_gt _ _ _ (show i < b by omega)]
      exact h.sorted (a - 1) (b - 1) (by omega) (by omega)
  · intro j hj
    rcases Nat.lt_trichotomy j i with hji | hji | hji
    · rw [ins_lt _ _ _ hji, ins_lt _ _ _ hji,
        Function.update_noteq (hne j (by omega))]
      exact h.value j (by omega)
    · rw [hji, ins_eq, ins_eq, Function.update_same]
      exact ⟨rfl, hv⟩
    · rw [ins_gt _ _ _ hji, ins_gt _ _ _ hji,
        Function.update_noteq (hne (j - 1) (by omega))]
      exact h.value (j - 1) (by omega)
  · intro k hk hMk
    by_cases hkk : k = key
    · exact ⟨i, by omega, by rw [ins_eq, hkk]⟩
    · rw [Function.update_noteq hkk] at hMk
      obtain ⟨j, hj, hjk⟩ := h.complete k hk hMk
      by_cases hji : j < i
      · exact ⟨j, by omega, by rw [ins_lt _ _ _ hji]; exact hjk⟩
      · refine ⟨j + 1, by omega, ?_⟩
        rw [ins_gt _ _ _ (show i < j + 1 by omega)]
        exact hjk

/-- A leaf the new key is not sent to is not affected by its insertion into the map. -/
theorem LeafOk.other {R : Int → Prop} {M : Int → Ptr} {kf : Nat → Int} {pf : Nat → Ptr}
    {cnt : Nat} (h : LeafOk R M kf pf cnt) {key : Int} (value : Ptr) (hkey : ¬ R key) :
    LeafOk R (Function.update M key value) kf pf cnt := by
  have hne : ∀ k, R k → k ≠ key := fun k hk hkk => hkey (hkk ▸ hk)
  refine ⟨h.in_range, h.sorted, ?_, ?_⟩
  · intro i hi
    rw [Function.update_noteq (hne _ (h.in_range i hi))]
    exact h.value i hi
  · intro k hk hMk
    rw [Function.update_noteq (hne k hk)] at hMk
    exact h.complete k hk hMk

/-- The first `s` entries of a leaf hold the keys below the key at `s`. -/
theorem LeafOk.split_left {R : Int → Prop} {M : Int → Ptr} {kf : Nat → Int} {pf : Nat → Ptr}
    {cnt : Nat} (h : LeafOk R M kf pf cnt) {s : Nat} (hs : s < cnt) :
    LeafOk (fun k => R k ∧ k < kf s) M kf pf s := by
  refine ⟨?_, ?_, ?_, ?_⟩
  · intro i hi
    exact ⟨h.in_range i (by omega), h.sorted i s hi hs⟩
  · intro i j hij hj
    exact h.sorted i j hij (by omega)
  · intro i hi
    exact h.value i (by omega)
  · intro k hk hMk
    obtain ⟨j, hj, hjk⟩ := h.complete k hk.1 hMk
    refine ⟨j, ?_, hjk⟩
    by_contra hjs
    have hk2 := hk.2
    rw [← hjk] at hk2
    by_cases hjs2 : j = s
    · rw [hjs2] at hk2; omega
    · have := h.sorted s j (by omega) hj
      omega

/-- The entries of a leaf from `s` on hold the keys from the key at `s` on. -/
theorem LeafOk.split_right {R : Int → Prop} {M : Int → Ptr} {kf : Nat → Int}
    {pf : Nat → Ptr} {cnt : Nat} (h : LeafOk R M kf pf cnt) {s : Nat} (hs : s < cnt) :
    LeafOk (fun k => R k ∧ kf s ≤ k) M (fun j => kf (s + j)) (fun j => pf (s + j))
      (cnt - s) := by
  refine ⟨?_, ?_, ?_, ?_⟩
  · intro i hi
    refine ⟨h.in_range (s + i) (by omega), ?_⟩
    by_cases hi0 : i = 0
    · rw [hi0]; exact le_refl _
    · exact le_of_lt (h.sorted s (s + i) (by omega) (by omega))
  · intro i j hij hj
    exact h.sorted (s + i) (s + j) (by omega) (by omega)
  · intro i hi
    exact h.value (s + i) (by omega)
  · intro k hk hMk
    obtain ⟨j, hj, hjk⟩ := h.complete k hk.1 hMk
    have hsj : s ≤ j := by
      by_contra hjs
      have := h.sorted j s (by omega) hs
      have hk2 := hk.2
      rw [← hjk] at hk2
      omega
    exact ⟨j - s, by omega, by
      show kf (s + (j - s)) = k
      rw [show s + (j - s) = j by omega]
      exact hjk⟩

theorem Route.agree {f g : Nat → Int} {cnt : Nat} (h : ∀ j, j < cnt → f j = g j) (k : Int)
    (i : Nat) : Route f cnt k i ↔ Route g cnt k i := by
  constructor
  · rintro ⟨h1, h2, h3⟩
    exact ⟨h1, fun j hj => by rw [← h j (by omega)]; exact h2 j hj,
      fun hi => by rw [← h i hi]; exact h3 hi⟩
  · rintro ⟨h1, h2, h3⟩
    exact ⟨h1, fun j hj => by rw [h j (by omega)]; exact h2 j hj,
      fun hi => by rw [h i hi]; exact h3 hi⟩

/-- The index a key is sent to is unique. -/
theorem Route.unique {f : Nat → Int} {cnt : Nat} {k : Int} {i j : Nat}
    (hi : Route f cnt k i) (hj : Route f cnt k j) : i = j := by
  obtain ⟨a1, a2, a3⟩ := hi
  obtain ⟨b1, b2, b3⟩ := hj
  rcases Nat.lt_trichotomy i j with h | h | h
  · have := a3 (by omega)
    have := b2 i h
    omega
  · exact h
  · have := b3 (by omega)
    have := a2 j h
    omega

theorem Sorted.le {f : Nat → Int} {n : Nat} (hf : Sorted f n) {i j : Nat} (hij : i ≤ j)
    (hj : j < n) : f i ≤ f j := by
  by_cases h : i = j
  · rw [h]
  · exact le_of_lt (hf i j (by omega) hj)

theorem Sorted.ins {f : Nat → Int} {n : Nat} (hf : Sorted f n) {sep : Int} {li : Nat}
    (hs : Route f n sep li) (hlow : ∀ j, j < li → f j < sep) :
    Sorted (ins f li sep) (n + 1) := by
  obtain ⟨h1, h2, h3⟩ := hs
  intro a b hab hb
  rcases Nat.lt_trichotomy a li with ha | ha | ha
  · rw [ins_lt _ _ _ ha]
    rcases Nat.lt_trichotomy b li with hbi | hbi | hbi
    · rw [ins_lt _ _ _ hbi]; exact hf a b hab (by omega)
    · rw [hbi, ins_eq]; exact hlow a ha
    · rw [ins_gt _ _ _ hbi]
      have := hlow a ha
      have := h3 (by omega)
      have := hf.le (show li ≤ b - 1 by omega) (show b - 1 < n by omega)
      omega
  · rw [ha, ins_eq, ins_gt _ _ _ (show li < b by omega)]
    have := h3 (by omega)
    have := hf.le (show li ≤ b - 1 by omega) (show b - 1 < n by omega)
    omega
  · rw [ins_gt _ _ _ ha, ins_gt _ _ _ (show li < b by omega)]
    exact hf (a - 1) (b - 1) (by omega) (by omega)

theorem route_ins_lt {f : Nat → Int} {n : Nat} {sep : Int} {li : Nat}
    (hs : Route f n sep li) (k : Int) {i : Nat} (hi : i < li) :
    Route (ins f li sep) (n + 1) k i ↔ Route f n k i := by
  obtain ⟨h1, h2, h3⟩ := hs
  constructor
  · rintro ⟨a1, a2, a3⟩
    refine ⟨by omega, fun j hj => ?_, fun _ => ?_⟩
    · have := a2 j hj
      rwa [ins_lt _ _ _ (show j < li by omega)] at this
    · have := a3 (by omega)
      rwa [ins_lt _ _ _ hi] at this
  · rintro ⟨a1, a2, a3⟩
    refine ⟨by omega, fun j hj => ?_, fun _ => ?_⟩
    · rw [ins_lt _ _ _ (show j < li by omega)]
      exact a2 j hj
    · rw [ins_lt _ _ _ hi]
      exact a3 (by omega)

theorem route_ins_eq {f : Nat → Int} {n : Nat} {sep : Int} {li : Nat}
    (hs : Route f n sep li) (k : Int) :
    Route (ins f li sep) (n + 1) k li ↔ (Route f n k li ∧ k < sep) := by
  obtain ⟨h1, h2, h3⟩ := hs
  constructor
  · rintro ⟨a1, a2, a3⟩
    have hk := a3 (by omega)
    rw [ins_eq] at hk
    refine ⟨⟨h1, fun j hj => ?_, fun hlt => ?_⟩, hk⟩
    · have := a2 j hj
      rwa [ins_lt _ _ _ hj] at this
    · have := h3 hlt
      omega
  · rintro ⟨⟨a1, a2, a3⟩, hk⟩
    refine ⟨by omega, fun j hj => ?_, fun _ => ?_⟩
    · rw [ins_lt _ _ _ hj]
      exact a2 j hj
    · rw [ins_eq]
      exact hk

theorem route_ins_succ {f : Nat → Int} {n : Nat} {sep : Int} {li : Nat}
    (hs : Route f n sep li) (k : Int) :
    Route (ins f li sep) (n + 1) k (li + 1) ↔ (Route f n k li ∧ sep ≤ k) := by
  obtain ⟨h1, h2, h3⟩ := hs
  constructor
  · rintro ⟨a1, a2, a3⟩
    have hk := a2 li (by omega)
    rw [ins_eq] at hk
    refine ⟨⟨h1, fun j hj => ?_, fun hlt => ?_⟩, hk⟩
    · have := a2 j (by omega)
      rwa [ins_lt _ _ _ hj] at this
    · have := a3 (by omega)
      rwa [ins_gt _ _ _ (show li < li + 1 by omega)] at this
  · rintro ⟨⟨a1, a2, a3⟩, hk⟩
    refine ⟨by omega, fun j hj => ?_, fun hlt => ?_⟩
    · by_cases hjl : j < li
      · rw [ins_lt _ _ _ hjl]
        exact a2 j hjl
      · have : j = li := by omega
        rw [this, ins_eq]
        exact hk
    · rw [ins_gt _ _ _ (show li < li + 1 by omega)]
      exact a3 (by omega)

theorem route_ins_gt {f : Nat → Int} {n : Nat} {sep : Int} {li : Nat}
    (hs : Route f n sep li) (k : Int) {i : Nat} (hi : li + 1 < i) :
    Route (ins f li sep) (n + 1) k i ↔ Route f n k (i - 1) := by
  obtain ⟨h1, h2, h3⟩ := hs
  constructor
  · rintro ⟨a1, a2, a3⟩
    refine ⟨by omega, fun j hj => ?_, fun hlt => ?_⟩
    · by_cases hjl : j < li
      · have := a2 j (by omega)
        rwa [ins_lt _ _ _ hjl] at this
      · have := a2 (j + 1) (by omega)
        rwa [ins_gt _ _ _ (show li < j + 1 by omega)] at this
    · have := a3 (by omega)
      rwa [ins_gt _ _ _ (show li < i by omega)] at this
  · rintro ⟨a1, a2, a3⟩
    refine ⟨by omega, fun j hj => ?_, fun hlt => ?_⟩
    · rcases Nat.lt_trichotomy j li with hjl | hjl | hjl
      · rw [ins_lt _ _ _ hjl]
        exact a2 j (by omega)
      · rw [hjl, ins_eq]
        have := h3 (by omega)
        have := a2 li (by omega)
        omega
      · rw [ins_gt _ _ _ hjl]
        exact a2 (j - 1) (by omega)
    · rw [ins_gt _ _ _ (show li < i by omega)]
      exact a3 (by omega)

theorem route_split_left {g : Nat → Int} {m : Nat} (hg : Sorted g m) {s : Nat} (hs : s < m)
    (k : Int) {i : Nat} (hi : i ≤ s) :
    (k < g s ∧ Route g s k i) ↔ Route g m k i := by
  constructor
  · rintro ⟨hk, a1, a2, a3⟩
    refine ⟨by omega, a2, fun _ => ?_⟩
    by_cases his : i < s
    · exact a3 his
    · have : i = s := by omega
      rw [this]; exact hk
  · rintro ⟨a1, a2, a3⟩
    have hki := a3 (by omega)
    have := hg.le hi hs
    exact ⟨by omega, hi, a2, fun _ => hki⟩

theorem route_split_right {g : Nat → Int} {m : Nat} (hg : Sorted g m) {s : Nat} (hs : s < m)
    (k : Int) (i : Nat) :
    (g s ≤ k ∧ Route (fun j => g (s + 1 + j)) (m - 1 - s) k i) ↔ Route g m k (s + 1 + i) := by
  constructor
  · rintro ⟨hk, a1, a2, a3⟩
    refine ⟨by omega, fun j hj => ?_, fun hlt => a3 (by omega)⟩
    by_cases hjs : j ≤ s
    · have := hg.le hjs hs
      omega
    · have := a2 (j - (s + 1)) (by omega)
      simp only at this
      rwa [show s + 1 + (j - (s + 1)) = j by omega] at this
  · rintro ⟨a1, a2, a3⟩
    exact ⟨a2 s (by omega), by omega, fun j hj => a2 (s + 1 + j) (by omega),
      fun hlt => a3 (by omega)⟩

theorem set_lookup {heap : List Node} {a b : Nat} {x m : Node}
    (h : (heap.set a x)[b]? = some m) :
    (b = a ∧ m = x) ∨ (b ≠ a ∧ heap[b]? = some m) := by
  rw [List.getElem?_set] at h
  by_cases hab : a = b
  · rw [if_pos hab] at h
    split at h
    · exact Or.inl ⟨hab.symm, (Option.some.inj h).symm⟩
    · cases h
  · rw [if_neg hab] at h
    exact Or.inr ⟨fun h1 => hab h1.symm, h⟩

theorem set_lookup_same {heap : List Node} {a : Nat} (x : Node) (h : a < heap.length) :
    (heap.set a x)[a]? = some x := by
  rw [List.getElem?_set]
  simp [h]

theorem set_lookup_ne {heap : List Node} {a b : Nat} (x : Node) (h : b ≠ a) :
    (heap.set a x)[b]? = heap[b]? := by
  rw [List.getElem?_set]
  have : ¬ a = b := fun h1 => h h1.symm
  simp [this]

/-- The function `insert_into_leaf` on a leaf with room: the leaf gets the key and the
value at the place the scan finds. -/
theorem insert_into_leaf_eq {t : BPTree} {a : Nat} {n : Node} (key : Int) (value : Ptr)
    (hn : t.heap[a]? = some n) (hk : n.keys.length = t.order - 1)
    (hp : n.pointers.length = t.order) (hroom : n.num_keys < t.order - 1) :
    ∃ (i : Nat) (n1 : Node),
      insert_into_leaf t (Ptr.node a) key value = .ok { t with heap := t.heap.set a n1 } ∧
      i ≤ n.num_keys ∧ (∀ j, j < i → key_at n j < key) ∧
      (i < n.num_keys → ¬ key_at n i < key) ∧
      n1.is_leaf = n.is_leaf ∧ n1.parent = n.parent ∧ n1.num_keys = n.num_keys + 1 ∧
      n1.keys.length = n.keys.length ∧ n1.pointers.length = n.pointers.length ∧
      (∀ j, j ≤ n.num_keys → key_at n1 j = ins (key_at n) i key j) ∧
      (∀ j, j ≤ n.num_keys → ptr_at n1 j = ins (ptr_at n) i value j) := by
  obtain ⟨i, hscan, _, hi, hlt, hge⟩ :=
    scan_spec (fun k => decide (k < key)) n.keys 0 n.num_keys 0 (by omega)
  obtain ⟨ks, hks, hksl, hksg⟩ := shift_right_spec (0 : Int) i n.num_keys n.keys (by omega)
  obtain ⟨ps, hps, hpsl, hpsg⟩ :=
    shift_right_spec Ptr.null i n.num_keys n.pointers (by omega)
  have hwk := write_ok (l := ks) (i := i) key (by omega)
  have hwp := write_ok (l := ps) (i := i) value (by omega)
  refine ⟨i, { n with keys := ks.set i key, pointers := ps.set i value,
                      num_keys := n.num_keys + 1 }, ?_, by omega, ?_, ?_, rfl, rfl, rfl,
    by simp [hksl], by simp [hpsl], ?_, ?_⟩
  · simp only [insert_into_leaf, deref_node hn, bind_ok, hscan, hks, hps, hwk, hwp]
    exact assign_node _ (live_lt hn)
  · intro j hj
    have := hlt j (Nat.zero_le _) hj
    simpa [key_at] using this
  · intro hin
    have := hge (by omega)
    simpa [key_at] using this
  · intro j hj
    show (ks.set i key).getD j 0 = ins (key_at n) i key j
    rw [getD_set _ _ _ _ _ (by omega), hksg]
    rcases Nat.lt_trichotomy j i with hji | hji | hji
    · have h1 : ¬ j = i := by omega
      have h2 : ¬ (i < j ∧ j ≤ n.num_keys) := by omega
      rw [if_neg h1, if_neg h2, ins_lt _ _ _ hji]
      rfl
    · rw [if_pos hji, hji, ins_eq]
    · have h1 : ¬ j = i := by omega
      have h2 : i < j ∧ j ≤ n.num_keys := by omega
      rw [if_neg h1, if_pos h2, ins_gt _ _ _ hji]
      rfl
  · intro j hj
    show (ps.set i value).getD j Ptr.null = ins (ptr_at n) i value j
    rw [getD_set _ _ _ _ _ (by omega), hpsg]
    rcases Nat.lt_trichotomy j i with hji | hji | hji
    · have h1 : ¬ j = i := by omega
      have h2 : ¬ (i < j ∧ j ≤ n.num_keys) := by omega
      rw [if_neg h1, if_neg h2, ins_lt _ _ _ hji]
      rfl
    · rw [if_pos hji, hji, ins_eq]
    · have h1 : ¬ j = i := by omega
      have h2 : i < j ∧ j ≤ n.num_keys := by omega
      rw [if_neg h1, if_pos h2, ins_gt _ _ _ hji]
      rfl

/-- Replacing the content of a leaf, and the map with it, keeps the tree well formed
when the new content fits the new map and the other leaves fit it too. -/
theorem Core.set_leaf {t : BPTree} {R : Nat → Int → Prop} {ht : Nat → Nat}
    {M M1 : Int → Ptr} {r a : Nat} {n n1 : Node} (h : Core t R R ht M none r)
    (hn : t.heap[a]? = some n) (hl : n.is_leaf = true) (hl1 : n1.is_leaf = true)
    (hpar : n1.parent = n.parent) (hk : n1.keys.length = t.order - 1)
    (hp : n1.pointers.length = t.order) (hnk : n1.num_keys ≤ t.order - 1)
    (hleaf : LeafOk (R a) M1 (key_at n1) (ptr_at n1) n1.num_keys)
    (hother : ∀ (b : Nat) (bn : Node), b ≠ a → t.heap[b]? = some bn → bn.is_leaf = true →
      LeafOk (R b) M1 (key_at bn) (ptr_at bn) bn.num_keys) :
    Core { t with heap := t.heap.set a n1 } R R ht M1 none r := by
  have ha := live_lt hn
  -- a node of the new memory is the new leaf or an old node
  have hold : ∀ (b : Nat) (m : Node), (t.heap.set a n1)[b]? = some m →
      ∃ m0, t.heap[b]? = some m0 ∧ m.is_leaf = m0.is_leaf ∧ m.parent = m0.parent ∧
        (m.is_leaf = false → m = m0) := by
    intro b m hm
    rcases set_lookup hm with ⟨rfl, rfl⟩ | ⟨_, hb⟩
    · exact ⟨n, hn, by rw [hl, hl1], hpar, fun hf => by rw [hl1] at hf; cases hf⟩
    · exact ⟨m, hb, rfl, rfl, fun _ => rfl⟩
  have hnew : ∀ (b : Nat) (m0 : Node), t.heap[b]? = some m0 →
      ∃ m, (t.heap.set a n1)[b]? = some m ∧ m.parent = m0.parent ∧
        (m0.is_leaf = false → m = m0) := by
    intro b m0 hm0
    by_cases hba : b = a
    · subst hba
      rw [hn] at hm0
      cases hm0
      exact ⟨n1, set_lookup_same _ ha, hpar, fun hf => by rw [hl] at hf; cases hf⟩
    · exact ⟨m0, by rw [set_lookup_ne _ hba]; exact hm0, rfl, fun _ => rfl⟩
  refine
    { order := h.order
      root := h.root
      root_live := by simpa using h.root_live
      root_parent := ?_
      root_all := h.root_all
      shape := ?_
      parent := ?_
      leaf := ?_
      disjoint := ?_
      sorted := ?_
      in_range := ?_
      child := ?_
      distinct := ?_ }
  · intro rn hrn
    obtain ⟨m0, hm0, _, hp0, _⟩ := hold r rn hrn
    rw [hp0]
    exact h.root_parent m0 hm0
  · intro b m hm
    rcases set_lookup hm with ⟨rfl, rfl⟩ | ⟨_, hb⟩
    · exact ⟨hk, hp, hnk, (h.shape _ n hn).2.2.2⟩
    · exact h.shape b m hb
  · intro b m hm hx
    obtain ⟨m0, hm0, _, hp0, _⟩ := hold b m hm
    obtain ⟨h1, h2, h3⟩ := h.parent b m0 hm0 hx
    rw [hp0]
    refine ⟨h1, h2, fun p hp => ?_⟩
    obtain ⟨pn, i, hpn, hpl, hi, hpi⟩ := h3 p hp
    obtain ⟨pn1, hpn1, _, hsame⟩ := hnew p pn hpn
    rw [hsame hpl] at hpn1
    exact ⟨pn, i, hpn1, hpl, hi, hpi⟩
  · intro b m hm hml
    rcases set_lookup hm with ⟨rfl, rfl⟩ | ⟨hba, hb⟩
    · exact hleaf
    · exact hother b m hba hb hml
  · intro b c nb nc k hb hc hbl hcl hRb hRc
    obtain ⟨b0, hb0, hbl0, _, _⟩ := hold b nb hb
    obtain ⟨c0, hc0, hcl0, _, _⟩ := hold c nc hc
    exact h.disjoint b c b0 c0 k hb0 hc0 (by rw [← hbl0]; exact hbl)
      (by rw [← hcl0]; exact hcl) hRb hRc
  · intro b m hm hml
    obtain ⟨m0, hm0, _, _, hsame⟩ := hold b m hm
    have hmm := hsame hml
    subst hmm
    exact h.sorted b m hm0 hml
  · intro b m hm hml
    obtain ⟨m0, hm0, _, _, hsame⟩ := hold b m hm
    have hmm := hsame hml
    subst hmm
    exact h.in_range b m hm0 hml
  · intro b m hm hml i hi
    obtain ⟨m0, hm0, _, _, hsame⟩ := hold b m hm
    have hmm := hsame hml
    subst hmm
    obtain ⟨c, cn, hc, hcn, hcp, hht, hx, hR⟩ := h.child b m hm0 hml i hi
    obtain ⟨cn1, hcn1, hcp1, _⟩ := hnew c cn hcn
    exact ⟨c, cn1, hc, hcn1, by rw [hcp1]; exact hcp, hht, hx, hR⟩
  · intro b m hm hml
    obtain ⟨m0, hm0, _, _, hsame⟩ := hold b m hm
    have hmm := hsame hml
    subst hmm
    exact h.distinct b m hm0 hml

theorem append_lookup {heap : List Node} {y m : Node} {b : Nat}
    (h : (heap ++ [y])[b]? = some m) :
    (b < heap.length ∧ heap[b]? = some m) ∨ (b = heap.length ∧ m = y) := by
  by_cases hb : b < heap.length
  · rw [List.getElem?_append_left hb] at h
    exact Or.inl ⟨hb, h⟩
  · rw [List.getElem?_append_right (by omega)] at h
    obtain ⟨h1, h2⟩ := singleton_live h
    exact Or.inr ⟨by omega, h2⟩

theorem append_lookup_old {heap : List Node} (y : Node) {b : Nat} (hb : b < heap.length) :
    (heap ++ [y])[b]? = heap[b]? := List.getElem?_append_left hb

theorem append_lookup_new (heap : List Node) (y : Node) :
    (heap ++ [y])[heap.length]? = some y := by
  rw [List.getElem?_append_right (le_refl _)]
  simp

theorem set_append_new (heap : List Node) (y1 y2 : Node) :
    (heap ++ [y1]).set heap.length y2 = heap ++ [y2] := by
  rw [List.set_append_right _ _ (le_refl _)]
  simp

theorem set_append_old {heap : List Node} (y x : Node) {a : Nat} (ha : a < heap.length) :
    (heap ++ [y]).set a x = heap.set a x ++ [y] := List.set_append_left _ _ ha

/-- The function `split_leaf_and_insert` on a full leaf, up to the call of
`insert_into_parent`: the keys and values of the leaf with the new ones inserted are
dealt out to the leaf and to a new leaf. -/
theorem split_leaf_eq {t : BPTree} {a : Nat} {n : Node} (key : Int) (value : Ptr)
    (hord : 3 ≤ t.order) (hn : t.heap[a]? = some n) (hk : n.keys.length = t.order - 1)
    (hp : n.pointers.length = t.order) (hfull : n.num_keys = t.order - 1) :
    ∃ (ip : Nat) (nl nq : Node),
      split_leaf_and_insert t (Ptr.node a) key value =
        insert_into_parent { t with heap := t.heap.set a nl ++ [nq] } (Ptr.node a)
          (ins (key_at n) ip key ((t.order + 1) / 2)) (Ptr.node t.heap.length)
          (t.heap.length + 1) ∧
      ip ≤ n.num_keys ∧ (∀ j, j < ip → key_at n j < key) ∧
      (ip < n.num_keys → ¬ key_at n ip < key) ∧
      nl.is_leaf = n.is_leaf ∧ nl.parent = n.parent ∧ nl.num_keys = (t.order + 1) / 2 ∧
      nl.keys.length = t.order - 1 ∧ nl.pointers.length = t.order ∧
      (∀ j, j < (t.order + 1) / 2 → key_at nl j = ins (key_at n) ip key j) ∧
      (∀ j, j < (t.order + 1) / 2 → ptr_at nl j = ins (ptr_at n) ip value j) ∧
      nq.is_leaf = true ∧ nq.parent = n.parent ∧ nq.num_keys = t.order - (t.order + 1) / 2 ∧
      nq.keys.length = t.order - 1 ∧ nq.pointers.length = t.order ∧
      (∀ j, j < t.order - (t.order + 1) / 2 →
        key_at nq j = ins (key_at n) ip key ((t.order + 1) / 2 + j)) ∧
      (∀ j, j < t.order - (t.order + 1) / 2 →
        ptr_at nq j = ins (ptr_at n) ip value ((t.order + 1) / 2 + j)) := by
  have ha := live_lt hn
  obtain ⟨ip, hscan, _, hip, hlt, hge⟩ :=
    scan_spec (fun k => decide (k < key)) n.keys 0 (t.order - 1) 0 (by omega)
  obtain ⟨tk, htk, htkl, htkg⟩ := spread_spec n.keys (0 : Int) ip n.num_keys 0 0
    (List.replicate t.order t.raw_key) (by omega) (by simp only [List.length_replicate, List.length_set]; omega) (Or.inl ⟨by omega, rfl⟩)
  obtain ⟨tp, htp, htpl, htpg⟩ := spread_spec n.pointers Ptr.null ip n.num_keys 0 0
    (List.replicate t.order t.raw_pointer) (by omega) (by simp only [List.length_replicate, List.length_set]; omega)
    (Or.inl ⟨by omega, rfl⟩)
  simp only [List.length_replicate] at htkl htpl
  have hwk := write_ok (l := tk) (i := ip) key (by omega)
  have hwp := write_ok (l := tp) (i := ip) value (by omega)
  -- the temporary arrays hold the old entries with the new one inserted
  have htemp_k : ∀ m, m < t.order → (tk.set ip key).getD m 0 = ins (key_at n) ip key m := by
    intro m hm
    rw [getD_set _ _ _ _ _ (by omega), htkg]
    rcases Nat.lt_trichotomy m ip with hmi | hmi | hmi
    · have h1 : ¬ m = ip := by omega
      have h2 : 0 ≤ m ∧ m < 0 + n.num_keys ∧ m < ip := by omega
      rw [if_neg h1, if_pos h2, ins_lt _ _ _ hmi]
      rfl
    · rw [if_pos hmi, hmi, ins_eq]
    · have h1 : ¬ m = ip := by omega
      have h2 : ¬ (0 ≤ m ∧ m < 0 + n.num_keys ∧ m < ip) := by omega
      have h3 : 0 + 1 ≤ m ∧ m ≤ 0 + n.num_keys ∧ ip < m := by omega
      rw [if_neg h1, if_neg h2, if_pos h3, ins_gt _ _ _ hmi]
      rfl
  have htemp_p : ∀ m, m < t.order →
      (tp.set ip value).getD m Ptr.null = ins (ptr_at n) ip value m := by
    intro m hm
    rw [getD_set _ _ _ _ _ (by omega), htpg]
    rcases Nat.lt_trichotomy m ip with hmi | hmi | hmi
    · have h1 : ¬ m = ip := by omega
      have h2 : 0 ≤ m ∧ m < 0 + n.num_keys ∧ m < ip := by omega
      rw [if_neg h1, if_pos h2, ins_lt _ _ _ hmi]
      rfl
    · rw [if_pos hmi, hmi, ins_eq]
    · have h1 : ¬ m = ip := by omega
      have h2 : ¬ (0 ≤ m ∧ m < 0 + n.num_keys ∧ m < ip) := by omega
      have h3 : 0 + 1 ≤ m ∧ m ≤ 0 + n.num_keys ∧ ip < m := by omega
      rw [if_neg h1, if_neg h2, if_pos h3, ins_gt _ _ _ hmi]
      rfl
  have hs1 : (t.order + 1) / 2 ≤ t.order - 1 := by omega
  have hs2 : 1 ≤ (t.order + 1) / 2 := by omega
  obtain ⟨kl, hkl, hkll, hklg⟩ := copy_spec (tk.set ip key) (0 : Int) ((t.order + 1) / 2) 0 0
    n.keys (by simp only [List.length_replicate, List.length_set]; omega) (by omega)
  obtain ⟨pl, hpl, hpll, hplg⟩ := copy_spec (tp.set ip value) Ptr.null ((t.order + 1) / 2) 0 0
    n.pointers (by simp only [List.length_replicate, List.length_set]; omega) (by omega)
  obtain ⟨kq, hkq, hkql, hkqg⟩ := copy_spec (tk.set ip key) (0 : Int)
    (t.order - (t.order + 1) / 2) 0 ((t.order + 1) / 2)
    (List.replicate (t.order - 1) t.raw_key) (by simp only [List.length_replicate, List.length_set]; omega) (by simp only [List.length_replicate, List.length_set]; omega)
  obtain ⟨pq, hpq, hpql, hpqg⟩ := copy_spec (tp.set ip value) Ptr.null
    (t.order - (t.order + 1) / 2) 0 ((t.order + 1) / 2)
    (List.replicate t.order t.raw_pointer) (by simp only [List.length_replicate, List.length_set]; omega) (by simp only [List.length_replicate, List.length_set]; omega)
  simp only [List.length_replicate] at hkql hpql
  have hfirst : read kq 0 = .ok (ins (key_at n) ip key ((t.order + 1) / 2)) := by
    rw [read_ok (0 : Int) (by omega), hkqg]
    have h1 : 0 ≤ 0 ∧ 0 < 0 + (t.order - (t.order + 1) / 2) := by omega
    rw [if_pos h1, htemp_k _ (by omega)]
    simp
  refine ⟨ip,
    { n with num_keys := (t.order + 1) / 2, keys := kl, pointers := pl,
             next := Ptr.node t.heap.length },
    { is_leaf := true, num_keys := t.order - (t.order + 1) / 2, keys := kq, pointers := pq,
      parent := n.parent, next := n.next },
    ?_, by omega, ?_, ?_, rfl, rfl, rfl, by simp [hkll, hk], by simp [hpll, hp], ?_, ?_,
    rfl, rfl, rfl, by simp [hkql], by simp [hpql], ?_, ?_⟩
  · have hd1 : deref { t with heap := t.heap ++ [{
          is_leaf := true, num_keys := 0,
          keys := List.replicate (t.order - 1) t.raw_key,
          pointers := List.replicate t.order t.raw_pointer,
          parent := Ptr.null, next := Ptr.null }] } (Ptr.node a) = .ok n :=
      deref_node (by rw [append_lookup_old _ ha]; exact hn)
    have hd2 : deref { t with heap := t.heap ++ [{
          is_leaf := true, num_keys := 0,
          keys := List.replicate (t.order - 1) t.raw_key,
          pointers := List.replicate t.order t.raw_pointer,
          parent := Ptr.null, next := Ptr.null }] } (Ptr.node t.heap.length) = .ok {
          is_leaf := true, num_keys := 0,
          keys := List.replicate (t.order - 1) t.raw_key,
          pointers := List.replicate t.order t.raw_pointer,
          parent := Ptr.null, next := Ptr.null } :=
      deref_node (append_lookup_new _ _)
    simp only [split_leaf_and_insert, create_node, hd1, hd2, bind_ok, hscan, htk, htp, hwk, hwp,
      hkl, hpl, hkq, hpq]
    rw [assign_node _ (by simp)]
    simp only [bind_ok]
    rw [assign_node _ (by
      simp only [List.length_set, List.length_append, List.length_singleton]; omega)]
    simp only [bind_ok, hfirst, set_append_new, set_append_old _ _ ha, List.length_append,
      List.length_set, List.length_singleton]
  · intro j hj
    have := hlt j (Nat.zero_le _) hj
    simpa [key_at] using this
  · intro hin
    have := hge (by omega)
    simpa [key_at] using this
  · intro j hj
    show kl.getD j 0 = _
    have h1 : 0 ≤ j ∧ j < 0 + (t.order + 1) / 2 := by omega
    rw [hklg, if_pos h1, htemp_k _ (by omega)]
    simp
  · intro j hj
    show pl.getD j Ptr.null = _
    have h1 : 0 ≤ j ∧ j < 0 + (t.order + 1) / 2 := by omega
    rw [hplg, if_pos h1, htemp_p _ (by omega)]
    simp
  · intro j hj
    show kq.getD j 0 = _
    have h1 : 0 ≤ j ∧ j < 0 + (t.order - (t.order + 1) / 2) := by omega
    rw [hkqg, if_pos h1, htemp_k _ (by omega)]
    simp
  · intro j hj
    show pq.getD j Ptr.null = _
    have h1 : 0 ≤ j ∧ j < 0 + (t.order - (t.order + 1) / 2) := by omega
    rw [hpqg, if_pos h1, htemp_p _ (by omega)]
    simp

/-- After the split of a full leaf the memory is well formed up to the insertion of the
separator and the new leaf into the parent. -/
theorem split_leaf_pend {t : BPTree} {R : Nat → Int → Prop} (R1 : Nat → Int → Prop)
    {ht : Nat → Nat} (ht1 : Nat → Nat) {M : Int → Ptr} {r a : Nat} {n nl nq : Node} {key : Int} {value : Ptr} {ip : Nat}
    (h : Core t R R ht M none r) (hfuel : ht r + 1 ≤ t.heap.length)
    (hn : t.heap[a]? = some n) (hl : n.is_leaf = true) (hfull : n.num_keys = t.order - 1)
    (hRa : R a key) (hM : M key = Ptr.null) (hv : value ≠ Ptr.null)
    (hip : ip ≤ n.num_keys) (hlt : ∀ j, j < ip → key_at n j < key)
    (hge : ip < n.num_keys → ¬ key_at n ip < key)
    (hll : nl.is_leaf = n.is_leaf) (hlp : nl.parent = n.parent)
    (hln : nl.num_keys = (t.order + 1) / 2)
    (hlk : nl.keys.length = t.order - 1) (hlpl : nl.pointers.length = t.order)
    (hlkg : ∀ j, j < (t.order + 1) / 2 → key_at nl j = ins (key_at n) ip key j)
    (hlpg : ∀ j, j < (t.order + 1) / 2 → ptr_at nl j = ins (ptr_at n) ip value j)
    (hql : nq.is_leaf = true) (hqp : nq.parent = n.parent)
    (hqn : nq.num_keys = t.order - (t.order + 1) / 2)
    (hqk : nq.keys.length = t.order - 1) (hqpl : nq.pointers.length = t.order)
    (hqkg : ∀ j, j < t.order - (t.order + 1) / 2 →
      key_at nq j = ins (key_at n) ip key ((t.order + 1) / 2 + j))
    (hqpg : ∀ j, j < t.order - (t.order + 1) / 2 →
      ptr_at nq j = ins (ptr_at n) ip value ((t.order + 1) / 2 + j))
    (hR1a : ∀ k, R1 a k ↔ (R a k ∧ k < ins (key_at n) ip key ((t.order + 1) / 2)))
    (hR1q : ∀ k, R1 t.heap.length k ↔
      (R a k ∧ ins (key_at n) ip key ((t.order + 1) / 2) ≤ k))
    (hR1o : ∀ b, b ≠ a → b ≠ t.heap.length → R1 b = R b)
    (hht1q : ht1 t.heap.length = ht a) (hht1o : ∀ b, b ≠ t.heap.length → ht1 b = ht b) :
    Pend { t with heap := t.heap.set a nl ++ [nq] } R1 ht1 (Function.update M key value) r a
      (ins (key_at n) ip key ((t.order + 1) / 2)) t.heap.length := by
  have hord := h.order
  have ha := live_lt hn
  have haq : a ≠ t.heap.length := by omega
  have hrq : r ≠ t.heap.length := by have := h.root_live; omega
  have hs1 : (t.order + 1) / 2 < n.num_keys + 1 := by omega
  have hcnt : n.num_keys + 1 - (t.order + 1) / 2 = t.order - (t.order + 1) / 2 := by omega
  -- the leaf with the new entry inserted, and its two halves
  have hcomb := (h.leaf a n hn hl).insert hRa hM hv hip hlt hge
  have hleft : LeafOk (R1 a) (Function.update M key value) (key_at nl) (ptr_at nl)
      nl.num_keys := by
    rw [hln]
    exact (hcomb.split_left hs1).congr hR1a hlkg hlpg
  have hright : LeafOk (R1 t.heap.length) (Function.update M key value) (key_at nq)
      (ptr_at nq) nq.num_keys := by
    rw [hqn, ← hcnt]
    exact (hcomb.split_right hs1).congr hR1q (by rw [hcnt]; exact hqkg)
      (by rw [hcnt]; exact hqpg)
  have hsep : R a (ins (key_at n) ip key ((t.order + 1) / 2)) := hcomb.in_range _ hs1
  -- the nodes of the new memory
  have hold : ∀ (b : Nat) (m : Node), (t.heap.set a nl ++ [nq])[b]? = some m →
      (b = a ∧ m = nl) ∨ (b = t.heap.length ∧ m = nq) ∨
        (b ≠ a ∧ b ≠ t.heap.length ∧ t.heap[b]? = some m) := by
    intro b m hm
    rcases append_lookup hm with ⟨hb, hm1⟩ | ⟨hb, hm1⟩
    · rcases set_lookup hm1 with h1 | ⟨h1, h2⟩
      · exact Or.inl h1
      · exact Or.inr (Or.inr ⟨h1, by simp at hb; omega, h2⟩)
    · exact Or.inr (Or.inl ⟨by simpa using hb, hm1⟩)
  have hnew_a : (t.heap.set a nl ++ [nq])[a]? = some nl := by
    rw [append_lookup_old _ (by simpa using ha)]
    exact set_lookup_same _ ha
  have hnew_q : (t.heap.set a nl ++ [nq])[t.heap.length]? = some nq := by
    have := append_lookup_new (t.heap.set a nl) nq
    rw [List.length_set] at this
    exact this
  have hnew_o : ∀ (b : Nat) (m : Node), b ≠ a → t.heap[b]? = some m →
      (t.heap.set a nl ++ [nq])[b]? = some m := by
    intro b m hba hm
    rw [append_lookup_old _ (by simpa using live_lt hm), set_lookup_ne _ hba]
    exact hm
  -- a node of the new memory that is not a leaf is an old node
  have hint : ∀ (b : Nat) (m : Node), (t.heap.set a nl ++ [nq])[b]? = some m →
      m.is_leaf = false → b ≠ a ∧ b ≠ t.heap.length ∧ t.heap[b]? = some m := by
    intro b m hm hml
    rcases hold b m hm with ⟨_, rfl⟩ | ⟨_, rfl⟩ | h3
    · rw [hll, hl] at hml; cases hml
    · rw [hql] at hml; cases hml
    · exact h3
  -- an old node is found in the new memory with the same parent
  have hkeep : ∀ (b : Nat) (m : Node), t.heap[b]? = some m →
      ∃ m1, (t.heap.set a nl ++ [nq])[b]? = some m1 ∧ m1.parent = m.parent := by
    intro b m hm
    by_cases hba : b = a
    · subst hba
      rw [hn] at hm
      cases hm
      exact ⟨nl, hnew_a, hlp⟩
    · exact ⟨m, hnew_o b m hba hm, rfl⟩
  have hU : ∀ b, b ≠ t.heap.length → ∀ k,
      Function.update R1 a (fun k => R1 a k ∨ R1 t.heap.length k) b k ↔ R b k := by
    intro b hbq k
    by_cases hba : b = a
    · subst hba
      rw [Function.update_same]
      simp only [hR1a, hR1q]
      constructor
      · rintro (h1 | h1) <;> exact h1.1
      · intro h1
        by_cases hk : k < ins (key_at n) ip key ((t.order + 1) / 2)
        · exact Or.inl ⟨h1, hk⟩
        · exact Or.inr ⟨h1, by omega⟩
    · rw [Function.update_noteq hba, hR1o b hba hbq]
  refine
    { core :=
        { order := hord
          root := h.root
          root_live := by simp; have := h.root_live; omega
          root_parent := ?_
          root_all := fun k => (hU r hrq k).mpr (h.root_all k)
          shape := ?_
          parent := ?_
          leaf := ?_
          disjoint := ?_
          sorted := ?_
          in_range := ?_
          child := ?_
          distinct := ?_ }
      fuel := by simp; rw [hht1o r hrq]; omega
      apart := haq
      left_live := by simp; omega
      right_live := by simp
      not_root := fun h1 => hrq h1.symm
      same_parent := ?_
      same_height := by rw [hht1q, hht1o a haq]
      left_below := fun k hk => ((hR1a k).mp hk).2
      right_above := fun k hk => ((hR1q k).mp hk).2
      right_key := (hR1q _).mpr ⟨hsep, le_refl _⟩
      left_nonempty := ⟨key_at nl 0, hleft.in_range 0 (by rw [hln]; omega)⟩ }
  · intro rn hrn
    obtain ⟨rn0, hrn0⟩ := live_of_lt h.root_live
    obtain ⟨m1, hm1, hp1⟩ := hkeep r rn0 hrn0
    rw [hrn] at hm1
    cases hm1
    rw [hp1]
    exact h.root_parent rn0 hrn0
  · intro b m hm
    have hhr := hht1o r hrq
    rcases hold b m hm with ⟨rfl, rfl⟩ | ⟨rfl, rfl⟩ | ⟨_, hbq, hb⟩
    · refine ⟨hlk, hlpl, by rw [hln]; dsimp only; omega, ?_⟩
      rw [hht1o _ haq, hhr]
      exact (h.shape _ n hn).2.2.2
    · refine ⟨hqk, hqpl, by rw [hqn]; dsimp only; omega, ?_⟩
      rw [hht1q, hhr]
      exact (h.shape a n hn).2.2.2
    · obtain ⟨h1, h2, h3, h4⟩ := h.shape b m hb
      exact ⟨h1, h2, h3, by rw [hht1o b hbq, hhr]; exact h4⟩
  · intro b m hm hx
    have hbq : b ≠ t.heap.length := fun hbq => hx (by rw [hbq])
    have hb0 : ∃ m0, t.heap[b]? = some m0 ∧ m.parent = m0.parent := by
      rcases hold b m hm with ⟨rfl, rfl⟩ | ⟨hb1, _⟩ | ⟨_, _, hb⟩
      · exact ⟨n, hn, hlp⟩
      · exact absurd hb1 hbq
      · exact ⟨m, hb, rfl⟩
    obtain ⟨m0, hm0, hpm⟩ := hb0
    obtain ⟨h1, h2, h3⟩ := h.parent b m0 hm0 (by simp)
    rw [hpm]
    refine ⟨h1, h2, fun p hp => ?_⟩
    obtain ⟨pn, i, hpn, hpl, hi, hpi⟩ := h3 p hp
    have hpa : p ≠ a := by
      intro hpa
      rw [hpa, hn] at hpn
      cases hpn
      rw [hl] at hpl
      cases hpl
    exact ⟨pn, i, hnew_o p pn hpa hpn, hpl, hi, hpi⟩
  · intro b m hm hml
    rcases hold b m hm with ⟨rfl, rfl⟩ | ⟨rfl, rfl⟩ | ⟨hba, hbq, hb⟩
    · exact hleft
    · exact hright
    · rw [hR1o b hba hbq]
      refine (h.leaf b m hb hml).other value ?_
      intro hRb
      exact hba (h.disjoint b a m n key hb hn hml hl hRb hRa)
  · intro b c nb nc k hb hc hbl hcl hRb hRc
    -- each leaf of the new memory lies within an old leaf
    have hwithin : ∀ (b : Nat) (m : Node), (t.heap.set a nl ++ [nq])[b]? = some m →
        m.is_leaf = true → R1 b k →
        (b = a ∧ k < ins (key_at n) ip key ((t.order + 1) / 2) ∧ R a k) ∨
        (b = t.heap.length ∧ ins (key_at n) ip key ((t.order + 1) / 2) ≤ k ∧ R a k) ∨
        (b ≠ a ∧ b ≠ t.heap.length ∧ t.heap[b]? = some m ∧ R b k) := by
      intro b m hm hml hRb
      rcases hold b m hm with ⟨rfl, rfl⟩ | ⟨rfl, rfl⟩ | ⟨hba, hbq, hb⟩
      · have := (hR1a k).mp hRb
        exact Or.inl ⟨rfl, this.2, this.1⟩
      · have := (hR1q k).mp hRb
        exact Or.inr (Or.inl ⟨rfl, this.2, this.1⟩)
      · rw [hR1o b hba hbq] at hRb
        exact Or.inr (Or.inr ⟨hba, hbq, hb, hRb⟩)
    rcases hwithin b nb hb hbl hRb with ⟨hb1, hb2, hb3⟩ | ⟨hb1, hb2, hb3⟩ | ⟨hb1, hb2, hb3, hb4⟩ <;>
    rcases hwithin c nc hc hcl hRc with ⟨hc1, hc2, hc3⟩ | ⟨hc1, hc2, hc3⟩ | ⟨hc1, hc2, hc3, hc4⟩
    · rw [hb1, hc1]
    · omega
    · exact absurd (h.disjoint c a nc n k hc3 hn hcl hl hc4 hb3) hc1
    · omega
    · rw [hb1, hc1]
    · exact absurd (h.disjoint c a nc n k hc3 hn hcl hl hc4 hb3) hc1
    · exact absurd (h.disjoint b a nb n k hb3 hn hbl hl hb4 hc3) hb1
    · exact absurd (h.disjoint b a nb n k hb3 hn hbl hl hb4 hc3) hb1
    · exact h.disjoint b c nb nc k hb3 hc3 hbl hcl hb4 hc4
  · intro b m hm hml
    obtain ⟨_, _, hb⟩ := hint b m hm hml
    exact h.sorted b m hb hml
  · intro b m hm hml
    obtain ⟨hba, hbq, hb⟩ := hint b m hm hml
    rw [hR1o b hba hbq]
    exact h.in_range b m hb hml
  · intro b m hm hml i hi
    obtain ⟨hba, hbq, hb⟩ := hint b m hm hml
    obtain ⟨c, cn, hc, hcn, hcp, hht, _, hR⟩ := h.child b m hb hml i hi
    have hcq : c ≠ t.heap.length := by have := live_lt hcn; omega
    obtain ⟨cn1, hcn1, hcp1⟩ := hkeep c cn hcn
    refine ⟨c, cn1, hc, hcn1, by rw [hcp1]; exact hcp, ?_, ?_, ?_⟩
    · rw [hht1o c hcq, hht1o b hbq]
      exact hht
    · intro hx
      exact hcq (Option.some.inj hx).symm
    · intro k
      rw [hU c hcq k, hR1o b hba hbq]
      exact hR k
  · intro b m hm hml
    obtain ⟨_, _, hb⟩ := hint b m hm hml
    exact h.distinct b m hb hml
  · intro ln rn hln hrn
    rw [hnew_a] at hln
    rw [hnew_q] at hrn
    cases hln
    cases hrn
    rw [hqp, hlp]

/-- The function `insert_into_new_root`: a new root over `left` and `right`. -/
theorem insert_into_new_root_eq {t : BPTree} {l rt : Nat} {ln rn : Node} (key : Int)
    (hord : 3 ≤ t.order) (hl : t.heap[l]? = some ln) (hr : t.heap[rt]? = some rn)
    (hne : l ≠ rt) :
    insert_into_new_root t (Ptr.node l) key (Ptr.node rt) = .ok
      { t with
        root := Ptr.node t.heap.length
        heap := (t.heap.set l { ln with parent := Ptr.node t.heap.length }).set rt
            { rn with parent := Ptr.node t.heap.length }
          ++ [new_root_node t (Ptr.node l) key (Ptr.node rt)] } := by
  have hl1 := live_lt hl
  have hr1 := live_lt hr
  have hd0 : deref { t with heap := t.heap ++ [{
        is_leaf := false, num_keys := 0,
        keys := List.replicate (t.order - 1) t.raw_key,
        pointers := List.replicate t.order t.raw_pointer,
        parent := Ptr.null, next := Ptr.null }] } (Ptr.node t.heap.length) = .ok {
        is_leaf := false, num_keys := 0,
        keys := List.replicate (t.order - 1) t.raw_key,
        pointers := List.replicate t.order t.raw_pointer,
        parent := Ptr.null, next := Ptr.null } :=
    deref_node (append_lookup_new _ _)
  have hw1 := write_ok (l := List.replicate (t.order - 1) t.raw_key) (i := 0) key
    (by simp only [List.length_replicate]; omega)
  have hw2 := write_ok (l := List.replicate t.order t.raw_pointer) (i := 0) (Ptr.node l)
    (by simp only [List.length_replicate]; omega)
  have hw3 := write_ok (l := (List.replicate t.order t.raw_pointer).set 0 (Ptr.node l))
    (i := 1) (Ptr.node rt) (by simp only [List.length_replicate, List.length_set]; omega)
  simp only [insert_into_new_root, create_node, hd0, bind_ok, hw1, hw2, hw3]
  rw [assign_node _ (by simp only [List.length_append, List.length_singleton]; omega)]
  simp only [bind_ok, set_append_new]
  rw [deref_node (show (t.heap ++ [_])[l]? = some ln by
    rw [append_lookup_old _ hl1]; exact hl)]
  simp only [bind_ok]
  rw [assign_node _ (by simp only [List.length_append, List.length_singleton]; omega)]
  simp only [bind_ok, set_append_old _ _ hl1]
  rw [deref_node (show (t.heap.set l _ ++ [_])[rt]? = some rn by
    rw [append_lookup_old _ (by simp only [List.length_set]; omega),
      set_lookup_ne _ (fun h => hne h.symm)]
    exact hr)]
  simp only [bind_ok]
  rw [assign_node _ (by
    simp only [List.length_append, List.length_singleton, List.length_set]; omega)]
  rw [set_append_old _ _ (by simp only [List.length_set]; omega)]
  rfl

/-- A new root over the two halves of the old root makes the tree well formed again. -/
theorem new_root_wf {t : BPTree} {R : Nat → Int → Prop} {ht : Nat → Nat} {M : Int → Ptr}
    {r l rt : Nat} {key : Int} {ln rn : Node} (h : Pend t R ht M r l key rt)
    (hl : t.heap[l]? = some ln) (hr : t.heap[rt]? = some rn) (hpar : ln.parent = Ptr.null) :
    Wf { t with
        root := Ptr.node t.heap.length
        heap := (t.heap.set l { ln with parent := Ptr.node t.heap.length }).set rt
            { rn with parent := Ptr.node t.heap.length }
          ++ [new_root_node t (Ptr.node l) key (Ptr.node rt)] } M := by
  have hc := h.core
  have hord := hc.order
  have hlr : l = r := (hc.parent l ln hl (fun hx => h.apart (Option.some.inj hx).symm)).1 hpar
  have hl1 := live_lt hl
  have hr1 := live_lt hr
  have hlq : l ≠ t.heap.length := by omega
  have hrq : rt ≠ t.heap.length := by omega
  -- the nodes of the new memory
  have hnew_q : ((t.heap.set l { ln with parent := Ptr.node t.heap.length }).set rt
      { rn with parent := Ptr.node t.heap.length }
      ++ [new_root_node t (Ptr.node l) key (Ptr.node rt)])[t.heap.length]?
      = some (new_root_node t (Ptr.node l) key (Ptr.node rt)) := by
    have := append_lookup_new ((t.heap.set l { ln with parent := Ptr.node t.heap.length }).set rt
      { rn with parent := Ptr.node t.heap.length })
      (new_root_node t (Ptr.node l) key (Ptr.node rt))
    rw [List.length_set, List.length_set] at this
    exact this
  have hnew_r : ((t.heap.set l { ln with parent := Ptr.node t.heap.length }).set rt
      { rn with parent := Ptr.node t.heap.length }
      ++ [new_root_node t (Ptr.node l) key (Ptr.node rt)])[rt]?
      = some { rn with parent := Ptr.node t.heap.length } := by
    rw [append_lookup_old _ (by simp only [List.length_set]; omega)]
    exact set_lookup_same _ (by simp only [List.length_set]; omega)
  have hnew_l : ((t.heap.set l { ln with parent := Ptr.node t.heap.length }).set rt
      { rn with parent := Ptr.node t.heap.length }
      ++ [new_root_node t (Ptr.node l) key (Ptr.node rt)])[l]?
      = some { ln with parent := Ptr.node t.heap.length } := by
    rw [append_lookup_old _ (by simp only [List.length_set]; omega),
      set_lookup_ne _ h.apart]
    exact set_lookup_same _ hl1
  have hnew_o : ∀ (b : Nat) (m : Node), b ≠ l → b ≠ rt → t.heap[b]? = some m →
      ((t.heap.set l { ln with parent := Ptr.node t.heap.length }).set rt
      { rn with parent := Ptr.node t.heap.length }
      ++ [new_root_node t (Ptr.node l) key (Ptr.node rt)])[b]? = some m := by
    intro b m hbl hbr hm
    rw [append_lookup_old _ (by simp only [List.length_set]; exact live_lt hm),
      set_lookup_ne _ hbr, set_lookup_ne _ hbl]
    exact hm
  have hold : ∀ (b : Nat) (m : Node),
      ((t.heap.set l { ln with parent := Ptr.node t.heap.length }).set rt
      { rn with parent := Ptr.node t.heap.length }
      ++ [new_root_node t (Ptr.node l) key (Ptr.node rt)])[b]? = some m →
      (b = t.heap.length ∧ m = new_root_node t (Ptr.node l) key (Ptr.node rt)) ∨
      (b = l ∧ m = { ln with parent := Ptr.node t.heap.length }) ∨
      (b = rt ∧ m = { rn with parent := Ptr.node t.heap.length }) ∨
      (b ≠ t.heap.length ∧ b ≠ l ∧ b ≠ rt ∧ t.heap[b]? = some m) := by
    intro b m hm
    rcases append_lookup hm with ⟨hb, hm1⟩ | ⟨hb, hm1⟩
    · simp only [List.length_set] at hb
      rcases set_lookup hm1 with h1 | ⟨h1, h2⟩
      · exact Or.inr (Or.inr (Or.inl h1))
      · rcases set_lookup h2 with h3 | ⟨h3, h4⟩
        · exact Or.inr (Or.inl h3)
        · exact Or.inr (Or.inr (Or.inr ⟨by omega, h3, h1, h4⟩))
    · simp only [List.length_set] at hb
      exact Or.inl ⟨hb, hm1⟩
  -- every node of the new memory but the new root is an old node with the same content
  have hback : ∀ (b : Nat) (m : Node),
      ((t.heap.set l { ln with parent := Ptr.node t.heap.length }).set rt
      { rn with parent := Ptr.node t.heap.length }
      ++ [new_root_node t (Ptr.node l) key (Ptr.node rt)])[b]? = some m →
      b ≠ t.heap.length →
      ∃ m0 x, t.heap[b]? = some m0 ∧ m = { m0 with parent := x } ∧
        (b ≠ l → b ≠ rt → x = m0.parent) ∧ ((b = l ∨ b = rt) → x = Ptr.node t.heap.length) := by
    intro b m hm hbq
    rcases hold b m hm with ⟨h1, _⟩ | ⟨h1, h2⟩ | ⟨h1, h2⟩ | ⟨_, h1, h2, h3⟩
    · exact absurd h1 hbq
    · exact ⟨ln, _, by rw [h1]; exact hl, h2, fun hx => absurd h1 hx, fun _ => rfl⟩
    · exact ⟨rn, _, by rw [h1]; exact hr, h2, fun _ hx => absurd h1 hx, fun _ => rfl⟩
    · exact ⟨m, m.parent, h3, rfl, fun _ _ => rfl, fun hx => by
        rcases hx with hx | hx
        · exact absurd hx h1
        · exact absurd hx h2⟩
  have hforth : ∀ (b : Nat) (m0 : Node), t.heap[b]? = some m0 →
      ∃ x, ((t.heap.set l { ln with parent := Ptr.node t.heap.length }).set rt
      { rn with parent := Ptr.node t.heap.length }
      ++ [new_root_node t (Ptr.node l) key (Ptr.node rt)])[b]? = some { m0 with parent := x } ∧
        (b ≠ l → b ≠ rt → x = m0.parent) ∧ ((b = l ∨ b = rt) → x = Ptr.node t.heap.length) := by
    intro b m0 hm0
    by_cases hbl : b = l
    · rw [hbl, hl] at hm0
      cases hm0
      exact ⟨_, by rw [hbl]; exact hnew_l, fun hx => absurd hbl hx, fun _ => rfl⟩
    · by_cases hbr : b = rt
      · rw [hbr, hr] at hm0
        cases hm0
        exact ⟨_, by rw [hbr]; exact hnew_r, fun _ hx => absurd hbr hx, fun _ => rfl⟩
      · exact ⟨m0.parent, hnew_o b m0 hbl hbr hm0, fun _ _ => rfl, fun hx => by
          rcases hx with hx | hx
          · exact absurd hx hbl
          · exact absurd hx hbr⟩
  -- the sets of the two halves
  have hRl : ∀ k, R l k ↔ k < key := by
    intro k
    refine ⟨h.left_below k, fun hk => ?_⟩
    have := hc.root_all k
    rw [← hlr, Function.update_same] at this
    rcases this with h1 | h1
    · exact h1
    · have := h.right_above k h1
      omega
  have hRr : ∀ k, R rt k ↔ key ≤ k := by
    intro k
    refine ⟨h.right_above k, fun hk => ?_⟩
    have := hc.root_all k
    rw [← hlr, Function.update_same] at this
    rcases this with h1 | h1
    · have := h.left_below k h1
      omega
    · exact h1
  -- a child of an old node is neither half
  have hchild : ∀ (b : Nat) (m : Node), t.heap[b]? = some m → m.is_leaf = false →
      ∀ i, i ≤ m.num_keys → ∃ (c : Nat) (cn : Node), ptr_at m i = Ptr.node c ∧
        t.heap[c]? = some cn ∧ cn.parent = Ptr.node b ∧ ht c + 1 = ht b ∧ c ≠ l ∧ c ≠ rt ∧
        ∀ k, R c k ↔ (R b k ∧ Route (key_at m) m.num_keys k i) := by
    intro b m hm hml i hi
    obtain ⟨c, cn, h1, h2, h3, h4, h5, h6⟩ := hc.child b m hm hml i hi
    have hcl : c ≠ l := by
      intro hcl
      rw [hcl, hl] at h2
      cases h2
      rw [hpar] at h3
      cases h3
    refine ⟨c, cn, h1, h2, h3, h4, hcl, fun hx => h5 (by rw [hx]), fun k => ?_⟩
    rw [← h6 k, Function.update_noteq hcl]
  have hkey0 : key_at (new_root_node t (Ptr.node l) key (Ptr.node rt)) 0 = key := by
    show ((List.replicate (t.order - 1) t.raw_key).set 0 key).getD 0 0 = key
    rw [getD_set _ _ _ _ _ (by simp only [List.length_replicate]; omega)]
    simp
  have hptr0 : ptr_at (new_root_node t (Ptr.node l) key (Ptr.node rt)) 0 = Ptr.node l := by
    show (((List.replicate t.order t.raw_pointer).set 0 (Ptr.node l)).set 1
      (Ptr.node rt)).getD 0 Ptr.null = Ptr.node l
    rw [getD_set _ _ _ _ _ (by simp only [List.length_replicate, List.length_set]; omega),
      getD_set _ _ _ _ _ (by simp only [List.length_replicate]; omega)]
    simp
  have hptr1 : ptr_at (new_root_node t (Ptr.node l) key (Ptr.node rt)) 1 = Ptr.node rt := by
    show (((List.replicate t.order t.raw_pointer).set 0 (Ptr.node l)).set 1
      (Ptr.node rt)).getD 1 Ptr.null = Ptr.node rt
    rw [getD_set _ _ _ _ _ (by simp only [List.length_replicate, List.length_set]; omega)]
    simp
  have hRo : ∀ b, b ≠ t.heap.length →
      Function.update R t.heap.length (fun _ => True) b = R b :=
    fun b hb => Function.update_noteq hb _ _
  have hho : ∀ b, b ≠ t.heap.length →
      Function.update ht t.heap.length (ht r + 1) b = ht b :=
    fun b hb => Function.update_noteq hb _ _
  refine ⟨Function.update R t.heap.length (fun _ => True),
    Function.update ht t.heap.length (ht r + 1), t.heap.length, ?_, ?_⟩
  · refine
      { order := hord
        root := rfl
        root_live := by
          simp only [List.length_append, List.length_set, List.length_singleton]; omega
        root_parent := ?_
        root_all := fun k => by rw [Function.update_same]; trivial
        shape := ?_
        parent := ?_
        leaf := ?_
        disjoint := ?_
        sorted := ?_
        in_range := ?_
        child := ?_
        distinct := ?_ }
    · intro rn1 hrn1
      rw [hnew_q] at hrn1
      cases hrn1
      rfl
    · intro b m hm
      rw [Function.update_same]
      by_cases hbq : b = t.heap.length
      · rcases hold b m hm with ⟨_, h2⟩ | ⟨h1, _⟩ | ⟨h1, _⟩ | ⟨h1, _⟩
        · rw [h2, hbq, Function.update_same]
          refine ⟨?_, ?_, ?_, le_refl _⟩
          · show ((List.replicate (t.order - 1) t.raw_key).set 0 key).length = t.order - 1
            simp
          · show (((List.replicate t.order t.raw_pointer).set 0 (Ptr.node l)).set 1
              (Ptr.node rt)).length = t.order
            simp
          · show 1 ≤ t.order - 1
            omega
        · omega
        · omega
        · exact absurd hbq h1
      · obtain ⟨m0, x, hm0, hmx, _, _⟩ := hback b m hm hbq
        obtain ⟨h1, h2, h3, h4⟩ := hc.shape b m0 hm0
        rw [hmx, hho b hbq]
        exact ⟨h1, h2, h3, by omega⟩
    · intro b m hm _
      by_cases hbq : b = t.heap.length
      · refine ⟨fun _ => hbq, ?_, ?_⟩
        · rcases hold b m hm with ⟨_, h2⟩ | ⟨h1, _⟩ | ⟨h1, _⟩ | ⟨h1, _⟩
          · rw [h2]
            intro v hv
            cases hv
          · omega
          · omega
          · exact absurd hbq h1
        · rcases hold b m hm with ⟨_, h2⟩ | ⟨h1, _⟩ | ⟨h1, _⟩ | ⟨h1, _⟩
          · rw [h2]
            intro p hp
            cases hp
          · omega
          · omega
          · exact absurd hbq h1
      · obtain ⟨m0, x, hm0, hmx, hx1, hx2⟩ := hback b m hm hbq
        by_cases hbl : b = l
        · have hx := hx2 (Or.inl hbl)
          rw [hmx, hx]
          refine ⟨(fun hn => by cases hn), (fun v hv => by cases hv), fun p hp => ?_⟩
          cases hp
          exact ⟨_, 0, hnew_q, rfl, Nat.zero_le _, by rw [hptr0, hbl]⟩
        · by_cases hbr : b = rt
          · have hx := hx2 (Or.inr hbr)
            rw [hmx, hx]
            refine ⟨(fun hn => by cases hn), (fun v hv => by cases hv), fun p hp => ?_⟩
            cases hp
            exact ⟨_, 1, hnew_q, rfl, le_refl _, by rw [hptr1, hbr]⟩
          · have hx := hx1 hbl hbr
            rw [hmx, hx]
            obtain ⟨h1, h2, h3⟩ := hc.parent b m0 hm0 (fun hx => hbr (Option.some.inj hx).symm)
            refine ⟨fun hn => absurd ((h1 hn).trans hlr.symm) hbl, h2, fun p hp => ?_⟩
            obtain ⟨pn, i, hpn, hpl, hi, hpi⟩ := h3 p hp
            obtain ⟨y, hy, _, _⟩ := hforth p pn hpn
            exact ⟨_, i, hy, hpl, hi, hpi⟩
    · intro b m hm hml
      by_cases hbq : b = t.heap.length
      · rcases hold b m hm with ⟨_, h2⟩ | ⟨h1, _⟩ | ⟨h1, _⟩ | ⟨h1, _⟩
        · rw [h2] at hml
          cases hml
        · omega
        · omega
        · exact absurd hbq h1
      · obtain ⟨m0, x, hm0, hmx, _, _⟩ := hback b m hm hbq
        rw [hRo b hbq, hmx]
        rw [hmx] at hml
        exact hc.leaf b m0 hm0 hml
    · intro b c nb nc k hb hcc hbl hcl hRb hRc
      have hbq : b ≠ t.heap.length := by
        intro hbq
        rcases hold b nb hb with ⟨_, h2⟩ | ⟨h1, _⟩ | ⟨h1, _⟩ | ⟨h1, _⟩
        · rw [h2] at hbl; cases hbl
        · omega
        · omega
        · exact absurd hbq h1
      have hcq : c ≠ t.heap.length := by
        intro hcq
        rcases hold c nc hcc with ⟨_, h2⟩ | ⟨h1, _⟩ | ⟨h1, _⟩ | ⟨h1, _⟩
        · rw [h2] at hcl; cases hcl
        · omega
        · omega
        · exact absurd hcq h1
      obtain ⟨b0, _, hb0, hbx, _, _⟩ := hback b nb hb hbq
      obtain ⟨c0, _, hc0, hcx, _, _⟩ := hback c nc hcc hcq
      rw [hRo b hbq] at hRb
      rw [hRo c hcq] at hRc
      rw [hbx] at hbl
      rw [hcx] at hcl
      exact hc.disjoint b c b0 c0 k hb0 hc0 hbl hcl hRb hRc
    · intro b m hm hml
      by_cases hbq : b = t.heap.length
      · rcases hold b m hm with ⟨_, h2⟩ | ⟨h1, _⟩ | ⟨h1, _⟩ | ⟨h1, _⟩
        · rw [h2]
          intro i j hij hj
          have : j < 1 := hj
          omega
        · omega
        · omega
        · exact absurd hbq h1
      · obtain ⟨m0, x, hm0, hmx, _, _⟩ := hback b m hm hbq
        rw [hmx]
        rw [hmx] at hml
        exact hc.sorted b m0 hm0 hml
    · intro b m hm hml
      by_cases hbq : b = t.heap.length
      · intro i _
        rw [hbq, Function.update_same]
        trivial
      · obtain ⟨m0, x, hm0, hmx, _, _⟩ := hback b m hm hbq
        rw [hRo b hbq, hmx]
        rw [hmx] at hml
        exact hc.in_range b m0 hm0 hml
    · intro b m hm hml i hi
      by_cases hbq : b = t.heap.length
      · have hm2 : m = new_root_node t (Ptr.node l) key (Ptr.node rt) := by
          rcases hold b m hm with ⟨_, h2⟩ | ⟨h1, _⟩ | ⟨h1, _⟩ | ⟨h1, _⟩
          · exact h2
          · omega
          · omega
          · exact absurd hbq h1
        rw [hm2] at hi ⊢
        rw [hbq]
        have hi1 : i ≤ 1 := hi
        have hroute : ∀ k j, Route (key_at (new_root_node t (Ptr.node l) key (Ptr.node rt)))
            (new_root_node t (Ptr.node l) key (Ptr.node rt)).num_keys k j ↔
            (j ≤ 1 ∧ (∀ j1, j1 < j → key ≤ k) ∧ (j < 1 → k < key)) := by
          intro k j
          show (j ≤ 1 ∧ _ ∧ _) ↔ _
          constructor
          · rintro ⟨a1, a2, a3⟩
            refine ⟨a1, fun j1 hj1 => ?_, fun hj => ?_⟩
            · have := a2 j1 hj1
              have hj10 : j1 = 0 := by omega
              rwa [hj10, hkey0] at this
            · have := a3 hj
              have hj0 : j = 0 := by omega
              rwa [hj0, hkey0] at this
          · rintro ⟨a1, a2, a3⟩
            refine ⟨a1, fun j1 hj1 => ?_, fun hj => ?_⟩
            · have hj10 : j1 = 0 := by omega
              rw [hj10, hkey0]
              exact a2 j1 hj1
            · have hj2 : j < 1 := hj
              have hj0 : j = 0 := by omega
              rw [hj0, hkey0]
              exact a3 hj2
        by_cases hi0 : i = 0
        · refine ⟨l, _, by rw [hi0]; exact hptr0, hnew_l, rfl, ?_, by simp, fun k => ?_⟩
          · rw [hho l hlq, Function.update_same, hlr]
          · rw [hRo l hlq, Function.update_same, hroute, hRl, hi0]
            constructor
            · intro hk
              exact ⟨trivial, by omega, fun j1 hj1 => by omega, fun _ => hk⟩
            · rintro ⟨_, _, _, h3⟩
              exact h3 (by omega)
        · have hi1 : i = 1 := by omega
          refine ⟨rt, _, by rw [hi1]; exact hptr1, hnew_r, rfl, ?_, by simp, fun k => ?_⟩
          · rw [hho rt hrq, Function.update_same, h.same_height, hlr]
          · rw [hRo rt hrq, Function.update_same, hroute, hRr, hi1]
            constructor
            · intro hk
              exact ⟨trivial, le_refl _, fun _ _ => hk, fun hx => by omega⟩
            · rintro ⟨_, _, h2, _⟩
              exact h2 0 (by omega)
      · obtain ⟨m0, x, hm0, hmx, _, _⟩ := hback b m hm hbq
        rw [hmx] at hml hi ⊢
        obtain ⟨c, cn, h1, h2, h3, h4, h5, h6, h7⟩ := hchild b m0 hm0 hml i hi
        have hcq : c ≠ t.heap.length := by have := live_lt h2; omega
        refine ⟨c, cn, h1, hnew_o c cn h5 h6 h2, h3, ?_, by simp, fun k => ?_⟩
        · rw [hho c hcq, hho b hbq]
          exact h4
        · rw [hRo c hcq, hRo b hbq]
          exact h7 k
    · intro b m hm hml
      by_cases hbq : b = t.heap.length
      · have hm2 : m = new_root_node t (Ptr.node l) key (Ptr.node rt) := by
          rcases hold b m hm with ⟨_, h2⟩ | ⟨h1, _⟩ | ⟨h1, _⟩ | ⟨h1, _⟩
          · exact h2
          · omega
          · omega
          · exact absurd hbq h1
        rw [hm2]
        intro i j hi hj hij
        have hi1 : i ≤ 1 := hi
        have hj1 : j ≤ 1 := hj
        by_contra hne
        have hcases : (i = 0 ∧ j = 1) ∨ (i = 1 ∧ j = 0) := by omega
        rcases hcases with ⟨hi0, hj0⟩ | ⟨hi0, hj0⟩
        · rw [hi0, hj0, hptr0, hptr1] at hij
          exact h.apart (Ptr.node.inj hij)
        · rw [hi0, hj0, hptr0, hptr1] at hij
          exact h.apart (Ptr.node.inj hij).symm
      · obtain ⟨m0, x, hm0, hmx, _, _⟩ := hback b m hm hbq
        rw [hmx]
        rw [hmx] at hml
        exact hc.distinct b m0 hm0 hml
  · rw [Function.update_same]
    have := h.fuel
    simp only [List.length_append, List.length_set, List.length_singleton]
    omega

/-- Between a split and the insertion into the parent, the parent's keys and children
with the separator and the new sibling inserted are consistent. -/
theorem Pend.combined {t : BPTree} {R : Nat → Int → Prop} {ht : Nat → Nat} {M : Int → Ptr}
    {r l rt p li : Nat} {key : Int} {ln pn : Node} (h : Pend t R ht M r l key rt)
    (hl : t.heap[l]? = some ln) (hpar : ln.parent = Ptr.node p)
    (hp : t.heap[p]? = some pn) (hpl : pn.is_leaf = false) (hli : li ≤ pn.num_keys)
    (hptr : ptr_at pn li = Ptr.node l) :
    Combined t R ht p pn li key rt := by
  have hc := h.core
  obtain ⟨rn, hrn⟩ := live_of_lt h.right_live
  -- the child clause of the parent, in terms of `R`
  have hchild : ∀ i, i ≤ pn.num_keys → i ≠ li →
      ∃ (c : Nat) (cn : Node), ptr_at pn i = Ptr.node c ∧ t.heap[c]? = some cn ∧
        cn.parent = Ptr.node p ∧ ht c + 1 = ht p ∧ c ≠ rt ∧
        ∀ k, R c k ↔ (R p k ∧ Route (key_at pn) pn.num_keys k i) := by
    intro i hi hne
    obtain ⟨c, cn, h1, h2, h3, h4, h5, h6⟩ := hc.child p pn hp hpl i hi
    have hcl : c ≠ l := by
      intro hcl
      rw [hcl, ← hptr] at h1
      exact hne (hc.distinct p pn hp hpl i li hi hli h1)
    refine ⟨c, cn, h1, h2, h3, h4, fun hx => h5 (by rw [hx]), fun k => ?_⟩
    rw [← h6 k, Function.update_noteq hcl]
  have hleft : ht l + 1 = ht p ∧
      ∀ k, (R l k ∨ R rt k) ↔ (R p k ∧ Route (key_at pn) pn.num_keys k li) := by
    obtain ⟨c, cn, h1, h2, h3, h4, h5, h6⟩ := hc.child p pn hp hpl li hli
    rw [hptr] at h1
    cases h1
    refine ⟨h4, fun k => ?_⟩
    rw [← h6 k, Function.update_same]
  have hkey := (hleft.2 key).mp (Or.inr h.right_key)
  have hroute := hkey.2
  have hlow : ∀ j, j < li → key_at pn j < key := by
    intro j hj
    obtain ⟨k0, hk0⟩ := h.left_nonempty
    have h1 := ((hleft.2 k0).mp (Or.inl hk0)).2.2.1 j hj
    have h2 := h.left_below k0 hk0
    omega
  refine
    { route := hroute
      key_in := hkey.1
      sorted := (hc.sorted p pn hp hpl).ins hroute hlow
      in_range := ?_
      child := ?_
      distinct := ?_ }
  · intro i hi
    rcases Nat.lt_trichotomy i li with hil | hil | hil
    · rw [ins_lt _ _ _ hil]
      exact hc.in_range p pn hp hpl i (by omega)
    · rw [hil, ins_eq]
      exact hkey.1
    · rw [ins_gt _ _ _ hil]
      exact hc.in_range p pn hp hpl (i - 1) (by omega)
  · intro i hi
    by_cases h1 : i < li
    · obtain ⟨c, cn, a1, a2, a3, a4, _, a6⟩ := hchild i (by omega) (by omega)
      refine ⟨c, cn, by rw [ins_lt _ _ _ (show i < li + 1 by omega)]; exact a1, a2, a3, a4,
        fun k => ?_⟩
      rw [a6 k, route_ins_lt hroute k h1]
    · by_cases h2 : i = li
      · refine ⟨l, ln, by rw [h2, ins_lt _ _ _ (show li < li + 1 by omega)]; exact hptr, hl,
          hpar, hleft.1, fun k => ?_⟩
        rw [h2, route_ins_eq hroute k]
        constructor
        · intro hk
          have := (hleft.2 k).mp (Or.inl hk)
          exact ⟨this.1, this.2, h.left_below k hk⟩
        · rintro ⟨a1, a2, a3⟩
          rcases (hleft.2 k).mpr ⟨a1, a2⟩ with hk | hk
          · exact hk
          · have := h.right_above k hk
            omega
      · by_cases h3 : i = li + 1
        · refine ⟨rt, rn, by rw [h3, ins_eq], hrn, ?_, ?_, fun k => ?_⟩
          · rw [h.same_parent ln rn hl hrn]
            exact hpar
          · rw [h.same_height]
            exact hleft.1
          · rw [h3, route_ins_succ hroute k]
            constructor
            · intro hk
              have := (hleft.2 k).mp (Or.inr hk)
              exact ⟨this.1, this.2, h.right_above k hk⟩
            · rintro ⟨a1, a2, a3⟩
              rcases (hleft.2 k).mpr ⟨a1, a2⟩ with hk | hk
              · have := h.left_below k hk
                omega
              · exact hk
        · obtain ⟨c, cn, a1, a2, a3, a4, _, a6⟩ := hchild (i - 1) (by omega) (by omega)
          refine ⟨c, cn, by rw [ins_gt _ _ _ (show li + 1 < i by omega)]; exact a1, a2, a3, a4,
            fun k => ?_⟩
          rw [a6 k, route_ins_gt hroute k (show li + 1 < i by omega)]
  · -- the new sibling is not among the old children
    have hfresh : ∀ i, i ≤ pn.num_keys → ptr_at pn i ≠ Ptr.node rt := by
      intro i hi hx
      obtain ⟨c, cn, h1, _, _, _, h5, _⟩ := hc.child p pn hp hpl i hi
      rw [hx] at h1
      cases h1
      exact h5 rfl
    have hval : ∀ i, i ≤ pn.num_keys + 1 →
        (i < li + 1 ∧ ins (ptr_at pn) (li + 1) (Ptr.node rt) i = ptr_at pn i) ∨
        (i = li + 1 ∧ ins (ptr_at pn) (li + 1) (Ptr.node rt) i = Ptr.node rt) ∨
        (li + 1 < i ∧ ins (ptr_at pn) (li + 1) (Ptr.node rt) i = ptr_at pn (i - 1)) := by
      intro i _
      rcases Nat.lt_trichotomy i (li + 1) with h1 | h1 | h1
      · exact Or.inl ⟨h1, ins_lt _ _ _ h1⟩
      · exact Or.inr (Or.inl ⟨h1, by rw [h1, ins_eq]⟩)
      · exact Or.inr (Or.inr ⟨h1, ins_gt _ _ _ h1⟩)
    intro i j hi hj hij
    rcases hval i hi with ⟨a1, a2⟩ | ⟨a1, a2⟩ | ⟨a1, a2⟩ <;>
    rcases hval j hj with ⟨b1, b2⟩ | ⟨b1, b2⟩ | ⟨b1, b2⟩ <;>
    rw [a2, b2] at hij
    · exact hc.distinct p pn hp hpl i j (by omega) (by omega) hij
    · exact absurd hij (hfresh i (by omega))
    · have := hc.distinct p pn hp hpl i (j - 1) (by omega) (by omega) hij
      omega
    · exact absurd hij.symm (hfresh j (by omega))
    · omega
    · exact absurd hij.symm (hfresh (j - 1) (by omega))
    · have := hc.distinct p pn hp hpl (i - 1) j (by omega) (by omega) hij
      omega
    · exact absurd hij (hfresh (i - 1) (by omega))
    · have := hc.distinct p pn hp hpl (i - 1) (j - 1) (by omega) (by omega) hij
      omega

/-- The function `insert_into_internal` on a node with room: the key goes to slot
`left_index` and the pointer to the slot after it. -/
theorem insert_into_internal_eq {t : BPTree} {p : Nat} {pn : Node} (li : Nat) (key : Int)
    (right : Ptr) (hp : t.heap[p]? = some pn) (hk : pn.keys.length = t.order - 1)
    (hpl : pn.pointers.length = t.order) (hroom : pn.num_keys < t.order - 1)
    (hli : li ≤ pn.num_keys) :
    ∃ pn1 : Node,
      insert_into_internal t (Ptr.node p) li key right
        = .ok { t with heap := t.heap.set p pn1 } ∧
      pn1.is_leaf = pn.is_leaf ∧ pn1.parent = pn.parent ∧ pn1.num_keys = pn.num_keys + 1 ∧
      pn1.keys.length = pn.keys.length ∧ pn1.pointers.length = pn.pointers.length ∧
      (∀ j, j ≤ pn.num_keys → key_at pn1 j = ins (key_at pn) li key j) ∧
      (∀ j, j ≤ pn.num_keys + 1 → ptr_at pn1 j = ins (ptr_at pn) (li + 1) right j) := by
  obtain ⟨ks, hks, hksl, hksg⟩ := shift_right_spec (0 : Int) li pn.num_keys pn.keys (by omega)
  obtain ⟨ps, hps, hpsl, hpsg⟩ :=
    shift_right_spec Ptr.null (li + 1) (pn.num_keys + 1) pn.pointers (by omega)
  have hwk := write_ok (l := ks) (i := li) key (by omega)
  have hwp := write_ok (l := ps) (i := li + 1) right (by omega)
  refine ⟨{ pn with keys := ks.set li key, pointers := ps.set (li + 1) right,
                    num_keys := pn.num_keys + 1 }, ?_, rfl, rfl, rfl,
    by simp [hksl], by simp [hpsl], ?_, ?_⟩
  · simp only [insert_into_internal, deref_node hp, bind_ok, hks, hps, hwk, hwp]
    exact assign_node _ (live_lt hp)
  · intro j hj
    show (ks.set li key).getD j 0 = ins (key_at pn) li key j
    rw [getD_set _ _ _ _ _ (by omega), hksg]
    rcases Nat.lt_trichotomy j li with hji | hji | hji
    · have h1 : ¬ j = li := by omega
      have h2 : ¬ (li < j ∧ j ≤ pn.num_keys) := by omega
      rw [if_neg h1, if_neg h2, ins_lt _ _ _ hji]
      rfl
    · rw [if_pos hji, hji, ins_eq]
    · have h1 : ¬ j = li := by omega
      have h2 : li < j ∧ j ≤ pn.num_keys := by omega
      rw [if_neg h1, if_pos h2, ins_gt _ _ _ hji]
      rfl
  · intro j hj
    show (ps.set (li + 1) right).getD j Ptr.null = ins (ptr_at pn) (li + 1) right j
    rw [getD_set _ _ _ _ _ (by omega), hpsg]
    rcases Nat.lt_trichotomy j (li + 1) with hji | hji | hji
    · have h1 : ¬ j = li + 1 := by omega
      have h2 : ¬ (li + 1 < j ∧ j ≤ pn.num_keys + 1) := by omega
      rw [if_neg h1, if_neg h2, ins_lt _ _ _ hji]
      rfl
    · rw [if_pos hji, hji, ins_eq]
    · have h1 : ¬ j = li + 1 := by omega
      have h2 : li + 1 < j ∧ j ≤ pn.num_keys + 1 := by omega
      rw [if_neg h1, if_pos h2, ins_gt _ _ _ hji]
      rfl

/-- Inserting the separator and the new sibling into a parent with room makes the tree
well formed again. -/
theorem insert_into_internal_wf {t : BPTree} {R : Nat → Int → Prop} {ht : Nat → Nat}
    {M : Int → Ptr} {r l rt p li : Nat} {key : Int} {ln pn pn1 : Node}
    (h : Pend t R ht M r l key rt) (hl : t.heap[l]? = some ln)
    (hpar : ln.parent = Ptr.node p) (hp : t.heap[p]? = some pn) (hpl : pn.is_leaf = false)
    (hli : li ≤ pn.num_keys) (hptr : ptr_at pn li = Ptr.node l)
    (hroom : pn.num_keys < t.order - 1)
    (h1l : pn1.is_leaf = pn.is_leaf) (h1p : pn1.parent = pn.parent)
    (h1n : pn1.num_keys = pn.num_keys + 1) (h1k : pn1.keys.length = pn.keys.length)
    (h1pl : pn1.pointers.length = pn.pointers.length)
    (h1kg : ∀ j, j ≤ pn.num_keys → key_at pn1 j = ins (key_at pn) li key j)
    (h1pg : ∀ j, j ≤ pn.num_keys + 1 →
      ptr_at pn1 j = ins (ptr_at pn) (li + 1) (Ptr.node rt) j) :
    Wf { t with heap := t.heap.set p pn1 } M := by
  have hc := h.core
  have hcomb := h.combined hl hpar hp hpl hli hptr
  have hp1 := live_lt hp
  obtain ⟨rn, hrn⟩ := live_of_lt h.right_live
  have hrpar : rn.parent = Ptr.node p := by
    rw [h.same_parent ln rn hl hrn]
    exact hpar
  have hlr : l ≠ r := by
    intro hlr
    have := hc.root_parent ln (by rw [← hlr]; exact hl)
    rw [hpar] at this
    cases this
  -- the nodes of the new memory
  have hold : ∀ (b : Nat) (m : Node), (t.heap.set p pn1)[b]? = some m →
      ∃ m0, t.heap[b]? = some m0 ∧ m.is_leaf = m0.is_leaf ∧ m.parent = m0.parent ∧
        (b ≠ p → m = m0) ∧ (b = p → m = pn1) := by
    intro b m hm
    rcases set_lookup hm with ⟨h1, h2⟩ | ⟨h1, h2⟩
    · exact ⟨pn, by rw [h1]; exact hp, by rw [h2, h1l], by rw [h2, h1p],
        fun hx => absurd h1 hx, fun _ => h2⟩
    · exact ⟨m, h2, rfl, rfl, fun _ => rfl, fun hx => absurd hx h1⟩
  have hnew : ∀ (b : Nat) (m0 : Node), t.heap[b]? = some m0 →
      ∃ m, (t.heap.set p pn1)[b]? = some m ∧ m.parent = m0.parent ∧
        (b ≠ p → m = m0) := by
    intro b m0 hm0
    by_cases hbp : b = p
    · rw [hbp, hp] at hm0
      cases hm0
      exact ⟨pn1, by rw [hbp]; exact set_lookup_same _ hp1, h1p, fun hx => absurd hbp hx⟩
    · exact ⟨m0, by rw [set_lookup_ne _ hbp]; exact hm0, rfl, fun _ => rfl⟩
  have hnew_p : (t.heap.set p pn1)[p]? = some pn1 := set_lookup_same _ hp1
  -- a child of another old node is not the node that was split
  have hchild : ∀ (b : Nat) (m : Node), t.heap[b]? = some m → m.is_leaf = false → b ≠ p →
      ∀ i, i ≤ m.num_keys → ∃ (c : Nat) (cn : Node), ptr_at m i = Ptr.node c ∧
        t.heap[c]? = some cn ∧ cn.parent = Ptr.node b ∧ ht c + 1 = ht b ∧
        ∀ k, R c k ↔ (R b k ∧ Route (key_at m) m.num_keys k i) := by
    intro b m hm hml hbp i hi
    obtain ⟨c, cn, a1, a2, a3, a4, _, a6⟩ := hc.child b m hm hml i hi
    have hcl : c ≠ l := by
      intro hcl
      rw [hcl, hl] at a2
      cases a2
      rw [hpar] at a3
      exact hbp (Ptr.node.inj a3).symm
    refine ⟨c, cn, a1, a2, a3, a4, fun k => ?_⟩
    rw [← a6 k, Function.update_noteq hcl]
  refine ⟨R, ht, r, ?_, by simp only [List.length_set]; have := h.fuel; omega⟩
  refine
    { order := hc.order
      root := hc.root
      root_live := by simp only [List.length_set]; exact hc.root_live
      root_parent := ?_
      root_all := fun k => by
        have := hc.root_all k
        rwa [Function.update_noteq (fun hx => hlr hx.symm)] at this
      shape := ?_
      parent := ?_
      leaf := ?_
      disjoint := ?_
      sorted := ?_
      in_range := ?_
      child := ?_
      distinct := ?_ }
  · intro rn1 hrn1
    obtain ⟨m0, hm0, _, hpm, _, _⟩ := hold r rn1 hrn1
    rw [hpm]
    exact hc.root_parent m0 hm0
  · intro b m hm
    obtain ⟨m0, hm0, _, _, hne, heq⟩ := hold b m hm
    by_cases hbp : b = p
    · rw [hbp, hp] at hm0
      cases hm0
      rw [heq hbp, hbp]
      obtain ⟨a1, a2, a3, a4⟩ := hc.shape p pn hp
      refine ⟨by rw [h1k]; exact a1, by rw [h1pl]; exact a2, ?_, a4⟩
      rw [h1n]
      show pn.num_keys + 1 ≤ t.order - 1
      omega
    · rw [hne hbp]
      exact hc.shape b m0 hm0
  · intro b m hm _
    obtain ⟨m0, hm0, _, hpm, _, _⟩ := hold b m hm
    rw [hpm]
    by_cases hbr : b = rt
    · rw [hbr, hrn] at hm0
      cases hm0
      rw [hrpar]
      refine ⟨(fun hx => by cases hx), (fun v hv => by cases hv), fun q hq => ?_⟩
      cases hq
      refine ⟨pn1, li + 1, hnew_p, by rw [h1l]; exact hpl, by omega, ?_⟩
      rw [h1pg _ (by omega), ins_eq, hbr]
    · obtain ⟨a1, a2, a3⟩ := hc.parent b m0 hm0 (fun hx => hbr (Option.some.inj hx).symm)
      refine ⟨a1, a2, fun q hq => ?_⟩
      obtain ⟨qn, i, hqn, hql, hi, hqi⟩ := a3 q hq
      by_cases hqp : q = p
      · rw [hqp, hp] at hqn
        cases hqn
        rw [hqp]
        by_cases hil : i ≤ li
        · refine ⟨pn1, i, hnew_p, by rw [h1l]; exact hpl, by omega, ?_⟩
          rw [h1pg _ (by omega), ins_lt _ _ _ (show i < li + 1 by omega)]
          exact hqi
        · refine ⟨pn1, i + 1, hnew_p, by rw [h1l]; exact hpl, by omega, ?_⟩
          rw [h1pg _ (by omega), ins_gt _ _ _ (show li + 1 < i + 1 by omega)]
          exact hqi
      · exact ⟨qn, i, by rw [set_lookup_ne _ hqp]; exact hqn, hql, hi, hqi⟩
  · intro b m hm hml
    obtain ⟨m0, hm0, hlm, _, hne, _⟩ := hold b m hm
    have hbp : b ≠ p := by
      intro hbp
      rw [hbp, hp] at hm0
      cases hm0
      rw [hlm, hpl] at hml
      cases hml
    rw [hne hbp] at hml ⊢
    exact hc.leaf b m0 hm0 hml
  · intro b c nb nc k hb hcc hbl hcl hRb hRc
    obtain ⟨b0, hb0, hbl0, _, _, _⟩ := hold b nb hb
    obtain ⟨c0, hc0, hcl0, _, _, _⟩ := hold c nc hcc
    exact hc.disjoint b c b0 c0 k hb0 hc0 (by rw [← hbl0]; exact hbl)
      (by rw [← hcl0]; exact hcl) hRb hRc
  · intro b m hm hml
    obtain ⟨m0, hm0, _, _, hne, heq⟩ := hold b m hm
    by_cases hbp : b = p
    · rw [heq hbp, h1n]
      intro i j hij hj
      rw [h1kg i (by omega), h1kg j (by omega)]
      exact hcomb.sorted i j hij hj
    · rw [hne hbp] at hml ⊢
      exact hc.sorted b m0 hm0 hml
  · intro b m hm hml
    obtain ⟨m0, hm0, _, _, hne, heq⟩ := hold b m hm
    by_cases hbp : b = p
    · rw [heq hbp, h1n, hbp]
      intro i hi
      rw [h1kg i (by omega)]
      exact hcomb.in_range i hi
    · rw [hne hbp] at hml ⊢
      exact hc.in_range b m0 hm0 hml
  · intro b m hm hml i hi
    obtain ⟨m0, hm0, _, _, hne, heq⟩ := hold b m hm
    by_cases hbp : b = p
    · rw [heq hbp] at hi ⊢
      rw [h1n] at hi ⊢
      rw [hbp]
      obtain ⟨c, cn, a1, a2, a3, a4, a5⟩ := hcomb.child i hi
      obtain ⟨cn1, hcn1, hcp1, _⟩ := hnew c cn a2
      refine ⟨c, cn1, by rw [h1pg i hi]; exact a1, hcn1, by rw [hcp1]; exact a3, a4, by simp,
        fun k => ?_⟩
      rw [a5 k, Route.agree (fun j hj => h1kg j (by omega)) k i]
    · rw [hne hbp] at hml hi ⊢
      obtain ⟨c, cn, a1, a2, a3, a4, a5⟩ := hchild b m0 hm0 hml hbp i hi
      obtain ⟨cn1, hcn1, hcp1, _⟩ := hnew c cn a2
      exact ⟨c, cn1, a1, hcn1, by rw [hcp1]; exact a3, a4, by simp, a5⟩
  · intro b m hm hml
    obtain ⟨m0, hm0, _, _, hne, heq⟩ := hold b m hm
    by_cases hbp : b = p
    · rw [heq hbp, h1n]
      intro i j hi hj hij
      rw [h1pg i hi, h1pg j hj] at hij
      exact hcomb.distinct i j hi hj hij
    · rw [hne hbp] at hml ⊢
      exact hc.distinct b m0 hm0 hml

theorem set_append_at {heap : List Node} (y1 y2 : Node) {n : Nat} (h : n = heap.length) :
    (heap ++ [y1]).set n y2 = heap ++ [y2] := by
  rw [h]
  exact set_append_new heap y1 y2

/-- The loop `adopt`: the children `pointers[i .. i + count - 1]` of the node `q` get `q`
as their parent, nothing else changes. -/
theorem adopt_spec (q : Nat) (qn : Node) :
    ∀ (count i : Nat) (t : BPTree), t.heap[q]? = some qn → i + count ≤ qn.pointers.length →
    (∀ j, i ≤ j → j < i + count → ∃ c, ptr_at qn j = Ptr.node c ∧ c ≠ q ∧ c < t.heap.length) →
    ∃ t1, adopt (Ptr.node q) count i t = .ok t1 ∧ t1.root = t.root ∧ t1.order = t.order ∧
      t1.heap.length = t.heap.length ∧
      (∀ (b : Nat) (m : Node), t.heap[b]? = some m →
        (∃ j, i ≤ j ∧ j < i + count ∧ ptr_at qn j = Ptr.node b) →
        t1.heap[b]? = some { m with parent := Ptr.node q }) ∧
      (∀ b : Nat, (¬ ∃ j, i ≤ j ∧ j < i + count ∧ ptr_at qn j = Ptr.node b) →
        t1.heap[b]? = t.heap[b]?) := by
  intro count
  induction count with
  | zero =>
    intro i t _ _ _
    refine ⟨t, rfl, rfl, rfl, rfl, ?_, fun _ _ => rfl⟩
    rintro b m _ ⟨j, h1, h2, _⟩
    omega
  | succ count ih =>
    intro i t hq hlen hch
    obtain ⟨c, hc, hcq, hcl⟩ := hch i (le_refl _) (by omega)
    obtain ⟨cn, hcn⟩ := live_of_lt hcl
    have hread : read qn.pointers i = .ok (Ptr.node c) := by
      rw [read_ok Ptr.null (by omega)]
      exact congrArg _ hc
    have hq1 : (t.heap.set c { cn with parent := Ptr.node q })[q]? = some qn := by
      rw [set_lookup_ne _ (fun h => hcq h.symm)]
      exact hq
    obtain ⟨t1, hrun, h1, h2, h3, h4, h5⟩ := ih (i + 1)
      { t with heap := t.heap.set c { cn with parent := Ptr.node q } } hq1 (by omega)
      (fun j hj1 hj2 => by
        obtain ⟨c1, a1, a2, a3⟩ := hch j (by omega) (by omega)
        exact ⟨c1, a1, a2, by simpa using a3⟩)
    refine ⟨t1, ?_, h1, h2, by rw [h3]; simp, ?_, ?_⟩
    · simp only [adopt, deref_node hq, bind_ok, hread, deref_node hcn, assign_node _ hcl]
      exact hrun
    · intro b m hm hex
      by_cases hrest : ∃ j, i + 1 ≤ j ∧ j < i + 1 + count ∧ ptr_at qn j = Ptr.node b
      · by_cases hbc : b = c
        · rw [hbc] at hm ⊢
          rw [hcn] at hm
          cases hm
          have := h4 c { cn with parent := Ptr.node q } (set_lookup_same _ hcl)
            (by rw [hbc] at hrest; exact hrest)
          rw [this]
        · exact h4 b m (by rw [set_lookup_ne _ hbc]; exact hm) hrest
      · obtain ⟨j, hj1, hj2, hj3⟩ := hex
        have hji : j = i := by
          by_contra hne
          exact hrest ⟨j, by omega, by omega, hj3⟩
        rw [hji, hc] at hj3
        cases hj3
        rw [hcn] at hm
        cases hm
        rw [h5 c hrest]
        exact set_lookup_same _ hcl
    · intro b hnot
      have hrest : ¬ ∃ j, i + 1 ≤ j ∧ j < i + 1 + count ∧ ptr_at qn j = Ptr.node b := by
        rintro ⟨j, hj1, hj2, hj3⟩
        exact hnot ⟨j, by omega, by omega, hj3⟩
      have hbc : b ≠ c := by
        intro hbc
        exact hnot ⟨i, le_refl _, by omega, by rw [hbc]; exact hc⟩
      rw [h5 b hrest]
      exact set_lookup_ne _ hbc

/-- The function `split_internal_and_insert` on a full node, up to the loop setting the
parent pointers: the keys and children of the node with the new ones inserted are dealt
out to the node and to a new node, the key at `order / 2` is promoted. -/
theorem split_internal_eq {t : BPTree} {p : Nat} {pn : Node} (li : Nat) (key : Int)
    (right : Ptr) (hord : 3 ≤ t.order) (hp : t.heap[p]? = some pn)
    (hk : pn.keys.length = t.order - 1) (hpl : pn.pointers.length = t.order)
    (hfull : pn.num_keys = t.order - 1) (hli : li ≤ pn.num_keys) :
    ∃ (p1 qn : Node),
      split_internal_and_insert t (Ptr.node p) li key right =
        (adopt (Ptr.node t.heap.length) (t.order - 1 - t.order / 2 + 1) 0
          { t with heap := t.heap.set p p1 ++ [qn] } >>= fun t4 =>
          .ok (t4, ins (key_at pn) li key (t.order / 2), Ptr.node t.heap.length)) ∧
      p1.is_leaf = pn.is_leaf ∧ p1.parent = pn.parent ∧ p1.num_keys = t.order / 2 ∧
      p1.keys.length = t.order - 1 ∧ p1.pointers.length = t.order ∧
      (∀ j, j < t.order / 2 → key_at p1 j = ins (key_at pn) li key j) ∧
      (∀ j, j ≤ t.order / 2 → ptr_at p1 j = ins (ptr_at pn) (li + 1) right j) ∧
      qn.is_leaf = false ∧ qn.parent = pn.parent ∧ qn.num_keys = t.order - 1 - t.order / 2 ∧
      qn.keys.length = t.order - 1 ∧ qn.pointers.length = t.order ∧
      (∀ j, j < t.order - 1 - t.order / 2 →
        key_at qn j = ins (key_at pn) li key (t.order / 2 + 1 + j)) ∧
      (∀ j, j ≤ t.order - 1 - t.order / 2 →
        ptr_at qn j = ins (ptr_at pn) (li + 1) right (t.order / 2 + 1 + j)) := by
  have hp1 := live_lt hp
  obtain ⟨tp, htp, htpl, htpg⟩ := spread_spec pn.pointers Ptr.null (li + 1)
    (pn.num_keys + 1) 0 0 (List.replicate (t.order + 1) t.raw_pointer) (by omega)
    (by simp only [List.length_replicate]; omega) (Or.inl ⟨by omega, rfl⟩)
  obtain ⟨tk, htk, htkl, htkg⟩ := spread_spec pn.keys (0 : Int) li pn.num_keys 0 0
    (List.replicate t.order t.raw_key) (by omega)
    (by simp only [List.length_replicate]; omega) (Or.inl ⟨by omega, rfl⟩)
  simp only [List.length_replicate] at htkl htpl
  have hwp := write_ok (l := tp) (i := li + 1) right (by omega)
  have hwk := write_ok (l := tk) (i := li) key (by omega)
  have htemp_k : ∀ m, m < t.order → (tk.set li key).getD m 0 = ins (key_at pn) li key m := by
    intro m hm
    rw [getD_set _ _ _ _ _ (by omega), htkg]
    rcases Nat.lt_trichotomy m li with hmi | hmi | hmi
    · have h1 : ¬ m = li := by omega
      have h2 : 0 ≤ m ∧ m < 0 + pn.num_keys ∧ m < li := by omega
      rw [if_neg h1, if_pos h2, ins_lt _ _ _ hmi]
      rfl
    · rw [if_pos hmi, hmi, ins_eq]
    · have h1 : ¬ m = li := by omega
      have h2 : ¬ (0 ≤ m ∧ m < 0 + pn.num_keys ∧ m < li) := by omega
      have h3 : 0 + 1 ≤ m ∧ m ≤ 0 + pn.num_keys ∧ li < m := by omega
      rw [if_neg h1, if_neg h2, if_pos h3, ins_gt _ _ _ hmi]
      rfl
  have htemp_p : ∀ m, m < t.order + 1 →
      (tp.set (li + 1) right).getD m Ptr.null = ins (ptr_at pn) (li + 1) right m := by
    intro m hm
    rw [getD_set _ _ _ _ _ (by omega), htpg]
    rcases Nat.lt_trichotomy m (li + 1) with hmi | hmi | hmi
    · have h1 : ¬ m = li + 1 := by omega
      have h2 : 0 ≤ m ∧ m < 0 + (pn.num_keys + 1) ∧ m < li + 1 := by omega
      rw [if_neg h1, if_pos h2, ins_lt _ _ _ hmi]
      rfl
    · rw [if_pos hmi, hmi, ins_eq]
    · have h1 : ¬ m = li + 1 := by omega
      have h2 : ¬ (0 ≤ m ∧ m < 0 + (pn.num_keys + 1) ∧ m < li + 1) := by omega
      have h3 : 0 + 1 ≤ m ∧ m ≤ 0 + (pn.num_keys + 1) ∧ li + 1 < m := by omega
      rw [if_neg h1, if_neg h2, if_pos h3, ins_gt _ _ _ hmi]
      rfl
  have hs1 : t.order / 2 ≤ t.order - 1 := by omega
  have hs2 : 1 ≤ t.order / 2 := by omega
  have hpromote : read (tk.set li key) (t.order / 2)
      = .ok (ins (key_at pn) li key (t.order / 2)) := by
    rw [read_ok (0 : Int) (by simp only [List.length_set]; omega), htemp_k _ (by omega)]
  obtain ⟨kl, hkl, hkll, hklg⟩ := copy_spec (tk.set li key) (0 : Int) (t.order / 2) 0 0
    pn.keys (by simp only [List.length_set]; omega) (by omega)
  obtain ⟨pl, hpl1, hpll, hplg⟩ := copy_spec (tp.set (li + 1) right) Ptr.null (t.order / 2) 0 0
    pn.pointers (by simp only [List.length_set]; omega) (by omega)
  have hlast1 : read (tp.set (li + 1) right) (t.order / 2)
      = .ok (ins (ptr_at pn) (li + 1) right (t.order / 2)) := by
    rw [read_ok Ptr.null (by simp only [List.length_set]; omega), htemp_p _ (by omega)]
  have hwl := write_ok (l := pl) (i := t.order / 2)
    (ins (ptr_at pn) (li + 1) right (t.order / 2)) (by omega)
  obtain ⟨kq, hkq, hkql, hkqg⟩ := copy_spec (tk.set li key) (0 : Int)
    (t.order - 1 - t.order / 2) 0 (t.order / 2 + 1)
    (List.replicate (t.order - 1) t.raw_key) (by simp only [List.length_set]; omega)
    (by simp only [List.length_replicate]; omega)
  obtain ⟨pq, hpq, hpql, hpqg⟩ := copy_spec (tp.set (li + 1) right) Ptr.null
    (t.order - 1 - t.order / 2) 0 (t.order / 2 + 1)
    (List.replicate t.order t.raw_pointer) (by simp only [List.length_set]; omega)
    (by simp only [List.length_replicate]; omega)
  simp only [List.length_replicate] at hkql hpql
  have hlast2 : read (tp.set (li + 1) right) t.order
      = .ok (ins (ptr_at pn) (li + 1) right t.order) := by
    rw [read_ok Ptr.null (by simp only [List.length_set]; omega), htemp_p _ (by omega)]
  have hwq := write_ok (l := pq) (i := t.order - 1 - t.order / 2)
    (ins (ptr_at pn) (li + 1) right t.order) (by omega)
  refine ⟨{ pn with num_keys := t.order / 2, keys := kl,
                    pointers := pl.set (t.order / 2)
                      (ins (ptr_at pn) (li + 1) right (t.order / 2)) },
    { is_leaf := false, num_keys := t.order - 1 - t.order / 2, keys := kq,
      pointers := pq.set (t.order - 1 - t.order / 2) (ins (ptr_at pn) (li + 1) right t.order),
      parent := pn.parent, next := Ptr.null },
    ?_, rfl, rfl, rfl, by simp [hkll, hk], by simp [hpll, hpl], ?_, ?_,
    rfl, rfl, rfl, by simp [hkql], by simp [hpql], ?_, ?_⟩
  · have hd2 : deref { t with heap := (t.heap ++ [({
          is_leaf := false, num_keys := 0,
          keys := List.replicate (t.order - 1) t.raw_key,
          pointers := List.replicate t.order t.raw_pointer,
          parent := Ptr.null, next := Ptr.null } : Node)]).set p ({ pn with
            num_keys := t.order / 2, keys := kl,
            pointers := pl.set (t.order / 2)
              (ins (ptr_at pn) (li + 1) right (t.order / 2)) } : Node) }
        (Ptr.node t.heap.length) = .ok {
          is_leaf := false, num_keys := 0,
          keys := List.replicate (t.order - 1) t.raw_key,
          pointers := List.replicate t.order t.raw_pointer,
          parent := Ptr.null, next := Ptr.null } :=
      deref_node (by
        rw [set_lookup_ne _ (show t.heap.length ≠ p by omega)]
        exact append_lookup_new _ _)
    simp only [split_internal_and_insert, deref_node hp, bind_ok, htp, htk, hwp, hwk, hpromote,
      create_node, hkl, hpl1, hlast1, hwl]
    rw [assign_node _ (by simp only [List.length_append, List.length_singleton]; omega)]
    simp only [bind_ok, hd2, hkq, hpq, hlast2, hwq]
    rw [assign_node _ (by
      simp only [List.length_set, List.length_append, List.length_singleton]; omega)]
    simp only [bind_ok, set_append_old _ _ hp1]
    rw [set_append_at _ _ (by simp only [List.length_set])]
  · intro j hj
    show kl.getD j 0 = _
    have h1 : 0 ≤ j ∧ j < 0 + t.order / 2 := by omega
    rw [hklg, if_pos h1, htemp_k _ (by omega)]
    simp
  · intro j hj
    show (pl.set (t.order / 2) _).getD j Ptr.null = _
    rw [getD_set _ _ _ _ _ (by omega)]
    by_cases hjs : j = t.order / 2
    · rw [if_pos hjs, hjs]
    · have h1 : 0 ≤ j ∧ j < 0 + t.order / 2 := by omega
      rw [if_neg hjs, hplg, if_pos h1, htemp_p _ (by omega)]
      simp
  · intro j hj
    show kq.getD j 0 = _
    have h1 : 0 ≤ j ∧ j < 0 + (t.order - 1 - t.order / 2) := by omega
    rw [hkqg, if_pos h1, htemp_k _ (by omega)]
    simp
  · intro j hj
    show (pq.set (t.order - 1 - t.order / 2) _).getD j Ptr.null = _
    rw [getD_set _ _ _ _ _ (by omega)]
    by_cases hjs : j = t.order - 1 - t.order / 2
    · rw [if_pos hjs, hjs]
      have : t.order / 2 + 1 + (t.order - 1 - t.order / 2) = t.order := by omega
      rw [this]
    · have h1 : 0 ≤ j ∧ j < 0 + (t.order - 1 - t.order / 2) := by omega
      rw [if_neg hjs, hpqg, if_pos h1, htemp_p _ (by omega)]
      simp

/-- After the split of a full internal node the memory is well formed up to the
insertion of the promoted key and the new node into the parent. -/
theorem split_internal_pend {t : BPTree} (t4 : BPTree) {R : Nat → Int → Prop}
    (R5 : Nat → Int → Prop) {ht : Nat → Nat} (ht5 : Nat → Nat) {M : Int → Ptr} {r l rt p li s nq : Nat} {key : Int} {ln pn p1 qn : Node}
    (h : Pend t R ht M r l key rt) (hl : t.heap[l]? = some ln)
    (hpar : ln.parent = Ptr.node p) (hp : t.heap[p]? = some pn) (hpl : pn.is_leaf = false)
    (hli : li ≤ pn.num_keys) (hptr : ptr_at pn li = Ptr.node l)
    (hfull : pn.num_keys = t.order - 1) (hs : s = t.order / 2) (hnq : nq = t.order - 1 - s)
    (h1l : p1.is_leaf = pn.is_leaf) (h1p : p1.parent = pn.parent) (h1n : p1.num_keys = s)
    (h1k : p1.keys.length = t.order - 1) (h1pl : p1.pointers.length = t.order)
    (h1kg : ∀ j, j < s → key_at p1 j = ins (key_at pn) li key j)
    (h1pg : ∀ j, j ≤ s → ptr_at p1 j = ins (ptr_at pn) (li + 1) (Ptr.node rt) j)
    (hql : qn.is_leaf = false) (hqp : qn.parent = pn.parent) (hqn : qn.num_keys = nq)
    (hqk : qn.keys.length = t.order - 1) (hqpl : qn.pointers.length = t.order)
    (hqkg : ∀ j, j < nq → key_at qn j = ins (key_at pn) li key (s + 1 + j))
    (hqpg : ∀ j, j ≤ nq → ptr_at qn j = ins (ptr_at pn) (li + 1) (Ptr.node rt) (s + 1 + j))
    (h4r : t4.root = t.root) (h4o : t4.order = t.order)
    (h4l : t4.heap.length = t.heap.length + 1)
    (h4a : ∀ (b : Nat) (m : Node), (t.heap.set p p1 ++ [qn])[b]? = some m →
      (∃ j, 0 ≤ j ∧ j < 0 + (nq + 1) ∧ ptr_at qn j = Ptr.node b) →
      t4.heap[b]? = some { m with parent := Ptr.node t.heap.length })
    (h4k : ∀ b : Nat, (¬ ∃ j, 0 ≤ j ∧ j < 0 + (nq + 1) ∧ ptr_at qn j = Ptr.node b) →
      t4.heap[b]? = (t.heap.set p p1 ++ [qn])[b]?)
    (hR5p : ∀ k, R5 p k ↔ (R p k ∧ k < ins (key_at pn) li key s))
    (hR5q : ∀ k, R5 t.heap.length k ↔ (R p k ∧ ins (key_at pn) li key s ≤ k))
    (hR5o : ∀ b, b ≠ p → b ≠ t.heap.length → R5 b = R b)
    (hht5q : ht5 t.heap.length = ht p) (hht5o : ∀ b, b ≠ t.heap.length → ht5 b = ht b) :
    Pend t4 R5 ht5 M r p (ins (key_at pn) li key s) t.heap.length := by
  have hc := h.core
  have hord := hc.order
  have hcomb := h.combined hl hpar hp hpl hli hptr
  have hp0 := live_lt hp
  have hpq : p ≠ t.heap.length := by omega
  have hrq : r ≠ t.heap.length := by have := hc.root_live; omega
  have hs1 : 1 ≤ s := by omega
  have hs2 : s < pn.num_keys + 1 := by omega
  have hsum : s + 1 + nq = pn.num_keys + 1 := by omega
  have hlr : l ≠ r := by
    intro hlr
    have := hc.root_parent ln (by rw [← hlr]; exact hl)
    rw [hpar] at this
    cases this
  -- the children of the node with the new sibling inserted
  have hkid : ∀ i, i ≤ pn.num_keys + 1 →
      ∃ (c : Nat) (cn : Node), ins (ptr_at pn) (li + 1) (Ptr.node rt) i = Ptr.node c ∧
        t.heap[c]? = some cn ∧ cn.parent = Ptr.node p ∧ ht c + 1 = ht p ∧
        c ≠ p ∧ c ≠ t.heap.length ∧
        ∀ k, R c k ↔ (R p k ∧ Route (ins (key_at pn) li key) (pn.num_keys + 1) k i) := by
    intro i hi
    obtain ⟨c, cn, a1, a2, a3, a4, a5⟩ := hcomb.child i hi
    refine ⟨c, cn, a1, a2, a3, a4, ?_, by have := live_lt a2; omega, a5⟩
    intro hcp
    rw [hcp] at a4
    omega
  -- the nodes that are given the new node as parent
  have hadopted : ∀ b : Nat, (∃ j, 0 ≤ j ∧ j < 0 + (nq + 1) ∧ ptr_at qn j = Ptr.node b) →
      ∃ (j : Nat) (m0 : Node), j ≤ nq ∧
        ins (ptr_at pn) (li + 1) (Ptr.node rt) (s + 1 + j) = Ptr.node b ∧
        t.heap[b]? = some m0 ∧ m0.parent = Ptr.node p ∧ b ≠ p ∧ b ≠ t.heap.length ∧
        t4.heap[b]? = some { m0 with parent := Ptr.node t.heap.length } := by
    rintro b ⟨j, _, hj, hjb⟩
    rw [hqpg j (by omega)] at hjb
    obtain ⟨c, cn, a1, a2, a3, _, a5, a6, _⟩ := hkid (s + 1 + j) (by omega)
    rw [hjb] at a1
    cases a1
    refine ⟨j, cn, by omega, hjb, a2, a3, a5, a6, ?_⟩
    apply h4a b cn
    · rw [append_lookup_old _ (by simp only [List.length_set]; exact live_lt a2),
        set_lookup_ne _ a5]
      exact a2
    · exact ⟨j, Nat.zero_le _, by omega, by rw [hqpg j (by omega)]; exact hjb⟩
  have hnew_p : t4.heap[p]? = some p1 := by
    rw [h4k p (fun hx => by
      obtain ⟨_, _, _, _, _, _, a5, _⟩ := hadopted p hx
      exact a5 rfl)]
    rw [append_lookup_old _ (by simp only [List.length_set]; exact hp0)]
    exact set_lookup_same _ hp0
  have hnew_q : t4.heap[t.heap.length]? = some qn := by
    rw [h4k _ (fun hx => by
      obtain ⟨_, _, _, _, _, _, _, a6, _⟩ := hadopted _ hx
      exact a6 rfl)]
    have := append_lookup_new (t.heap.set p p1) qn
    rw [List.length_set] at this
    exact this
  -- every old node but the split one is found with the same content
  have hforth : ∀ (b : Nat) (m0 : Node), t.heap[b]? = some m0 → b ≠ p →
      ∃ x, t4.heap[b]? = some { m0 with parent := x } ∧
        ((∃ j, 0 ≤ j ∧ j < 0 + (nq + 1) ∧ ptr_at qn j = Ptr.node b) →
          x = Ptr.node t.heap.length ∧ m0.parent = Ptr.node p) ∧
        ((¬ ∃ j, 0 ≤ j ∧ j < 0 + (nq + 1) ∧ ptr_at qn j = Ptr.node b) → x = m0.parent) := by
    intro b m0 hm0 hbp
    by_cases had : ∃ j, 0 ≤ j ∧ j < 0 + (nq + 1) ∧ ptr_at qn j = Ptr.node b
    · obtain ⟨j, m1, _, _, a3, a4, _, _, a7⟩ := hadopted b had
      rw [hm0] at a3
      cases a3
      exact ⟨_, a7, fun _ => ⟨rfl, a4⟩, fun hx => absurd had hx⟩
    · refine ⟨m0.parent, ?_, fun hx => absurd hx had, fun _ => rfl⟩
      rw [h4k b had, append_lookup_old _ (by simp only [List.length_set]; exact live_lt hm0),
        set_lookup_ne _ hbp]
      exact hm0
  have hback : ∀ (b : Nat) (m : Node), t4.heap[b]? = some m →
      (b = t.heap.length ∧ m = qn) ∨ (b = p ∧ m = p1) ∨
      (b ≠ p ∧ b ≠ t.heap.length ∧ ∃ m0 x, t.heap[b]? = some m0 ∧ m = { m0 with parent := x } ∧
        ((∃ j, 0 ≤ j ∧ j < 0 + (nq + 1) ∧ ptr_at qn j = Ptr.node b) →
          x = Ptr.node t.heap.length ∧ m0.parent = Ptr.node p) ∧
        ((¬ ∃ j, 0 ≤ j ∧ j < 0 + (nq + 1) ∧ ptr_at qn j = Ptr.node b) → x = m0.parent)) := by
    intro b m hm
    by_cases hbq : b = t.heap.length
    · rw [hbq, hnew_q] at hm
      cases hm
      exact Or.inl ⟨hbq, rfl⟩
    · by_cases hbp : b = p
      · rw [hbp, hnew_p] at hm
        cases hm
        exact Or.inr (Or.inl ⟨hbp, rfl⟩)
      · have hb4 : b < t4.heap.length := (List.getElem?_eq_some_iff.mp hm).1
        obtain ⟨m0, hm0⟩ := live_of_lt (show b < t.heap.length by omega)
        obtain ⟨x, hx, a1, a2⟩ := hforth b m0 hm0 hbp
        rw [hm] at hx
        cases hx
        exact Or.inr (Or.inr ⟨hbp, hbq, m0, x, hm0, rfl, a1, a2⟩)
  -- the sets `U` of the new state on old nodes
  have hU : ∀ b, b ≠ t.heap.length → ∀ k,
      Function.update R5 p (fun k => R5 p k ∨ R5 t.heap.length k) b k ↔ R b k := by
    intro b hbq k
    by_cases hbp : b = p
    · rw [hbp, Function.update_same]
      simp only [hR5p, hR5q]
      constructor
      · rintro (a1 | a1) <;> exact a1.1
      · intro a1
        by_cases hk : k < ins (key_at pn) li key s
        · exact Or.inl ⟨a1, hk⟩
        · exact Or.inr ⟨a1, by omega⟩
    · rw [Function.update_noteq hbp, hR5o b hbp hbq]
  -- the child clause of the other old nodes, in terms of `R`
  have hchild : ∀ (b : Nat) (m : Node), t.heap[b]? = some m → m.is_leaf = false → b ≠ p →
      ∀ i, i ≤ m.num_keys → ∃ (c : Nat) (cn : Node), ptr_at m i = Ptr.node c ∧
        t.heap[c]? = some cn ∧ cn.parent = Ptr.node b ∧ ht c + 1 = ht b ∧
        ∀ k, R c k ↔ (R b k ∧ Route (key_at m) m.num_keys k i) := by
    intro b m hm hml hbp i hi
    obtain ⟨c, cn, a1, a2, a3, a4, _, a6⟩ := hc.child b m hm hml i hi
    have hcl : c ≠ l := by
      intro hcl
      rw [hcl, hl] at a2
      cases a2
      rw [hpar] at a3
      exact hbp (Ptr.node.inj a3).symm
    refine ⟨c, cn, a1, a2, a3, a4, fun k => ?_⟩
    rw [← a6 k, Function.update_noteq hcl]
  have hsorted := hcomb.sorted
  have hpromote_in : R p (ins (key_at pn) li key s) := hcomb.in_range s hs2
  refine
    { core :=
        { order := by rw [h4o]; exact hord
          root := by rw [h4r]; exact hc.root
          root_live := by rw [h4l]; have := hc.root_live; omega
          root_parent := ?_
          root_all := fun k => (hU r hrq k).mpr (by
            have := hc.root_all k
            rwa [Function.update_noteq (fun hx => hlr hx.symm)] at this)
          shape := ?_
          parent := ?_
          leaf := ?_
          disjoint := ?_
          sorted := ?_
          in_range := ?_
          child := ?_
          distinct := ?_ }
      fuel := by rw [h4l, hht5o r hrq]; have := h.fuel; omega
      apart := hpq
      left_live := by rw [h4l]; omega
      right_live := by rw [h4l]; omega
      not_root := fun hx => hrq hx.symm
      same_parent := ?_
      same_height := by rw [hht5q, hht5o p hpq]
      left_below := fun k hk => ((hR5p k).mp hk).2
      right_above := fun k hk => ((hR5q k).mp hk).2
      right_key := (hR5q _).mpr ⟨hpromote_in, le_refl _⟩
      left_nonempty := ⟨ins (key_at pn) li key 0,
        (hR5p _).mpr ⟨hcomb.in_range 0 (by omega), hsorted 0 s (by omega) hs2⟩⟩ }
  · -- root_parent
    intro rn hrn
    rcases hback r rn hrn with ⟨a1, _⟩ | ⟨a1, a2⟩ | ⟨_, _, m0, x, a1, a2, a3, a4⟩
    · exact absurd a1 hrq
    · rw [a2, h1p]
      exact hc.root_parent pn (by rw [a1]; exact hp)
    · have hnull := hc.root_parent m0 a1
      have hx : x = m0.parent := by
        apply a4
        intro had
        have := (a3 had).2
        rw [hnull] at this
        cases this
      rw [a2, hx]
      exact hnull
  · -- shape
    intro b m hm
    rw [h4o, hht5o r hrq]
    rcases hback b m hm with ⟨a1, a2⟩ | ⟨a1, a2⟩ | ⟨_, hbq, m0, x, a1, a2, _, _⟩
    · rw [a1, a2, hht5q]
      exact ⟨hqk, hqpl, by rw [hqn]; omega, (hc.shape p pn hp).2.2.2⟩
    · rw [a1, a2, hht5o p hpq]
      exact ⟨h1k, h1pl, by rw [h1n]; omega, (hc.shape p pn hp).2.2.2⟩
    · rw [a2, hht5o b hbq]
      exact hc.shape b m0 a1
  · -- parent
    intro b m hm hx
    have hbq : b ≠ t.heap.length := fun hbq => hx (by rw [hbq])
    rcases hback b m hm with ⟨a1, _⟩ | ⟨a1, a2⟩ | ⟨hbp, _, m0, x, a1, a2, a3, a4⟩
    · exact absurd a1 hbq
    · -- the split node keeps its parent
      rw [a2, h1p, a1]
      have hprt : p ≠ rt := by
        intro hprt
        have h1 := h.same_height
        have h2 := (hc.child p pn hp hpl li hli)
        obtain ⟨c, cn, b1, _, _, b4, _, _⟩ := h2
        rw [hptr] at b1
        cases b1
        rw [← hprt] at h1
        omega
      obtain ⟨b1, b2, b3⟩ := hc.parent p pn hp (fun hx => hprt (Option.some.inj hx).symm)
      refine ⟨b1, b2, fun g hg => ?_⟩
      obtain ⟨gn, i, hgn, hgl, hi, hgi⟩ := b3 g hg
      have hgp : g ≠ p := by
        intro hgp
        obtain ⟨c, cn, c1, c2, _, c4, _, _⟩ := hc.child g gn hgn hgl i hi
        rw [hgi] at c1
        cases c1
        rw [hgp] at c4
        omega
      obtain ⟨y, hy, _, _⟩ := hforth g gn hgn hgp
      exact ⟨_, i, hy, hgl, hi, hgi⟩
    · rw [a2]
      by_cases had : ∃ j, 0 ≤ j ∧ j < 0 + (nq + 1) ∧ ptr_at qn j = Ptr.node b
      · rw [(a3 had).1]
        refine ⟨(fun hn => by cases hn), (fun v hv => by cases hv), fun g hg => ?_⟩
        cases hg
        obtain ⟨j, _, hj, hjb⟩ := had
        exact ⟨qn, j, hnew_q, hql, by rw [hqn]; omega, hjb⟩
      · rw [a4 had]
        by_cases hbr : b = rt
        · -- the old new sibling is a child of the split node
          obtain ⟨rn, hrn⟩ := live_of_lt h.right_live
          rw [hbr, hrn] at a1
          cases a1
          have hrp : m0.parent = Ptr.node p := by
            rw [h.same_parent ln m0 hl hrn]
            exact hpar
          rw [hrp]
          refine ⟨(fun hn => by cases hn), (fun v hv => by cases hv), fun g hg => ?_⟩
          cases hg
          have hle : li + 1 ≤ s := by
            by_contra hgt
            apply had
            refine ⟨li + 1 - (s + 1), Nat.zero_le _, by omega, ?_⟩
            rw [hqpg _ (by omega), show s + 1 + (li + 1 - (s + 1)) = li + 1 by omega, ins_eq,
              hbr]
          refine ⟨p1, li + 1, hnew_p, by rw [h1l]; exact hpl, by rw [h1n]; exact hle, ?_⟩
          rw [h1pg _ hle, ins_eq, hbr]
        · obtain ⟨b1, b2, b3⟩ := hc.parent b m0 a1 (fun hx => hbr (Option.some.inj hx).symm)
          refine ⟨b1, b2, fun g hg => ?_⟩
          obtain ⟨gn, i, hgn, hgl, hi, hgi⟩ := b3 g hg
          by_cases hgp : g = p
          · rw [hgp, hp] at hgn
            cases hgn
            rw [hgp]
            -- the index of the child among the children with the new sibling inserted
            have hidx : ∃ i1, i1 ≤ pn.num_keys + 1 ∧
                ins (ptr_at pn) (li + 1) (Ptr.node rt) i1 = Ptr.node b := by
              by_cases hil : i ≤ li
              · exact ⟨i, by omega, by
                  rw [ins_lt _ _ _ (show i < li + 1 by omega)]; exact hgi⟩
              · exact ⟨i + 1, by omega, by
                  rw [ins_gt _ _ _ (show li + 1 < i + 1 by omega)]; exact hgi⟩
            obtain ⟨i1, hi1, hi1b⟩ := hidx
            have hle : i1 ≤ s := by
              by_contra hgt
              apply had
              refine ⟨i1 - (s + 1), Nat.zero_le _, by omega, ?_⟩
              rw [hqpg _ (by omega), show s + 1 + (i1 - (s + 1)) = i1 by omega]
              exact hi1b
            refine ⟨p1, i1, hnew_p, by rw [h1l]; exact hpl, by rw [h1n]; exact hle, ?_⟩
            rw [h1pg _ hle]
            exact hi1b
          · obtain ⟨y, hy, _, _⟩ := hforth g gn hgn hgp
            exact ⟨_, i, hy, hgl, hi, hgi⟩
  · -- leaf
    intro b m hm hml
    rcases hback b m hm with ⟨_, a2⟩ | ⟨_, a2⟩ | ⟨hbp, hbq, m0, x, a1, a2, _, _⟩
    · rw [a2, hql] at hml; cases hml
    · rw [a2, h1l, hpl] at hml; cases hml
    · rw [hR5o b hbp hbq, a2]
      rw [a2] at hml
      exact hc.leaf b m0 a1 hml
  · -- disjoint
    intro b c nb nc k hb hcc hbl hcl hRb hRc
    have hleafold : ∀ (b : Nat) (m : Node), t4.heap[b]? = some m → m.is_leaf = true →
        R5 b k → ∃ m0, t.heap[b]? = some m0 ∧ m0.is_leaf = true ∧ R b k := by
      intro b m hm hml hRb
      rcases hback b m hm with ⟨_, a2⟩ | ⟨_, a2⟩ | ⟨hbp, hbq, m0, x, a1, a2, _, _⟩
      · rw [a2, hql] at hml; cases hml
      · rw [a2, h1l, hpl] at hml; cases hml
      · rw [hR5o b hbp hbq] at hRb
        rw [a2] at hml
        exact ⟨m0, a1, hml, hRb⟩
    obtain ⟨b0, hb0, hbl0, hRb0⟩ := hleafold b nb hb hbl hRb
    obtain ⟨c0, hc0, hcl0, hRc0⟩ := hleafold c nc hcc hcl hRc
    exact hc.disjoint b c b0 c0 k hb0 hc0 hbl0 hcl0 hRb0 hRc0
  · -- sorted
    intro b m hm hml
    rcases hback b m hm with ⟨_, a2⟩ | ⟨_, a2⟩ | ⟨hbp, _, m0, x, a1, a2, _, _⟩
    · rw [a2, hqn]
      intro i j hij hj
      rw [hqkg i (by omega), hqkg j hj]
      exact hsorted _ _ (by omega) (by omega)
    · rw [a2, h1n]
      intro i j hij hj
      rw [h1kg i (by omega), h1kg j hj]
      exact hsorted _ _ hij (by omega)
    · rw [a2]
      rw [a2] at hml
      exact hc.sorted b m0 a1 hml
  · -- in_range
    intro b m hm hml
    rcases hback b m hm with ⟨a0, a2⟩ | ⟨a0, a2⟩ | ⟨hbp, hbq, m0, x, a1, a2, _, _⟩
    · rw [a2, hqn, a0]
      intro i hi
      rw [hqkg i hi, hR5q]
      exact ⟨hcomb.in_range _ (by omega), le_of_lt (hsorted s (s + 1 + i) (by omega) (by omega))⟩
    · rw [a2, h1n, a0]
      intro i hi
      rw [h1kg i hi, hR5p]
      exact ⟨hcomb.in_range _ (by omega), hsorted i s hi hs2⟩
    · rw [hR5o b hbp hbq, a2]
      rw [a2] at hml
      exact hc.in_range b m0 a1 hml
  · -- child
    intro b m hm hml i hi
    rcases hback b m hm with ⟨a0, a2⟩ | ⟨a0, a2⟩ | ⟨hbp, hbq, m0, x, a1, a2, _, _⟩
    · -- the children of the new node
      rw [a2, hqn] at hi
      rw [a2, hqn, a0]
      obtain ⟨c, cn, b1, b2, b3, b4, b5, b6, b7⟩ := hkid (s + 1 + i) (by omega)
      have had : ∃ j, 0 ≤ j ∧ j < 0 + (nq + 1) ∧ ptr_at qn j = Ptr.node c :=
        ⟨i, Nat.zero_le _, by omega, by rw [hqpg i hi]; exact b1⟩
      obtain ⟨x, hx, c1, _⟩ := hforth c cn b2 b5
      refine ⟨c, _, by rw [hqpg i hi]; exact b1, hx, (c1 had).1, ?_,
        fun hx => b6 (Option.some.inj hx).symm, fun k => ?_⟩
      · rw [hht5o c b6, hht5q]
        exact b4
      · rw [hU c b6 k, b7 k, hR5q k, ← hsum,
          ← route_split_right (m := s + 1 + nq) (by rw [hsum]; exact hsorted) (by omega) k i,
          show s + 1 + nq - 1 - s = nq by omega,
          Route.agree (f := key_at qn) (g := fun j => ins (key_at pn) li key (s + 1 + j))
            (fun j hj => hqkg j hj) k i]
        constructor
        · rintro ⟨d1, d2, d3⟩
          exact ⟨⟨d1, d2⟩, d3⟩
        · rintro ⟨⟨d1, d2⟩, d3⟩
          exact ⟨d1, d2, d3⟩
    · -- the children the split node keeps
      rw [a2, h1n] at hi
      rw [a2, h1n, a0]
      obtain ⟨c, cn, b1, b2, b3, b4, b5, b6, b7⟩ := hkid i (by omega)
      have hnad : ¬ ∃ j, 0 ≤ j ∧ j < 0 + (nq + 1) ∧ ptr_at qn j = Ptr.node c := by
        rintro ⟨j, _, hj, hjc⟩
        rw [hqpg j (by omega), ← b1] at hjc
        have := hcomb.distinct (s + 1 + j) i (by omega) (by omega) hjc
        omega
      obtain ⟨x, hx, _, c2⟩ := hforth c cn b2 b5
      rw [c2 hnad] at hx
      refine ⟨c, _, by rw [h1pg i hi]; exact b1, hx, b3, ?_,
        fun hx => b6 (Option.some.inj hx).symm, fun k => ?_⟩
      · rw [hht5o c b6, hht5o p hpq]
        exact b4
      · rw [hU c b6 k, b7 k, hR5p k,
          ← route_split_left hsorted hs2 k hi,
          Route.agree (f := key_at p1) (g := ins (key_at pn) li key)
            (fun j hj => h1kg j hj) k i]
        constructor
        · rintro ⟨d1, d2, d3⟩
          exact ⟨⟨d1, d2⟩, d3⟩
        · rintro ⟨⟨d1, d2⟩, d3⟩
          exact ⟨d1, d2, d3⟩
    · -- the children of the other nodes
      rw [a2] at hml hi ⊢
      obtain ⟨c, cn, b1, b2, b3, b4, b5⟩ := hchild b m0 a1 hml hbp i hi
      have hcq : c ≠ t.heap.length := by have := live_lt b2; omega
      have hnad : ¬ ∃ j, 0 ≤ j ∧ j < 0 + (nq + 1) ∧ ptr_at qn j = Ptr.node c := by
        intro had
        obtain ⟨_, m1, _, _, d3, d4, _, _, _⟩ := hadopted c had
        rw [b2] at d3
        cases d3
        rw [b3] at d4
        exact hbp (Ptr.node.inj d4)
      by_cases hcp : c = p
      · rw [hcp, hp] at b2
        cases b2
        refine ⟨c, p1, b1, by rw [hcp]; exact hnew_p, by rw [h1p]; exact b3, ?_,
          fun hx => hcq (Option.some.inj hx).symm, fun k => ?_⟩
        · rw [hht5o c hcq, hht5o b hbq]
          exact b4
        · rw [hU c hcq k, hR5o b hbp hbq]
          exact b5 k
      · obtain ⟨x, hx, _, c2⟩ := hforth c cn b2 hcp
        rw [c2 hnad] at hx
        refine ⟨c, _, b1, hx, b3, ?_, fun hx => hcq (Option.some.inj hx).symm, fun k => ?_⟩
        · rw [hht5o c hcq, hht5o b hbq]
          exact b4
        · rw [hU c hcq k, hR5o b hbp hbq]
          exact b5 k
  · -- distinct
    intro b m hm hml
    rcases hback b m hm with ⟨_, a2⟩ | ⟨_, a2⟩ | ⟨hbp, _, m0, x, a1, a2, _, _⟩
    · rw [a2, hqn]
      intro i j hi hj hij
      rw [hqpg i hi, hqpg j hj] at hij
      have := hcomb.distinct _ _ (by omega) (by omega) hij
      omega
    · rw [a2, h1n]
      intro i j hi hj hij
      rw [h1pg i hi, h1pg j hj] at hij
      exact hcomb.distinct _ _ (by omega) (by omega) hij
    · rw [a2]
      rw [a2] at hml
      exact hc.distinct b m0 a1 hml
  · -- same_parent
    intro ln1 rn1 hln1 hrn1
    rw [hnew_p] at hln1
    rw [hnew_q] at hrn1
    cases hln1
    cases hrn1
    rw [hqp, h1p]

/-- The loop of `insert_into_parent` finds the slot of the left node in its parent. -/
theorem scan_left_index {pn : Node} {l i : Nat} (hlen : pn.num_keys + 1 ≤ pn.pointers.length)
    (hi : i ≤ pn.num_keys) (hptr : ptr_at pn i = Ptr.node l) :
    ∃ li, scan (fun q => decide (q ≠ Ptr.node l)) pn.pointers (pn.num_keys + 1) 0 = .ok li ∧
      li ≤ pn.num_keys ∧ ptr_at pn li = Ptr.node l := by
  obtain ⟨li, hscan, _, h2, h3, h4⟩ :=
    scan_spec (fun q => decide (q ≠ Ptr.node l)) pn.pointers Ptr.null (pn.num_keys + 1) 0
      (by omega)
  have hle : li ≤ i := by
    by_contra hgt
    have := h3 i (Nat.zero_le _) (by omega)
    simp only [decide_eq_true_eq] at this
    exact this hptr
  have := h4 (by omega)
  simp only [decide_eq_false_iff_not, not_not] at this
  exact ⟨li, hscan, by omega, this⟩

/-- The function `insert_into_parent` brings a tree that is well formed up to a pending
insertion into the parent back to a well-formed tree storing the same map. -/
theorem insert_into_parent_wf : ∀ (fuel : Nat) (t : BPTree) (R : Nat → Int → Prop)
    (ht : Nat → Nat) (M : Int → Ptr) (r l : Nat) (key : Int) (rt : Nat),
    Pend t R ht M r l key rt → ht r + 1 ≤ ht l + fuel →
    ∃ t1, insert_into_parent t (Ptr.node l) key (Ptr.node rt) fuel = .ok t1 ∧ Wf t1 M := by
  intro fuel
  induction fuel with
  | zero =>
    intro t R ht M r l key rt h hfuel
    obtain ⟨ln, hl⟩ := live_of_lt h.left_live
    have := (h.core.shape l ln hl).2.2.2
    omega
  | succ fuel ih =>
    intro t R ht M r l key rt h hfuel
    have hc := h.core
    obtain ⟨ln, hl⟩ := live_of_lt h.left_live
    obtain ⟨rn, hr⟩ := live_of_lt h.right_live
    obtain ⟨hnull, hdata, hnode⟩ :=
      hc.parent l ln hl (fun hx => h.apart (Option.some.inj hx).symm)
    cases hpar : ln.parent with
    | null =>
      refine ⟨_, ?_, new_root_wf h hl hr hpar⟩
      simp only [insert_into_parent, deref_node hl, bind_ok, hpar, if_true]
      exact insert_into_new_root_eq key hc.order hl hr h.apart
    | data v => exact absurd hpar (hdata v)
    | node p =>
      obtain ⟨pn, i, hp, hpl, hi, hptr⟩ := hnode p hpar
      obtain ⟨hk, hpl1, hnk, _⟩ := hc.shape p pn hp
      have hord := hc.order
      obtain ⟨li, hscan, hli, hlptr⟩ := scan_left_index (l := l) (by omega) hi hptr
      have hne : ¬ (Ptr.node p = Ptr.null) := fun hx => by cases hx
      by_cases hroom : pn.num_keys < t.order - 1
      · obtain ⟨pn1, heq, a1, a2, a3, a4, a5, a6, a7⟩ :=
          insert_into_internal_eq li key (Ptr.node rt) hp hk hpl1 hroom hli
        refine ⟨_, ?_, insert_into_internal_wf h hl hpar hp hpl hli hlptr hroom a1 a2 a3 a4 a5
          a6 a7⟩
        simp only [insert_into_parent, deref_node hl, bind_ok, hpar, hne, if_false,
          deref_node hp, hscan, hroom, if_true]
        exact heq
      · have hfull : pn.num_keys = t.order - 1 := by omega
        obtain ⟨p1, qn, heq, a1, a2, a3, a4, a5, a6, a7, b1, b2, b3, b4, b5, b6, b7⟩ :=
          split_internal_eq li key (Ptr.node rt) hord hp hk hpl1 hfull hli
        have hcomb := h.combined hl hpar hp hpl hli hlptr
        have hp0 := live_lt hp
        have hq3 : (t.heap.set p p1 ++ [qn])[t.heap.length]? = some qn := by
          have := append_lookup_new (t.heap.set p p1) qn
          rw [List.length_set] at this
          exact this
        obtain ⟨t4, hadopt, c1, c2, c3, c4, c5⟩ := adopt_spec t.heap.length qn
          (t.order - 1 - t.order / 2 + 1) 0 { t with heap := t.heap.set p p1 ++ [qn] } hq3
          (by rw [b5]; omega)
          (fun j _ hj => by
            obtain ⟨c, cn, d1, d2, _⟩ := hcomb.child (t.order / 2 + 1 + j) (by omega)
            have := live_lt d2
            refine ⟨c, by rw [b7 j (by omega)]; exact d1, by omega, ?_⟩
            simp only [List.length_append, List.length_set, List.length_singleton]
            omega)
        have hpq : p ≠ t.heap.length := by omega
        have hpend := split_internal_pend t4
          (Function.update (Function.update R p
            (fun k => R p k ∧ k < ins (key_at pn) li key (t.order / 2))) t.heap.length
            (fun k => R p k ∧ ins (key_at pn) li key (t.order / 2) ≤ k))
          (Function.update ht t.heap.length (ht p))
          h hl hpar hp hpl hli hlptr hfull rfl rfl a1 a2 a3 a4 a5 a6 a7 b1 b2 b3 b4 b5 b6 b7
          c1 c2 (by
            rw [c3]
            simp only [List.length_append, List.length_set, List.length_singleton])
          c4 c5
          (fun k => by rw [Function.update_noteq hpq, Function.update_same])
          (fun k => by rw [Function.update_same])
          (fun b hbp hbq => by rw [Function.update_noteq hbq, Function.update_noteq hbp])
          (by rw [Function.update_same])
          (fun b hbq => by rw [Function.update_noteq hbq])
        have hhl : ht l + 1 = ht p := by
          obtain ⟨c, cn, d1, _, _, d4, _, _⟩ := hc.child p pn hp hpl li hli
          rw [hlptr] at d1
          cases d1
          exact d4
        have hrq : r ≠ t.heap.length := by have := hc.root_live; omega
        obtain ⟨t1, hrun, hwf⟩ := ih t4 _ _ M r p _ t.heap.length hpend (by
          rw [Function.update_noteq hrq, Function.update_noteq hpq]
          omega)
        refine ⟨t1, ?_, hwf⟩
        simp only [insert_into_parent, deref_node hl, bind_ok, hpar, hne, if_false,
          deref_node hp, hscan, hroom, heq, hadopt]
        exact hrun

/-- The map after an insert: an absent key gets the value, a present key keeps its own. -/
theorem insert_wf {t : BPTree} {M : Int → Ptr} (h : Wf t M) (key : Int) {value : Ptr}
    (hv : value ≠ Ptr.null) :
    ∃ t1, insert t key value = .ok t1 ∧
      Wf t1 (if M key = Ptr.null then Function.update M key value else M) ∧
      (M key ≠ Ptr.null → t1 = t) := by
  have hsearch := search_spec h key
  by_cases hM : M key = Ptr.null
  · rw [if_pos hM]
    obtain ⟨R, ht, r, hc, hfuel⟩ := h
    obtain ⟨rn, hrn⟩ := live_of_lt hc.root_live
    obtain ⟨a, n, hfind, hn, hl, hRa⟩ :=
      find_leaf_spec hc key t.heap.length r rn hrn (hc.root_all key) (by omega)
    obtain ⟨hk, hp, hnk, _⟩ := hc.shape a n hn
    have hord := hc.order
    have hnot : ¬ (Ptr.null ≠ Ptr.null) := fun hx => hx rfl
    have hunf : insert t key value =
        if n.num_keys < t.order - 1 then insert_into_leaf t (Ptr.node a) key value
        else split_leaf_and_insert t (Ptr.node a) key value := by
      simp only [insert, hsearch, bind_ok, hM, hnot, if_false, hc.root, hfind, deref_node hn]
    by_cases hroom : n.num_keys < t.order - 1
    · obtain ⟨i, n1, heq, a1, a2, a3, a4, a5, a6, a7, a8, a9, a10⟩ :=
        insert_into_leaf_eq key value hn hk hp hroom
      refine ⟨_, by rw [hunf, if_pos hroom]; exact heq, ?_, fun hx => absurd hM hx⟩
      refine ⟨R, ht, r, ?_, by simp only [List.length_set]; exact hfuel⟩
      apply hc.set_leaf hn hl (by rw [a4]; exact hl) a5 (by rw [a7]; exact hk)
        (by rw [a8]; exact hp) (by rw [a6]; omega)
      · rw [a6]
        exact ((hc.leaf a n hn hl).insert hRa hM hv a1 a2 a3).congr (fun _ => Iff.rfl)
          (fun j hj => a9 j (by omega)) (fun j hj => a10 j (by omega))
      · intro b bn hba hb hbl
        refine (hc.leaf b bn hb hbl).other value ?_
        intro hRb
        exact hba (hc.disjoint b a bn n key hb hn hbl hl hRb hRa)
    · have hfull : n.num_keys = t.order - 1 := by omega
      obtain ⟨ip, nl, nq, heq, a1, a2, a3, b1, b2, b3, b4, b5, b6, b7, c1, c2, c3, c4, c5, c6,
        c7⟩ := split_leaf_eq key value hord hn hk hp hfull
      have haq : a ≠ t.heap.length := by have := live_lt hn; omega
      have hrq : r ≠ t.heap.length := by have := hc.root_live; omega
      have hpend := split_leaf_pend
        (Function.update (Function.update R a
          (fun k => R a k ∧ k < ins (key_at n) ip key ((t.order + 1) / 2))) t.heap.length
          (fun k => R a k ∧ ins (key_at n) ip key ((t.order + 1) / 2) ≤ k))
        (Function.update ht t.heap.length (ht a))
        hc hfuel hn hl hfull hRa hM hv a1 a2 a3 b1 b2 b3 b4 b5 b6 b7 c1 c2 c3 c4 c5 c6 c7
        (fun k => by rw [Function.update_noteq haq, Function.update_same])
        (fun k => by rw [Function.update_same])
        (fun b hba hbq => by rw [Function.update_noteq hbq, Function.update_noteq hba])
        (by rw [Function.update_same])
        (fun b hbq => by rw [Function.update_noteq hbq])
      obtain ⟨t1, hrun, hwf⟩ := insert_into_parent_wf (t.heap.length + 1) _ _ _ _ r a _
        t.heap.length hpend (by
          rw [Function.update_noteq hrq, Function.update_noteq haq]
          omega)
      refine ⟨t1, ?_, hwf, fun hx => absurd hM hx⟩
      rw [hunf, if_neg hroom, heq]
      exact hrun
  · rw [if_neg hM]
    refine ⟨t, ?_, h, fun _ => rfl⟩
    simp only [insert, hsearch, bind_ok, ne_eq, hM, not_false_eq_true, if_true]

theorem first_inserted_nil (k : Int) : first_inserted [] k = Ptr.null := rfl

theorem first_inserted_cons (key : Int) (value : Ptr) (rest : List (Int × Ptr)) (k : Int) :
    first_inserted ((key, value) :: rest) k
      = if key = k then value else first_inserted rest k := by
  by_cases h : key = k
  · simp [first_inserted, List.find?, h]
  · simp [first_inserted, List.find?, h]

/-- A key that was inserted with a non-null value has a non-null first value. -/
theorem first_inserted_mem (ops : List (Int × Ptr)) (hv : ∀ op ∈ ops, op.2 ≠ Ptr.null)
    (k : Int) (hk : k ∈ ops.map Prod.fst) : first_inserted ops k ≠ Ptr.null := by
  induction ops with
  | nil => simp at hk
  | cons op rest ih =>
    obtain ⟨key, value⟩ := op
    rw [first_inserted_cons]
    by_cases h : key = k
    · rw [if_pos h]
      exact hv (key, value) (List.mem_cons_self _ _)
    · rw [if_neg h]
      apply ih (fun op hop => hv op (List.mem_cons_of_mem _ hop))
      simp only [List.map_cons, List.mem_cons] at hk
      rcases hk with hk | hk
      · exact absurd hk.symm h
      · exact hk

/-- A sequence of inserts of non-null values keeps the tree well formed; the map it
stores afterwards holds, for each key absent before, the first value inserted. -/
theorem inserts_wf : ∀ (ops : List (Int × Ptr)) (t : BPTree) (M : Int → Ptr), Wf t M →
    (∀ op ∈ ops, op.2 ≠ Ptr.null) →
    ∃ t1, inserts t ops = .ok t1 ∧
      Wf t1 (fun k => if M k = Ptr.null then first_inserted ops k else M k) := by
  intro ops
  induction ops with
  | nil =>
    intro t M h _
    refine ⟨t, rfl, ?_⟩
    have : (fun k => if M k = Ptr.null then first_inserted [] k else M k) = M := by
      funext k
      by_cases hk : M k = Ptr.null
      · rw [if_pos hk, first_inserted_nil, hk]
      · rw [if_neg hk]
    rw [this]
    exact h
  | cons op rest ih =>
    intro t M h hv
    obtain ⟨key, value⟩ := op
    obtain ⟨t1, hins, hwf1, _⟩ :=
      insert_wf h key (hv (key, value) (List.mem_cons_self _ _))
    obtain ⟨t2, hrest, hwf2⟩ := ih t1 _ hwf1 (fun op hop => hv op (List.mem_cons_of_mem _ hop))
    refine ⟨t2, ?_, ?_⟩
    · simp only [inserts, hins, bind_ok]
      exact hrest
    · have hval : value ≠ Ptr.null := hv (key, value) (List.mem_cons_self _ _)
      have : (fun k => if M k = Ptr.null then first_inserted ((key, value) :: rest) k else M k)
          = (fun k => if (if M key = Ptr.null then Function.update M key value else M) k
              = Ptr.null then first_inserted rest k
            else (if M key = Ptr.null then Function.update M key value else M) k) := by
        funext k
        rw [first_inserted_cons]
        by_cases hMk : M key = Ptr.null
        · rw [if_pos hMk]
          by_cases hkk : key = k
          · rw [← hkk, if_pos hMk, if_pos rfl, Function.update_same, if_neg hval]
          · rw [if_neg hkk, Function.update_noteq (fun hx => hkk hx.symm)]
        · rw [if_neg hMk]
          by_cases hk : M k = Ptr.null
          · have hkk : ¬ key = k := fun hx => hMk (hx ▸ hk)
            rw [if_pos hk, if_neg hkk, if_pos hk]
          · rw [if_neg hk, if_neg hk]
      rw [this]
      exact hwf2

/-- C21. Insert and search of the B+ tree.  For every order of at least 3, whatever the
uninitialised memory holds, and for every sequence of `insert` calls with non-null values
on the tree `create_bptree(order)` returns: all the calls return, and afterwards
`search(tree, k)` returns the value given at the first insert of key `k` if `k` was
inserted, and `NULL` if it never was; and an `insert` of a key that was inserted before
returns leaving the tree, and the memory of its nodes, exactly as they were. -/
theorem C21_insert_search (order : Nat) (horder : 3 ≤ order) (raw_key : Int)
    (raw_pointer : Ptr) (ops : List (Int × Ptr)) (hv : ∀ op ∈ ops, op.2 ≠ Ptr.null) :
    ∃ tree, inserts (create_bptree order raw_key raw_pointer) ops = .ok tree ∧
      (∀ k, search tree k = .ok (first_inserted ops k)) ∧
      (∀ k, k ∉ ops.map Prod.fst → first_inserted ops k = Ptr.null) ∧
      (∀ k value, k ∈ ops.map Prod.fst → insert tree k value = .ok tree) := by
  obtain ⟨tree, hrun, hwf⟩ := inserts_wf ops _ _
    (create_bptree_wf order horder raw_key raw_pointer) hv
  have hmap : (fun k => if (fun _ : Int => Ptr.null) k = Ptr.null then first_inserted ops k
      else (fun _ : Int => Ptr.null) k) = first_inserted ops := by
    funext k
    simp
  rw [hmap] at hwf
  refine ⟨tree, hrun, fun k => search_spec hwf k, ?_, ?_⟩
  · intro k hk
    unfold first_inserted
    have hnone : ops.find? (fun op => decide (op.1 = k)) = none := by
      rw [List.find?_eq_none]
      intro op hop hopk
      apply hk
      rw [List.mem_map]
      exact ⟨op, hop, by simpa using hopk⟩
    rw [hnone]
  · intro k value hk
    have hsearch := search_spec hwf k
    have hne := first_inserted_mem ops hv k hk
    simp only [insert, hsearch, bind_ok, ne_eq, hne, not_false_eq_true, if_true]

/-- C21, on the program of src/bptree/main.c: a tree of order 4 and the nine inserts of
`main`; afterwards key 25 is found with the value inserted for it and key 99 is not
found, as `main` expects. -/
theorem C21_insert_search_witness :
    3 ≤ 4 ∧ (∀ op ∈ main_ops, op.2 ≠ Ptr.null) ∧
    first_inserted main_ops 25 = Ptr.data 250 ∧ first_inserted main_ops 99 = Ptr.null ∧
    ∃ tree, inserts (create_bptree 4 0 Ptr.null) main_ops = .ok tree ∧
      (∀ k, search tree k = .ok (first_inserted main_ops k)) ∧
      (∀ k, k ∉ main_ops.map Prod.fst → first_inserted main_ops k = Ptr.null) ∧
      (∀ k value, k ∈ main_ops.map Prod.fst → insert tree k value = .ok tree) :=
  ⟨by decide, by decide, by decide, by decide,
    C21_insert_search 4 (by decide) 0 Ptr.null main_ops (by decide)⟩

end Bptree
